import Mathlib

/-!
# Shift-register stencil kernels: embedding and verification

A shallow embedding of the 9-point stencil kernels of the repository and of the
row-range partitioning that distributes the interior rows over the replicas.

Conventions of the embedding

* `kRows` and `kCols`, compile-time constants of the sources, are parameters.
* The programs are embedded at two levels. The definitions with the suffix `T`
  (`RunKernelT`, `gold_stencilT`, ...) carry the types of the sources. A `size_t` is a
  natural number below `2^64` whose arithmetic is modulo `2^64` (`% sizeModulus`,
  `sizeSub`); an `int` is an integer from `-2^31` to `2^31-1`; the conversion of a `size_t`
  to `int` keeps the low 32 bits, read in two's complement (`intOfSize`); an `int` used as a
  subscript, or in an operation with a `size_t`, is converted modulo `2^64` (`sizeOfInt`);
  an `int` operation whose exact result is no `int`, which C++ leaves undefined, yields the
  two's-complement result (`intWrap`); a loop with an `int` counter is `forIntLt` or
  `forIntSize`. The definitions without the suffix are the same programs on natural
  numbers, where nothing wraps and `kRows - 2`, `kCols - 1` are truncated subtractions.
  The lemmas `*_natCast` show that the two levels agree when the grid and its padding fit
  in an `int`, `kRows*kCols + 3 ≤ 2^31`. The statements on the typed definitions are the
  theorems `*_int`; they are derived from the statements on natural numbers.
* The elements of `output` a kernel does not store keep the value they had: the accessors
  are `write_only, no_init`, and what a buffer copies back for an element that was not
  written is left to the runtime.
* A float array is a function `Nat → α` of its index, its length being stated apart where
  it matters; `α` is any type with `+` and `*`, so that a value computed by a kernel is an
  expression over the elements of `input` and `mask`, and two kernels agree when they
  build the same expression.
* On natural numbers a `for (int i = lo; i < hi; i++)` loop is `forLoop lo hi body`.
* A kernel carries a log of the array accesses it performs, in execution order.
* Degenerate grids (`kRows < 2`, `kCols = 0`) are treated with the typed kernel
  `RunKernelT`, where `kRows-2`, `kCols-1`, `begin` and `end` wrap as in the sources.
* `parallel_for` over a range runs every work-item of the range once; `run_cpu_kernel` runs
  them one after the other, in an order that is a parameter.
* The result check of `00_naive/host.cpp` is evaluated on rationals, `kTol` being `1/1000`.
* `fpga_tools::ShiftReg` and `fpga_tools::UnrolledLoop` come from headers that are not
  among the sources: a shift register is `shiftSingleVal`, and `UnrolledLoop<n>(f)` is the
  loop calling `f(0)`, ..., `f(n-1)` in this order.
-/

set_option linter.unusedVariables false

namespace StencilFpga

/-! ## Loops and arrays -/

/-- Iterate `body lo`, `body (lo+1)`, ... for `n` consecutive indices. -/
def forCount {σ : Type} (body : Nat → σ → σ) : Nat → Nat → σ → σ
  | _, 0, s => s
  | lo, n + 1, s => forCount body (lo + 1) n (body lo s)

/-- The loop `for (int i = lo; i < hi; i++) s = body i s`. -/
def forLoop {σ : Type} (lo hi : Nat) (body : Nat → σ → σ) (s : σ) : σ :=
  forCount body lo (hi - lo) s

/-- The assignment `a[i] = v` on an array seen as a function of its index. -/
def store {α : Type} (a : Nat → α) (i : Nat) (v : α) : Nat → α :=
  fun t => if t = i then v else a t

/-! ## Row-range partition (`begin`, `end` of `RunKernel<Replica, NumReplicas>`) -/

/-- The first output row of a replica:
`constexpr int begin = Replica * (kRows-2) / NumReplicas + 1;` On natural numbers, where
nothing wraps; `beginSizeT` has the types of the source. -/
def begin_k (kRows NumReplicas Replica : Nat) : Nat :=
  Replica * (kRows - 2) / NumReplicas + 1

/-- One past the last output row of a replica:
`constexpr int end = (Replica+1) * (kRows-2) / NumReplicas + 1;` On natural numbers, where
nothing wraps; `endSizeT` has the types of the source. -/
def end_k (kRows NumReplicas Replica : Nat) : Nat :=
  (Replica + 1) * (kRows - 2) / NumReplicas + 1

/-! ## Shift register -/

/-- The explicit array priming loop `for(int i=0; i<L; i++) sr[i]=source[start+i];`
(`src_srp_templ`, with `start = 0` there). -/
def prime {α : Type} (L : Nat) (source : Nat → α) (start : Nat) (sr : Nat → α) : Nat → α :=
  forLoop 0 L (fun i sr => store sr i (source (start + i))) sr

/-- The explicit array shift of `src_srp_templ`:
`UnrolledLoop<L-1>([&](auto k){sr[k]=sr[k+1];}); sr[L-1]=v;`, the copies being made for
`k = 0, 1, ..., L-2` in this order. -/
def shift_in {α : Type} (L : Nat) (sr : Nat → α) (v : α) : Nat → α :=
  store (forLoop 0 (L - 1) (fun k sr => store sr k (sr (k + 1))) sr) (L - 1) v

/-- The state of the explicit array after `prime` and then `k` calls of `shift_in`, the
`m`-th of them (`m = 0..k-1`) with the value `source[start+L+m]`. -/
def primeThenShift {α : Type} (L : Nat) (source : Nat → α) (start k : Nat)
    (sr : Nat → α) : Nat → α :=
  forLoop 0 k (fun m sr => shift_in L sr (source (start + L + m))) (prime L source start sr)

/-- Modelled from the spec: `fpga_tools::ShiftReg<float, L>::shiftSingleVal<1>` of
`shift_reg.hpp`, which is not among the sources. Section 4.2 (`shift_in`): the value is
appended as the newest element, the oldest is dropped, and offset `i` now holds what was
at offset `i+1`. -/
def shiftSingleVal {α : Type} (L : Nat) (sr : Nat → α) (v : α) : Nat → α :=
  fun t => if t + 1 < L then sr (t + 1) else if t + 1 = L then v else sr t

/-! ## The replicated shift-register kernel (`src_kreplic`) -/

/-- An array access of a kernel. -/
inductive Access where
  | inputRead (idx : Nat)
  | maskRead (idx : Nat)
  | localMaskWrite (idx : Nat)
  | localMaskRead (idx : Nat)
  | srWrite (idx : Nat)
  | srRead (idx : Nat)
  | outputWrite (idx : Nat)
  deriving DecidableEq, Repr

/-- The state of one kernel: its private `local_mask` and shift register `sr`, the
`output` buffer it writes, and the accesses made so far, oldest first. -/
structure KernelState (α : Type) where
  local_mask : Nat → α
  sr : Nat → α
  output : Nat → α
  log : List Access

/-- The assignment `local_mask[i]=mask[i]`. -/
def loadMaskStep {α : Type} (mask : Nat → α) (i : Nat) (s : KernelState α) : KernelState α :=
  { s with
    local_mask := store s.local_mask i (mask i)
    log := s.log ++ [Access.maskRead i, Access.localMaskWrite i] }

/-- The loop `for(int i=0; i<9; i++) local_mask[i]=mask[i];`. -/
def loadMask {α : Type} (mask : Nat → α) (s : KernelState α) : KernelState α :=
  forLoop 0 9 (loadMaskStep mask) s

/-- The assignment `sr[i]=input[(begin-1)*kCols+i]`. -/
def primeSrStep {α : Type} (kCols : Nat) (input : Nat → α) (begin : Nat) (i : Nat)
    (s : KernelState α) : KernelState α :=
  { s with
    sr := store s.sr i (input ((begin - 1) * kCols + i))
    log := s.log ++ [Access.inputRead ((begin - 1) * kCols + i), Access.srWrite i] }

/-- The loop `for(int i=0; i<2*kCols+3; i++) sr[i]=input[(begin-1)*kCols+i];`. -/
def primeSr {α : Type} (kCols : Nat) (input : Nat → α) (begin : Nat)
    (s : KernelState α) : KernelState α :=
  forLoop 0 (2 * kCols + 3) (primeSrStep kCols input begin) s

/-- The nine-term sum `local_mask[0] * sr[0] + ... + local_mask[8] * sr[2*kCols + 2]`,
added from left to right. -/
def tapSum {α : Type} [Add α] [Mul α] (kCols : Nat) (local_mask sr : Nat → α) : α :=
  local_mask 0 * sr 0 +
  local_mask 1 * sr 1 +
  local_mask 2 * sr 2 +
  local_mask 3 * sr kCols +
  local_mask 4 * sr (kCols + 1) +
  local_mask 5 * sr (kCols + 2) +
  local_mask 6 * sr (2 * kCols) +
  local_mask 7 * sr (2 * kCols + 1) +
  local_mask 8 * sr (2 * kCols + 2)

/-- The accesses made while the nine-term sum is evaluated. -/
def tapLog (kCols : Nat) : List Access :=
  [Access.localMaskRead 0, Access.srRead 0,
   Access.localMaskRead 1, Access.srRead 1,
   Access.localMaskRead 2, Access.srRead 2,
   Access.localMaskRead 3, Access.srRead kCols,
   Access.localMaskRead 4, Access.srRead (kCols + 1),
   Access.localMaskRead 5, Access.srRead (kCols + 2),
   Access.localMaskRead 6, Access.srRead (2 * kCols),
   Access.localMaskRead 7, Access.srRead (2 * kCols + 1),
   Access.localMaskRead 8, Access.srRead (2 * kCols + 2)]

/-- The statement `sr.shiftSingleVal<1>(input[idx]);`. -/
def shiftFromInput {α : Type} (kCols : Nat) (input : Nat → α) (idx : Nat)
    (s : KernelState α) : KernelState α :=
  { s with
    sr := shiftSingleVal (2 * kCols + 3) s.sr (input idx)
    log := s.log ++ [Access.inputRead idx] }

/-- The body of the column loop for the cell `(i, j)`: the sum, the store
`output[crow_base+j] = tmp` and the shift `sr.shiftSingleVal<1>(input[nrow_base+2+j])`. On
natural numbers, where nothing wraps; `colStepT` has the types of the source. -/
def colStep {α : Type} [Add α] [Mul α] (kCols : Nat) (input : Nat → α) (i j : Nat)
    (s : KernelState α) : KernelState α :=
  shiftFromInput kCols input (i * kCols + kCols + 2 + j)
    { s with
      output := store s.output (i * kCols + j) (tapSum kCols s.local_mask s.sr)
      log := s.log ++ tapLog kCols ++ [Access.outputWrite (i * kCols + j)] }

/-- The two shifts at the end of row `i`: `sr.shiftSingleVal<1>(input[nrow_base+kCols+1]);`
`sr.shiftSingleVal<1>(input[nrow_base+kCols+2]);`. On natural numbers, where nothing wraps;
`rowResyncT` has the types of the source. -/
def rowResync {α : Type} (kCols : Nat) (input : Nat → α) (i : Nat)
    (s : KernelState α) : KernelState α :=
  shiftFromInput kCols input (i * kCols + kCols + kCols + 2)
    (shiftFromInput kCols input (i * kCols + kCols + kCols + 1) s)

/-- The body of the row loop: `for(int j=1; j<kCols-1; j++)` over the columns, then the two
extra shifts. On natural numbers, where nothing wraps; `rowStepT` has the types of the
source. -/
def rowStep {α : Type} [Add α] [Mul α] (kCols : Nat) (input : Nat → α) (i : Nat)
    (s : KernelState α) : KernelState α :=
  rowResync kCols input i (forLoop 1 (kCols - 1) (colStep kCols input i) s)

/-- The state of a kernel when its body starts: `uninit` is the indeterminate content of
its private arrays, `output` the buffer it is given. -/
def initState {α : Type} (uninit output : Nat → α) : KernelState α :=
  { local_mask := uninit, sr := uninit, output := output, log := [] }

/-- The part of the kernel before the row loop: the mask is copied and the shift
register is primed. -/
def kernelPrologue {α : Type} (kCols begin : Nat) (input mask uninit output : Nat → α) :
    KernelState α :=
  primeSr kCols input begin (loadMask mask (initState uninit output))

/-- The kernel body on the rows `[begin, end)`: prologue, then `for(int i=begin; i<end; i++)`.
On natural numbers, where nothing wraps; `kernelBodyT` has the types of the source. -/
def kernelBody {α : Type} [Add α] [Mul α] (kCols : Nat) (begin end_ : Nat)
    (input mask uninit output : Nat → α) : KernelState α :=
  forLoop begin end_ (rowStep kCols input) (kernelPrologue kCols begin input mask uninit output)

/-- The kernel `RunKernel<Replica, NumReplicas>` of `src_kreplic`. On natural numbers, where
nothing wraps; `RunKernelT` has the types of the source. -/
def RunKernel {α : Type} [Add α] [Mul α] (kRows kCols : Nat) (Replica NumReplicas : Nat)
    (input mask uninit output : Nat → α) : KernelState α :=
  kernelBody kCols (begin_k kRows NumReplicas Replica) (end_k kRows NumReplicas Replica)
    input mask uninit output

/-- The host runs `RunKernel<0,N>`, ..., `RunKernel<N-1,N>` on the same buffers and waits for
all of them; here one after the other, each on the output the previous one left. On natural
numbers, where nothing wraps; `runReplicasT` has the types of the source. -/
def runReplicas {α : Type} [Add α] [Mul α] (kRows kCols : Nat) (NumReplicas : Nat)
    (input mask uninit output : Nat → α) : Nat → α :=
  forLoop 0 NumReplicas (fun k out =>
    (RunKernel kRows kCols k NumReplicas input mask uninit out).output) output

/-- The state of the kernel at the moment the sum for the cell `(i, j)` is evaluated: the
prologue, the rows `begin..i-1` and the columns `1..j-1` of row `i` have been executed. -/
def stateAtCell {α : Type} [Add α] [Mul α] (kCols : Nat) (begin : Nat)
    (input mask uninit output : Nat → α) (i j : Nat) : KernelState α :=
  forLoop 1 j (colStep kCols input i)
    (forLoop begin i (rowStep kCols input) (kernelPrologue kCols begin input mask uninit output))

/-! ## The reference computation (`gold_stencil` of `src_kreplic/host-bad.cpp`) -/

/-- The value `tmp` that `gold_stencil` computes for the cell `(i, j)`. On natural numbers,
where nothing wraps; `goldCellT` has the types of the source. -/
def goldCell {α : Type} [Add α] [Mul α] (kCols : Nat) (input mask : Nat → α)
    (i j : Nat) : α :=
  mask 0 * input (i * kCols - kCols + j - 1) +
  mask 1 * input (i * kCols - kCols + j) +
  mask 2 * input (i * kCols - kCols + j + 1) +
  mask 3 * input (i * kCols + j - 1) +
  mask 4 * input (i * kCols + j) +
  mask 5 * input (i * kCols + j + 1) +
  mask 6 * input (i * kCols + kCols + j - 1) +
  mask 7 * input (i * kCols + kCols + j) +
  mask 8 * input (i * kCols + kCols + j + 1)

/-- The function `gold_stencil(input, mask, res)`. On natural numbers, where nothing wraps;
`gold_stencilT` has the types of the source. -/
def gold_stencil {α : Type} [Add α] [Mul α] (kRows kCols : Nat) (input mask res : Nat → α) :
    Nat → α :=
  forLoop 1 (kRows - 1) (fun i res =>
    forLoop 1 (kCols - 1) (fun j res => store res (i * kCols + j) (goldCell kCols input mask i j))
      res) res

/-! ## Specification predicates -/

/-- The shift register holds the `2*kCols+3` consecutive input elements starting at
index `base`: `sr[t] = input[base+t]` for every slot `t`. -/
def Window {α : Type} (kCols : Nat) (input : Nat → α) (base : Nat) (sr : Nat → α) : Prop :=
  ∀ t, t < 2 * kCols + 3 → sr t = input (base + t)

/-- The array `out` is `out0` in which every interior cell of the rows `[b, e)` has
received the value `gold_stencil` computes for it, all other cells being untouched. -/
def RowsDone {α : Type} [Add α] [Mul α] (kCols : Nat) (input mask : Nat → α) (b e : Nat)
    (out0 out : Nat → α) : Prop :=
  (∀ i j, b ≤ i → i < e → 1 ≤ j → j + 1 < kCols →
      out (i * kCols + j) = goldCell kCols input mask i j) ∧
  (∀ idx, (∀ i j, b ≤ i → i < e → 1 ≤ j → j + 1 < kCols → idx ≠ i * kCols + j) →
      out idx = out0 idx)

/-- What a replica working on the rows `[b, e)` may access: input elements of the rows
`b-1 .. e` and of the three elements after them, the nine mask entries, the `2*kCols+3`
slots of the shift register, and the interior output cells of its rows. -/
def ReplicaAccess (kCols b e : Nat) : Access → Prop
  | Access.inputRead idx => (b - 1) * kCols ≤ idx ∧ idx < (e + 1) * kCols + 3
  | Access.maskRead idx => idx < 9
  | Access.localMaskWrite idx => idx < 9
  | Access.localMaskRead idx => idx < 9
  | Access.srWrite idx => idx < 2 * kCols + 3
  | Access.srRead idx => idx < 2 * kCols + 3
  | Access.outputWrite idx =>
      ∃ i j, b ≤ i ∧ i < e ∧ 1 ≤ j ∧ j + 1 < kCols ∧ idx = i * kCols + j

/-- An access stays inside arrays of the given lengths. -/
def AccessWithin (inputLen maskLen srLen outputLen : Nat) : Access → Prop
  | Access.inputRead idx => idx < inputLen
  | Access.maskRead idx => idx < maskLen
  | Access.localMaskWrite idx => idx < 9
  | Access.localMaskRead idx => idx < 9
  | Access.srWrite idx => idx < srLen
  | Access.srRead idx => idx < srLen
  | Access.outputWrite idx => idx < outputLen

/-! ## Sequences of output writes, and the mask of the hosts -/

/-- The output indices written by a kernel, in the order of the writes. -/
def outputWrites (log : List Access) : List Nat :=
  log.filterMap (fun a => match a with
    | Access.outputWrite idx => some idx
    | _ => none)

/-- The interior cells of row `i`, from column `1` to column `kCols-2`. -/
def rowCells (kCols i : Nat) : List Nat :=
  (List.range' 1 (kCols - 2)).map (fun j => i * kCols + j)

/-- The interior cells of the rows `[b, e)` in row-major order: `i*kCols + j` for
`i = b..e-1` (outer) and `j = 1..kCols-2` (inner). -/
def rowMajorCells (kCols b e : Nat) : List Nat :=
  (List.range' b (e - b)).flatMap (rowCells kCols)

/-- The mask of the hosts, `FloatVector mask{2,4,2,4,1,4,2,4,2}`. -/
def hostMask {α : Type} [NatCast α] (n : Nat) : α :=
  (([2, 4, 2, 4, 1, 4, 2, 4, 2] : List Nat).getD n 0 : Nat)

/-! ## Replicas in a given order -/

/-- The host runs the replicas listed in `order` one after the other, each on the output
the previous one left. -/
def runReplicasIn {α : Type} [Add α] [Mul α] (kRows kCols : Nat) (NumReplicas : Nat)
    (input mask uninit : Nat → α) (order : List Nat) (output : Nat → α) : Nat → α :=
  order.foldl (fun out k =>
    (RunKernel kRows kCols k NumReplicas input mask uninit out).output) output

/-- The array `out` is `out0` in which every interior cell of the rows selected by `S`
has received its gold value, all other cells being untouched. -/
def RowsIn {α : Type} [Add α] [Mul α] (kCols : Nat) (input mask : Nat → α)
    (S : Nat → Prop) (out0 out : Nat → α) : Prop :=
  (∀ i j, S i → 1 ≤ j → j + 1 < kCols →
      out (i * kCols + j) = goldCell kCols input mask i j) ∧
  (∀ idx, (∀ i j, S i → 1 ≤ j → j + 1 < kCols → idx ≠ i * kCols + j) →
      out idx = out0 idx)

/-! ## The replicated kernel with the arithmetic of `size_t` -/

/-- The number of values of the 64-bit type `size_t`. -/
def sizeModulus : Nat := 18446744073709551616

/-- The subtraction `a - b` of two `size_t` values: it wraps modulo `2^64`. -/
def sizeSub (a b : Nat) : Nat := (a + sizeModulus - b) % sizeModulus

/-- The conversion of a `size_t` value to the 32-bit `int`: the low 32 bits, read in
two's complement. -/
def intOfSize (n : Nat) : Int :=
  if n % 4294967296 < 2147483648 then ((n % 4294967296 : Nat) : Int)
  else ((n % 4294967296 : Nat) : Int) - 4294967296

/-- The constant `begin` with the arithmetic of its types: `kRows-2`, the product, the
quotient and the sum are computed in `size_t`, the result is converted to `int`. -/
def beginSizeT (kRows NumReplicas Replica : Nat) : Int :=
  intOfSize ((Replica * sizeSub kRows 2 % sizeModulus / NumReplicas + 1) % sizeModulus)

/-- The constant `end` with the arithmetic of its types. -/
def endSizeT (kRows NumReplicas Replica : Nat) : Int :=
  intOfSize (((Replica + 1) * sizeSub kRows 2 % sizeModulus / NumReplicas + 1) % sizeModulus)

/-! ## The explicit-array kernel (`src_srp_templ`) -/

/-- The state of the single kernel of `src_srp_templ`: `local_mask`, the explicit array
`sr` and the `output` buffer. -/
structure SrpState (α : Type) where
  local_mask : Nat → α
  sr : Nat → α
  output : Nat → α

/-- The shift by two at the end of a row in `src_srp_templ`:
`UnrolledLoop<2*kCols+1>([&](auto k){sr[k]=sr[k+2];}); sr[2*kCols+1]=v1; sr[2*kCols+2]=v2;`. -/
def shift_in2 {α : Type} (kCols : Nat) (sr : Nat → α) (v1 v2 : α) : Nat → α :=
  store (store (forLoop 0 (2 * kCols + 1) (fun k sr => store sr k (sr (k + 2))) sr)
    (2 * kCols + 1) v1) (2 * kCols + 2) v2

/-- The loop `for(int i=0; i<9; i++) local_mask[i]=mask[i];` of `src_srp_templ`. -/
def srpLoadMask {α : Type} (mask : Nat → α) (s : SrpState α) : SrpState α :=
  forLoop 0 9 (fun i s => { s with local_mask := store s.local_mask i (mask i) }) s

/-- The body of the column loop of `src_srp_templ` for the cell `(i, j)`: the sum, the store
`output[crow_base+j] = tmp`, the unrolled copy and `sr[2*kCols+2]=input[nrow_base+2+j]`. On
natural numbers, where nothing wraps; `srpColStepT` has the types of the source. -/
def srpColStep {α : Type} [Add α] [Mul α] (kCols : Nat) (input : Nat → α) (i j : Nat)
    (s : SrpState α) : SrpState α :=
  { s with
    output := store s.output (i * kCols + j) (tapSum kCols s.local_mask s.sr)
    sr := shift_in (2 * kCols + 3) s.sr (input (i * kCols + kCols + 2 + j)) }

/-- The body of the row loop of `src_srp_templ`: the column loop, then the shift by two with
`input[nrow_base+kCols+1]` and `input[nrow_base+kCols+2]`. On natural numbers, where nothing
wraps; `srpRowStepT` has the types of the source. -/
def srpRowStep {α : Type} [Add α] [Mul α] (kCols : Nat) (input : Nat → α) (i : Nat)
    (s : SrpState α) : SrpState α :=
  { forLoop 1 (kCols - 1) (srpColStep kCols input i) s with
    sr := shift_in2 kCols (forLoop 1 (kCols - 1) (srpColStep kCols input i) s).sr
      (input (i * kCols + kCols + kCols + 1)) (input (i * kCols + kCols + kCols + 2)) }

/-- The kernel `RunKernel` of `src_srp_templ/kernel.cpp`: the mask is copied, the array is
primed with `sr[i]=input[i]`, then `for(int i=1; i<kRows-1; i++)`. On natural numbers, where
nothing wraps; `RunKernel_srp_templT` has the types of the source. -/
def RunKernel_srp_templ {α : Type} [Add α] [Mul α] (kRows kCols : Nat)
    (input mask uninit output : Nat → α) : SrpState α :=
  forLoop 1 (kRows - 1) (srpRowStep kCols input)
    { srpLoadMask mask { local_mask := uninit, sr := uninit, output := output } with
      sr := prime (2 * kCols + 3) input 0
        (srpLoadMask mask { local_mask := uninit, sr := uninit, output := output }).sr }

/-- The explicit-array state and the state of the replicated kernel agree on the nine
mask entries, on the slots of the shift register and on the output. -/
def SrpSim {α : Type} (kCols : Nat) (s : SrpState α) (t : KernelState α) : Prop :=
  (∀ u, u < 9 → s.local_mask u = t.local_mask u) ∧
  (∀ u, u < 2 * kCols + 3 → s.sr u = t.sr u) ∧
  s.output = t.output

/-! ## The naive kernel (`src_naive`, `00_naive`) and the replicated vector add (`vector_add`) -/

/-- The statements of `src_naive` for the cell `(i, j)`: `output[i*kCols+j]=0;` and then, for
`m = 0..2` and `n = 0..2`,
`output[i*kCols+j] += mask[m*3+n] * input[row*kCols + j + n - 1];` with `row = i+m-1`. On
natural numbers, where nothing wraps; `naiveCellT` has the types of the source. -/
def naiveCell {α : Type} [Zero α] [Add α] [Mul α] (kCols : Nat) (input mask : Nat → α)
    (i j : Nat) (output : Nat → α) : Nat → α :=
  forLoop 0 3 (fun m out =>
    forLoop 0 3 (fun n out =>
      store out (i * kCols + j)
        (out (i * kCols + j) + mask (m * 3 + n) * input ((i + m - 1) * kCols + j + n - 1)))
      out) (store output (i * kCols + j) 0)

/-- The kernel `RunKernel` of `src_naive/kernel.cpp`. On natural numbers, where nothing wraps;
`RunKernel_naiveT` has the types of the source. -/
def RunKernel_naive {α : Type} [Zero α] [Add α] [Mul α] (kRows kCols : Nat)
    (input mask output : Nat → α) : Nat → α :=
  forLoop 1 (kRows - 1) (fun i out =>
    forLoop 1 (kCols - 1) (fun j out => naiveCell kCols input mask i j out) out) output

/-- The statements of `gold_stencil` of `00_naive/host.cpp` for the cell `(i, j)`, the mask
being the two-dimensional array `float (&mask)[3][3]`. On natural numbers, where nothing
wraps; `goldNaiveCellT` has the types of the source. -/
def goldNaiveCell {α : Type} [Zero α] [Add α] [Mul α] (kCols : Nat) (input : Nat → α)
    (mask : Nat → Nat → α) (i j : Nat) (res : Nat → α) : Nat → α :=
  forLoop 0 3 (fun m out =>
    forLoop 0 3 (fun n out =>
      store out (i * kCols + j)
        (out (i * kCols + j) + mask m n * input ((i + m - 1) * kCols + j + n - 1)))
      out) (store res (i * kCols + j) 0)

/-- The function `gold_stencil` of `00_naive/host.cpp`. On natural numbers, where nothing wraps;
`gold_stencil_naiveT` has the types of the source. -/
def gold_stencil_naive {α : Type} [Zero α] [Add α] [Mul α] (kRows kCols : Nat)
    (input : Nat → α) (mask : Nat → Nat → α) (res : Nat → α) : Nat → α :=
  forLoop 1 (kRows - 1) (fun i out =>
    forLoop 1 (kCols - 1) (fun j out => goldNaiveCell kCols input mask i j out) out) res

/-- The value the naive loops accumulate for the cell `(i, j)`, the mask entry of the
tap `(m, n)` being `mask m n`. -/
def naiveSum {α : Type} [Zero α] [Add α] [Mul α] (kCols : Nat) (input : Nat → α)
    (mask : Nat → Nat → α) (i j : Nat) : α :=
  0 + mask 0 0 * input ((i + 0 - 1) * kCols + j + 0 - 1)
    + mask 0 1 * input ((i + 0 - 1) * kCols + j + 1 - 1)
    + mask 0 2 * input ((i + 0 - 1) * kCols + j + 2 - 1)
    + mask 1 0 * input ((i + 1 - 1) * kCols + j + 0 - 1)
    + mask 1 1 * input ((i + 1 - 1) * kCols + j + 1 - 1)
    + mask 1 2 * input ((i + 1 - 1) * kCols + j + 2 - 1)
    + mask 2 0 * input ((i + 2 - 1) * kCols + j + 0 - 1)
    + mask 2 1 * input ((i + 2 - 1) * kCols + j + 1 - 1)
    + mask 2 2 * input ((i + 2 - 1) * kCols + j + 2 - 1)

/-- The array `out` is `out0` in which every interior cell `(i, j)` of the rows `[b, e)`
has received the value `val i j`, all other cells being untouched. -/
def CellsDone {α : Type} (val : Nat → Nat → α) (kCols b e : Nat) (out0 out : Nat → α) : Prop :=
  (∀ i j, b ≤ i → i < e → 1 ≤ j → j + 1 < kCols → out (i * kCols + j) = val i j) ∧
  (∀ idx, (∀ i j, b ≤ i → i < e → 1 ≤ j → j + 1 < kCols → idx ≠ i * kCols + j) →
      out idx = out0 idx)

/-- The kernel of `VectorAdd`: `for (size_t i = 0; i < end-begin; i++) sum[i] = a[i] + b[i];`
on the buffers of the slice. -/
def vaddKernel {α : Type} [Add α] (n : Nat) (a b sum : Nat → α) : Nat → α :=
  forLoop 0 n (fun i sum => store sum i (a i + b i)) sum

/-- The function `VectorAdd<HBM_enabled, Replica, NumRep, unroll_factor>`: the buffers
are the slices `[begin, end)` of the three vectors, the kernel runs on them, and the sum
buffer is written back to `sum_parallel` from `begin` on. -/
def VectorAdd {α : Type} [Add α] (Replica NumRep num_items : Nat)
    (a_vector b_vector sum_parallel : Nat → α) : Nat → α :=
  fun g =>
    if Replica * num_items / NumRep ≤ g ∧ g < (Replica + 1) * num_items / NumRep then
      vaddKernel ((Replica + 1) * num_items / NumRep - Replica * num_items / NumRep)
        (fun x => a_vector (Replica * num_items / NumRep + x))
        (fun x => b_vector (Replica * num_items / NumRep + x))
        (fun x => sum_parallel (Replica * num_items / NumRep + x))
        (g - Replica * num_items / NumRep)
    else sum_parallel g

/-- The four calls of `main`: `VectorAdd<true,0,4,4>`, ..., `VectorAdd<true,3,4,4>` on
the same vectors. -/
def vectorAddReplicas {α : Type} [Add α] (num_items : Nat)
    (a_vector b_vector sum_parallel : Nat → α) : Nat → α :=
  VectorAdd 3 4 num_items a_vector b_vector
    (VectorAdd 2 4 num_items a_vector b_vector
      (VectorAdd 1 4 num_items a_vector b_vector
        (VectorAdd 0 4 num_items a_vector b_vector sum_parallel)))

/-! ## The single-loop kernel (`08_1loop`) -/

/-- The state of the single-loop kernel of `08_1loop`: `local_mask`, the three shift
registers of three slots, the `output` buffer, and the accesses made so far to the
buffers `input`, `mask` and `output`, oldest first. -/
structure Loop1State (α : Type) where
  local_mask : Nat → α
  sr0 : Nat → α
  sr1 : Nat → α
  sr2 : Nat → α
  output : Nat → α
  log : List Access

/-- The assignment `local_mask[i]=mask[i]` of `08_1loop`. -/
def loop1LoadMaskStep {α : Type} (mask : Nat → α) (i : Nat) (s : Loop1State α) :
    Loop1State α :=
  { s with
    local_mask := store s.local_mask i (mask i)
    log := s.log ++ [Access.maskRead i, Access.localMaskWrite i] }

/-- The three statements `sr0.shiftSingleVal<1>(input[x0]); sr1.shiftSingleVal<1>(input[x1]);`
`sr2.shiftSingleVal<1>(input[x2]);`. -/
def loop1Shift {α : Type} (input : Nat → α) (x0 x1 x2 : Nat) (s : Loop1State α) :
    Loop1State α :=
  { s with
    sr0 := shiftSingleVal 3 s.sr0 (input x0)
    sr1 := shiftSingleVal 3 s.sr1 (input x1)
    sr2 := shiftSingleVal 3 s.sr2 (input x2)
    log := s.log ++ [Access.inputRead x0, Access.inputRead x1, Access.inputRead x2] }

/-- The guard `((i+1)&(kCols-1)) && ((i+2)&(kCols-1))` of the store. On natural numbers, where
nothing wraps; `loop1GuardT` has the types of the source. -/
def loop1Guard (kCols i : Nat) : Bool :=
  ((i + 1) &&& (kCols - 1)) != 0 && ((i + 2) &&& (kCols - 1)) != 0

/-- The nine-term sum `local_mask[0] * sr0[0] + ... + local_mask[8] * sr2[2]` of
`08_1loop`, added from left to right. -/
def loop1Sum {α : Type} [Add α] [Mul α] (local_mask sr0 sr1 sr2 : Nat → α) : α :=
  local_mask 0 * sr0 0 +
  local_mask 1 * sr0 1 +
  local_mask 2 * sr0 2 +
  local_mask 3 * sr1 0 +
  local_mask 4 * sr1 1 +
  local_mask 5 * sr1 2 +
  local_mask 6 * sr2 0 +
  local_mask 7 * sr2 1 +
  local_mask 8 * sr2 2

/-- The body of the single loop for the index `i`: the three shifts with `input[prow_base+2]`,
`input[i+2]`, `input[nrow_base+2]`, the sum, and the guarded store
`output[prow_base+1] = tmp`, where `prow_base = i - kCols` and `nrow_base = i + kCols`. On
natural numbers, where nothing wraps; `loop1StepT` has the types of the source. -/
def loop1Step {α : Type} [Add α] [Mul α] (kCols : Nat) (input : Nat → α) (i : Nat)
    (s : Loop1State α) : Loop1State α :=
  if loop1Guard kCols i = true then
    { loop1Shift input (i - kCols + 2) (i + 2) (i + kCols + 2) s with
      output := store s.output (i - kCols + 1)
        (loop1Sum s.local_mask
          (shiftSingleVal 3 s.sr0 (input (i - kCols + 2)))
          (shiftSingleVal 3 s.sr1 (input (i + 2)))
          (shiftSingleVal 3 s.sr2 (input (i + kCols + 2))))
      log := s.log ++ [Access.inputRead (i - kCols + 2), Access.inputRead (i + 2),
        Access.inputRead (i + kCols + 2), Access.outputWrite (i - kCols + 1)] }
  else loop1Shift input (i - kCols + 2) (i + 2) (i + kCols + 2) s

/-- The state of the single-loop kernel before its main loop: the mask is copied and
`for(int k=0; k<2; k++)` shifts `input[k]`, `input[k+kCols]`, `input[k+2*kCols]` in. -/
def loop1Prologue {α : Type} (kCols : Nat) (input mask uninit output : Nat → α) :
    Loop1State α :=
  forLoop 0 2 (fun k s => loop1Shift input k (k + kCols) (k + 2 * kCols) s)
    (forLoop 0 9 (loop1LoadMaskStep mask)
      { local_mask := uninit, sr0 := uninit, sr1 := uninit, sr2 := uninit,
        output := output, log := [] })

/-- The device code of `RunKernel` of `08_1loop` on its buffers, `nRows` being `end-begin`: the
prologue, then `for(int i=kCols; i<(end-begin+1)*kCols; i++)`. On natural numbers, where
nothing wraps; `loop1KernelT` has the types of the source. -/
def loop1Kernel {α : Type} [Add α] [Mul α] (kCols nRows : Nat)
    (input mask uninit output : Nat → α) : Loop1State α :=
  forLoop kCols ((nRows + 1) * kCols) (loop1Step kCols input)
    (loop1Prologue kCols input mask uninit output)

/-- The buffer `b_input` of replica rows `[begin, end)`: the elements
`in[(begin-1)*kCols .. (end+1)*kCols)`; an index beyond its end reads `beyond`. On natural
numbers, where nothing wraps; `loop1InputSliceT` has the types of the source. -/
def loop1InputSlice {α : Type} (kCols begin end_ : Nat) (in_ beyond : Nat → α) : Nat → α :=
  fun x => if x < (end_ + 1) * kCols - (begin - 1) * kCols then in_ ((begin - 1) * kCols + x)
    else beyond x

/-- The function `RunKernel<Replica, NumReplicas>(q, in, m, out)` of `08_1loop/host.cpp`: the
kernel runs on the input slice of the rows `begin-1 .. end` and on the output slice
`out[begin*kCols .. end*kCols)`, which is written back to `out` from `begin*kCols` on. On
natural numbers, where nothing wraps; `RunKernel_1loopT` has the types of the source. -/
def RunKernel_1loop {α : Type} [Add α] [Mul α] (kRows kCols : Nat) (Replica NumReplicas : Nat)
    (in_ m out beyond uninit : Nat → α) : Nat → α :=
  fun g =>
    if begin_k kRows NumReplicas Replica * kCols ≤ g ∧
        g < end_k kRows NumReplicas Replica * kCols then
      (loop1Kernel kCols (end_k kRows NumReplicas Replica - begin_k kRows NumReplicas Replica)
        (loop1InputSlice kCols (begin_k kRows NumReplicas Replica)
          (end_k kRows NumReplicas Replica) in_ beyond)
        m uninit (fun y => out (begin_k kRows NumReplicas Replica * kCols + y))).output
        (g - begin_k kRows NumReplicas Replica * kCols)
    else out g

/-! ## Sequences of input reads -/

/-- The input indices read by a kernel, in the order of the reads. -/
def inputReads (log : List Access) : List Nat :=
  log.filterMap (fun a => match a with
    | Access.inputRead idx => some idx
    | _ => none)

/-! ## The result check of `00_naive/host.cpp` -/

/-- The tolerance `constexpr float kTol = 0.001;` of `00_naive/host.cpp`, as a rational. -/
def kTol : ℚ := 1 / 1000

/-- The counting loop of the result check of `00_naive/host.cpp`:
`for (size_t i = 0; i < kArraySize; i++) { float tmp = gold_output[i] - output[i];`
`if (tmp * tmp < kTol * kTol) correct++; }`, with exact arithmetic on the values. -/
def countCorrect (kArraySize : Nat) (gold_output output : Nat → ℚ) : Nat :=
  forLoop 0 kArraySize (fun i correct =>
    if (gold_output i - output i) * (gold_output i - output i) < kTol * kTol then correct + 1
    else correct) 0

/-- The bound `kArraySize - 2*kRows -2*kCols +4` of the result check, computed in `size_t`
from left to right, `kArraySize` being `kRows * kCols`. -/
def checkBound (kRows kCols : Nat) : Nat :=
  (sizeSub (sizeSub (kRows * kCols % sizeModulus) (2 * kRows % sizeModulus))
    (2 * kCols % sizeModulus) + 4) % sizeModulus

/-- The result check of `00_naive/host.cpp`: `true` when it prints
`PASSED: results are correct`, that is when
`correct >= (kArraySize - 2*kRows -2*kCols +4)`. -/
def resultCheck (kRows kCols : Nat) (gold_output output : Nat → ℚ) : Bool :=
  decide (checkBound kRows kCols ≤
    countCorrect (kRows * kCols % sizeModulus) gold_output output)

/-! ## Kernels with the list of their writes (`src_naive`, `src_baseline`, `12_timestep`) -/

/-- An output buffer together with the indices at which it has been written so far,
oldest first. -/
structure OutState (α : Type) where
  output : Nat → α
  writes : List Nat

/-- The assignment `output[idx] = v`, recorded in the list of the writes. -/
def writeOut {α : Type} (s : OutState α) (idx : Nat) (v : α) : OutState α :=
  { output := store s.output idx v, writes := s.writes ++ [idx] }

/-- The statements of `src_naive/kernel.cpp` for the cell `(i, j)` with their writes:
`output[i*kCols+j]=0;` and nine times
`output[i*kCols+j]+= mask[m*3+n] * input[row*kCols + j + n - 1];` with `row = i+m-1`. On
natural numbers, where nothing wraps; `naiveCellWT` has the types of the source. -/
def naiveCellW {α : Type} [Zero α] [Add α] [Mul α] (kCols : Nat) (input mask : Nat → α)
    (i j : Nat) (s : OutState α) : OutState α :=
  forLoop 0 3 (fun m s =>
    forLoop 0 3 (fun n s =>
      writeOut s (i * kCols + j)
        (s.output (i * kCols + j) + mask (m * 3 + n) * input ((i + m - 1) * kCols + j + n - 1)))
      s) (writeOut s (i * kCols + j) 0)

/-- The kernel `RunKernel` of `src_naive/kernel.cpp` with the writes it performs. On natural
numbers, where nothing wraps; `RunKernel_naiveWT` has the types of the source. -/
def RunKernel_naiveW {α : Type} [Zero α] [Add α] [Mul α] (kRows kCols : Nat)
    (input mask : Nat → α) (s : OutState α) : OutState α :=
  forLoop 1 (kRows - 1) (fun i s =>
    forLoop 1 (kCols - 1) (fun j s => naiveCellW kCols input mask i j s) s) s

/-- The value `tmp` of `src_baseline/kernel.cpp` for the cell `(i, j)`, with
`crow_base = i*kCols`, `prow_base = crow_base - kCols`, `nrow_base = crow_base + kCols`. On
natural numbers, where nothing wraps; `baselineTmpT` has the types of the source. -/
def baselineTmp {α : Type} [Add α] [Mul α] (kCols : Nat) (input mask : Nat → α)
    (i j : Nat) : α :=
  mask 0 * input (i * kCols - kCols + j - 1) +
  mask 1 * input (i * kCols - kCols + j) +
  mask 2 * input (i * kCols - kCols + j + 1) +
  mask 3 * input (i * kCols + j - 1) +
  mask 4 * input (i * kCols + j) +
  mask 5 * input (i * kCols + j + 1) +
  mask 6 * input (i * kCols + kCols + j - 1) +
  mask 7 * input (i * kCols + kCols + j) +
  mask 8 * input (i * kCols + kCols + j + 1)

/-- The kernel `RunKernel` of `src_baseline/kernel.cpp` with the writes it performs: the two
loops and `output[crow_base+j] = tmp;`. On natural numbers, where nothing wraps;
`RunKernel_baselineT` has the types of the source. -/
def RunKernel_baseline {α : Type} [Add α] [Mul α] (kRows kCols : Nat)
    (input mask : Nat → α) (s : OutState α) : OutState α :=
  forLoop 1 (kRows - 1) (fun i s =>
    forLoop 1 (kCols - 1) (fun j s =>
      writeOut s (i * kCols + j) (baselineTmp kCols input mask i j)) s) s

/-- The element `a[i][j]` of a two-dimensional accessor of range `(kRows, kCols)` on the
row-major storage `a`. On natural numbers, where nothing wraps; `at2T` has the types of the
source. -/
def at2 {α : Type} (kCols : Nat) (a : Nat → α) (i j : Nat) : α := a (i * kCols + j)

/-- The work-item `idx` of `run_cpu_kernel` (`12_timestep/cpu_kernel.cpp`):
`int i=idx[0]+1; int j=idx[1]+1;`, the nine-term sum `tmp` over `input[i-1][j-1]` ...
`input[i+1][j+1]`, and `output[i][j] = tmp;`. On natural numbers, where nothing wraps;
`cpuWorkItemT` has the types of the source. -/
def cpuWorkItem {α : Type} [Add α] [Mul α] (kCols : Nat) (input mask : Nat → α)
    (idx : Nat × Nat) (s : OutState α) : OutState α :=
  writeOut s ((idx.1 + 1) * kCols + (idx.2 + 1))
    (mask 0 * at2 kCols input (idx.1 + 1 - 1) (idx.2 + 1 - 1) +
     mask 1 * at2 kCols input (idx.1 + 1 - 1) (idx.2 + 1) +
     mask 2 * at2 kCols input (idx.1 + 1 - 1) (idx.2 + 1 + 1) +
     mask 3 * at2 kCols input (idx.1 + 1) (idx.2 + 1 - 1) +
     mask 4 * at2 kCols input (idx.1 + 1) (idx.2 + 1) +
     mask 5 * at2 kCols input (idx.1 + 1) (idx.2 + 1 + 1) +
     mask 6 * at2 kCols input (idx.1 + 1 + 1) (idx.2 + 1 - 1) +
     mask 7 * at2 kCols input (idx.1 + 1 + 1) (idx.2 + 1) +
     mask 8 * at2 kCols input (idx.1 + 1 + 1) (idx.2 + 1 + 1))

/-- The work-items of `range<2> stencil_range(kRows-2, kCols-2)`: the pairs `(idx[0], idx[1])`
with `idx[0] < kRows-2` and `idx[1] < kCols-2`. On natural numbers, where nothing wraps;
`stencil_rangeT` has the types of the source. -/
def stencil_range (kRows kCols : Nat) : List (Nat × Nat) :=
  List.product (List.range (kRows - 2)) (List.range (kCols - 2))

/-- The kernel of `run_cpu_kernel`: `parallel_for` runs the work-items, here one after the other
in the order `order`, on the buffers of range `(kRows, kCols)`. On natural numbers, where
nothing wraps; `run_cpu_kernelT` has the types of the source. -/
def run_cpu_kernel {α : Type} [Add α] [Mul α] (kCols : Nat) (input mask : Nat → α)
    (order : List (Nat × Nat)) (s : OutState α) : OutState α :=
  order.foldl (fun s idx => cpuWorkItem kCols input mask idx s) s

/-- The row-major index of the cell the work-item `idx` writes. -/
def cellOf (kCols : Nat) (idx : Nat × Nat) : Nat := (idx.1 + 1) * kCols + (idx.2 + 1)

/-! ## Machine integers: the 32-bit `int`, the 64-bit `size_t`, and loops with an `int` counter -/

/-- The conversion of a 32-bit `int` to `size_t`: the value modulo `2^64`. -/
def sizeOfInt (z : Int) : Nat := (z % 18446744073709551616).toNat

/-- The result of an `int` operation whose exact value is `z`: the low 32 bits, read in
two's complement. -/
def intWrap (z : Int) : Int := intOfSize (sizeOfInt z)

/-- The loop `for (int i = lo; cond(i); i++)` with `fuel` iterations at most. -/
def forIntAux {σ : Type} (cond : Int → Bool) (body : Int → σ → σ) : Nat → Int → σ → σ
  | 0, _, s => s
  | fuel + 1, i, s =>
    if cond i = true then forIntAux cond body fuel (intWrap (i + 1)) (body i s) else s

/-- The loop `for (int i = lo; cond(i); i++)`, the counter being incremented as a 32-bit
`int`. A counter has `2^32` values: a loop still running after `2^32` iterations never
ends, and is stopped there. -/
def forIntWhile {σ : Type} (cond : Int → Bool) (lo : Int) (body : Int → σ → σ) (s : σ) : σ :=
  forIntAux cond body 4294967296 lo s

/-- The loop `for (int i = lo; i < hi; i++)` with an `int` bound. -/
def forIntLt {σ : Type} (lo hi : Int) (body : Int → σ → σ) (s : σ) : σ :=
  forIntWhile (fun i => decide (i < hi)) lo body s

/-- The loop `for (int i = lo; i < bound; i++)` with a `size_t` bound: the comparison
converts the counter to `size_t`. -/
def forIntSize {σ : Type} (lo : Int) (bound : Nat) (body : Int → σ → σ) (s : σ) : σ :=
  forIntWhile (fun i => decide (sizeOfInt i < bound)) lo body s

/-! ## The replicated shift-register kernel with the types of the source -/

/-- The variable `int crow_base=i*kCols;`: the product is computed in `size_t` and
converted to `int`. -/
def crow_base (kCols : Nat) (i : Int) : Int :=
  intOfSize (sizeOfInt i * kCols % sizeModulus)

/-- The variable `int nrow_base = crow_base + kCols;`: the sum is computed in `size_t` and
converted to `int`. -/
def nrow_base (kCols : Nat) (i : Int) : Int :=
  intOfSize ((sizeOfInt (crow_base kCols i) + kCols) % sizeModulus)

/-- The variable `int prow_base = crow_base - kCols;`: the difference is computed in
`size_t` and converted to `int`. -/
def prow_base (kCols : Nat) (i : Int) : Int :=
  intOfSize (sizeSub (sizeOfInt (crow_base kCols i)) kCols)

/-- The assignment `sr[i]=input[(begin-1)*kCols+i]` with the types of the source: `begin-1`
is an `int`, the product and the sum are computed in `size_t`. -/
def primeSrStepT {α : Type} (kCols : Nat) (input : Nat → α) (begin : Int) (i : Int)
    (s : KernelState α) : KernelState α :=
  { s with
    sr := store s.sr (sizeOfInt i)
      (input ((sizeOfInt (intWrap (begin - 1)) * kCols % sizeModulus + sizeOfInt i)
        % sizeModulus))
    log := s.log ++
      [Access.inputRead ((sizeOfInt (intWrap (begin - 1)) * kCols % sizeModulus + sizeOfInt i)
        % sizeModulus), Access.srWrite (sizeOfInt i)] }

/-- The loop `for(int i=0; i<2*kCols+3; i++) sr[i]=input[(begin-1)*kCols+i];`, the bound
being a `size_t`. -/
def primeSrT {α : Type} (kCols : Nat) (input : Nat → α) (begin : Int)
    (s : KernelState α) : KernelState α :=
  forIntSize 0 ((2 * kCols + 3) % sizeModulus) (primeSrStepT kCols input begin) s

/-- The body of the column loop with the types of the source: the store
`output[crow_base+j] = tmp` and the shift `sr.shiftSingleVal<1>(input[nrow_base+2+j])`, the
two subscripts being sums of `int` values converted to `size_t`. -/
def colStepT {α : Type} [Add α] [Mul α] (kCols : Nat) (input : Nat → α) (i j : Int)
    (s : KernelState α) : KernelState α :=
  shiftFromInput kCols input (sizeOfInt (intWrap (intWrap (nrow_base kCols i + 2) + j)))
    { s with
      output := store s.output (sizeOfInt (intWrap (crow_base kCols i + j)))
        (tapSum kCols s.local_mask s.sr)
      log := s.log ++ tapLog kCols ++
        [Access.outputWrite (sizeOfInt (intWrap (crow_base kCols i + j)))] }

/-- The two shifts at the end of row `i` with the types of the source: in
`input[nrow_base+kCols+1]` and `input[nrow_base+kCols+2]` the sums are computed in `size_t`. -/
def rowResyncT {α : Type} (kCols : Nat) (input : Nat → α) (i : Int)
    (s : KernelState α) : KernelState α :=
  shiftFromInput kCols input
    (((sizeOfInt (nrow_base kCols i) + kCols) % sizeModulus + 2) % sizeModulus)
    (shiftFromInput kCols input
      (((sizeOfInt (nrow_base kCols i) + kCols) % sizeModulus + 1) % sizeModulus) s)

/-- The body of the row loop with the types of the source: `for(int j=1; j<kCols-1; j++)`,
the bound `kCols-1` being a `size_t`, then the two extra shifts. -/
def rowStepT {α : Type} [Add α] [Mul α] (kCols : Nat) (input : Nat → α) (i : Int)
    (s : KernelState α) : KernelState α :=
  rowResyncT kCols input i (forIntSize 1 (sizeSub kCols 1) (colStepT kCols input i) s)

/-- The part of the kernel before the row loop, with the types of the source. -/
def kernelPrologueT {α : Type} (kCols : Nat) (begin : Int) (input mask uninit output : Nat → α) :
    KernelState α :=
  primeSrT kCols input begin (loadMask mask (initState uninit output))

/-- The kernel body on the rows `[begin, end)`, `begin` and `end` being `int` values:
prologue, then `for(int i=begin; i<end; i++)`. -/
def kernelBodyT {α : Type} [Add α] [Mul α] (kCols : Nat) (begin end_ : Int)
    (input mask uninit output : Nat → α) : KernelState α :=
  forIntLt begin end_ (rowStepT kCols input)
    (kernelPrologueT kCols begin input mask uninit output)

/-- The kernel `RunKernel<Replica, NumReplicas>` of `src_kreplic` with the types of the
source: `kRows` and `kCols` are `size_t` values, `begin`, `end`, `crow_base`, `nrow_base`
and the loop counters are 32-bit `int` values, an `int` used as a subscript is converted to
`size_t`. -/
def RunKernelT {α : Type} [Add α] [Mul α] (kRows kCols : Nat) (Replica NumReplicas : Nat)
    (input mask uninit output : Nat → α) : KernelState α :=
  kernelBodyT kCols (beginSizeT kRows NumReplicas Replica) (endSizeT kRows NumReplicas Replica)
    input mask uninit output

/-- The host runs `RunKernel<0,N>`, ..., `RunKernel<N-1,N>` on the same buffers, here one
after the other, each on the output the previous one left. -/
def runReplicasT {α : Type} [Add α] [Mul α] (kRows kCols : Nat) (NumReplicas : Nat)
    (input mask uninit output : Nat → α) : Nat → α :=
  forLoop 0 NumReplicas (fun k out =>
    (RunKernelT kRows kCols k NumReplicas input mask uninit out).output) output

/-- The host runs the replicas listed in `order` one after the other. -/
def runReplicasInT {α : Type} [Add α] [Mul α] (kRows kCols : Nat) (NumReplicas : Nat)
    (input mask uninit : Nat → α) (order : List Nat) (output : Nat → α) : Nat → α :=
  order.foldl (fun out k =>
    (RunKernelT kRows kCols k NumReplicas input mask uninit out).output) output

/-- The state of the kernel at the moment the sum for the cell `(i, j)` is evaluated: the
prologue, the rows `begin..i-1` and the columns `1..j-1` of row `i` have been executed. -/
def stateAtCellT {α : Type} [Add α] [Mul α] (kCols : Nat) (begin : Int)
    (input mask uninit output : Nat → α) (i j : Int) : KernelState α :=
  forIntLt 1 j (colStepT kCols input i)
    (forIntLt begin i (rowStepT kCols input)
      (kernelPrologueT kCols begin input mask uninit output))

/-! ## The reference computation with the types of the source -/

/-- The value `tmp` of `gold_stencil` for the `int` counters `i`, `j`: every subscript is a
sum of `int` values, converted to `size_t`. -/
def goldCellT {α : Type} [Add α] [Mul α] (kCols : Nat) (input mask : Nat → α)
    (i j : Int) : α :=
  mask 0 * input (sizeOfInt (intWrap (intWrap (prow_base kCols i + j) - 1))) +
  mask 1 * input (sizeOfInt (intWrap (prow_base kCols i + j))) +
  mask 2 * input (sizeOfInt (intWrap (intWrap (prow_base kCols i + j) + 1))) +
  mask 3 * input (sizeOfInt (intWrap (intWrap (crow_base kCols i + j) - 1))) +
  mask 4 * input (sizeOfInt (intWrap (crow_base kCols i + j))) +
  mask 5 * input (sizeOfInt (intWrap (intWrap (crow_base kCols i + j) + 1))) +
  mask 6 * input (sizeOfInt (intWrap (intWrap (nrow_base kCols i + j) - 1))) +
  mask 7 * input (sizeOfInt (intWrap (nrow_base kCols i + j))) +
  mask 8 * input (sizeOfInt (intWrap (intWrap (nrow_base kCols i + j) + 1)))

/-- The function `gold_stencil(input, mask, res)` with the types of the source:
`for(int i=1; i<kRows-1; i++)` and `for(int j=1; j<kCols-1; j++)` compare an `int` counter
with a `size_t` bound, and `res[crow_base+j] = tmp`. -/
def gold_stencilT {α : Type} [Add α] [Mul α] (kRows kCols : Nat) (input mask res : Nat → α) :
    Nat → α :=
  forIntSize 1 (sizeSub kRows 1) (fun i res =>
    forIntSize 1 (sizeSub kCols 1) (fun j res =>
      store res (sizeOfInt (intWrap (crow_base kCols i + j))) (goldCellT kCols input mask i j))
      res) res

/-! ## Offsets of the sub-buffers -/

/-- The offset `z*kCols` of the host code, as in `in.begin()+(begin-1)*kCols`: `z` is an
`int` expression, `kCols` a `size_t`, and the product is computed in `size_t`. -/
def bufferOffset (z : Int) (kCols : Nat) : Nat := sizeOfInt z * kCols % sizeModulus

/-! ## The explicit-array kernel with the types of the source -/

/-- The priming loop `for(int i=0; i<2*kCols+3; i++) sr[i]=input[i];` of `src_srp_templ`
with the types of the source: the bound is a `size_t`, the counter an `int`. -/
def srpPrimeT {α : Type} (kCols : Nat) (input : Nat → α) (sr : Nat → α) : Nat → α :=
  forIntSize 0 ((2 * kCols + 3) % sizeModulus)
    (fun i sr => store sr (sizeOfInt i) (input (sizeOfInt i))) sr

/-- The body of the column loop of `src_srp_templ` with the types of the source: the
subscripts `crow_base+j` and `nrow_base+2+j` are sums of `int` values. -/
def srpColStepT {α : Type} [Add α] [Mul α] (kCols : Nat) (input : Nat → α) (i j : Int)
    (s : SrpState α) : SrpState α :=
  { s with
    output := store s.output (sizeOfInt (intWrap (crow_base kCols i + j)))
      (tapSum kCols s.local_mask s.sr)
    sr := shift_in (2 * kCols + 3) s.sr
      (input (sizeOfInt (intWrap (intWrap (nrow_base kCols i + 2) + j)))) }

/-- The end of a row of `src_srp_templ` with the types of the source: the shift by two
with `input[nrow_base+kCols+1]` and `input[nrow_base+kCols+2]`, sums computed in `size_t`. -/
def srpResyncT {α : Type} (kCols : Nat) (input : Nat → α) (i : Int)
    (s : SrpState α) : SrpState α :=
  { s with
    sr := shift_in2 kCols s.sr
      (input (((sizeOfInt (nrow_base kCols i) + kCols) % sizeModulus + 1) % sizeModulus))
      (input (((sizeOfInt (nrow_base kCols i) + kCols) % sizeModulus + 2) % sizeModulus)) }

/-- The body of the row loop of `src_srp_templ` with the types of the source:
`for(int j=1; j<kCols-1; j++)` with a `size_t` bound, then the shift by two. -/
def srpRowStepT {α : Type} [Add α] [Mul α] (kCols : Nat) (input : Nat → α) (i : Int)
    (s : SrpState α) : SrpState α :=
  srpResyncT kCols input i (forIntSize 1 (sizeSub kCols 1) (srpColStepT kCols input i) s)

/-- The state of `src_srp_templ` in front of the row loop: the mask is copied and the
array is primed. -/
def srpInitT {α : Type} (kCols : Nat) (input mask uninit output : Nat → α) : SrpState α :=
  { srpLoadMask mask { local_mask := uninit, sr := uninit, output := output } with
    sr := srpPrimeT kCols input
      (srpLoadMask mask { local_mask := uninit, sr := uninit, output := output }).sr }

/-- The kernel `RunKernel` of `src_srp_templ/kernel.cpp` with the types of the source:
`kRows` and `kCols` are `size_t` values, the counters and `crow_base`, `nrow_base` are
32-bit `int` values. -/
def RunKernel_srp_templT {α : Type} [Add α] [Mul α] (kRows kCols : Nat)
    (input mask uninit output : Nat → α) : SrpState α :=
  forIntSize 1 (sizeSub kRows 1) (srpRowStepT kCols input)
    (srpInitT kCols input mask uninit output)

/-! ## The naive kernel and its reference with the types of the source -/

/-- The subscript `i*kCols+j` of `src_naive` and of `gold_stencil` of `00_naive`: the `int`
values `i` and `j` are converted to `size_t`, the product and the sum are computed in
`size_t`. -/
def naiveIdx (kCols : Nat) (i j : Int) : Nat :=
  (sizeOfInt i * kCols % sizeModulus + sizeOfInt j) % sizeModulus

/-- The subscript `row*kCols + j + n - 1` with `int row=i+m-1;`: `row` is computed in
`int`, the product, the sums and the difference in `size_t`. -/
def naiveTap (kCols : Nat) (i j : Int) (m n : Nat) : Nat :=
  sizeSub ((naiveIdx kCols (intWrap (intWrap (i + (m : Int)) - 1)) j + n) % sizeModulus) 1

/-- The statements of `src_naive` for the `int` counters `i`, `j`: `output[i*kCols+j]=0;`
and then, for `m = 0..2` and `n = 0..2`,
`output[i*kCols+j] += mask[m*3+n] * input[row*kCols + j + n - 1];`. -/
def naiveCellT {α : Type} [Zero α] [Add α] [Mul α] (kCols : Nat) (input mask : Nat → α)
    (i j : Int) (output : Nat → α) : Nat → α :=
  forLoop 0 3 (fun m out =>
    forLoop 0 3 (fun n out =>
      store out (naiveIdx kCols i j)
        (out (naiveIdx kCols i j) + mask (m * 3 + n) * input (naiveTap kCols i j m n)))
      out) (store output (naiveIdx kCols i j) 0)

/-- The kernel `RunKernel` of `src_naive/kernel.cpp` with the types of the source:
`for(int i=1; i<kRows-1; i++)` and `for(int j=1; j<kCols-1; j++)` compare an `int` counter
with a `size_t` bound. -/
def RunKernel_naiveT {α : Type} [Zero α] [Add α] [Mul α] (kRows kCols : Nat)
    (input mask output : Nat → α) : Nat → α :=
  forIntSize 1 (sizeSub kRows 1) (fun i out =>
    forIntSize 1 (sizeSub kCols 1) (fun j out => naiveCellT kCols input mask i j out) out)
    output

/-- The statements of `gold_stencil` of `00_naive/host.cpp` for the `int` counters `i`,
`j`, the mask being the two-dimensional array `float (&mask)[3][3]`. -/
def goldNaiveCellT {α : Type} [Zero α] [Add α] [Mul α] (kCols : Nat) (input : Nat → α)
    (mask : Nat → Nat → α) (i j : Int) (res : Nat → α) : Nat → α :=
  forLoop 0 3 (fun m out =>
    forLoop 0 3 (fun n out =>
      store out (naiveIdx kCols i j)
        (out (naiveIdx kCols i j) + mask m n * input (naiveTap kCols i j m n)))
      out) (store res (naiveIdx kCols i j) 0)

/-- The function `gold_stencil` of `00_naive/host.cpp` with the types of the source. -/
def gold_stencil_naiveT {α : Type} [Zero α] [Add α] [Mul α] (kRows kCols : Nat)
    (input : Nat → α) (mask : Nat → Nat → α) (res : Nat → α) : Nat → α :=
  forIntSize 1 (sizeSub kRows 1) (fun i out =>
    forIntSize 1 (sizeSub kCols 1) (fun j out => goldNaiveCellT kCols input mask i j out) out)
    res

/-! ## The naive and the baseline kernel with their writes and the types of the source -/

/-- The statements of `src_naive/kernel.cpp` for the `int` counters `i`, `j` with their
writes. -/
def naiveCellWT {α : Type} [Zero α] [Add α] [Mul α] (kCols : Nat) (input mask : Nat → α)
    (i j : Int) (s : OutState α) : OutState α :=
  forLoop 0 3 (fun m s =>
    forLoop 0 3 (fun n s =>
      writeOut s (naiveIdx kCols i j)
        (s.output (naiveIdx kCols i j) + mask (m * 3 + n) * input (naiveTap kCols i j m n)))
      s) (writeOut s (naiveIdx kCols i j) 0)

/-- The kernel `RunKernel` of `src_naive/kernel.cpp` with the types of the source and the
writes it performs. -/
def RunKernel_naiveWT {α : Type} [Zero α] [Add α] [Mul α] (kRows kCols : Nat)
    (input mask : Nat → α) (s : OutState α) : OutState α :=
  forIntSize 1 (sizeSub kRows 1) (fun i s =>
    forIntSize 1 (sizeSub kCols 1) (fun j s => naiveCellWT kCols input mask i j s) s) s

/-- The value `tmp` of `src_baseline/kernel.cpp` for the `int` counters `i`, `j`: the
nine-term sum over `int prow_base`, `crow_base`, `nrow_base`, every subscript being a sum
of `int` values. -/
def baselineTmpT {α : Type} [Add α] [Mul α] (kCols : Nat) (input mask : Nat → α)
    (i j : Int) : α :=
  mask 0 * input (sizeOfInt (intWrap (intWrap (prow_base kCols i + j) - 1))) +
  mask 1 * input (sizeOfInt (intWrap (prow_base kCols i + j))) +
  mask 2 * input (sizeOfInt (intWrap (intWrap (prow_base kCols i + j) + 1))) +
  mask 3 * input (sizeOfInt (intWrap (intWrap (crow_base kCols i + j) - 1))) +
  mask 4 * input (sizeOfInt (intWrap (crow_base kCols i + j))) +
  mask 5 * input (sizeOfInt (intWrap (intWrap (crow_base kCols i + j) + 1))) +
  mask 6 * input (sizeOfInt (intWrap (intWrap (nrow_base kCols i + j) - 1))) +
  mask 7 * input (sizeOfInt (intWrap (nrow_base kCols i + j))) +
  mask 8 * input (sizeOfInt (intWrap (intWrap (nrow_base kCols i + j) + 1)))

/-- The kernel `RunKernel` of `src_baseline/kernel.cpp` with the types of the source and
the writes it performs: the two loops and `output[crow_base+j] = tmp;`, the subscript
being a sum of `int` values. -/
def RunKernel_baselineT {α : Type} [Add α] [Mul α] (kRows kCols : Nat)
    (input mask : Nat → α) (s : OutState α) : OutState α :=
  forIntSize 1 (sizeSub kRows 1) (fun i s =>
    forIntSize 1 (sizeSub kCols 1) (fun j s =>
      writeOut s (sizeOfInt (intWrap (crow_base kCols i + j)))
        (baselineTmpT kCols input mask i j)) s) s

/-! ## The 2-D CPU kernel with the types of the source -/

/-- The linear index of the element `a[r][c]` of a two-dimensional accessor of range
`(kRows, kCols)`: the `int` subscripts `r` and `c` are converted to `size_t`, and
`r*kCols + c` is computed in `size_t`. -/
def at2Idx (kCols : Nat) (r c : Int) : Nat :=
  (sizeOfInt r * kCols % sizeModulus + sizeOfInt c) % sizeModulus

/-- The element `a[r][c]` of a two-dimensional accessor for `int` subscripts. -/
def at2T {α : Type} (kCols : Nat) (a : Nat → α) (r c : Int) : α := a (at2Idx kCols r c)

/-- The initialisation `int i=idx[0]+1;` (and `int j=idx[1]+1;`): the sum is computed in
`size_t` and converted to `int`. -/
def cpuCoord (idx : Nat) : Int := intOfSize ((idx + 1) % sizeModulus)

/-- The work-item `idx` of `run_cpu_kernel` (`12_timestep/cpu_kernel.cpp`) with the types
of the source: `int i=idx[0]+1; int j=idx[1]+1;`, the nine-term sum `tmp` over
`input[i-1][j-1]` ... `input[i+1][j+1]`, the subscripts `i-1`, `i+1`, `j-1`, `j+1` being
computed in `int`, and `output[i][j] = tmp;`. -/
def cpuWorkItemT {α : Type} [Add α] [Mul α] (kCols : Nat) (input mask : Nat → α)
    (idx : Nat × Nat) (s : OutState α) : OutState α :=
  writeOut s (at2Idx kCols (cpuCoord idx.1) (cpuCoord idx.2))
    (mask 0 * at2T kCols input (intWrap (cpuCoord idx.1 - 1)) (intWrap (cpuCoord idx.2 - 1)) +
     mask 1 * at2T kCols input (intWrap (cpuCoord idx.1 - 1)) (cpuCoord idx.2) +
     mask 2 * at2T kCols input (intWrap (cpuCoord idx.1 - 1)) (intWrap (cpuCoord idx.2 + 1)) +
     mask 3 * at2T kCols input (cpuCoord idx.1) (intWrap (cpuCoord idx.2 - 1)) +
     mask 4 * at2T kCols input (cpuCoord idx.1) (cpuCoord idx.2) +
     mask 5 * at2T kCols input (cpuCoord idx.1) (intWrap (cpuCoord idx.2 + 1)) +
     mask 6 * at2T kCols input (intWrap (cpuCoord idx.1 + 1)) (intWrap (cpuCoord idx.2 - 1)) +
     mask 7 * at2T kCols input (intWrap (cpuCoord idx.1 + 1)) (cpuCoord idx.2) +
     mask 8 * at2T kCols input (intWrap (cpuCoord idx.1 + 1)) (intWrap (cpuCoord idx.2 + 1)))

/-- The work-items of `range<2> stencil_range(kRows-2, kCols-2)`, the two differences
being computed in `size_t`. -/
def stencil_rangeT (kRows kCols : Nat) : List (Nat × Nat) :=
  List.product (List.range (sizeSub kRows 2)) (List.range (sizeSub kCols 2))

/-- The kernel of `run_cpu_kernel` with the types of the source: `parallel_for` runs the
work-items, here one after the other in the order `order`. -/
def run_cpu_kernelT {α : Type} [Add α] [Mul α] (kCols : Nat) (input mask : Nat → α)
    (order : List (Nat × Nat)) (s : OutState α) : OutState α :=
  order.foldl (fun s idx => cpuWorkItemT kCols input mask idx s) s

/-! ## The single-loop kernel with the types of the source -/

/-- The guard `((i+1)&(kCols-1)) && ((i+2)&(kCols-1))` of `08_1loop` with the types of the
source: `i+1` and `i+2` are `int` sums, converted to `size_t` for the `&` with the
`size_t` value `kCols-1`. -/
def loop1GuardT (kCols : Nat) (i : Int) : Bool :=
  (sizeOfInt (intWrap (i + 1)) &&& sizeSub kCols 1) != 0 &&
    (sizeOfInt (intWrap (i + 2)) &&& sizeSub kCols 1) != 0

/-- The variable `int prow_base = i - kCols;` of `08_1loop`: the difference is computed in
`size_t` and converted to `int`. -/
def loop1Prow (kCols : Nat) (i : Int) : Int := intOfSize (sizeSub (sizeOfInt i) kCols)

/-- The variable `int nrow_base = i + kCols;` of `08_1loop`: the sum is computed in
`size_t` and converted to `int`. -/
def loop1Nrow (kCols : Nat) (i : Int) : Int := intOfSize ((sizeOfInt i + kCols) % sizeModulus)

/-- The body of the single loop for the `int` counter `i`: the three shifts with
`input[prow_base+2]`, `input[i+2]`, `input[nrow_base+2]`, the sum, and the guarded store
`output[prow_base+1] = tmp`, every subscript being a sum of `int` values. -/
def loop1StepT {α : Type} [Add α] [Mul α] (kCols : Nat) (input : Nat → α) (i : Int)
    (s : Loop1State α) : Loop1State α :=
  if loop1GuardT kCols i = true then
    { loop1Shift input (sizeOfInt (intWrap (loop1Prow kCols i + 2)))
        (sizeOfInt (intWrap (i + 2))) (sizeOfInt (intWrap (loop1Nrow kCols i + 2))) s with
      output := store s.output (sizeOfInt (intWrap (loop1Prow kCols i + 1)))
        (loop1Sum s.local_mask
          (shiftSingleVal 3 s.sr0 (input (sizeOfInt (intWrap (loop1Prow kCols i + 2)))))
          (shiftSingleVal 3 s.sr1 (input (sizeOfInt (intWrap (i + 2)))))
          (shiftSingleVal 3 s.sr2 (input (sizeOfInt (intWrap (loop1Nrow kCols i + 2))))))
      log := s.log ++ [Access.inputRead (sizeOfInt (intWrap (loop1Prow kCols i + 2))),
        Access.inputRead (sizeOfInt (intWrap (i + 2))),
        Access.inputRead (sizeOfInt (intWrap (loop1Nrow kCols i + 2))),
        Access.outputWrite (sizeOfInt (intWrap (loop1Prow kCols i + 1)))] }
  else loop1Shift input (sizeOfInt (intWrap (loop1Prow kCols i + 2)))
    (sizeOfInt (intWrap (i + 2))) (sizeOfInt (intWrap (loop1Nrow kCols i + 2))) s

/-- The state of the single-loop kernel before its main loop, with the types of the
source: the subscripts `k+kCols` and `k+2*kCols` are computed in `size_t`. -/
def loop1PrologueT {α : Type} (kCols : Nat) (input mask uninit output : Nat → α) :
    Loop1State α :=
  forLoop 0 2 (fun k s => loop1Shift input k ((k + kCols) % sizeModulus)
      ((k + 2 * kCols % sizeModulus) % sizeModulus) s)
    (forLoop 0 9 (loop1LoadMaskStep mask)
      { local_mask := uninit, sr0 := uninit, sr1 := uninit, sr2 := uninit,
        output := output, log := [] })

/-- The device code of `RunKernel` of `08_1loop` with the types of the source:
`for(int i=kCols; i<(end-begin+1)*kCols; i++)`, where `i` is initialised with the
conversion of `kCols` to `int`, `end-begin+1` is an `int`, and the bound is a `size_t`. -/
def loop1KernelT {α : Type} [Add α] [Mul α] (kCols : Nat) (begin end_ : Int)
    (input mask uninit output : Nat → α) : Loop1State α :=
  forIntSize (intOfSize kCols)
    (sizeOfInt (intWrap (intWrap (end_ - begin) + 1)) * kCols % sizeModulus)
    (loop1StepT kCols input) (loop1PrologueT kCols input mask uninit output)

/-- The buffer `b_input` built from `in.begin()+(begin-1)*kCols` and
`in.begin()+(end+1)*kCols`, the offsets being computed in `size_t`; an index beyond its end
reads `beyond`. -/
def loop1InputSliceT {α : Type} (kCols : Nat) (begin end_ : Int) (in_ beyond : Nat → α) :
    Nat → α :=
  fun x =>
    if x < bufferOffset (intWrap (end_ + 1)) kCols - bufferOffset (intWrap (begin - 1)) kCols
    then in_ (bufferOffset (intWrap (begin - 1)) kCols + x)
    else beyond x

/-- The function `RunKernel<Replica, NumReplicas>(q, in, m, out)` of `08_1loop/host.cpp`
with the types of the source: `begin` and `end` are `int` constants, the offsets
`begin*kCols` and `end*kCols` of the output slice are computed in `size_t`. -/
def RunKernel_1loopT {α : Type} [Add α] [Mul α] (kRows kCols : Nat)
    (Replica NumReplicas : Nat) (in_ m out beyond uninit : Nat → α) : Nat → α :=
  fun g =>
    if bufferOffset (beginSizeT kRows NumReplicas Replica) kCols ≤ g ∧
        g < bufferOffset (endSizeT kRows NumReplicas Replica) kCols then
      (loop1KernelT kCols (beginSizeT kRows NumReplicas Replica)
        (endSizeT kRows NumReplicas Replica)
        (loop1InputSliceT kCols (beginSizeT kRows NumReplicas Replica)
          (endSizeT kRows NumReplicas Replica) in_ beyond)
        m uninit
        (fun y => out (bufferOffset (beginSizeT kRows NumReplicas Replica) kCols + y))).output
        (g - bufferOffset (beginSizeT kRows NumReplicas Replica) kCols)
    else out g

/-! ## Partition lemmas -/

theorem end_k_eq_begin_succ (kRows N k : Nat) :
    end_k kRows N k = begin_k kRows N (k + 1) := rfl

theorem begin_k_zero (kRows N : Nat) : begin_k kRows N 0 = 1 := by
  simp [begin_k]

theorem begin_k_last (kRows N : Nat) (hN : 1 ≤ N) :
    begin_k kRows N N = kRows - 2 + 1 := by
  unfold begin_k
  rw [Nat.mul_div_cancel_left _ (by omega : 0 < N)]

theorem begin_k_mono (kRows N : Nat) {k l : Nat} (h : k ≤ l) :
    begin_k kRows N k ≤ begin_k kRows N l := by
  unfold begin_k
  exact Nat.add_le_add_right (Nat.div_le_div_right (Nat.mul_le_mul_right _ h)) 1

theorem begin_le_end (kRows N k : Nat) : begin_k kRows N k ≤ end_k kRows N k := by
  rw [end_k_eq_begin_succ]
  exact begin_k_mono kRows N (Nat.le_succ k)

/-- A value between `f 0` and `f n` of a monotone sequence lies in one of its steps. -/
theorem exists_step_of_mono (f : Nat → Nat) (n r : Nat)
    (h0 : f 0 ≤ r) (hn : r < f n) : ∃ k, k < n ∧ f k ≤ r ∧ r < f (k + 1) := by
  induction n with
  | zero => omega
  | succ m ih =>
    by_cases hm : r < f m
    · obtain ⟨k, hk, h1, h2⟩ := ih hm
      exact ⟨k, by omega, h1, h2⟩
    · exact ⟨m, by omega, by omega, hn⟩

/-- The size of a range is the quotient `(kRows-2)/N` or one more. -/
theorem range_size_bounds (kRows N k : Nat) (hN : 1 ≤ N) :
    begin_k kRows N k + (kRows - 2) / N ≤ end_k kRows N k ∧
    end_k kRows N k ≤ begin_k kRows N k + (kRows - 2) / N + 1 := by
  unfold begin_k end_k
  generalize kRows - 2 = M
  have hNpos : 0 < N := by omega
  have e1 : (k + 1) * M = k * M % N + M % N + N * (k * M / N + M / N) := by
    have h1 := Nat.div_add_mod (k * M) N
    have h2 := Nat.div_add_mod M N
    rw [Nat.add_mul, Nat.one_mul, Nat.mul_add]
    omega
  have e2 : (k + 1) * M / N = (k * M % N + M % N) / N + (k * M / N + M / N) := by
    rw [e1, Nat.add_mul_div_left _ _ hNpos]
  have hb1 : k * M % N < N := Nat.mod_lt _ hNpos
  have hb2 : M % N < N := Nat.mod_lt _ hNpos
  have hb3 : (k * M % N + M % N) / N < 2 := by
    rw [Nat.div_lt_iff_lt_mul hNpos]
    omega
  rw [e2]
  generalize (k * M % N + M % N) / N = c at hb3
  generalize k * M / N = a
  generalize M / N = q
  omega

/-! ## Loop lemmas -/

theorem forLoop_of_le {σ : Type} (lo hi : Nat) (body : Nat → σ → σ) (s : σ) (h : hi ≤ lo) :
    forLoop lo hi body s = s := by
  unfold forLoop
  rw [Nat.sub_eq_zero_of_le h]
  rfl

theorem forLoop_step {σ : Type} (lo hi : Nat) (body : Nat → σ → σ) (s : σ) (h : lo < hi) :
    forLoop lo hi body s = forLoop (lo + 1) hi body (body lo s) := by
  unfold forLoop
  obtain ⟨n, hn⟩ : ∃ n, hi - lo = n + 1 := ⟨hi - lo - 1, by omega⟩
  have h2 : hi - (lo + 1) = n := by omega
  rw [hn, h2]
  rfl

theorem forCount_succ_right {σ : Type} (body : Nat → σ → σ) (n lo : Nat) (s : σ) :
    forCount body lo (n + 1) s = body (lo + n) (forCount body lo n s) := by
  induction n generalizing lo s with
  | zero => rfl
  | succ m ih =>
    show forCount body (lo + 1) (m + 1) (body lo s) = _
    rw [ih]
    have e : lo + 1 + m = lo + (m + 1) := by omega
    rw [e]
    rfl

theorem forLoop_succ_right {σ : Type} (lo hi : Nat) (body : Nat → σ → σ) (s : σ)
    (h : lo ≤ hi) : forLoop lo (hi + 1) body s = body hi (forLoop lo hi body s) := by
  unfold forLoop
  have e : hi + 1 - lo = (hi - lo) + 1 := by omega
  rw [e, forCount_succ_right]
  have e2 : lo + (hi - lo) = hi := by omega
  rw [e2]

/-- The invariant rule of the `for` loop. -/
theorem forLoop_inv {σ : Type} (P : Nat → σ → Prop) (lo hi : Nat) (body : Nat → σ → σ)
    (s : σ) (hle : lo ≤ hi) (h0 : P lo s)
    (hstep : ∀ i t, lo ≤ i → i < hi → P i t → P (i + 1) (body i t)) :
    P hi (forLoop lo hi body s) := by
  induction hi with
  | zero =>
    have e : lo = 0 := by omega
    subst e
    rw [forLoop_of_le _ _ _ _ (Nat.le_refl 0)]
    exact h0
  | succ m ih =>
    by_cases hm : lo ≤ m
    · rw [forLoop_succ_right _ _ _ _ hm]
      exact hstep m _ hm (Nat.lt_succ_self m)
        (ih hm (fun i t h1 h2 h3 => hstep i t h1 (Nat.lt_succ_of_lt h2) h3))
    · have e : lo = m + 1 := by omega
      subst e
      rw [forLoop_of_le _ _ _ _ (Nat.le_refl _)]
      exact h0

/-- A loop can be interrupted at any index of its range and resumed there. -/
theorem forLoop_split {σ : Type} (lo mid hi : Nat) (body : Nat → σ → σ) (s : σ)
    (h1 : lo ≤ mid) (h2 : mid ≤ hi) :
    forLoop lo hi body s = forLoop mid hi body (forLoop lo mid body s) := by
  induction hi with
  | zero =>
    have e1 : mid = 0 := by omega
    have e2 : lo = 0 := by omega
    subst e1 e2
    simp [forLoop_of_le]
  | succ m ih =>
    by_cases hm : mid ≤ m
    · rw [forLoop_succ_right _ _ _ _ (Nat.le_trans h1 hm), forLoop_succ_right _ _ _ _ hm, ih hm]
    · have e : mid = m + 1 := by omega
      subst e
      rw [forLoop_of_le (m + 1) (m + 1) _ _ (Nat.le_refl _)]

/-! ## Arrays and the shift register -/

theorem store_same {α : Type} (a : Nat → α) (i : Nat) (v : α) : store a i v i = v := by
  simp [store]

theorem store_other {α : Type} (a : Nat → α) (i t : Nat) (v : α) (h : t ≠ i) :
    store a i v t = a t := by
  simp [store, h]

theorem pred_mul_add (i c : Nat) (h : 1 ≤ i) : (i - 1) * c + c = i * c := by
  obtain ⟨m, rfl⟩ : ∃ m, i = m + 1 := ⟨i - 1, by omega⟩
  simp [Nat.succ_mul]

/-- Shifting in the element that follows the window moves the window by one. -/
theorem window_shift {α : Type} (kCols : Nat) (input : Nat → α) (base : Nat) (sr : Nat → α)
    (idx : Nat) (hidx : idx = base + (2 * kCols + 3)) (hW : Window kCols input base sr) :
    Window kCols input (base + 1) (shiftSingleVal (2 * kCols + 3) sr (input idx)) := by
  intro t ht
  unfold shiftSingleVal
  by_cases h1 : t + 1 < 2 * kCols + 3
  · rw [if_pos h1, hW (t + 1) h1]
    congr 1
    omega
  · have h2 : t + 1 = 2 * kCols + 3 := by omega
    rw [if_neg h1, if_pos h2, hidx]
    congr 1
    omega

/-- On a window placed one row and one column before the cell `(i, j)`, the nine taps
are the nine neighbours that `gold_stencil` reads. -/
theorem tapSum_eq_goldCell {α : Type} [Add α] [Mul α] (kCols : Nat) (input mask : Nat → α)
    (lm sr : Nat → α) (i j : Nat) (hi : 1 ≤ i) (hj : 1 ≤ j) (hjc : j + 1 < kCols)
    (hlm : ∀ t, t < 9 → lm t = mask t)
    (hW : Window kCols input ((i - 1) * kCols + (j - 1)) sr) :
    tapSum kCols lm sr = goldCell kCols input mask i j := by
  have hp := pred_mul_add i kCols hi
  unfold tapSum goldCell
  rw [hlm 0 (by omega), hlm 1 (by omega), hlm 2 (by omega), hlm 3 (by omega),
    hlm 4 (by omega), hlm 5 (by omega), hlm 6 (by omega), hlm 7 (by omega), hlm 8 (by omega)]
  rw [hW 0 (by omega), hW 1 (by omega), hW 2 (by omega), hW kCols (by omega),
    hW (kCols + 1) (by omega), hW (kCols + 2) (by omega), hW (2 * kCols) (by omega),
    hW (2 * kCols + 1) (by omega), hW (2 * kCols + 2) (by omega)]
  have e0 : (i - 1) * kCols + (j - 1) + 0 = i * kCols - kCols + j - 1 := by omega
  have e1 : (i - 1) * kCols + (j - 1) + 1 = i * kCols - kCols + j := by omega
  have e2 : (i - 1) * kCols + (j - 1) + 2 = i * kCols - kCols + j + 1 := by omega
  have e3 : (i - 1) * kCols + (j - 1) + kCols = i * kCols + j - 1 := by omega
  have e4 : (i - 1) * kCols + (j - 1) + (kCols + 1) = i * kCols + j := by omega
  have e5 : (i - 1) * kCols + (j - 1) + (kCols + 2) = i * kCols + j + 1 := by omega
  have e6 : (i - 1) * kCols + (j - 1) + 2 * kCols = i * kCols + kCols + j - 1 := by omega
  have e7 : (i - 1) * kCols + (j - 1) + (2 * kCols + 1) = i * kCols + kCols + j := by omega
  have e8 : (i - 1) * kCols + (j - 1) + (2 * kCols + 2) = i * kCols + kCols + j + 1 := by
    omega
  rw [e0, e1, e2, e3, e4, e5, e6, e7, e8]

/-! ## The prologue of the kernel -/

theorem loadMask_local_mask {α : Type} (mask : Nat → α) (s : KernelState α) (t : Nat)
    (ht : t < 9) : (loadMask mask s).local_mask t = mask t := by
  interval_cases t <;> rfl

theorem loadMask_sr {α : Type} (mask : Nat → α) (s : KernelState α) :
    (loadMask mask s).sr = s.sr := rfl

theorem loadMask_output {α : Type} (mask : Nat → α) (s : KernelState α) :
    (loadMask mask s).output = s.output := rfl

theorem primeSr_spec {α : Type} (kCols : Nat) (input : Nat → α) (begin : Nat)
    (s : KernelState α) :
    Window kCols input ((begin - 1) * kCols) (primeSr kCols input begin s).sr ∧
    (primeSr kCols input begin s).local_mask = s.local_mask ∧
    (primeSr kCols input begin s).output = s.output := by
  unfold primeSr
  have h := forLoop_inv
    (fun n (t : KernelState α) =>
      (∀ u, u < n → t.sr u = input ((begin - 1) * kCols + u)) ∧
      t.local_mask = s.local_mask ∧ t.output = s.output)
    0 (2 * kCols + 3) (primeSrStep kCols input begin) s (Nat.zero_le _)
    ⟨fun u hu => absurd hu (Nat.not_lt_zero u), rfl, rfl⟩
    (by
      rintro i t _ _ ⟨h1, h2, h3⟩
      refine ⟨fun u hu => ?_, h2, h3⟩
      show store t.sr i (input ((begin - 1) * kCols + i)) u = _
      by_cases hui : u = i
      · subst hui
        exact store_same _ _ _
      · rw [store_other _ _ _ _ hui]
        exact h1 u (by omega))
  exact h

theorem kernelPrologue_spec {α : Type} (kCols begin : Nat)
    (input mask uninit output : Nat → α) :
    Window kCols input ((begin - 1) * kCols)
      (kernelPrologue kCols begin input mask uninit output).sr ∧
    (∀ t, t < 9 → (kernelPrologue kCols begin input mask uninit output).local_mask t = mask t) ∧
    (kernelPrologue kCols begin input mask uninit output).output = output := by
  unfold kernelPrologue
  obtain ⟨h1, h2, h3⟩ := primeSr_spec kCols input begin (loadMask mask (initState uninit output))
  refine ⟨h1, fun t ht => ?_, ?_⟩
  · rw [h2]
    exact loadMask_local_mask mask _ t ht
  · rw [h3, loadMask_output]
    rfl

/-! ## Cells and flat indices -/

theorem cell_ne {kCols i i2 j j2 : Nat} (hlt : i < i2) (hj : j < kCols) :
    i * kCols + j ≠ i2 * kCols + j2 := by
  have h1 : (i + 1) * kCols ≤ i2 * kCols := Nat.mul_le_mul_right kCols hlt
  rw [Nat.add_mul, Nat.one_mul] at h1
  omega

theorem cell_inj {kCols i i2 j j2 : Nat} (hj : j < kCols) (hj2 : j2 < kCols)
    (h : i * kCols + j = i2 * kCols + j2) : i = i2 ∧ j = j2 := by
  rcases Nat.lt_trichotomy i i2 with hlt | heq | hgt
  · exact absurd h (cell_ne hlt hj)
  · subst heq
    exact ⟨rfl, by omega⟩
  · exact absurd h.symm (cell_ne hgt hj2)

theorem RowsDone_refl {α : Type} [Add α] [Mul α] (kCols : Nat) (input mask : Nat → α)
    (b : Nat) (out : Nat → α) : RowsDone kCols input mask b b out out :=
  ⟨fun _ _ h1 h2 _ _ => absurd h2 (Nat.not_lt.mpr h1), fun _ _ => rfl⟩

theorem RowsDone_trans {α : Type} [Add α] [Mul α] (kCols : Nat) (input mask : Nat → α)
    (b m e : Nat) (o0 o1 o2 : Nat → α) (hbm : b ≤ m) (hme : m ≤ e)
    (h1 : RowsDone kCols input mask b m o0 o1) (h2 : RowsDone kCols input mask m e o1 o2) :
    RowsDone kCols input mask b e o0 o2 := by
  constructor
  · intro i j hbi hie hj hjc
    by_cases him : i < m
    · rw [h2.2 (i * kCols + j) (fun i2 j2 hmi _ _ _ =>
        cell_ne (Nat.lt_of_lt_of_le him hmi) (by omega))]
      exact h1.1 i j hbi him hj hjc
    · exact h2.1 i j (by omega) hie hj hjc
  · intro idx hidx
    rw [h2.2 idx (fun i j hmi hie hj hjc => hidx i j (by omega) hie hj hjc)]
    exact h1.2 idx (fun i j hbi him hj hjc => hidx i j hbi (by omega) hj hjc)

/-! ## The row and column loops of the kernel -/

/-- Column loop of row `i`, interrupted before column `j`: the window stands one row and
one column before `(i, j)` and the cells `(i, 1..j-1)` hold their gold values. -/
theorem colLoop_spec {α : Type} [Add α] [Mul α] (kCols : Nat) (input mask : Nat → α)
    (i j : Nat) (s : KernelState α) (hi : 1 ≤ i) (hj : 1 ≤ j) (hjc : j + 1 ≤ kCols)
    (hlm : ∀ t, t < 9 → s.local_mask t = mask t)
    (hW : Window kCols input ((i - 1) * kCols) s.sr) :
    Window kCols input ((i - 1) * kCols + (j - 1)) (forLoop 1 j (colStep kCols input i) s).sr ∧
    (forLoop 1 j (colStep kCols input i) s).local_mask = s.local_mask ∧
    (∀ j2, 1 ≤ j2 → j2 < j →
      (forLoop 1 j (colStep kCols input i) s).output (i * kCols + j2)
        = goldCell kCols input mask i j2) ∧
    (∀ idx, (∀ j2, 1 ≤ j2 → j2 < j → idx ≠ i * kCols + j2) →
      (forLoop 1 j (colStep kCols input i) s).output idx = s.output idx) := by
  have hp := pred_mul_add i kCols hi
  refine forLoop_inv
    (fun n (t : KernelState α) =>
      Window kCols input ((i - 1) * kCols + (n - 1)) t.sr ∧
      t.local_mask = s.local_mask ∧
      (∀ j2, 1 ≤ j2 → j2 < n → t.output (i * kCols + j2) = goldCell kCols input mask i j2) ∧
      (∀ idx, (∀ j2, 1 ≤ j2 → j2 < n → idx ≠ i * kCols + j2) → t.output idx = s.output idx))
    1 j (colStep kCols input i) s hj ?_ ?_
  · exact ⟨hW, rfl, fun j2 h1 h2 => by omega, fun _ _ => rfl⟩
  · rintro n t hn1 hnj ⟨hWt, hlmt, hval, hframe⟩
    refine ⟨?_, hlmt, ?_, ?_⟩
    · have e : (i - 1) * kCols + (n + 1 - 1) = (i - 1) * kCols + (n - 1) + 1 := by omega
      rw [e]
      exact window_shift kCols input _ t.sr _ (by omega) hWt
    · intro j2 h1 h2
      show store t.output (i * kCols + n) (tapSum kCols t.local_mask t.sr) (i * kCols + j2) = _
      by_cases hjn : j2 = n
      · subst hjn
        rw [store_same]
        exact tapSum_eq_goldCell kCols input mask t.local_mask t.sr i j2 hi h1 (by omega)
          (fun u hu => by rw [hlmt]; exact hlm u hu) hWt
      · rw [store_other _ _ _ _ (by omega)]
        exact hval j2 h1 (by omega)
    · intro idx hidx
      show store t.output (i * kCols + n) (tapSum kCols t.local_mask t.sr) idx = _
      rw [store_other _ _ _ _ (hidx n hn1 (by omega))]
      exact hframe idx (fun j2 h1 h2 => hidx j2 h1 (by omega))

/-- One row of the kernel: the interior cells of row `i` receive their gold values and
the two extra shifts leave the window at the start of row `i`, ready for row `i+1`. -/
theorem rowStep_spec {α : Type} [Add α] [Mul α] (kCols : Nat) (input mask : Nat → α)
    (i : Nat) (s : KernelState α) (hi : 1 ≤ i) (hc : 2 ≤ kCols)
    (hlm : ∀ t, t < 9 → s.local_mask t = mask t)
    (hW : Window kCols input ((i - 1) * kCols) s.sr) :
    Window kCols input (i * kCols) (rowStep kCols input i s).sr ∧
    (rowStep kCols input i s).local_mask = s.local_mask ∧
    RowsDone kCols input mask i (i + 1) s.output (rowStep kCols input i s).output := by
  have hp := pred_mul_add i kCols hi
  obtain ⟨h1, h2, h3, h4⟩ :=
    colLoop_spec kCols input mask i (kCols - 1) s hi (by omega) (by omega) hlm hW
  refine ⟨?_, h2, ?_, ?_⟩
  · have hA := window_shift kCols input _ _ (i * kCols + kCols + kCols + 1) (by omega) h1
    have hB := window_shift kCols input _ _ (i * kCols + kCols + kCols + 2) (by omega) hA
    have e : (i - 1) * kCols + (kCols - 1 - 1) + 1 + 1 = i * kCols := by omega
    rw [e] at hB
    exact hB
  · intro i2 j hi2 hi2' hj hjc
    have e : i2 = i := by omega
    subst e
    exact h3 j hj (by omega)
  · intro idx hidx
    exact h4 idx (fun j2 hj2 hj2' => hidx i j2 (Nat.le_refl i) (Nat.lt_succ_self i) hj2 (by omega))

/-- Row loop of the kernel, interrupted before row `i`. -/
theorem rowLoop_spec {α : Type} [Add α] [Mul α] (kCols : Nat) (input mask : Nat → α)
    (b i : Nat) (s : KernelState α) (hb : 1 ≤ b) (hbi : b ≤ i) (hc : 2 ≤ kCols)
    (hlm : ∀ t, t < 9 → s.local_mask t = mask t)
    (hW : Window kCols input ((b - 1) * kCols) s.sr) :
    Window kCols input ((i - 1) * kCols) (forLoop b i (rowStep kCols input) s).sr ∧
    (∀ t, t < 9 → (forLoop b i (rowStep kCols input) s).local_mask t = mask t) ∧
    RowsDone kCols input mask b i s.output (forLoop b i (rowStep kCols input) s).output := by
  refine forLoop_inv
    (fun n (t : KernelState α) =>
      Window kCols input ((n - 1) * kCols) t.sr ∧
      (∀ u, u < 9 → t.local_mask u = mask u) ∧
      RowsDone kCols input mask b n s.output t.output)
    b i (rowStep kCols input) s hbi ?_ ?_
  · exact ⟨hW, hlm, RowsDone_refl kCols input mask b s.output⟩
  · rintro n t hbn _ ⟨hWt, hlmt, hdone⟩
    obtain ⟨h1, h2, h3⟩ := rowStep_spec kCols input mask n t (by omega) hc hlmt hWt
    refine ⟨h1, fun u hu => ?_, ?_⟩
    · rw [h2]
      exact hlmt u hu
    · exact RowsDone_trans kCols input mask b n (n + 1) _ _ _ hbn (Nat.le_succ n) hdone h3

/-- The kernel body on the rows `[b, e)` stores the gold value in every interior cell of
these rows and touches no other cell. -/
theorem kernelBody_spec {α : Type} [Add α] [Mul α] (kCols b e : Nat)
    (input mask uninit output : Nat → α) (hb : 1 ≤ b) (hbe : b ≤ e) (hc : 2 ≤ kCols) :
    RowsDone kCols input mask b e output
      (kernelBody kCols b e input mask uninit output).output := by
  obtain ⟨h1, h2, h3⟩ := kernelPrologue_spec kCols b input mask uninit output
  have h := (rowLoop_spec kCols input mask b e _ hb hbe hc h2 h1).2.2
  rw [h3] at h
  exact h

theorem RunKernel_spec {α : Type} [Add α] [Mul α] (kRows kCols k N : Nat)
    (input mask uninit output : Nat → α) (hc : 2 ≤ kCols) :
    RowsDone kCols input mask (begin_k kRows N k) (end_k kRows N k) output
      (RunKernel kRows kCols k N input mask uninit output).output :=
  kernelBody_spec kCols _ _ input mask uninit output (Nat.le_add_left 1 _)
    (begin_le_end kRows N k) hc

/-- All replicas together: every interior cell of the rows `1 .. kRows-2` holds its gold
value and no other cell has changed. -/
theorem runReplicas_spec {α : Type} [Add α] [Mul α] (kRows kCols N : Nat)
    (input mask uninit output : Nat → α) (hr : 2 ≤ kRows) (hc : 2 ≤ kCols) (hN : 1 ≤ N) :
    RowsDone kCols input mask 1 (kRows - 1) output
      (runReplicas kRows kCols N input mask uninit output) := by
  have h := forLoop_inv
    (fun k (out : Nat → α) => RowsDone kCols input mask 1 (begin_k kRows N k) output out)
    0 N (fun k out => (RunKernel kRows kCols k N input mask uninit out).output) output
    (Nat.zero_le N)
    (by
      show RowsDone kCols input mask 1 (begin_k kRows N 0) output output
      rw [begin_k_zero]
      exact RowsDone_refl kCols input mask 1 output)
    (by
      intro k out _ _ hdone
      have h2 := RunKernel_spec kRows kCols k N input mask uninit out hc
      rw [end_k_eq_begin_succ] at h2
      exact RowsDone_trans kCols input mask 1 _ _ _ _ _ (Nat.le_add_left 1 _)
        (begin_k_mono kRows N (Nat.le_succ k)) hdone h2)
  have e : begin_k kRows N N = kRows - 1 := by
    rw [begin_k_last kRows N hN]
    omega
  simp only [e] at h
  exact h

/-! ## The reference computation -/

theorem gold_stencil_spec {α : Type} [Add α] [Mul α] (kRows kCols : Nat)
    (input mask res : Nat → α) (hr : 2 ≤ kRows) (hc : 2 ≤ kCols) :
    RowsDone kCols input mask 1 (kRows - 1) res (gold_stencil kRows kCols input mask res) := by
  unfold gold_stencil
  refine forLoop_inv
    (fun n (t : Nat → α) => RowsDone kCols input mask 1 n res t)
    1 (kRows - 1) _ res (by omega) (RowsDone_refl kCols input mask 1 res) ?_
  intro i t hi _ hdone
  refine RowsDone_trans kCols input mask 1 i (i + 1) _ _ _ hi (Nat.le_succ i) hdone ?_
  have h := forLoop_inv
    (fun n (u : Nat → α) =>
      (∀ j2, 1 ≤ j2 → j2 < n → u (i * kCols + j2) = goldCell kCols input mask i j2) ∧
      (∀ idx, (∀ j2, 1 ≤ j2 → j2 < n → idx ≠ i * kCols + j2) → u idx = t idx))
    1 (kCols - 1)
    (fun j res => store res (i * kCols + j) (goldCell kCols input mask i j)) t (by omega)
    ⟨fun j2 h1 h2 => by omega, fun _ _ => rfl⟩
    (by
      rintro n u hn1 hn2 ⟨hval, hframe⟩
      constructor
      · intro j2 h1 h2
        show store u (i * kCols + n) (goldCell kCols input mask i n) (i * kCols + j2) = _
        by_cases hjn : j2 = n
        · subst hjn
          exact store_same _ _ _
        · rw [store_other _ _ _ _ (by omega)]
          exact hval j2 h1 (by omega)
      · intro idx hidx
        show store u (i * kCols + n) (goldCell kCols input mask i n) idx = _
        rw [store_other _ _ _ _ (hidx n hn1 (by omega))]
        exact hframe idx (fun j2 h1 h2 => hidx j2 h1 (by omega)))
  constructor
  · intro i2 j hi2 hi2' hj hjc
    have e : i2 = i := by omega
    subst e
    exact h.1 j hj (by omega)
  · intro idx hidx
    exact h.2 idx (fun j2 hj2 hj2' =>
      hidx i j2 (Nat.le_refl i) (Nat.lt_succ_self i) hj2 (by omega))

/-! ## The explicit array shift register -/

theorem prime_spec {α : Type} (L : Nat) (source : Nat → α) (start : Nat) (sr : Nat → α)
    (t : Nat) (ht : t < L) : prime L source start sr t = source (start + t) := by
  unfold prime
  have h := forLoop_inv
    (fun n (a : Nat → α) => ∀ u, u < n → a u = source (start + u))
    0 L (fun i sr => store sr i (source (start + i))) sr (Nat.zero_le _)
    (fun u hu => absurd hu (Nat.not_lt_zero u))
    (by
      intro i a _ _ h1 u hu
      show store a i (source (start + i)) u = _
      by_cases hui : u = i
      · subst hui
        exact store_same _ _ _
      · rw [store_other _ _ _ _ hui]
        exact h1 u (by omega))
  exact h t ht

/-- The ascending copy loop moves every slot but the last one position down. -/
theorem shift_loop_spec {α : Type} (n : Nat) (sr : Nat → α) (t : Nat) :
    forLoop 0 n (fun k sr => store sr k (sr (k + 1))) sr t
      = if t < n then sr (t + 1) else sr t := by
  have h := forLoop_inv
    (fun m (a : Nat → α) => ∀ u, a u = if u < m then sr (u + 1) else sr u)
    0 n (fun k sr => store sr k (sr (k + 1))) sr (Nat.zero_le _)
    (fun u => by simp)
    (by
      intro i a _ _ h1 u
      show store a i (a (i + 1)) u = _
      by_cases hui : u = i
      · subst hui
        rw [store_same, h1 (u + 1), if_neg (by omega), if_pos (by omega)]
      · rw [store_other _ _ _ _ hui, h1 u]
        by_cases hlt : u < i
        · rw [if_pos hlt, if_pos (by omega)]
        · rw [if_neg hlt, if_neg (by omega)])
  exact h t

/-- The explicit array shift and the shift register of the library agree on every slot. -/
theorem shift_in_eq_shiftSingleVal {α : Type} (L : Nat) (sr : Nat → α) (v : α) (t : Nat)
    (hL : 1 ≤ L) : shift_in L sr v t = shiftSingleVal L sr v t := by
  unfold shift_in shiftSingleVal
  by_cases h1 : t + 1 < L
  · rw [store_other _ _ _ _ (by omega), shift_loop_spec, if_pos (by omega), if_pos h1]
  · by_cases h2 : t + 1 = L
    · have e : t = L - 1 := by omega
      rw [if_neg h1, if_pos h2, e, store_same]
    · rw [store_other _ _ _ _ (by omega), shift_loop_spec, if_neg (by omega), if_neg h1,
        if_neg h2]

theorem primeThenShift_spec {α : Type} (L : Nat) (source : Nat → α) (start k : Nat)
    (sr : Nat → α) (hL : 1 ≤ L) (t : Nat) (ht : t < L) :
    primeThenShift L source start k sr t = source (start + k + t) := by
  unfold primeThenShift
  have h := forLoop_inv
    (fun m (a : Nat → α) => ∀ u, u < L → a u = source (start + m + u))
    0 k (fun m sr => shift_in L sr (source (start + L + m))) (prime L source start sr)
    (Nat.zero_le _)
    (fun u hu => prime_spec L source start sr u hu)
    (by
      intro m a _ _ h1 u hu
      show shift_in L a (source (start + L + m)) u = _
      rw [shift_in_eq_shiftSingleVal L a _ u hL]
      unfold shiftSingleVal
      by_cases h2 : u + 1 < L
      · rw [if_pos h2, h1 (u + 1) h2]
        congr 1
        omega
      · rw [if_neg h2, if_pos (by omega)]
        congr 1
        omega)
  exact h t ht

/-! ## The accesses of the kernel -/

/-- A property of the accesses that every iteration of a loop maintains holds of the
log the loop leaves. -/
theorem forLoop_log {α : Type} (P : Access → Prop) (lo hi : Nat)
    (body : Nat → KernelState α → KernelState α) (s : KernelState α)
    (hs : ∀ a, a ∈ s.log → P a)
    (hbody : ∀ i t, lo ≤ i → i < hi → (∀ a, a ∈ t.log → P a) →
      ∀ a, a ∈ (body i t).log → P a) :
    ∀ a, a ∈ (forLoop lo hi body s).log → P a := by
  by_cases hle : lo ≤ hi
  · exact forLoop_inv (fun _ (t : KernelState α) => ∀ a, a ∈ t.log → P a) lo hi body s hle hs
      hbody
  · rw [forLoop_of_le _ _ _ _ (by omega)]
    exact hs

theorem tapLog_access (kCols b e : Nat) (a : Access) (ha : a ∈ tapLog kCols) :
    ReplicaAccess kCols b e a := by
  simp only [tapLog, List.mem_cons, List.mem_singleton, List.not_mem_nil, or_false] at ha
  rcases ha with h | h | h | h | h | h | h | h | h | h | h | h | h | h | h | h | h | h <;>
    subst h <;> simp only [ReplicaAccess] <;> omega

theorem shiftFromInput_log {α : Type} (kCols : Nat) (input : Nat → α) (idx : Nat)
    (s : KernelState α) :
    (shiftFromInput kCols input idx s).log = s.log ++ [Access.inputRead idx] := rfl

theorem colStep_log {α : Type} [Add α] [Mul α] (kCols : Nat) (input : Nat → α) (i j : Nat)
    (s : KernelState α) :
    (colStep kCols input i j s).log =
      s.log ++ tapLog kCols ++ [Access.outputWrite (i * kCols + j)] ++
        [Access.inputRead (i * kCols + kCols + 2 + j)] := rfl

theorem rowResync_log {α : Type} (kCols : Nat) (input : Nat → α) (i : Nat)
    (s : KernelState α) :
    (rowResync kCols input i s).log =
      s.log ++ [Access.inputRead (i * kCols + kCols + kCols + 1)] ++
        [Access.inputRead (i * kCols + kCols + kCols + 2)] := rfl

/-- Every access of the kernel body on the rows `[b, e)` is one a replica of these rows
may make. -/
theorem kernelBody_access {α : Type} [Add α] [Mul α] (kCols b e : Nat)
    (input mask uninit output : Nat → α) (hb : 1 ≤ b) (hbe : b ≤ e) :
    ∀ a, a ∈ (kernelBody kCols b e input mask uninit output).log → ReplicaAccess kCols b e a := by
  have hpb := pred_mul_add b kCols hb
  have hbe2 : b * kCols ≤ e * kCols := Nat.mul_le_mul_right kCols hbe
  have he1 : (e + 1) * kCols = e * kCols + kCols := by rw [Nat.add_mul, Nat.one_mul]
  unfold kernelBody kernelPrologue
  apply forLoop_log
  · unfold primeSr
    apply forLoop_log
    · unfold loadMask
      apply forLoop_log
      · intro a ha
        simp [initState] at ha
      · intro i t _ hi9 ht a ha
        have hl : (loadMaskStep mask i t).log
            = t.log ++ [Access.maskRead i, Access.localMaskWrite i] := rfl
        rw [hl] at ha
        simp only [List.mem_append, List.mem_cons, List.mem_singleton, List.not_mem_nil,
          or_false] at ha
        rcases ha with h | h | h
        · exact ht a h
        · subst h
          exact hi9
        · subst h
          exact hi9
    · intro i t _ hiL ht a ha
      have hl : (primeSrStep kCols input b i t).log
          = t.log ++ [Access.inputRead ((b - 1) * kCols + i), Access.srWrite i] := rfl
      rw [hl] at ha
      simp only [List.mem_append, List.mem_cons, List.mem_singleton, List.not_mem_nil,
        or_false] at ha
      rcases ha with h | h | h
      · exact ht a h
      · subst h
        simp only [ReplicaAccess]
        omega
      · subst h
        exact hiL
  · intro i t hbi hie ht a ha
    have hbi2 : b * kCols ≤ i * kCols := Nat.mul_le_mul_right kCols hbi
    have hie2 : (i + 1) * kCols ≤ e * kCols := Nat.mul_le_mul_right kCols hie
    rw [Nat.add_mul, Nat.one_mul] at hie2
    unfold rowStep at ha
    rw [rowResync_log] at ha
    simp only [List.mem_append, List.mem_singleton] at ha
    rcases ha with (h | h) | h
    · revert a
      apply forLoop_log
      · exact ht
      · intro j u hj1 hjc hu a ha
        rw [colStep_log] at ha
        simp only [List.mem_append, List.mem_singleton] at ha
        rcases ha with ((h | h) | h) | h
        · exact hu a h
        · exact tapLog_access kCols b e a h
        · subst h
          exact ⟨i, j, hbi, hie, hj1, by omega, rfl⟩
        · subst h
          simp only [ReplicaAccess]
          omega
    · subst h
      simp only [ReplicaAccess]
      omega
    · subst h
      simp only [ReplicaAccess]
      omega

theorem end_k_le_last (rows N k : Nat) (hN : 1 ≤ N) (hk : k < N) :
    end_k rows N k ≤ rows - 2 + 1 := by
  rw [end_k_eq_begin_succ, ← begin_k_last rows N hN]
  exact begin_k_mono rows N hk

theorem ranges_disjoint (rows N k l r : Nat) (hkl : k ≠ l) :
    ¬ ((begin_k rows N k ≤ r ∧ r < end_k rows N k) ∧
       (begin_k rows N l ≤ r ∧ r < end_k rows N l)) := by
  rintro ⟨⟨h1, h2⟩, h3, h4⟩
  rw [end_k_eq_begin_succ] at h2 h4
  rcases Nat.lt_or_gt_of_ne hkl with h | h
  · have := begin_k_mono rows N (show k + 1 ≤ l from h)
    omega
  · have := begin_k_mono rows N (show l + 1 ≤ k from h)
    omega

/-! ## The state of the kernel in front of a cell -/

theorem stateAtCell_spec {α : Type} [Add α] [Mul α] (kCols b : Nat)
    (input mask uninit output : Nat → α) (i j : Nat) (hb : 1 ≤ b) (hbi : b ≤ i)
    (hj : 1 ≤ j) (hjc : j + 1 ≤ kCols) :
    Window kCols input ((i - 1) * kCols + (j - 1))
      (stateAtCell kCols b input mask uninit output i j).sr := by
  obtain ⟨h1, h2, _⟩ := kernelPrologue_spec kCols b input mask uninit output
  obtain ⟨h3, h4, _⟩ := rowLoop_spec kCols input mask b i _ hb hbi (by omega) h2 h1
  exact (colLoop_spec kCols input mask i j _ (by omega) hj hjc h4 h3).1

/-- The kernel body evaluates the sum of the cell `(i, j)` in the state `stateAtCell`:
the rest of the execution is the column step of `(i, j)` applied to that state, the
remaining columns of row `i`, its two extra shifts and the remaining rows. -/
theorem kernelBody_resume {α : Type} [Add α] [Mul α] (kCols b e : Nat)
    (input mask uninit output : Nat → α) (i j : Nat) (hbi : b ≤ i) (hie : i < e)
    (hj : 1 ≤ j) (hjc : j + 1 < kCols) :
    kernelBody kCols b e input mask uninit output =
      forLoop (i + 1) e (rowStep kCols input)
        (rowResync kCols input i
          (forLoop (j + 1) (kCols - 1) (colStep kCols input i)
            (colStep kCols input i j (stateAtCell kCols b input mask uninit output i j)))) := by
  unfold kernelBody stateAtCell
  rw [forLoop_split b i e _ _ hbi (Nat.le_of_lt hie), forLoop_step i e _ _ hie]
  congr 1
  show rowResync kCols input i (forLoop 1 (kCols - 1) (colStep kCols input i) _) = _
  rw [forLoop_split 1 j (kCols - 1) _ _ hj (by omega), forLoop_step j (kCols - 1) _ _ (by omega)]

/-- The state in front of the first cell of row `i+1` is the state at the end of the
column loop of row `i` after the two extra shifts. -/
theorem stateAtCell_next_row {α : Type} [Add α] [Mul α] (kCols b : Nat)
    (input mask uninit output : Nat → α) (i : Nat) (hbi : b ≤ i) :
    stateAtCell kCols b input mask uninit output (i + 1) 1 =
      rowResync kCols input i (stateAtCell kCols b input mask uninit output i (kCols - 1)) := by
  unfold stateAtCell
  rw [forLoop_of_le 1 1 _ _ (Nat.le_refl 1), forLoop_succ_right b i _ _ hbi]
  rfl

/-! ## The sequence of output writes of the kernel -/

theorem outputWrites_append (l1 l2 : List Access) :
    outputWrites (l1 ++ l2) = outputWrites l1 ++ outputWrites l2 := by
  simp [outputWrites]

theorem outputWrites_tapLog (kCols : Nat) : outputWrites (tapLog kCols) = [] := rfl

theorem outputWrites_prologue {α : Type} (kCols begin : Nat)
    (input mask uninit output : Nat → α) :
    outputWrites (kernelPrologue kCols begin input mask uninit output).log = [] := by
  unfold kernelPrologue primeSr loadMask
  refine forLoop_inv (fun _ (t : KernelState α) => outputWrites t.log = []) 0 _ _ _
    (Nat.zero_le _) ?_ ?_
  · exact forLoop_inv (fun _ (t : KernelState α) => outputWrites t.log = []) 0 9 _ _
      (Nat.zero_le _) rfl (fun i t _ _ ht => by
        show outputWrites (t.log ++ _) = []
        rw [outputWrites_append, ht]
        rfl)
  · intro i t _ _ ht
    show outputWrites (t.log ++ _) = []
    rw [outputWrites_append, ht]
    rfl

theorem outputWrites_colStep {α : Type} [Add α] [Mul α] (kCols : Nat) (input : Nat → α)
    (i j : Nat) (s : KernelState α) :
    outputWrites (colStep kCols input i j s).log = outputWrites s.log ++ [i * kCols + j] := by
  rw [colStep_log]
  simp only [outputWrites_append, outputWrites_tapLog]
  simp [outputWrites]

theorem outputWrites_rowResync {α : Type} (kCols : Nat) (input : Nat → α) (i : Nat)
    (s : KernelState α) :
    outputWrites (rowResync kCols input i s).log = outputWrites s.log := by
  rw [rowResync_log]
  simp [outputWrites]

theorem outputWrites_colLoop {α : Type} [Add α] [Mul α] (kCols : Nat) (input : Nat → α)
    (i n : Nat) (s : KernelState α) (hn : 1 ≤ n) :
    outputWrites (forLoop 1 n (colStep kCols input i) s).log =
      outputWrites s.log ++ (List.range' 1 (n - 1)).map (fun j => i * kCols + j) := by
  refine forLoop_inv
    (fun m (t : KernelState α) => outputWrites t.log =
      outputWrites s.log ++ (List.range' 1 (m - 1)).map (fun j => i * kCols + j))
    1 n (colStep kCols input i) s hn (by simp) ?_
  intro m t hm _ ht
  rw [outputWrites_colStep, ht]
  obtain ⟨q, rfl⟩ : ∃ q, m = q + 1 := ⟨m - 1, by omega⟩
  simp only [Nat.add_sub_cancel]
  rw [List.range'_concat]
  simp [Nat.add_comm]

theorem outputWrites_rowStep {α : Type} [Add α] [Mul α] (kCols : Nat) (input : Nat → α)
    (i : Nat) (s : KernelState α) (hc : 2 ≤ kCols) :
    outputWrites (rowStep kCols input i s).log = outputWrites s.log ++ rowCells kCols i := by
  unfold rowStep
  rw [outputWrites_rowResync, outputWrites_colLoop kCols input i (kCols - 1) s (by omega)]
  rfl

theorem outputWrites_rowLoop {α : Type} [Add α] [Mul α] (kCols : Nat) (input : Nat → α)
    (b e : Nat) (s : KernelState α) (hc : 2 ≤ kCols) (hbe : b ≤ e) :
    outputWrites (forLoop b e (rowStep kCols input) s).log =
      outputWrites s.log ++ rowMajorCells kCols b e := by
  refine forLoop_inv
    (fun m (t : KernelState α) => outputWrites t.log =
      outputWrites s.log ++ rowMajorCells kCols b m)
    b e (rowStep kCols input) s hbe (by simp [rowMajorCells]) ?_
  intro m t hm _ ht
  rw [outputWrites_rowStep kCols input m t hc, ht]
  unfold rowMajorCells
  have e1 : m + 1 - b = (m - b) + 1 := by omega
  rw [e1, List.range'_concat]
  have e2 : b + (m - b) = m := by omega
  simp [List.flatMap_append, e2]

theorem outputWrites_kernelBody {α : Type} [Add α] [Mul α] (kCols b e : Nat)
    (input mask uninit output : Nat → α) (hc : 2 ≤ kCols) (hbe : b ≤ e) :
    outputWrites (kernelBody kCols b e input mask uninit output).log
      = rowMajorCells kCols b e := by
  unfold kernelBody
  rw [outputWrites_rowLoop kCols input b e _ hc hbe, outputWrites_prologue]
  rfl

theorem mem_rowCells (kCols i c : Nat) :
    c ∈ rowCells kCols i ↔ ∃ j, 1 ≤ j ∧ j + 1 < kCols ∧ c = i * kCols + j := by
  unfold rowCells
  simp only [List.mem_map, List.mem_range'_1]
  constructor
  · rintro ⟨j, ⟨h1, h2⟩, rfl⟩
    exact ⟨j, h1, by omega, rfl⟩
  · rintro ⟨j, h1, h2, rfl⟩
    exact ⟨j, ⟨h1, by omega⟩, rfl⟩

theorem mem_rowMajorCells (kCols b e c : Nat) :
    c ∈ rowMajorCells kCols b e ↔
      ∃ i j, b ≤ i ∧ i < e ∧ 1 ≤ j ∧ j + 1 < kCols ∧ c = i * kCols + j := by
  unfold rowMajorCells
  simp only [List.mem_flatMap, List.mem_range'_1, mem_rowCells]
  constructor
  · rintro ⟨i, ⟨h1, h2⟩, j, h3, h4, rfl⟩
    exact ⟨i, j, h1, by omega, h3, h4, rfl⟩
  · rintro ⟨i, j, h1, h2, h3, h4, rfl⟩
    exact ⟨i, ⟨h1, by omega⟩, j, h3, h4, rfl⟩

theorem rowCells_pairwise (kCols i : Nat) :
    (rowCells kCols i).Pairwise (fun a b => a < b) := by
  unfold rowCells
  rw [List.pairwise_map]
  exact (List.pairwise_lt_range' 1 (kCols - 2)).imp (fun h => by omega)

theorem rowMajorCells_pairwise (kCols b e : Nat) :
    (rowMajorCells kCols b e).Pairwise (fun a b => a < b) := by
  unfold rowMajorCells
  generalize e - b = n
  induction n generalizing b with
  | zero => simp
  | succ m ih =>
    rw [List.range'_succ, List.flatMap_cons, List.pairwise_append]
    refine ⟨rowCells_pairwise kCols b, ih (b + 1), ?_⟩
    intro a ha c hc
    rw [mem_rowCells] at ha
    obtain ⟨j, _, hj, rfl⟩ := ha
    simp only [List.mem_flatMap, List.mem_range'_1, mem_rowCells] at hc
    obtain ⟨i2, ⟨h1, _⟩, j2, _, _, rfl⟩ := hc
    have h3 : (b + 1) * kCols ≤ i2 * kCols := Nat.mul_le_mul_right kCols h1
    rw [Nat.add_mul, Nat.one_mul] at h3
    omega

/-! ## Replicas in a given order: lemmas -/

theorem forLoop_eq_foldl_range {σ : Type} (n : Nat) (body : Nat → σ → σ) (s : σ) :
    forLoop 0 n body s = (List.range n).foldl (fun t k => body k t) s := by
  induction n with
  | zero => rfl
  | succ m ih =>
    rw [forLoop_succ_right 0 m body s (Nat.zero_le m), ih, List.range_succ, List.foldl_append]
    rfl

theorem runReplicas_eq_runReplicasIn {α : Type} [Add α] [Mul α] (kRows kCols N : Nat)
    (input mask uninit output : Nat → α) :
    runReplicas kRows kCols N input mask uninit output =
      runReplicasIn kRows kCols N input mask uninit (List.range N) output :=
  forLoop_eq_foldl_range N _ output

/-- Two arrays obtained from the same array by storing the gold values in the same rows
are equal. -/
theorem RowsIn_unique {α : Type} [Add α] [Mul α] (kCols : Nat) (input mask : Nat → α)
    (S T : Nat → Prop) (hST : ∀ i, S i ↔ T i) (out0 out1 out2 : Nat → α)
    (h1 : RowsIn kCols input mask S out0 out1) (h2 : RowsIn kCols input mask T out0 out2) :
    out1 = out2 := by
  funext idx
  by_cases hc : ∃ i j, S i ∧ 1 ≤ j ∧ j + 1 < kCols ∧ idx = i * kCols + j
  · obtain ⟨i, j, hS, hj, hjc, rfl⟩ := hc
    rw [h1.1 i j hS hj hjc, h2.1 i j ((hST i).1 hS) hj hjc]
  · have hn : ∀ i j, S i → 1 ≤ j → j + 1 < kCols → idx ≠ i * kCols + j :=
      fun i j hS hj hjc heq => hc ⟨i, j, hS, hj, hjc, heq⟩
    rw [h1.2 idx hn, h2.2 idx (fun i j hT => hn i j ((hST i).2 hT))]

/-- Running one more replica adds its rows to the rows that hold their gold values. -/
theorem RowsIn_step {α : Type} [Add α] [Mul α] (kCols : Nat) (input mask : Nat → α)
    (S : Nat → Prop) (b e : Nat) (out0 out1 out2 : Nat → α)
    (h1 : RowsIn kCols input mask S out0 out1)
    (h2 : RowsDone kCols input mask b e out1 out2) :
    RowsIn kCols input mask (fun i => S i ∨ (b ≤ i ∧ i < e)) out0 out2 := by
  constructor
  · intro i j hS hj hjc
    by_cases hbe : b ≤ i ∧ i < e
    · exact h2.1 i j hbe.1 hbe.2 hj hjc
    · have hSi : S i := hS.resolve_right hbe
      rw [h2.2 (i * kCols + j) (fun i2 j2 hb he hj2 hjc2 heq => by
        obtain ⟨e1, _⟩ := cell_inj (show j < kCols by omega) (show j2 < kCols by omega) heq
        exact hbe ⟨e1 ▸ hb, e1 ▸ he⟩)]
      exact h1.1 i j hSi hj hjc
  · intro idx hidx
    rw [h2.2 idx (fun i j hb he hj hjc => hidx i j (Or.inr ⟨hb, he⟩) hj hjc)]
    exact h1.2 idx (fun i j hS hj hjc => hidx i j (Or.inl hS) hj hjc)

/-- The replicas of a list, run in the order of the list, store the gold values in the
rows of their ranges. -/
theorem runReplicasIn_spec {α : Type} [Add α] [Mul α] (kRows kCols N : Nat)
    (input mask uninit : Nat → α) (hc : 2 ≤ kCols) (order : List Nat) (S : Nat → Prop)
    (out0 out : Nat → α) (h : RowsIn kCols input mask S out0 out) :
    RowsIn kCols input mask
      (fun i => S i ∨ ∃ k, k ∈ order ∧ begin_k kRows N k ≤ i ∧ i < end_k kRows N k)
      out0 (runReplicasIn kRows kCols N input mask uninit order out) := by
  induction order generalizing S out with
  | nil =>
    refine ⟨fun i j hS => h.1 i j (hS.resolve_right (by simp)), fun idx hidx => ?_⟩
    exact h.2 idx (fun i j hS => hidx i j (Or.inl hS))
  | cons k rest ih =>
    have h2 := RowsIn_step kCols input mask S _ _ out0 out _ h
      (RunKernel_spec kRows kCols k N input mask uninit out hc)
    have h3 := ih _ _ h2
    have hiff : ∀ i, ((S i ∨ (begin_k kRows N k ≤ i ∧ i < end_k kRows N k)) ∨
        ∃ k2, k2 ∈ rest ∧ begin_k kRows N k2 ≤ i ∧ i < end_k kRows N k2) ↔
        (S i ∨ ∃ k2, k2 ∈ k :: rest ∧ begin_k kRows N k2 ≤ i ∧ i < end_k kRows N k2) := by
      intro i
      simp only [List.mem_cons]
      constructor
      · rintro ((hS | hk) | ⟨k2, hk2, hr⟩)
        · exact Or.inl hS
        · exact Or.inr ⟨k, Or.inl rfl, hk⟩
        · exact Or.inr ⟨k2, Or.inr hk2, hr⟩
      · rintro (hS | ⟨k2, rfl | hk2, hr⟩)
        · exact Or.inl (Or.inl hS)
        · exact Or.inl (Or.inr hr)
        · exact Or.inr ⟨k2, hk2, hr⟩
    exact ⟨fun i j hS => h3.1 i j ((hiff i).2 hS),
      fun idx hidx => h3.2 idx (fun i j hS => hidx i j ((hiff i).1 hS))⟩

theorem RowsIn_refl {α : Type} [Add α] [Mul α] (kCols : Nat) (input mask : Nat → α)
    (out : Nat → α) : RowsIn kCols input mask (fun _ => False) out out :=
  ⟨fun _ _ h => absurd h id, fun _ _ => rfl⟩

/-! ## The kernel on degenerate grids -/

theorem sizeSub_of_le (a b : Nat) (hb : b ≤ a) (ha : a < sizeModulus) :
    sizeSub a b = a - b := by
  unfold sizeSub
  have e : a + sizeModulus - b = a - b + sizeModulus := by omega
  rw [e, Nat.add_mod_right, Nat.mod_eq_of_lt (by omega)]

theorem intOfSize_toNat_le (n : Nat) : (intOfSize n).toNat ≤ n := by
  unfold intOfSize
  have h := Nat.mod_le n 4294967296
  split <;> omega

theorem endSizeT_single_toNat_le (kRows : Nat) (hr : kRows < sizeModulus) :
    (endSizeT kRows 1 0).toNat + 1 ≤ max kRows 2 := by
  by_cases h3 : 3 ≤ kRows
  · have e : endSizeT kRows 1 0 = intOfSize (kRows - 1) := by
      unfold endSizeT
      rw [sizeSub_of_le kRows 2 (by omega) hr]
      have e1 : (0 + 1) * (kRows - 2) % sizeModulus / 1 + 1 = kRows - 1 := by
        rw [Nat.zero_add, Nat.one_mul, Nat.div_one, Nat.mod_eq_of_lt (by omega)]
        omega
      rw [e1, Nat.mod_eq_of_lt (by omega)]
    have h := intOfSize_toNat_le (kRows - 1)
    rw [e]
    omega
  · have h : kRows = 0 ∨ kRows = 1 ∨ kRows = 2 := by omega
    rcases h with rfl | rfl | rfl <;> decide

/-- An access logged before a loop is still in the log after it, when every iteration
keeps the log it finds. -/
theorem forLoop_log_mono {α : Type} (a : Access) (lo hi : Nat)
    (body : Nat → KernelState α → KernelState α) (s : KernelState α)
    (hbody : ∀ i t, a ∈ t.log → a ∈ (body i t).log) (h : a ∈ s.log) :
    a ∈ (forLoop lo hi body s).log := by
  by_cases hle : lo ≤ hi
  · exact forLoop_inv (fun _ (t : KernelState α) => a ∈ t.log) lo hi body s hle h
      (fun i t _ _ ht => hbody i t ht)
  · rw [forLoop_of_le _ _ _ _ (by omega)]
    exact h

/-! ## The explicit-array kernel simulates the replicated kernel -/

theorem forLoop_sim {σ τ : Type} (R : σ → τ → Prop) (lo hi : Nat)
    (f : Nat → σ → σ) (g : Nat → τ → τ) (s : σ) (t : τ) (h0 : R s t)
    (hstep : ∀ i s2 t2, lo ≤ i → i < hi → R s2 t2 → R (f i s2) (g i t2)) :
    R (forLoop lo hi f s) (forLoop lo hi g t) := by
  induction hi with
  | zero =>
    rw [forLoop_of_le _ _ _ _ (Nat.zero_le lo), forLoop_of_le _ _ _ _ (Nat.zero_le lo)]
    exact h0
  | succ m ih =>
    by_cases hm : lo ≤ m
    · rw [forLoop_succ_right _ _ _ _ hm, forLoop_succ_right _ _ _ _ hm]
      exact hstep m _ _ hm (Nat.lt_succ_self m)
        (ih (fun i s2 t2 h1 h2 h3 => hstep i s2 t2 h1 (Nat.lt_succ_of_lt h2) h3))
    · rw [forLoop_of_le _ _ _ _ (by omega), forLoop_of_le _ _ _ _ (by omega)]
      exact h0

/-- The ascending copy loop `sr[k]=sr[k+d]` moves the first `n` slots `d` positions down. -/
theorem copy_loop_spec {α : Type} (n d : Nat) (sr : Nat → α) (t : Nat) :
    forLoop 0 n (fun k sr => store sr k (sr (k + d))) sr t
      = if t < n then sr (t + d) else sr t := by
  have h := forLoop_inv
    (fun m (a : Nat → α) => ∀ u, a u = if u < m then sr (u + d) else sr u)
    0 n (fun k sr => store sr k (sr (k + d))) sr (Nat.zero_le _)
    (fun u => by simp)
    (by
      intro i a _ _ h1 u
      show store a i (a (i + d)) u = _
      by_cases hui : u = i
      · subst hui
        rw [store_same, h1 (u + d), if_neg (by omega), if_pos (by omega)]
      · rw [store_other _ _ _ _ hui, h1 u]
        by_cases hlt : u < i
        · rw [if_pos hlt, if_pos (by omega)]
        · rw [if_neg hlt, if_neg (by omega)])
  exact h t

/-- The shift by two is two shifts by one. -/
theorem shift_in2_eq {α : Type} (kCols : Nat) (sr : Nat → α) (v1 v2 : α) (u : Nat)
    (hu : u < 2 * kCols + 3) :
    shift_in2 kCols sr v1 v2 u =
      shiftSingleVal (2 * kCols + 3) (shiftSingleVal (2 * kCols + 3) sr v1) v2 u := by
  unfold shift_in2 shiftSingleVal
  by_cases h1 : u < 2 * kCols + 1
  · rw [store_other _ _ _ _ (by omega), store_other _ _ _ _ (by omega), copy_loop_spec,
      if_pos h1, if_pos (by omega), if_pos (by omega)]
  · by_cases h2 : u = 2 * kCols + 1
    · subst h2
      rw [store_other _ _ _ _ (by omega), store_same, if_pos (by omega), if_neg (by omega),
        if_pos (by omega)]
    · have h3 : u = 2 * kCols + 2 := by omega
      subst h3
      rw [store_same, if_neg (by omega), if_pos (by omega)]

theorem shiftSingleVal_congr {α : Type} (L : Nat) (sr1 sr2 : Nat → α) (v : α)
    (h : ∀ u, u < L → sr1 u = sr2 u) (u : Nat) (hu : u < L) :
    shiftSingleVal L sr1 v u = shiftSingleVal L sr2 v u := by
  unfold shiftSingleVal
  by_cases h1 : u + 1 < L
  · rw [if_pos h1, if_pos h1, h (u + 1) h1]
  · rw [if_neg h1, if_neg h1, if_pos (by omega), if_pos (by omega)]

theorem tapSum_congr {α : Type} [Add α] [Mul α] (kCols : Nat) (lm1 lm2 sr1 sr2 : Nat → α)
    (hlm : ∀ u, u < 9 → lm1 u = lm2 u) (hsr : ∀ u, u < 2 * kCols + 3 → sr1 u = sr2 u) :
    tapSum kCols lm1 sr1 = tapSum kCols lm2 sr2 := by
  unfold tapSum
  rw [hlm 0 (by omega), hlm 1 (by omega), hlm 2 (by omega), hlm 3 (by omega),
    hlm 4 (by omega), hlm 5 (by omega), hlm 6 (by omega), hlm 7 (by omega), hlm 8 (by omega),
    hsr 0 (by omega), hsr 1 (by omega), hsr 2 (by omega), hsr kCols (by omega),
    hsr (kCols + 1) (by omega), hsr (kCols + 2) (by omega), hsr (2 * kCols) (by omega),
    hsr (2 * kCols + 1) (by omega), hsr (2 * kCols + 2) (by omega)]

theorem srpLoadMask_spec {α : Type} (mask : Nat → α) (s : SrpState α) :
    (∀ u, u < 9 → (srpLoadMask mask s).local_mask u = mask u) ∧
    (srpLoadMask mask s).sr = s.sr ∧ (srpLoadMask mask s).output = s.output :=
  ⟨fun u hu => by interval_cases u <;> rfl, rfl, rfl⟩

theorem srpColStep_sim {α : Type} [Add α] [Mul α] (kCols : Nat) (input : Nat → α)
    (i j : Nat) (s : SrpState α) (t : KernelState α) (h : SrpSim kCols s t) :
    SrpSim kCols (srpColStep kCols input i j s) (colStep kCols input i j t) := by
  obtain ⟨h1, h2, h3⟩ := h
  refine ⟨h1, fun u hu => ?_, ?_⟩
  · show shift_in (2 * kCols + 3) s.sr _ u = shiftSingleVal (2 * kCols + 3) t.sr _ u
    rw [shift_in_eq_shiftSingleVal _ _ _ _ (by omega)]
    exact shiftSingleVal_congr _ _ _ _ h2 u hu
  · show store s.output _ (tapSum kCols s.local_mask s.sr)
      = store t.output _ (tapSum kCols t.local_mask t.sr)
    rw [h3, tapSum_congr kCols _ _ _ _ h1 h2]

theorem srpRowStep_sim {α : Type} [Add α] [Mul α] (kCols : Nat) (input : Nat → α)
    (i : Nat) (s : SrpState α) (t : KernelState α) (h : SrpSim kCols s t) :
    SrpSim kCols (srpRowStep kCols input i s) (rowStep kCols input i t) := by
  obtain ⟨h1, h2, h3⟩ := forLoop_sim (SrpSim kCols) 1 (kCols - 1) (srpColStep kCols input i)
    (colStep kCols input i) s t h (fun j s2 t2 _ _ hs => srpColStep_sim kCols input i j s2 t2 hs)
  refine ⟨h1, fun u hu => ?_, h3⟩
  show shift_in2 kCols _ _ _ u = shiftSingleVal (2 * kCols + 3)
    (shiftSingleVal (2 * kCols + 3) _ _) _ u
  rw [shift_in2_eq kCols _ _ _ u hu]
  exact shiftSingleVal_congr _ _ _ _
    (fun w hw => shiftSingleVal_congr _ _ _ _ h2 w hw) u hu

/-- The explicit-array kernel computes the output of the replicated kernel body on the
rows `[1, kRows-1)`. -/
theorem RunKernel_srp_templ_sim {α : Type} [Add α] [Mul α] (kRows kCols : Nat)
    (input mask uninit output : Nat → α) :
    (RunKernel_srp_templ kRows kCols input mask uninit output).output =
      (kernelBody kCols 1 (kRows - 1) input mask uninit output).output := by
  unfold RunKernel_srp_templ kernelBody
  refine (forLoop_sim (SrpSim kCols) 1 (kRows - 1) (srpRowStep kCols input)
    (rowStep kCols input) _ _ ?_
    (fun i s2 t2 _ _ hs => srpRowStep_sim kCols input i s2 t2 hs)).2.2
  obtain ⟨g1, g2, g3⟩ := kernelPrologue_spec kCols 1 input mask uninit output
  obtain ⟨k1, k2, k3⟩ := srpLoadMask_spec mask
    { local_mask := uninit, sr := uninit, output := output }
  refine ⟨fun u hu => ?_, fun u hu => ?_, ?_⟩
  · rw [g2 u hu]
    exact k1 u hu
  · show prime (2 * kCols + 3) input 0 _ u = _
    rw [prime_spec _ _ _ _ u hu, g1 u hu]
    simp
  · rw [g3]
    exact k3

/-! ## Loops over the interior cells, the naive kernel and the vector add -/

theorem CellsDone_refl {α : Type} (val : Nat → Nat → α) (kCols b : Nat) (out : Nat → α) :
    CellsDone val kCols b b out out :=
  ⟨fun _ _ h1 h2 _ _ => absurd h2 (Nat.not_lt.mpr h1), fun _ _ => rfl⟩

theorem CellsDone_trans {α : Type} (val : Nat → Nat → α) (kCols b m e : Nat)
    (o0 o1 o2 : Nat → α) (hbm : b ≤ m) (hme : m ≤ e)
    (h1 : CellsDone val kCols b m o0 o1) (h2 : CellsDone val kCols m e o1 o2) :
    CellsDone val kCols b e o0 o2 := by
  constructor
  · intro i j hbi hie hj hjc
    by_cases him : i < m
    · rw [h2.2 (i * kCols + j) (fun i2 j2 hmi _ _ _ =>
        cell_ne (Nat.lt_of_lt_of_le him hmi) (by omega))]
      exact h1.1 i j hbi him hj hjc
    · exact h2.1 i j (by omega) hie hj hjc
  · intro idx hidx
    rw [h2.2 idx (fun i j hmi hie hj hjc => hidx i j (by omega) hie hj hjc)]
    exact h1.2 idx (fun i j hbi him hj hjc => hidx i j hbi (by omega) hj hjc)

/-- Two nested loops over the interior cells whose body stores `val i j` in the cell
`(i, j)` leave `val` in every interior cell and touch no other cell. -/
theorem cellLoops_spec {α : Type} (val : Nat → Nat → α) (kRows kCols : Nat)
    (cellBody : Nat → Nat → (Nat → α) → (Nat → α))
    (hbody : ∀ i j out, cellBody i j out = store out (i * kCols + j) (val i j))
    (out0 : Nat → α) (hr : 2 ≤ kRows) (hc : 2 ≤ kCols) :
    CellsDone val kCols 1 (kRows - 1) out0
      (forLoop 1 (kRows - 1) (fun i out => forLoop 1 (kCols - 1) (cellBody i) out) out0) := by
  refine forLoop_inv
    (fun n (t : Nat → α) => CellsDone val kCols 1 n out0 t)
    1 (kRows - 1) _ out0 (by omega) (CellsDone_refl val kCols 1 out0) ?_
  intro i t hi _ hdone
  refine CellsDone_trans val kCols 1 i (i + 1) _ _ _ hi (Nat.le_succ i) hdone ?_
  have h := forLoop_inv
    (fun n (u : Nat → α) =>
      (∀ j2, 1 ≤ j2 → j2 < n → u (i * kCols + j2) = val i j2) ∧
      (∀ idx, (∀ j2, 1 ≤ j2 → j2 < n → idx ≠ i * kCols + j2) → u idx = t idx))
    1 (kCols - 1) (cellBody i) t (by omega)
    ⟨fun j2 h1 h2 => by omega, fun _ _ => rfl⟩
    (by
      rintro n u hn1 hn2 ⟨hval, hframe⟩
      rw [hbody]
      constructor
      · intro j2 h1 h2
        by_cases hjn : j2 = n
        · subst hjn
          exact store_same _ _ _
        · rw [store_other _ _ _ _ (by omega)]
          exact hval j2 h1 (by omega)
      · intro idx hidx
        rw [store_other _ _ _ _ (hidx n hn1 (by omega))]
        exact hframe idx (fun j2 h1 h2 => hidx j2 h1 (by omega)))
  constructor
  · intro i2 j hi2 hi3 hj hjc
    have e : i2 = i := by omega
    subst e
    exact h.1 j hj (by omega)
  · intro idx hidx
    exact h.2 idx (fun j2 hj2 hj3 =>
      hidx i j2 (Nat.le_refl i) (Nat.lt_succ_self i) hj2 (by omega))

theorem naiveCell_eq {α : Type} [Zero α] [Add α] [Mul α] (kCols : Nat) (input mask : Nat → α)
    (i j : Nat) (output : Nat → α) :
    naiveCell kCols input mask i j output =
      store output (i * kCols + j)
        (naiveSum kCols input (fun m n => mask (m * 3 + n)) i j) := by
  funext t
  by_cases h : t = i * kCols + j
  · subst h
    simp [naiveCell, naiveSum, forLoop, forCount, store]
  · simp [naiveCell, forLoop, forCount, store, h]

theorem goldNaiveCell_eq {α : Type} [Zero α] [Add α] [Mul α] (kCols : Nat) (input : Nat → α)
    (mask : Nat → Nat → α) (i j : Nat) (res : Nat → α) :
    goldNaiveCell kCols input mask i j res =
      store res (i * kCols + j) (naiveSum kCols input mask i j) := by
  funext t
  by_cases h : t = i * kCols + j
  · subst h
    simp [goldNaiveCell, naiveSum, forLoop, forCount, store]
  · simp [goldNaiveCell, forLoop, forCount, store, h]

theorem vaddKernel_spec {α : Type} [Add α] (n : Nat) (a b sum : Nat → α) (t : Nat) :
    vaddKernel n a b sum t = if t < n then a t + b t else sum t := by
  unfold vaddKernel
  have h := forLoop_inv
    (fun m (s : Nat → α) => ∀ u, s u = if u < m then a u + b u else sum u)
    0 n (fun i sum => store sum i (a i + b i)) sum (Nat.zero_le _)
    (fun u => by simp)
    (by
      intro i s _ _ h1 u
      show store s i (a i + b i) u = _
      by_cases hui : u = i
      · subst hui
        rw [store_same, if_pos (by omega)]
      · rw [store_other _ _ _ _ hui, h1 u]
        by_cases hlt : u < i
        · rw [if_pos hlt, if_pos (by omega)]
        · rw [if_neg hlt, if_neg (by omega)])
  exact h t

/-- One call of `VectorAdd` puts `a[g]+b[g]` in the elements of its slice and leaves the
other elements of `sum_parallel` as they were. -/
theorem VectorAdd_spec {α : Type} [Add α] (k N n : Nat) (a b sum : Nat → α) (g : Nat) :
    VectorAdd k N n a b sum g =
      if k * n / N ≤ g ∧ g < (k + 1) * n / N then a g + b g else sum g := by
  unfold VectorAdd
  by_cases h : k * n / N ≤ g ∧ g < (k + 1) * n / N
  · rw [if_pos h, if_pos h, vaddKernel_spec, if_pos (by omega)]
    have e : k * n / N + (g - k * n / N) = g := by omega
    rw [e]
  · rw [if_neg h, if_neg h]

/-! ## The invariant of the single loop -/

theorem loop1Step_sr0 {α : Type} [Add α] [Mul α] (kCols : Nat) (input : Nat → α) (i : Nat)
    (s : Loop1State α) :
    (loop1Step kCols input i s).sr0 = shiftSingleVal 3 s.sr0 (input (i - kCols + 2)) := by
  unfold loop1Step
  split <;> rfl

theorem loop1Step_sr1 {α : Type} [Add α] [Mul α] (kCols : Nat) (input : Nat → α) (i : Nat)
    (s : Loop1State α) :
    (loop1Step kCols input i s).sr1 = shiftSingleVal 3 s.sr1 (input (i + 2)) := by
  unfold loop1Step
  split <;> rfl

theorem loop1Step_sr2 {α : Type} [Add α] [Mul α] (kCols : Nat) (input : Nat → α) (i : Nat)
    (s : Loop1State α) :
    (loop1Step kCols input i s).sr2 = shiftSingleVal 3 s.sr2 (input (i + kCols + 2)) := by
  unfold loop1Step
  split <;> rfl

theorem loop1Step_local_mask {α : Type} [Add α] [Mul α] (kCols : Nat) (input : Nat → α)
    (i : Nat) (s : Loop1State α) :
    (loop1Step kCols input i s).local_mask = s.local_mask := by
  unfold loop1Step
  split <;> rfl

theorem loop1Step_output {α : Type} [Add α] [Mul α] (kCols : Nat) (input : Nat → α)
    (i : Nat) (s : Loop1State α) :
    (loop1Step kCols input i s).output =
      if loop1Guard kCols i = true then
        store s.output (i - kCols + 1)
          (loop1Sum s.local_mask
            (shiftSingleVal 3 s.sr0 (input (i - kCols + 2)))
            (shiftSingleVal 3 s.sr1 (input (i + 2)))
            (shiftSingleVal 3 s.sr2 (input (i + kCols + 2))))
      else s.output := by
  unfold loop1Step
  split <;> rfl

/-- For a power of two `kCols` the guard holds at the index in front of an interior
cell: `i+1 = r*kCols + j` with `1 ≤ j ≤ kCols-2`. -/
theorem loop1Guard_interior (p r j i : Nat) (hj : 1 ≤ j) (hjc : j + 1 < 2 ^ p)
    (hi : i + 1 = r * 2 ^ p + j) : loop1Guard (2 ^ p) i = true := by
  unfold loop1Guard
  have e1 : (i + 1) % 2 ^ p = j := by
    rw [hi, Nat.add_comm, Nat.add_mul_mod_self_right, Nat.mod_eq_of_lt (by omega)]
  have e2 : (i + 2) % 2 ^ p = j + 1 := by
    have e3 : i + 2 = j + 1 + r * 2 ^ p := by omega
    rw [e3, Nat.add_mul_mod_self_right, Nat.mod_eq_of_lt hjc]
  rw [Nat.and_pow_two_sub_one_eq_mod, Nat.and_pow_two_sub_one_eq_mod, e1, e2]
  simp
  omega

theorem shiftSingleVal3 {α : Type} (sr : Nat → α) (v : α) :
    shiftSingleVal 3 sr v 0 = sr 1 ∧ shiftSingleVal 3 sr v 1 = sr 2 ∧
    shiftSingleVal 3 sr v 2 = v :=
  ⟨rfl, rfl, rfl⟩

theorem loop1Prologue_spec {α : Type} (kCols : Nat) (input mask uninit output : Nat → α) :
    (loop1Prologue kCols input mask uninit output).sr0 1 = input 0 ∧
    (loop1Prologue kCols input mask uninit output).sr0 2 = input 1 ∧
    (loop1Prologue kCols input mask uninit output).sr1 1 = input (0 + kCols) ∧
    (loop1Prologue kCols input mask uninit output).sr1 2 = input (1 + kCols) ∧
    (loop1Prologue kCols input mask uninit output).sr2 1 = input (0 + 2 * kCols) ∧
    (loop1Prologue kCols input mask uninit output).sr2 2 = input (1 + 2 * kCols) ∧
    (∀ u, u < 9 → (loop1Prologue kCols input mask uninit output).local_mask u = mask u) ∧
    (loop1Prologue kCols input mask uninit output).output = output :=
  ⟨rfl, rfl, rfl, rfl, rfl, rfl, fun u hu => by interval_cases u <;> rfl, rfl⟩

/-- The single loop, interrupted before the index `i`: the registers hold the two
elements in front of `i-kCols`, `i` and `i+kCols`, and every interior cell `(r, j)` of the
input buffer with `r*kCols + j ≤ i` has its nine-term sum in `output[(r-1)*kCols + j]`. -/
theorem loop1_inv {α : Type} [Add α] [Mul α] (p : Nat) (input mask uninit output : Nat → α)
    (hi : Nat) (hle : 2 ^ p ≤ hi) :
    (∀ r j, 1 ≤ r → 1 ≤ j → j + 1 < 2 ^ p → r * 2 ^ p + j ≤ hi →
      (forLoop (2 ^ p) hi (loop1Step (2 ^ p) input)
        (loop1Prologue (2 ^ p) input mask uninit output)).output ((r - 1) * 2 ^ p + j)
        = goldCell (2 ^ p) input mask r j) := by
  refine (forLoop_inv
    (fun i (s : Loop1State α) =>
      (s.sr0 1 = input (i - 2 ^ p) ∧ s.sr0 2 = input (i - 2 ^ p + 1)) ∧
      (s.sr1 1 = input i ∧ s.sr1 2 = input (i + 1)) ∧
      (s.sr2 1 = input (i + 2 ^ p) ∧ s.sr2 2 = input (i + 2 ^ p + 1)) ∧
      (∀ u, u < 9 → s.local_mask u = mask u) ∧
      (∀ r j, 1 ≤ r → 1 ≤ j → j + 1 < 2 ^ p → r * 2 ^ p + j ≤ i →
        s.output ((r - 1) * 2 ^ p + j) = goldCell (2 ^ p) input mask r j))
    (2 ^ p) hi (loop1Step (2 ^ p) input) (loop1Prologue (2 ^ p) input mask uninit output) hle
    ?_ ?_).2.2.2.2
  · obtain ⟨h1, h2, h3, h4, h5, h6, h7, _⟩ :=
      loop1Prologue_spec (2 ^ p) input mask uninit output
    refine ⟨⟨?_, ?_⟩, ⟨?_, ?_⟩, ⟨?_, ?_⟩, h7, ?_⟩
    · rw [h1, Nat.sub_self]
    · rw [h2, Nat.sub_self]
    · rw [h3, Nat.zero_add]
    · rw [h4, Nat.add_comm]
    · rw [h5]
      congr 1
      omega
    · rw [h6]
      congr 1
      omega
    · intro r j hr hj _ hrj
      have h8 : 1 * 2 ^ p ≤ r * 2 ^ p := Nat.mul_le_mul_right _ hr
      omega
  · rintro i s hpi _ ⟨⟨a1, a2⟩, ⟨b1, b2⟩, ⟨c1, c2⟩, hlm, hout⟩
    have e0 := shiftSingleVal3 s.sr0 (input (i - 2 ^ p + 2))
    have e1 := shiftSingleVal3 s.sr1 (input (i + 2))
    have e2 := shiftSingleVal3 s.sr2 (input (i + 2 ^ p + 2))
    refine ⟨⟨?_, ?_⟩, ⟨?_, ?_⟩, ⟨?_, ?_⟩, ?_, ?_⟩
    · rw [loop1Step_sr0, e0.2.1, a2]
      congr 1
      omega
    · rw [loop1Step_sr0, e0.2.2]
      congr 1
      omega
    · rw [loop1Step_sr1, e1.2.1, b2]
    · rw [loop1Step_sr1, e1.2.2]
    · rw [loop1Step_sr2, e2.2.1, c2]
      congr 1
      omega
    · rw [loop1Step_sr2, e2.2.2]
      congr 1
      omega
    · intro u hu
      rw [loop1Step_local_mask]
      exact hlm u hu
    · intro r j hr hj hjc hrj
      have hp := pred_mul_add r (2 ^ p) hr
      rw [loop1Step_output]
      by_cases hnew : r * 2 ^ p + j = i + 1
      · rw [if_pos (loop1Guard_interior p r j i hj hjc hnew.symm)]
        have e3 : (r - 1) * 2 ^ p + j = i - 2 ^ p + 1 := by omega
        rw [e3, store_same]
        unfold loop1Sum goldCell
        rw [hlm 0 (by omega), hlm 1 (by omega), hlm 2 (by omega), hlm 3 (by omega),
          hlm 4 (by omega), hlm 5 (by omega), hlm 6 (by omega), hlm 7 (by omega),
          hlm 8 (by omega), e0.1, e0.2.1, e0.2.2, e1.1, e1.2.1, e1.2.2, e2.1, e2.2.1,
          e2.2.2, a1, a2, b1, b2, c1, c2]
        have f0 : r * 2 ^ p - 2 ^ p + j - 1 = i - 2 ^ p := by omega
        have f1 : r * 2 ^ p - 2 ^ p + j = i - 2 ^ p + 1 := by omega
        have f2 : r * 2 ^ p - 2 ^ p + j + 1 = i - 2 ^ p + 2 := by omega
        have f3 : r * 2 ^ p + j - 1 = i := by omega
        have f4 : r * 2 ^ p + j = i + 1 := by omega
        have f5 : r * 2 ^ p + j + 1 = i + 2 := by omega
        have f6 : r * 2 ^ p + 2 ^ p + j - 1 = i + 2 ^ p := by omega
        have f7 : r * 2 ^ p + 2 ^ p + j = i + 2 ^ p + 1 := by omega
        have f8 : r * 2 ^ p + 2 ^ p + j + 1 = i + 2 ^ p + 2 := by omega
        rw [f0, f2, f1, f3, f5, f4, f6, f8, f7]
      · have hold := hout r j hr hj hjc (by omega)
        split
        · rw [store_other _ _ _ _ (by omega)]
          exact hold
        · exact hold

theorem loop1InputSlice_inside {α : Type} (kCols b e : Nat) (in_ beyond : Nat → α) (x : Nat)
    (hx : (b - 1) * kCols + x < (e + 1) * kCols) :
    loop1InputSlice kCols b e in_ beyond x = in_ ((b - 1) * kCols + x) := by
  unfold loop1InputSlice
  rw [if_pos (by omega)]

/-- The nine taps of an interior cell of the replica's rows lie inside the input
slice: the sum over the slice at the local row `r` is the sum over `in` at the row
`r + (b-1)`. -/
theorem goldCell_slice {α : Type} [Add α] [Mul α] (K b e : Nat) (in_ beyond m : Nat → α)
    (r i j : Nat) (hb : 1 ≤ b) (hr1 : 1 ≤ r) (hr : i = r + (b - 1)) (hie : i < e)
    (hj : 1 ≤ j) (hjc : j + 1 < K) :
    goldCell K (loop1InputSlice K b e in_ beyond) m r j = goldCell K in_ m i j := by
  have hpr := pred_mul_add r K hr1
  have hiK : i * K = r * K + (b - 1) * K := by rw [hr, Nat.add_mul]
  have hieK : (i + 1) * K ≤ e * K := Nat.mul_le_mul_right K hie
  have he1K : (e + 1) * K = e * K + K := by rw [Nat.add_mul, Nat.one_mul]
  rw [Nat.add_mul, Nat.one_mul] at hieK
  generalize hR : r * K = R at hpr hiK
  generalize hA : (b - 1) * K = A at hiK
  generalize hI : i * K = I at hiK hieK
  generalize hE : e * K = E at hieK he1K
  generalize hE1 : (e + 1) * K = E1 at he1K
  have slice : ∀ x, A + x < E1 → loop1InputSlice K b e in_ beyond x = in_ (A + x) := by
    intro x hx
    rw [← hA]
    exact loop1InputSlice_inside K b e in_ beyond x (by rw [hA, hE1]; exact hx)
  unfold goldCell
  rw [hR, hI, slice _ (by omega), slice _ (by omega), slice _ (by omega), slice _ (by omega),
    slice _ (by omega), slice _ (by omega), slice _ (by omega), slice _ (by omega),
    slice _ (by omega)]
  have f0 : A + (R - K + j - 1) = I - K + j - 1 := by omega
  have f1 : A + (R - K + j) = I - K + j := by omega
  have f2 : A + (R - K + j + 1) = I - K + j + 1 := by omega
  have f3 : A + (R + j - 1) = I + j - 1 := by omega
  have f4 : A + (R + j) = I + j := by omega
  have f5 : A + (R + j + 1) = I + j + 1 := by omega
  have f6 : A + (R + K + j - 1) = I + K + j - 1 := by omega
  have f7 : A + (R + K + j) = I + K + j := by omega
  have f8 : A + (R + K + j + 1) = I + K + j + 1 := by omega
  rw [f0, f1, f2, f3, f4, f5, f6, f7, f8]

/-! ## The guard of the single-loop kernel, and inputs that agree on the grid -/

theorem mod_succ_ne_zero_iff (x K : Nat) (hK : 1 ≤ K) :
    (x + 1) % K ≠ 0 ↔ x % K ≠ K - 1 := by
  have h1 : x % K < K := Nat.mod_lt _ (by omega)
  rw [Nat.add_mod]
  by_cases h : x % K = K - 1
  · have e : x % K + 1 % K = K ∨ (K = 1 ∧ x % K + 1 % K = 0) := by
      by_cases hK1 : K = 1
      · right
        subst hK1
        exact ⟨rfl, by omega⟩
      · left
        rw [Nat.mod_eq_of_lt (by omega : 1 < K)]
        omega
    rcases e with e | ⟨e1, e2⟩
    · rw [e, Nat.mod_self]
      simp [h]
    · rw [e2]
      simp [h]
  · have hK1 : 1 < K := by
      by_contra hc
      have : K = 1 := by omega
      subst this
      omega
    rw [Nat.mod_eq_of_lt hK1, Nat.mod_eq_of_lt (by omega)]
    simp [h]

/-- The guard of the store as a test on the column `(i+1) mod 2^p`. -/
theorem loop1Guard_pow_two (p i : Nat) :
    loop1Guard (2 ^ p) i = true ↔
      ((i + 1) % 2 ^ p ≠ 0 ∧ (i + 1) % 2 ^ p ≠ 2 ^ p - 1) := by
  unfold loop1Guard
  rw [Nat.and_pow_two_sub_one_eq_mod, Nat.and_pow_two_sub_one_eq_mod]
  have h := mod_succ_ne_zero_iff (i + 1) (2 ^ p) (Nat.one_le_two_pow)
  simp only [Bool.and_eq_true, bne_iff_ne, ne_eq]
  rw [← ne_eq, ← ne_eq ((i + 1) % 2 ^ p) (2 ^ p - 1), ← h]

theorem six_not_pow_two (p : Nat) : 6 ≠ 2 ^ p := by
  intro h
  by_cases hp : p ≤ 2
  · have : p = 0 ∨ p = 1 ∨ p = 2 := by omega
    rcases this with rfl | rfl | rfl <;> omega
  · have h3 : 2 ^ 3 ≤ 2 ^ p := Nat.pow_le_pow_right (by omega) (by omega)
    omega

theorem inputReads_append (l1 l2 : List Access) :
    inputReads (l1 ++ l2) = inputReads l1 ++ inputReads l2 := by
  simp [inputReads]

theorem inputReads_tapLog (kCols : Nat) : inputReads (tapLog kCols) = [] := rfl

/-- Two consecutive runs make one run. -/
theorem range'_glue (s m t n : Nat) (h : t = s + m) :
    List.range' s m ++ List.range' t n = List.range' s (m + n) := by
  subst h
  rw [List.range'_append_1, Nat.add_comm]

theorem inputReads_prologue {α : Type} (kCols begin : Nat)
    (input mask uninit output : Nat → α) :
    inputReads (kernelPrologue kCols begin input mask uninit output).log
      = List.range' ((begin - 1) * kCols) (2 * kCols + 3) := by
  unfold kernelPrologue primeSr loadMask
  have h0 : inputReads (forLoop 0 9 (loadMaskStep mask) (initState uninit output)).log = [] :=
    forLoop_inv (fun _ (t : KernelState α) => inputReads t.log = []) 0 9 _ _
      (Nat.zero_le _) rfl (fun i t _ _ ht => by
        show inputReads (t.log ++ _) = []
        rw [inputReads_append, ht]
        rfl)
  have h := forLoop_inv
    (fun m (t : KernelState α) => inputReads t.log = List.range' ((begin - 1) * kCols) m)
    0 (2 * kCols + 3) (primeSrStep kCols input begin)
    (forLoop 0 9 (loadMaskStep mask) (initState uninit output)) (Nat.zero_le _) h0
    (fun i t _ _ ht => by
      show inputReads (t.log ++ _) = _
      rw [inputReads_append, ht, List.range'_concat]
      simp [inputReads])
  exact h

theorem inputReads_colStep {α : Type} [Add α] [Mul α] (kCols : Nat) (input : Nat → α)
    (i j : Nat) (s : KernelState α) :
    inputReads (colStep kCols input i j s).log
      = inputReads s.log ++ [i * kCols + kCols + 2 + j] := by
  rw [colStep_log]
  simp only [inputReads_append, inputReads_tapLog]
  simp [inputReads]

theorem inputReads_rowResync {α : Type} (kCols : Nat) (input : Nat → α) (i : Nat)
    (s : KernelState α) :
    inputReads (rowResync kCols input i s).log
      = inputReads s.log ++ List.range' (i * kCols + kCols + kCols + 1) 2 := by
  rw [rowResync_log]
  simp [inputReads, List.range']

theorem inputReads_colLoop {α : Type} [Add α] [Mul α] (kCols : Nat) (input : Nat → α)
    (i n : Nat) (s : KernelState α) (hn : 1 ≤ n) :
    inputReads (forLoop 1 n (colStep kCols input i) s).log =
      inputReads s.log ++ List.range' (i * kCols + kCols + 3) (n - 1) := by
  refine forLoop_inv
    (fun m (t : KernelState α) => inputReads t.log =
      inputReads s.log ++ List.range' (i * kCols + kCols + 3) (m - 1))
    1 n (colStep kCols input i) s hn (by simp) ?_
  intro m t hm _ ht
  rw [inputReads_colStep, ht]
  obtain ⟨q, rfl⟩ : ∃ q, m = q + 1 := ⟨m - 1, by omega⟩
  simp only [Nat.add_sub_cancel]
  rw [List.range'_concat, List.append_assoc]
  congr 2
  simp
  omega

theorem inputReads_rowStep {α : Type} [Add α] [Mul α] (kCols : Nat) (input : Nat → α)
    (i : Nat) (s : KernelState α) (hc : 2 ≤ kCols) :
    inputReads (rowStep kCols input i s).log =
      inputReads s.log ++ List.range' (i * kCols + kCols + 3) kCols := by
  unfold rowStep
  rw [inputReads_rowResync, inputReads_colLoop kCols input i (kCols - 1) s (by omega),
    List.append_assoc, range'_glue _ _ _ _ (by omega)]
  congr 2
  omega

theorem inputReads_rowLoop {α : Type} [Add α] [Mul α] (kCols : Nat) (input : Nat → α)
    (b e : Nat) (s : KernelState α) (hc : 2 ≤ kCols) (hbe : b ≤ e) :
    inputReads (forLoop b e (rowStep kCols input) s).log =
      inputReads s.log ++ List.range' (b * kCols + kCols + 3) ((e - b) * kCols) := by
  refine forLoop_inv
    (fun m (t : KernelState α) => inputReads t.log =
      inputReads s.log ++ List.range' (b * kCols + kCols + 3) ((m - b) * kCols))
    b e (rowStep kCols input) s hbe (by simp) ?_
  intro m t hm _ ht
  have e1 : (m - b) * kCols + b * kCols = m * kCols := by
    rw [← Nat.add_mul]
    congr 1
    omega
  have e2 : (m + 1 - b) * kCols = (m - b) * kCols + kCols := by
    have e3 : m + 1 - b = (m - b) + 1 := by omega
    rw [e3, Nat.add_mul, Nat.one_mul]
  rw [inputReads_rowStep kCols input m t hc, ht, List.append_assoc,
    range'_glue _ _ _ _ (by omega), e2]

/-- The kernel body on the rows `[b, e)` reads the input elements from `(b-1)*kCols` on,
one after the other, `(e-b+2)*kCols + 3` of them. -/
theorem inputReads_kernelBody {α : Type} [Add α] [Mul α] (kCols b e : Nat)
    (input mask uninit output : Nat → α) (hc : 2 ≤ kCols) (hb : 1 ≤ b) (hbe : b ≤ e) :
    inputReads (kernelBody kCols b e input mask uninit output).log
      = List.range' ((b - 1) * kCols) ((e - b + 2) * kCols + 3) := by
  have hp := pred_mul_add b kCols hb
  unfold kernelBody
  rw [inputReads_rowLoop kCols input b e _ hc hbe, inputReads_prologue,
    range'_glue _ _ _ _ (by omega)]
  congr 1
  rw [Nat.add_mul]
  omega

/-! ## The last read of the single-loop kernel -/

/-- The last iteration of the main loop of the single-loop kernel, `i = (nRows+1)*kCols - 1`,
reads `input[nrow_base+2]`, the element of index `(nRows+2)*kCols + 1`. -/
theorem loop1Kernel_reads_beyond {α : Type} [Add α] [Mul α] (kCols nRows : Nat)
    (input mask uninit output : Nat → α) (hc : 1 ≤ kCols) (hn : 1 ≤ nRows) :
    Access.inputRead ((nRows + 2) * kCols + 1) ∈
      (loop1Kernel kCols nRows input mask uninit output).log := by
  have h1 : (nRows + 1) * kCols = nRows * kCols + kCols := by rw [Nat.add_mul, Nat.one_mul]
  have h2 : (nRows + 2) * kCols = nRows * kCols + 2 * kCols := by rw [Nat.add_mul]
  have h3 : kCols ≤ nRows * kCols := Nat.le_mul_of_pos_left kCols (by omega)
  obtain ⟨m, hm⟩ : ∃ m, (nRows + 1) * kCols = m + 1 := ⟨(nRows + 1) * kCols - 1, by omega⟩
  have hidx : (nRows + 2) * kCols + 1 = m + kCols + 2 := by omega
  unfold loop1Kernel
  rw [hm, forLoop_succ_right _ _ _ _ (by omega), hidx]
  unfold loop1Step
  split <;> simp [loop1Shift]

/-- Every replica of the single-loop kernel reads, in its last iteration, the element of
index `(end-begin+2)*kCols + 1` of its input buffer, whose length is `(end-begin+2)*kCols`. -/
theorem RunKernel_1loop_reads_beyond {α : Type} [Add α] [Mul α] (rows cols N k : Nat)
    (in_ m beyond uninit out : Nat → α) (hcols : 1 ≤ cols) (hN : 1 ≤ N) (hNle : N ≤ rows - 2) :
    Access.inputRead ((end_k rows N k - begin_k rows N k + 2) * cols + 1) ∈
      (loop1Kernel cols (end_k rows N k - begin_k rows N k)
        (loop1InputSlice cols (begin_k rows N k) (end_k rows N k) in_ beyond)
        m uninit out).log := by
  have h := (range_size_bounds rows N k hN).1
  have hq : 1 ≤ (rows - 2) / N := (Nat.one_le_div_iff (by omega)).mpr hNle
  exact loop1Kernel_reads_beyond cols _ _ m uninit out hcols (by omega)

/-- With the sizes of `08_1loop/host.cpp` (`kRows = kCols = 32768`, 32 replicas) the last
replica reads the element of index `(end-begin+2)*kCols + 1` of its buffer, which is the
element of index `kRows*kCols + 1` of the vector `input(kArraySize)`. -/
theorem RunKernel_1loop_shipped {α : Type} [Add α] [Mul α]
    (in_ m beyond uninit out : Nat → α) :
    Access.inputRead ((end_k 32768 32 31 - begin_k 32768 32 31 + 2) * 32768 + 1) ∈
      (loop1Kernel 32768 (end_k 32768 32 31 - begin_k 32768 32 31)
        (loop1InputSlice 32768 (begin_k 32768 32 31) (end_k 32768 32 31) in_ beyond)
        m uninit out).log ∧
    (begin_k 32768 32 31 - 1) * 32768 + ((end_k 32768 32 31 - begin_k 32768 32 31 + 2) * 32768 + 1)
      = 32768 * 32768 + 1 :=
  ⟨RunKernel_1loop_reads_beyond 32768 32768 32 31 in_ m beyond uninit out
    (by decide) (by decide) (by decide), by decide⟩

/-! ## Cell loops with the list of their writes -/

theorem naiveCellW_output {α : Type} [Zero α] [Add α] [Mul α] (kCols : Nat)
    (input mask : Nat → α) (i j : Nat) (s : OutState α) :
    (naiveCellW kCols input mask i j s).output = naiveCell kCols input mask i j s.output := rfl

theorem naiveCellW_writes {α : Type} [Zero α] [Add α] [Mul α] (kCols : Nat)
    (input mask : Nat → α) (i j : Nat) (s : OutState α) :
    (naiveCellW kCols input mask i j s).writes =
      s.writes ++ List.replicate 10 (i * kCols + j) := by
  simp [naiveCellW, forLoop, forCount, writeOut, List.replicate]

/-- Two nested cell loops on a traced output: the output is the one of the loops without
the trace, and the indices written are those of the interior cells. -/
theorem cellLoopsW_spec {α : Type} (val : Nat → Nat → α) (kRows kCols : Nat)
    (cellBody : Nat → Nat → OutState α → OutState α)
    (hout : ∀ i j s, (cellBody i j s).output = store s.output (i * kCols + j) (val i j))
    (hw : ∀ i j s idx, idx ∈ (cellBody i j s).writes ↔ (idx ∈ s.writes ∨ idx = i * kCols + j))
    (s0 : OutState α) (hr : 2 ≤ kRows) (hc : 2 ≤ kCols) :
    CellsDone val kCols 1 (kRows - 1) s0.output
      (forLoop 1 (kRows - 1) (fun i s => forLoop 1 (kCols - 1) (cellBody i) s) s0).output ∧
    ∀ idx, idx ∈ (forLoop 1 (kRows - 1)
        (fun i s => forLoop 1 (kCols - 1) (cellBody i) s) s0).writes ↔
      (idx ∈ s0.writes ∨
        ∃ i j, 1 ≤ i ∧ i < kRows - 1 ∧ 1 ≤ j ∧ j < kCols - 1 ∧ idx = i * kCols + j) := by
  constructor
  · have hsim := forLoop_sim (fun (s : OutState α) (t : Nat → α) => s.output = t)
      1 (kRows - 1) (fun i s => forLoop 1 (kCols - 1) (cellBody i) s)
      (fun i out => forLoop 1 (kCols - 1)
        (fun j out => store out (i * kCols + j) (val i j)) out) s0 s0.output rfl
      (fun i s2 t2 _ _ h =>
        forLoop_sim (fun (s : OutState α) (t : Nat → α) => s.output = t)
          1 (kCols - 1) (cellBody i) (fun j out => store out (i * kCols + j) (val i j))
          s2 t2 h (fun j s3 t3 _ _ h3 => by
            show (cellBody i j s3).output = store t3 (i * kCols + j) (val i j)
            rw [hout, h3]))
    have hsim2 : (forLoop 1 (kRows - 1)
        (fun i s => forLoop 1 (kCols - 1) (cellBody i) s) s0).output =
      forLoop 1 (kRows - 1) (fun i out => forLoop 1 (kCols - 1)
        (fun j out => store out (i * kCols + j) (val i j)) out) s0.output := hsim
    rw [hsim2]
    exact cellLoops_spec val kRows kCols (fun i j out => store out (i * kCols + j) (val i j))
      (fun _ _ _ => rfl) s0.output hr hc
  · intro idx
    refine forLoop_inv
      (fun n (t : OutState α) => idx ∈ t.writes ↔
        (idx ∈ s0.writes ∨ ∃ i j, 1 ≤ i ∧ i < n ∧ 1 ≤ j ∧ j < kCols - 1 ∧ idx = i * kCols + j))
      1 (kRows - 1) (fun i s => forLoop 1 (kCols - 1) (cellBody i) s) s0 (by omega) ?_ ?_
    · constructor
      · intro h
        exact Or.inl h
      · rintro (h | ⟨i, j, h1, h2, _⟩)
        · exact h
        · omega
    · intro i t hi _ ht
      have hrow : idx ∈ (forLoop 1 (kCols - 1) (cellBody i) t).writes ↔
          (idx ∈ t.writes ∨ ∃ j, 1 ≤ j ∧ j < kCols - 1 ∧ idx = i * kCols + j) := forLoop_inv
        (fun n (u : OutState α) => idx ∈ u.writes ↔
          (idx ∈ t.writes ∨ ∃ j, 1 ≤ j ∧ j < n ∧ idx = i * kCols + j))
        1 (kCols - 1) (cellBody i) t (by omega)
        (by
          constructor
          · intro h
            exact Or.inl h
          · rintro (h | ⟨j, h1, h2, _⟩)
            · exact h
            · omega)
        (by
          intro j u hj _ hu
          show idx ∈ (cellBody i j u).writes ↔ _
          rw [hw, hu]
          constructor
          · rintro ((h | ⟨j2, h1, h2, h3⟩) | h)
            · exact Or.inl h
            · exact Or.inr ⟨j2, h1, by omega, h3⟩
            · exact Or.inr ⟨j, hj, by omega, h⟩
          · rintro (h | ⟨j2, h1, h2, h3⟩)
            · exact Or.inl (Or.inl h)
            · by_cases hj2 : j2 = j
              · subst hj2
                exact Or.inr h3
              · exact Or.inl (Or.inr ⟨j2, h1, by omega, h3⟩))
      show idx ∈ (forLoop 1 (kCols - 1) (cellBody i) t).writes ↔ _
      rw [hrow, ht]
      constructor
      · rintro ((h | ⟨i2, j2, h1, h2, h3, h4, h5⟩) | ⟨j, h1, h2, h3⟩)
        · exact Or.inl h
        · exact Or.inr ⟨i2, j2, h1, by omega, h3, h4, h5⟩
        · exact Or.inr ⟨i, j, hi, by omega, h1, h2, h3⟩
      · rintro (h | ⟨i2, j2, h1, h2, h3, h4, h5⟩)
        · exact Or.inl (Or.inl h)
        · by_cases hi2 : i2 = i
          · subst hi2
            exact Or.inr ⟨j2, h3, h4, h5⟩
          · exact Or.inl (Or.inr ⟨i2, j2, h1, by omega, h3, h4, h5⟩)

/-- The output of the naive kernel with its writes is the output of `RunKernel_naive`. -/
theorem RunKernel_naiveW_output {α : Type} [Zero α] [Add α] [Mul α] (kRows kCols : Nat)
    (input mask : Nat → α) (s : OutState α) :
    (RunKernel_naiveW kRows kCols input mask s).output =
      RunKernel_naive kRows kCols input mask s.output :=
  forLoop_sim (fun (s : OutState α) (t : Nat → α) => s.output = t)
    1 (kRows - 1) _ _ s s.output rfl
    (fun i s2 t2 _ _ h =>
      forLoop_sim (fun (s : OutState α) (t : Nat → α) => s.output = t)
        1 (kCols - 1) _ _ s2 t2 h (fun j s3 t3 _ _ h3 => by
          show (naiveCellW kCols input mask i j s3).output = naiveCell kCols input mask i j t3
          rw [naiveCellW_output, h3]))

/-- With `0 + x = x` the ten statements of the naive kernel build the nine-term sum of the
baseline kernel. -/
theorem naiveSum_eq_baselineTmp {α : Type} [CommRing α] (kCols : Nat) (input mask : Nat → α)
    (i j : Nat) (hi : 1 ≤ i) (hj : 1 ≤ j) :
    naiveSum kCols input (fun m n => mask (m * 3 + n)) i j =
      baselineTmp kCols input mask i j := by
  have hp := pred_mul_add i kCols hi
  have hs : (i + 1) * kCols = i * kCols + kCols := by rw [Nat.add_mul, Nat.one_mul]
  have a0 : i + 0 - 1 = i - 1 := rfl
  have a1 : i + 1 - 1 = i := rfl
  have a2 : i + 2 - 1 = i + 1 := rfl
  have r0 : (i - 1) * kCols + j + 0 - 1 = i * kCols - kCols + j - 1 := by omega
  have r1 : (i - 1) * kCols + j + 1 - 1 = i * kCols - kCols + j := by omega
  have r2 : (i - 1) * kCols + j + 2 - 1 = i * kCols - kCols + j + 1 := by omega
  have r3 : i * kCols + j + 0 - 1 = i * kCols + j - 1 := rfl
  have r4 : i * kCols + j + 1 - 1 = i * kCols + j := rfl
  have r5 : i * kCols + j + 2 - 1 = i * kCols + j + 1 := rfl
  have r6 : (i + 1) * kCols + j + 0 - 1 = i * kCols + kCols + j - 1 := by omega
  have r7 : (i + 1) * kCols + j + 1 - 1 = i * kCols + kCols + j := by omega
  have r8 : (i + 1) * kCols + j + 2 - 1 = i * kCols + kCols + j + 1 := by omega
  unfold naiveSum baselineTmp
  rw [a0, a1, a2, r0, r1, r2, r3, r4, r5, r6, r7, r8, zero_add]

/-! ## The work-items of the 2-D CPU kernel -/

theorem run_cpu_kernel_cons {α : Type} [Add α] [Mul α] (kCols : Nat) (input mask : Nat → α)
    (p : Nat × Nat) (order : List (Nat × Nat)) (s : OutState α) :
    run_cpu_kernel kCols input mask (p :: order) s =
      run_cpu_kernel kCols input mask order (cpuWorkItem kCols input mask p s) := rfl

/-- The writes of `run_cpu_kernel`: one per work-item, at its cell, in the order of the
work-items. -/
theorem run_cpu_kernel_writes {α : Type} [Add α] [Mul α] (kCols : Nat) (input mask : Nat → α)
    (order : List (Nat × Nat)) (s : OutState α) :
    (run_cpu_kernel kCols input mask order s).writes = s.writes ++ order.map (cellOf kCols) := by
  induction order generalizing s with
  | nil => simp [run_cpu_kernel]
  | cons p rest ih =>
    rw [run_cpu_kernel_cons, ih]
    simp [cpuWorkItem, writeOut, cellOf]

/-- The value a work-item stores is the nine-term sum of `gold_stencil` for its cell. -/
theorem cpuWorkItem_output {α : Type} [Add α] [Mul α] (kCols : Nat) (input mask : Nat → α)
    (p : Nat × Nat) (s : OutState α) :
    (cpuWorkItem kCols input mask p s).output =
      store s.output (cellOf kCols p) (goldCell kCols input mask (p.1 + 1) (p.2 + 1)) := by
  obtain ⟨a, b⟩ := p
  have hs : (a + 1) * kCols = a * kCols + kCols := by rw [Nat.add_mul, Nat.one_mul]
  have hs2 : (a + 1 + 1) * kCols = a * kCols + kCols + kCols := by
    rw [Nat.add_mul, Nat.add_mul, Nat.one_mul]
  have a0 : a + 1 - 1 = a := rfl
  have b0 : b + 1 - 1 = b := rfl
  have r0 : (a + 1) * kCols - kCols + (b + 1) - 1 = a * kCols + b := by omega
  have r1 : (a + 1) * kCols - kCols + (b + 1) = a * kCols + (b + 1) := by omega
  have r2 : (a + 1) * kCols - kCols + (b + 1) + 1 = a * kCols + (b + 1 + 1) := by omega
  have r3 : (a + 1) * kCols + (b + 1) - 1 = (a + 1) * kCols + b := by omega
  have r5 : (a + 1) * kCols + (b + 1) + 1 = (a + 1) * kCols + (b + 1 + 1) := by omega
  have r6 : (a + 1) * kCols + kCols + (b + 1) - 1 = (a + 1 + 1) * kCols + b := by omega
  have r7 : (a + 1) * kCols + kCols + (b + 1) = (a + 1 + 1) * kCols + (b + 1) := by omega
  have r8 : (a + 1) * kCols + kCols + (b + 1) + 1 = (a + 1 + 1) * kCols + (b + 1 + 1) := by
    omega
  unfold cpuWorkItem writeOut goldCell at2 cellOf
  show store s.output _ _ = _
  rw [a0, b0, r0, r2, r1, r3, r5, r6, r8, r7]

/-- A cell that no work-item of `order` writes keeps its value. -/
theorem run_cpu_kernel_other {α : Type} [Add α] [Mul α] (kCols : Nat) (input mask : Nat → α)
    (order : List (Nat × Nat)) (s : OutState α) (t : Nat)
    (h : ∀ p, p ∈ order → cellOf kCols p ≠ t) :
    (run_cpu_kernel kCols input mask order s).output t = s.output t := by
  induction order generalizing s with
  | nil => rfl
  | cons p rest ih =>
    rw [run_cpu_kernel_cons, ih _ (fun q hq => h q (List.mem_cons_of_mem p hq)),
      cpuWorkItem_output, store_other]
    exact fun e => h p (List.mem_cons_self p rest) e.symm

/-- A cell written by the work-item `p` of `order` and by no other work-item holds the
nine-term sum of `gold_stencil`. -/
theorem run_cpu_kernel_cell {α : Type} [Add α] [Mul α] (kCols : Nat) (input mask : Nat → α)
    (order : List (Nat × Nat)) (s : OutState α) (p : Nat × Nat) (hp : p ∈ order)
    (huniq : ∀ q, q ∈ order → cellOf kCols q = cellOf kCols p → q = p) :
    (run_cpu_kernel kCols input mask order s).output (cellOf kCols p) =
      goldCell kCols input mask (p.1 + 1) (p.2 + 1) := by
  induction order generalizing s with
  | nil => exact absurd hp (List.not_mem_nil p)
  | cons q rest ih =>
    rw [run_cpu_kernel_cons]
    by_cases hrest : p ∈ rest
    · exact ih _ hrest (fun r hr => huniq r (List.mem_cons_of_mem q hr))
    · have hq : q = p := by
        rcases List.mem_cons.mp hp with h | h
        · exact h.symm
        · exact absurd h hrest
      subst hq
      rw [run_cpu_kernel_other kCols input mask rest _ _ (fun r hr e =>
          hrest (huniq r (List.mem_cons_of_mem q hr) e ▸ hr)),
        cpuWorkItem_output, store_same]

theorem mem_stencil_range (kRows kCols : Nat) (p : Nat × Nat) :
    p ∈ stencil_range kRows kCols ↔ (p.1 < kRows - 2 ∧ p.2 < kCols - 2) := by
  unfold stencil_range
  obtain ⟨a, b⟩ := p
  simp [List.mem_product]

theorem stencil_range_nodup (kRows kCols : Nat) : (stencil_range kRows kCols).Nodup :=
  List.Nodup.product (List.nodup_range _) (List.nodup_range _)

/-- Two work-items of the range that write the same cell are the same work-item. -/
theorem cellOf_inj (kRows kCols : Nat) (p q : Nat × Nat)
    (hp : p ∈ stencil_range kRows kCols) (hq : q ∈ stencil_range kRows kCols)
    (h : cellOf kCols q = cellOf kCols p) : q = p := by
  obtain ⟨a, b⟩ := p
  obtain ⟨c, d⟩ := q
  rw [mem_stencil_range] at hp hq
  have h2 := cell_inj (by have := hq.2; show d + 1 < kCols; omega)
    (by have := hp.2; show b + 1 < kCols; omega) h
  have e1 : c = a := by have := h2.1; omega
  have e2 : d = b := by have := h2.2; omega
  rw [e1, e2]

/-! ## The definitions on concrete grids -/

/-- On the 3 x 3 grid with `input[n] = n` and `mask[n] = n+1` the only interior cell
receives `1*0 + 2*1 + ... + 9*8 = 240`. -/
theorem runReplicas_three_by_three :
    runReplicas 3 3 1 (fun n => (n : Int)) (fun n => (n : Int) + 1) (fun _ => 7)
      (fun _ => -1) 4 = 240 := by
  decide

/-- The same grid: the eight border cells keep the value `-1` they had. -/
theorem runReplicas_three_by_three_border :
    [0, 1, 2, 3, 5, 6, 7, 8].map (runReplicas 3 3 1 (fun n => (n : Int))
      (fun n => (n : Int) + 1) (fun _ => 7) (fun _ => -1))
      = [-1, -1, -1, -1, -1, -1, -1, -1] := by
  decide

/-- Two replicas on a 4 x 4 grid of ones with the mask of the host: every interior cell
receives 25, as it does from `gold_stencil`. -/
theorem runReplicas_four_by_four :
    [5, 6, 9, 10].map (runReplicas 4 4 2 (fun _ => (1 : Int))
      (fun n => [2, 4, 2, 4, 1, 4, 2, 4, 2].getD n 0) (fun _ => 7) (fun _ => -1))
      = [25, 25, 25, 25] ∧
    [5, 6, 9, 10].map (gold_stencil 4 4 (fun _ => (1 : Int))
      (fun n => [2, 4, 2, 4, 1, 4, 2, 4, 2].getD n 0) (fun _ => -1))
      = [25, 25, 25, 25] := by
  decide

/-- The accesses of the second of two replicas on a 4 x 3 grid after the mask is loaded:
nine priming reads from index 3 on, the sum, the store to cell `(2, 1)` and three shifts. -/
theorem RunKernel_log_four_by_three :
    ((RunKernel 4 3 1 2 (fun n => (n : Int)) (fun _ => 1) (fun _ => 7) (fun _ => -1)).log.drop
      18).filter (fun a => match a with
        | Access.inputRead _ => true
        | Access.outputWrite _ => true
        | _ => false)
      = [Access.inputRead 3, Access.inputRead 4, Access.inputRead 5, Access.inputRead 6,
         Access.inputRead 7, Access.inputRead 8, Access.inputRead 9, Access.inputRead 10,
         Access.inputRead 11, Access.outputWrite 7, Access.inputRead 12,
         Access.inputRead 13, Access.inputRead 14] := by
  decide

/-- The explicit array of nine slots primed at 4 and shifted five times holds
`source[9..17]`. -/
theorem primeThenShift_nine_slots :
    (List.range 9).map (primeThenShift 9 (fun n => (n : Int)) 4 5 (fun _ => 0))
      = [9, 10, 11, 12, 13, 14, 15, 16, 17] := by
  decide

/-- The interior cells of rows 2 and 3 of a grid of width 4, in row-major order. -/
theorem rowMajorCells_example : rowMajorCells 4 2 4 = [9, 10, 13, 14] := by decide

/-- The second of two replicas on a 6 x 4 grid writes the cells 13, 14, 17, 18 in this
order. -/
theorem outputWrites_example :
    outputWrites (RunKernel 6 4 1 2 (fun n => (n : Int)) (fun _ => 1) (fun _ => 7)
      (fun _ => -1)).log = [13, 14, 17, 18] := by decide

/-- The constants of `RunKernel<0,1>` for zero to three rows, and the column bound
`kCols-1` for no column. -/
theorem sizeT_example :
    beginSizeT 0 1 0 = 1 ∧ endSizeT 0 1 0 = -1 ∧ endSizeT 1 1 0 = 0 ∧ endSizeT 2 1 0 = 1 ∧
    endSizeT 3 1 0 = 2 ∧ sizeSub 0 1 = 18446744073709551615 ∧ sizeSub 5 1 = 4 := by decide

/-- The explicit-array kernel on a 4 x 4 grid of ones with the mask of the host. -/
theorem RunKernel_srp_templ_example :
    [5, 6, 9, 10].map (RunKernel_srp_templ 4 4 (fun _ => (1 : Int)) hostMask (fun _ => 7)
      (fun _ => -1)).output = [25, 25, 25, 25] := by decide

/-- The naive kernel on a 4 x 4 grid of ones with the mask of the host. -/
theorem RunKernel_naive_example :
    [5, 6, 9, 10].map (RunKernel_naive 4 4 (fun _ => (1 : Int)) hostMask (fun _ => -1))
      = [25, 25, 25, 25] := by decide

/-- The four replicas of the vector add on vectors of length 6 and of length 2; the
element after the end keeps its value. -/
theorem vectorAddReplicas_example :
    (List.range 7).map (vectorAddReplicas 6 (fun n => (n : Int)) (fun n => 2 * (n : Int))
      (fun _ => -1)) = [0, 3, 6, 9, 12, 15, -1] ∧
    (List.range 3).map (vectorAddReplicas 2 (fun n => (n : Int)) (fun n => 2 * (n : Int))
      (fun _ => -1)) = [0, 3, -1] := by decide

/-- The two replicas of the single-loop kernel on a 6 x 4 grid, one after the other,
against `gold_stencil` on the eight interior cells. -/
theorem RunKernel_1loop_example :
    [5, 6, 9, 10, 13, 14, 17, 18].map
      (RunKernel_1loop 6 4 1 2 (fun n => (n : Int)) hostMask
        (RunKernel_1loop 6 4 0 2 (fun n => (n : Int)) hostMask (fun _ => -1) (fun _ => 100)
          (fun _ => 7)) (fun _ => 100) (fun _ => 7)) =
    [5, 6, 9, 10, 13, 14, 17, 18].map
      (gold_stencil 6 4 (fun n => (n : Int)) hostMask (fun _ => -1)) := by decide

/-- The single-loop kernel on a buffer of three rows of width 4 (twelve elements) writes
the output indices 1 and 2 and reads `input[12]` and `input[13]`. -/
theorem loop1Kernel_example :
    outputWrites (loop1Kernel 4 1 (fun n => (n : Int)) hostMask (fun _ => 7)
      (fun _ => -1)).log = [1, 2] ∧
    Access.inputRead 12 ∈ (loop1Kernel 4 1 (fun n => (n : Int)) hostMask (fun _ => 7)
      (fun _ => -1)).log ∧
    Access.inputRead 13 ∈ (loop1Kernel 4 1 (fun n => (n : Int)) hostMask (fun _ => 7)
      (fun _ => -1)).log := by decide

/-- The second of two replicas on a 4 x 3 grid reads `input[3 .. 14]`, one after the
other. -/
theorem inputReads_example :
    inputReads (RunKernel 4 3 1 2 (fun n => (n : Int)) (fun _ => 1) (fun _ => 7)
      (fun _ => -1)).log = [3, 4, 5, 6, 7, 8, 9, 10, 11, 12, 13, 14] := by decide

/-- The naive and the baseline kernel on a 4 x 4 grid: the naive kernel writes each cell
ten times, the baseline kernel once. -/
theorem RunKernel_baseline_example :
    (RunKernel_baseline 4 4 (fun n => (n : Int)) hostMask ⟨fun _ => -1, []⟩).writes
      = [5, 6, 9, 10] ∧
    (RunKernel_naiveW 4 4 (fun n => (n : Int)) hostMask ⟨fun _ => -1, []⟩).writes.dedup
      = [5, 6, 9, 10] ∧
    [5, 6, 9, 10].map
      (RunKernel_baseline 4 4 (fun n => (n : Int)) hostMask ⟨fun _ => -1, []⟩).output =
    [5, 6, 9, 10].map
      (RunKernel_naiveW 4 4 (fun n => (n : Int)) hostMask ⟨fun _ => -1, []⟩).output := by
  decide

/-- The 2-D CPU kernel on a 4 x 4 grid, its work-items run from the last to the first:
the writes, and the values against `gold_stencil`. -/
theorem run_cpu_kernel_example :
    (run_cpu_kernel 4 (fun n => (n : Int)) hostMask [(1, 1), (1, 0), (0, 1), (0, 0)]
      ⟨fun _ => -1, []⟩).writes = [10, 9, 6, 5] ∧
    [5, 6, 9, 10].map (run_cpu_kernel 4 (fun n => (n : Int)) hostMask
      [(1, 1), (1, 0), (0, 1), (0, 0)] ⟨fun _ => -1, []⟩).output =
    [5, 6, 9, 10].map (gold_stencil 4 4 (fun n => (n : Int)) hostMask (fun _ => -1)) := by
  decide

/-! ## Results on the row-range partition -/

/-- Partition coverage, in the model on natural numbers: for `1 ≤ N ≤ rows-2` the ranges
`[begin_k, end_k)`, `k = 0..N-1`, are pairwise disjoint and their union is exactly the set
of the rows `r` with `1 ≤ r < rows-1`. -/
theorem partition_coverage (rows N : Nat) (hN : 1 ≤ N) (hle : N ≤ rows - 2) :
    (∀ r, (∃ k, k < N ∧ begin_k rows N k ≤ r ∧ r < end_k rows N k) ↔
        (1 ≤ r ∧ r < rows - 1)) ∧
    (∀ k l, k < N → l < N → k ≠ l → ∀ r,
        ¬ ((begin_k rows N k ≤ r ∧ r < end_k rows N k) ∧
           (begin_k rows N l ≤ r ∧ r < end_k rows N l))) := by
  have hlast : begin_k rows N N = rows - 1 := by
    rw [begin_k_last rows N hN]
    omega
  refine ⟨fun r => ⟨?_, ?_⟩, ?_⟩
  · rintro ⟨k, hk, h1, h2⟩
    have hb : begin_k rows N 0 ≤ begin_k rows N k := begin_k_mono rows N (Nat.zero_le k)
    have he : begin_k rows N (k + 1) ≤ begin_k rows N N := begin_k_mono rows N hk
    rw [begin_k_zero] at hb
    rw [end_k_eq_begin_succ] at h2
    omega
  · rintro ⟨h1, h2⟩
    have h0 : begin_k rows N 0 ≤ r := by rw [begin_k_zero]; exact h1
    have hn : r < begin_k rows N N := by rw [hlast]; exact h2
    exact exists_step_of_mono (begin_k rows N) N r h0 hn
  · exact fun k l _ _ hkl r => ranges_disjoint rows N k l r hkl

/-- Partition balance, in the model on natural numbers: for `rows ≥ 2` and `N ≥ 1` the sizes of
the ranges of any two replicas `k, l < N` differ by at most one row. -/
theorem partition_balance (rows N k l : Nat) (hrows : 2 ≤ rows) (hN : 1 ≤ N)
    (hk : k < N) (hl : l < N) :
    |((end_k rows N k : Int) - (begin_k rows N k : Int)) -
      ((end_k rows N l : Int) - (begin_k rows N l : Int))| ≤ 1 := by
  have h1 := range_size_bounds rows N k hN
  have h2 := range_size_bounds rows N l hN
  rw [abs_le]
  constructor <;> omega

/-- Non-empty ranges, in the model on natural numbers: for `rows ≥ 2` and `N ≥ 1`, every replica
`k < N` has a non-empty range exactly when `N ≤ rows-2`; when `N > rows-2` some replica has
`begin_k = end_k`. -/
theorem nonempty_ranges_iff (rows N : Nat) (hrows : 2 ≤ rows) (hN : 1 ≤ N) :
    ((∀ k, k < N → begin_k rows N k < end_k rows N k) ↔ N ≤ rows - 2) ∧
    (rows - 2 < N → ∃ k, k < N ∧ begin_k rows N k = end_k rows N k) := by
  have key : (∀ k, k < N → begin_k rows N k < end_k rows N k) → N ≤ rows - 2 := by
    intro h
    have grow : ∀ j, j ≤ N → 1 + j ≤ begin_k rows N j := by
      intro j
      induction j with
      | zero => intro _; rw [begin_k_zero]
      | succ m ih =>
        intro hm
        have h1 := ih (by omega)
        have h2 := h m (by omega)
        rw [end_k_eq_begin_succ] at h2
        omega
    have h3 := grow N (Nat.le_refl N)
    rw [begin_k_last rows N hN] at h3
    omega
  refine ⟨⟨key, ?_⟩, ?_⟩
  · intro hle k _
    have h1 := (range_size_bounds rows N k hN).1
    have h2 : 1 ≤ (rows - 2) / N := by
      rw [Nat.le_div_iff_mul_le (by omega : 0 < N)]
      omega
    omega
  · intro hlt
    by_contra hne
    have hall : ∀ k, k < N → begin_k rows N k < end_k rows N k := by
      intro k hk
      have h1 := begin_le_end rows N k
      have h2 : begin_k rows N k ≠ end_k rows N k := fun e => hne ⟨k, hk, e⟩
      omega
    have := key hall
    omega

/-! ## Results on the replicated shift-register kernel -/

/-- Reference equivalence, in the model on natural numbers: for `rows ≥ 3`, `cols ≥ 3` and
`1 ≤ N ≤ rows-2`, after the replicas `0..N-1` have run, the output at every interior cell
`(i, j)` is the value `gold_stencil` stores there, and this value is the nine-term sum
`mask[0]*input[(i-1)*cols+j-1] + ... + mask[8]*input[(i+1)*cols+j+1]` added from left to
right: the two values are the same expression over the input and the mask. -/
theorem reference_equivalence {α : Type} [Add α] [Mul α] (rows cols N : Nat)
    (input mask uninit output res : Nat → α) (i j : Nat)
    (hrows : 3 ≤ rows) (hcols : 3 ≤ cols) (hN : 1 ≤ N) (hNle : N ≤ rows - 2)
    (hi : 1 ≤ i) (hi2 : i ≤ rows - 2) (hj : 1 ≤ j) (hj2 : j ≤ cols - 2) :
    runReplicas rows cols N input mask uninit output (i * cols + j) =
      gold_stencil rows cols input mask res (i * cols + j) ∧
    gold_stencil rows cols input mask res (i * cols + j) =
      mask 0 * input ((i - 1) * cols + j - 1) +
      mask 1 * input ((i - 1) * cols + j) +
      mask 2 * input ((i - 1) * cols + j + 1) +
      mask 3 * input (i * cols + j - 1) +
      mask 4 * input (i * cols + j) +
      mask 5 * input (i * cols + j + 1) +
      mask 6 * input ((i + 1) * cols + j - 1) +
      mask 7 * input ((i + 1) * cols + j) +
      mask 8 * input ((i + 1) * cols + j + 1) := by
  have h1 := (runReplicas_spec rows cols N input mask uninit output (by omega) (by omega) hN).1
    i j hi (by omega) hj (by omega)
  have h2 := (gold_stencil_spec rows cols input mask res (by omega) (by omega)).1
    i j hi (by omega) hj (by omega)
  refine ⟨h1.trans h2.symm, ?_⟩
  rw [h2]
  unfold goldCell
  have hp := pred_mul_add i cols hi
  have e1 : i * cols - cols = (i - 1) * cols := by omega
  have e2 : i * cols + cols = (i + 1) * cols := by rw [Nat.add_mul, Nat.one_mul]
  rw [e1, e2]

/-- Border invariant, in the model on natural numbers: for `rows ≥ 3`, `cols ≥ 3`,
`1 ≤ N ≤ rows-2` and every initial content of `output`, after all `N` replicas have run
every cell of row `0` or `rows-1` and of column `0` or `cols-1` holds the value it held
before. -/
theorem border_invariant {α : Type} [Add α] [Mul α] (rows cols N : Nat)
    (input mask uninit output : Nat → α) (i j : Nat)
    (hrows : 3 ≤ rows) (hcols : 3 ≤ cols) (hN : 1 ≤ N) (hNle : N ≤ rows - 2)
    (hi : i < rows) (hj : j < cols)
    (hborder : i = 0 ∨ i = rows - 1 ∨ j = 0 ∨ j = cols - 1) :
    runReplicas rows cols N input mask uninit output (i * cols + j) = output (i * cols + j) := by
  apply (runReplicas_spec rows cols N input mask uninit output (by omega) (by omega) hN).2
  intro i2 j2 h1 h2 h3 h4 heq
  obtain ⟨e1, e2⟩ := cell_inj hj (by omega) heq
  omega

/-- Replica-count invariance, in the model on natural numbers: for `rows ≥ 3`, `cols ≥ 3` and
two replica counts `1 ≤ N1, N2 ≤ rows-2`, running all `N1` replicas and running all `N2`
replicas on the same input, mask and initial output give arrays equal at every interior
cell. -/
theorem replica_count_invariance {α : Type} [Add α] [Mul α] (rows cols N1 N2 : Nat)
    (input mask uninit1 uninit2 output : Nat → α) (i j : Nat)
    (hrows : 3 ≤ rows) (hcols : 3 ≤ cols)
    (hN1 : 1 ≤ N1) (hN1le : N1 ≤ rows - 2) (hN2 : 1 ≤ N2) (hN2le : N2 ≤ rows - 2)
    (hi : 1 ≤ i) (hi2 : i ≤ rows - 2) (hj : 1 ≤ j) (hj2 : j ≤ cols - 2) :
    runReplicas rows cols N1 input mask uninit1 output (i * cols + j) =
      runReplicas rows cols N2 input mask uninit2 output (i * cols + j) := by
  have h1 := (runReplicas_spec rows cols N1 input mask uninit1 output (by omega) (by omega)
    hN1).1 i j hi (by omega) hj (by omega)
  have h2 := (runReplicas_spec rows cols N2 input mask uninit2 output (by omega) (by omega)
    hN2).1 i j hi (by omega) hj (by omega)
  exact h1.trans h2.symm

/-- C5, line-buffer equivalence for the explicit array shift register of `src_srp_templ`
with `L = 2*cols+3` slots: after `prime` from `source` at `start` followed by `k` calls of
`shift_in`, the `m`-th with the value `source[start+L+m]`, slot `offset` holds
`source[start+k+offset]`, for every `offset` in `[0, L)`. -/
theorem line_buffer_equivalence {α : Type} (cols : Nat) (source : Nat → α) (start k : Nat)
    (sr0 : Nat → α) (offset : Nat) (hoff : offset < 2 * cols + 3) :
    primeThenShift (2 * cols + 3) source start k sr0 offset = source (start + k + offset) :=
  primeThenShift_spec (2 * cols + 3) source start k sr0 (by omega) offset hoff

/-- Width 3 (nine slots), start 4, five shifts, slot 8. -/
theorem line_buffer_equivalence_witness :
    8 < 2 * 3 + 3 ∧
    primeThenShift (2 * 3 + 3) (fun n => (n : Int)) 4 5 (fun _ => 0) 8
      = (fun n => (n : Int)) (4 + 5 + 8) :=
  ⟨by decide, line_buffer_equivalence 3 _ 4 5 _ 8 (by decide)⟩

/-- Window invariant with row resynchronisation, in the model on natural numbers: for a replica
range `[begin_k, end_k)`, a row `i` of it and a column `1 ≤ j ≤ cols-2`, the kernel
evaluates the sum of the cell `(i, j)` in the state `stateAtCell`; there
`sr[t] = input[(i-1)*cols + (j-1) + t]` for every slot `t < 2*cols+3`, so that the taps
`m*cols + n` (`m, n < 3`) are the neighbours `(i-1+m, j-1+n)`; and the two extra shifts at
the end of row `i`, of `input[(i+2)*cols+1]` and `input[(i+2)*cols+2]`, lead from the end of
the column loop to the state in front of `(i+1, 1)`, where `sr[t] = input[i*cols + t]`. -/
theorem window_invariant {α : Type} [Add α] [Mul α] (rows cols N k : Nat)
    (input mask uninit output : Nat → α) (i j : Nat)
    (hbi : begin_k rows N k ≤ i) (hie : i < end_k rows N k)
    (hj : 1 ≤ j) (hj2 : j ≤ cols - 2) :
    RunKernel rows cols k N input mask uninit output =
      forLoop (i + 1) (end_k rows N k) (rowStep cols input)
        (rowResync cols input i
          (forLoop (j + 1) (cols - 1) (colStep cols input i)
            (colStep cols input i j
              (stateAtCell cols (begin_k rows N k) input mask uninit output i j)))) ∧
    (∀ t, t < 2 * cols + 3 →
      (stateAtCell cols (begin_k rows N k) input mask uninit output i j).sr t
        = input ((i - 1) * cols + (j - 1) + t)) ∧
    (∀ m n, m < 3 → n < 3 →
      (stateAtCell cols (begin_k rows N k) input mask uninit output i j).sr (m * cols + n)
        = input ((i - 1 + m) * cols + (j - 1 + n))) ∧
    (stateAtCell cols (begin_k rows N k) input mask uninit output (i + 1) 1).sr =
      shiftSingleVal (2 * cols + 3)
        (shiftSingleVal (2 * cols + 3)
          (stateAtCell cols (begin_k rows N k) input mask uninit output i (cols - 1)).sr
          (input ((i + 2) * cols + 1)))
        (input ((i + 2) * cols + 2)) ∧
    (∀ t, t < 2 * cols + 3 →
      (stateAtCell cols (begin_k rows N k) input mask uninit output (i + 1) 1).sr t
        = input (i * cols + t)) := by
  have hb : 1 ≤ begin_k rows N k := Nat.le_add_left 1 _
  have hW := stateAtCell_spec cols (begin_k rows N k) input mask uninit output i j hb hbi hj
    (by omega)
  refine ⟨kernelBody_resume cols _ _ input mask uninit output i j hbi hie hj (by omega),
    hW, ?_, ?_, ?_⟩
  · intro m n hm hn
    have hmc : m * cols ≤ 2 * cols := Nat.mul_le_mul_right cols (by omega)
    rw [hW (m * cols + n) (by omega)]
    congr 1
    rw [Nat.add_mul]
    omega
  · rw [stateAtCell_next_row cols _ input mask uninit output i hbi]
    have e : (i + 2) * cols = i * cols + cols + cols := by
      rw [Nat.add_mul]
      omega
    rw [e]
    rfl
  · have h := stateAtCell_spec cols (begin_k rows N k) input mask uninit output (i + 1) 1 hb
      (by omega) (Nat.le_refl 1) (by omega)
    intro t ht
    rw [h t ht]
    congr 1

/-- Disjoint write ownership, in the model on natural numbers: for `rows ≥ 3`, `cols ≥ 3` and
`1 ≤ N ≤ rows-2`, every output index written by replica `k` is `i*cols + j` for a row
`begin_k ≤ i < end_k` and a column `1 ≤ j ≤ cols-2`, and no index is written by two
different replicas. -/
theorem disjoint_write_ownership {α : Type} [Add α] [Mul α] (rows cols N : Nat)
    (input mask : Nat → α)
    (hrows : 3 ≤ rows) (hcols : 3 ≤ cols) (hN : 1 ≤ N) (hNle : N ≤ rows - 2) :
    (∀ k, k < N → ∀ (uninit output : Nat → α) (idx : Nat),
      Access.outputWrite idx ∈ (RunKernel rows cols k N input mask uninit output).log →
      ∃ i j, begin_k rows N k ≤ i ∧ i < end_k rows N k ∧ 1 ≤ j ∧ j ≤ cols - 2 ∧
        idx = i * cols + j) ∧
    (∀ k l, k < N → l < N → k ≠ l →
      ∀ (uninit1 output1 uninit2 output2 : Nat → α) (idx : Nat),
      ¬ (Access.outputWrite idx ∈ (RunKernel rows cols k N input mask uninit1 output1).log ∧
         Access.outputWrite idx ∈ (RunKernel rows cols l N input mask uninit2 output2).log)) := by
  have own : ∀ k (uninit output : Nat → α) (idx : Nat),
      Access.outputWrite idx ∈ (RunKernel rows cols k N input mask uninit output).log →
      ∃ i j, begin_k rows N k ≤ i ∧ i < end_k rows N k ∧ 1 ≤ j ∧ j + 1 < cols ∧
        idx = i * cols + j := fun k uninit output idx h =>
    kernelBody_access cols _ _ input mask uninit output (Nat.le_add_left 1 _)
      (begin_le_end rows N k) _ h
  constructor
  · intro k _ uninit output idx h
    obtain ⟨i, j, h1, h2, h3, h4, h5⟩ := own k uninit output idx h
    exact ⟨i, j, h1, h2, h3, by omega, h5⟩
  · rintro k l _ _ hkl uninit1 output1 uninit2 output2 idx ⟨hk, hl⟩
    obtain ⟨i, j, h1, h2, _, h4, h5⟩ := own k uninit1 output1 idx hk
    obtain ⟨i2, j2, g1, g2, _, g4, g5⟩ := own l uninit2 output2 idx hl
    obtain ⟨e1, _⟩ := cell_inj (show j < cols by omega) (show j2 < cols by omega)
      (h5.symm.trans g5)
    subst e1
    exact ranges_disjoint rows N k l i hkl ⟨⟨h1, h2⟩, g1, g2⟩

/-- Index safety, in the model on natural numbers: for `rows ≥ 3`, `cols ≥ 3`, `1 ≤ N ≤ rows-2`
and `k < N`, if the input has at least `rows*cols+3` elements, the output at least
`rows*cols` and the mask exactly 9, every access of replica `k` is in bounds: input reads
below `rows*cols+3`, output writes below `rows*cols`, mask indices below 9 and
shift-register indices below `2*cols+3`. -/
theorem index_safety {α : Type} [Add α] [Mul α] (rows cols N k : Nat)
    (inputLen outputLen maskLen : Nat) (input mask uninit output : Nat → α)
    (hrows : 3 ≤ rows) (hcols : 3 ≤ cols) (hN : 1 ≤ N) (hNle : N ≤ rows - 2) (hk : k < N)
    (hin : rows * cols + 3 ≤ inputLen) (hout : rows * cols ≤ outputLen)
    (hmask : maskLen = 9) :
    ∀ a, a ∈ (RunKernel rows cols k N input mask uninit output).log →
      AccessWithin (rows * cols + 3) 9 (2 * cols + 3) (rows * cols) a ∧
      AccessWithin inputLen maskLen (2 * cols + 3) outputLen a := by
  intro a ha
  have h := kernelBody_access cols _ _ input mask uninit output (Nat.le_add_left 1 _)
    (begin_le_end rows N k) a ha
  have he := end_k_le_last rows N k hN hk
  have he2 : (end_k rows N k + 1) * cols ≤ rows * cols :=
    Nat.mul_le_mul_right cols (by omega)
  subst hmask
  cases a with
  | inputRead idx =>
    simp only [ReplicaAccess] at h
    simp only [AccessWithin]
    omega
  | outputWrite idx =>
    obtain ⟨i, j, _, h2, _, h4, h5⟩ := h
    have h6 : (i + 1) * cols ≤ (end_k rows N k + 1) * cols :=
      Nat.mul_le_mul_right cols (by omega)
    rw [Nat.add_mul, Nat.one_mul] at h6
    simp only [AccessWithin]
    omega
  | maskRead idx => exact ⟨h, h⟩
  | localMaskWrite idx => exact ⟨h, h⟩
  | localMaskRead idx => exact ⟨h, h⟩
  | srWrite idx => exact ⟨h, h⟩
  | srRead idx => exact ⟨h, h⟩

/-! ## Results on empty ranges, scenarios and the order of the writes -/

/-- C12, empty replica range: for `rows ≥ 3`, `cols ≥ 3`, `N ≥ 1` and a replica `k < N`
with `begin_k = end_k`, the kernel stops after its prologue: it writes no output cell,
leaves `output` as it was, and every input index it reads (all of them while priming) is
below `rows*cols+3`. -/
theorem empty_range_noop {α : Type} [Add α] [Mul α] (rows cols N k : Nat)
    (input mask uninit output : Nat → α)
    (hrows : 3 ≤ rows) (hcols : 3 ≤ cols) (hN : 1 ≤ N) (hk : k < N)
    (hempty : begin_k rows N k = end_k rows N k) :
    RunKernel rows cols k N input mask uninit output =
      kernelPrologue cols (begin_k rows N k) input mask uninit output ∧
    outputWrites (RunKernel rows cols k N input mask uninit output).log = [] ∧
    (RunKernel rows cols k N input mask uninit output).output = output ∧
    (∀ idx, Access.inputRead idx ∈ (RunKernel rows cols k N input mask uninit output).log →
      idx < rows * cols + 3) := by
  have hrun : RunKernel rows cols k N input mask uninit output =
      kernelPrologue cols (begin_k rows N k) input mask uninit output := by
    unfold RunKernel kernelBody
    rw [← hempty]
    exact forLoop_of_le _ _ _ _ (Nat.le_refl _)
  refine ⟨hrun, ?_, ?_, ?_⟩
  · rw [hrun]
    exact outputWrites_prologue cols _ input mask uninit output
  · rw [hrun]
    exact (kernelPrologue_spec cols _ input mask uninit output).2.2
  · intro idx hidx
    have h := kernelBody_access cols _ _ input mask uninit output (Nat.le_add_left 1 _)
      (begin_le_end rows N k) _ hidx
    have he := end_k_le_last rows N k hN hk
    have he2 : (end_k rows N k + 1) * cols ≤ rows * cols :=
      Nat.mul_le_mul_right cols (by omega)
    simp only [ReplicaAccess] at h
    omega

/-- Three rows and two replicas: replica 0 has the empty range `[1, 1)`. -/
theorem empty_range_noop_witness :
    (3 ≤ 3 ∧ 3 ≤ 3 ∧ 1 ≤ 2 ∧ 0 < 2 ∧ begin_k 3 2 0 = end_k 3 2 0) ∧
    outputWrites (RunKernel 3 3 0 2 (fun n => (n : Int)) (fun _ => 1) (fun _ => 7)
      (fun _ => -1)).log = [] :=
  ⟨by decide, (empty_range_noop 3 3 2 0 (fun n => (n : Int)) (fun _ => 1) (fun _ => 7)
    (fun _ => -1) (by decide) (by decide) (by decide) (by decide) (by decide)).2.1⟩

/-- All-ones scenario, in the model on natural numbers: for `rows ≥ 3`, `cols ≥ 3` and
`1 ≤ N ≤ rows-2`, with every input element equal to 1 and the mask `{2,4,2,4,1,4,2,4,2}`,
the replicas leave 25 in every interior output cell (the arithmetic being that of any
semiring). -/
theorem all_ones_scenario {α : Type} [Semiring α] (rows cols N : Nat)
    (uninit output : Nat → α) (i j : Nat)
    (hrows : 3 ≤ rows) (hcols : 3 ≤ cols) (hN : 1 ≤ N) (hNle : N ≤ rows - 2)
    (hi : 1 ≤ i) (hi2 : i ≤ rows - 2) (hj : 1 ≤ j) (hj2 : j ≤ cols - 2) :
    runReplicas rows cols N (fun _ => (1 : α)) hostMask uninit output (i * cols + j) = 25 := by
  rw [(runReplicas_spec rows cols N (fun _ => (1 : α)) hostMask uninit output (by omega)
    (by omega) hN).1 i j hi (by omega) hj (by omega)]
  simp only [goldCell, hostMask, List.getD_cons_zero, List.getD_cons_succ, mul_one]
  norm_num

/-- C14, minimum grid: for `rows = 3`, `cols = 3`, `N = 1` and any input and mask, the
kernel performs exactly one output write, to index 4, the cell `(1, 1)`, and the value
there is `mask[0]*input[0] + mask[1]*input[1] + ... + mask[8]*input[8]`. -/
theorem minimum_grid {α : Type} [Add α] [Mul α] (input mask uninit output : Nat → α) :
    outputWrites (RunKernel 3 3 0 1 input mask uninit output).log = [4] ∧
    (RunKernel 3 3 0 1 input mask uninit output).output 4 =
      mask 0 * input 0 + mask 1 * input 1 + mask 2 * input 2 +
      mask 3 * input 3 + mask 4 * input 4 + mask 5 * input 5 +
      mask 6 * input 6 + mask 7 * input 7 + mask 8 * input 8 := by
  constructor
  · exact outputWrites_kernelBody 3 _ _ input mask uninit output (by decide)
      (begin_le_end 3 1 0)
  · exact (RunKernel_spec 3 3 0 1 input mask uninit output (by decide)).1 1 1 (by decide)
      (by decide) (by decide) (by decide)

/-- Row-major write order, in the model on natural numbers: for a replica range
`[begin_k, end_k)` and `cols ≥ 3`, the sequence of the output indices written by the kernel,
in execution order, is `i*cols + j` for `i = begin_k..end_k-1` (outer) and `j = 1..cols-2`
(inner); it is strictly increasing and contains every interior cell of the range exactly
once. -/
theorem row_major_write_order {α : Type} [Add α] [Mul α] (rows cols N k : Nat)
    (input mask uninit output : Nat → α) (hcols : 3 ≤ cols) :
    outputWrites (RunKernel rows cols k N input mask uninit output).log =
      (List.range' (begin_k rows N k) (end_k rows N k - begin_k rows N k)).flatMap
        (fun i => (List.range' 1 (cols - 2)).map (fun j => i * cols + j)) ∧
    (outputWrites (RunKernel rows cols k N input mask uninit output).log).Pairwise
      (fun a b => a < b) ∧
    (∀ i j, begin_k rows N k ≤ i → i < end_k rows N k → 1 ≤ j → j ≤ cols - 2 →
      (outputWrites (RunKernel rows cols k N input mask uninit output).log).count
        (i * cols + j) = 1) := by
  have h : outputWrites (RunKernel rows cols k N input mask uninit output).log =
      rowMajorCells cols (begin_k rows N k) (end_k rows N k) :=
    outputWrites_kernelBody cols _ _ input mask uninit output (by omega)
      (begin_le_end rows N k)
  have hp := rowMajorCells_pairwise cols (begin_k rows N k) (end_k rows N k)
  refine ⟨h, ?_, ?_⟩
  · rw [h]
    exact hp
  · intro i j h1 h2 h3 h4
    rw [h]
    apply List.count_eq_one_of_mem (hp.imp (fun hab => Nat.ne_of_lt hab))
    rw [mem_rowMajorCells]
    exact ⟨i, j, h1, h2, h3, by omega, rfl⟩

/-! ## Results on the order of the replicas -/

/-- Replica order independence, in the model on natural numbers: for `rows ≥ 3`, `cols ≥ 3`,
`1 ≤ N ≤ rows-2` and every permutation `p` of `0..N-1`, running the `N` replicas one after
another in the order `p` yields the same final output array as running them in the order
`0, 1, ..., N-1`. -/
theorem replica_order_independence {α : Type} [Add α] [Mul α] (rows cols N : Nat)
    (input mask uninit output : Nat → α) (p : List Nat)
    (hrows : 3 ≤ rows) (hcols : 3 ≤ cols) (hN : 1 ≤ N) (hNle : N ≤ rows - 2)
    (hp : p.Perm (List.range N)) :
    runReplicasIn rows cols N input mask uninit p output =
      runReplicas rows cols N input mask uninit output := by
  rw [runReplicas_eq_runReplicasIn]
  have h1 := runReplicasIn_spec rows cols N input mask uninit (by omega) p _ output output
    (RowsIn_refl cols input mask output)
  have h2 := runReplicasIn_spec rows cols N input mask uninit (by omega) (List.range N) _
    output output (RowsIn_refl cols input mask output)
  refine RowsIn_unique cols input mask _ _ (fun i => ?_) output _ _ h1 h2
  constructor
  · rintro (h | ⟨k, hk, hr⟩)
    · exact absurd h id
    · exact Or.inr ⟨k, hp.mem_iff.1 hk, hr⟩
  · rintro (h | ⟨k, hk, hr⟩)
    · exact absurd h id
    · exact Or.inr ⟨k, hp.mem_iff.2 hk, hr⟩

/-! ## Results on the explicit-array kernel -/

/-- The single-replica explicit-array kernel matches the gold stencil, in the model on natural
numbers: for `rows ≥ 3`, `cols ≥ 3`, every mask and input, the kernel of `src_srp_templ`
stores in `output[i*cols+j]`, for every interior cell `(i, j)`, the value `gold_stencil`
stores there. -/
theorem srp_templ_matches_gold {α : Type} [Add α] [Mul α] (rows cols : Nat)
    (input mask uninit output res : Nat → α) (i j : Nat)
    (hrows : 3 ≤ rows) (hcols : 3 ≤ cols)
    (hi : 1 ≤ i) (hi2 : i ≤ rows - 2) (hj : 1 ≤ j) (hj2 : j ≤ cols - 2) :
    (RunKernel_srp_templ rows cols input mask uninit output).output (i * cols + j) =
      gold_stencil rows cols input mask res (i * cols + j) := by
  rw [RunKernel_srp_templ_sim]
  have h1 := (kernelBody_spec cols 1 (rows - 1) input mask uninit output (Nat.le_refl 1)
    (by omega) (by omega)).1 i j hi (by omega) hj (by omega)
  have h2 := (gold_stencil_spec rows cols input mask res (by omega) (by omega)).1
    i j hi (by omega) hj (by omega)
  exact h1.trans h2.symm

/-! ## Results on the naive kernel and on the vector add -/

/-- The naive kernel matches the 2-D-mask gold stencil, in the model on natural numbers: for
`rows ≥ 3`, `cols ≥ 3`, every input, and masks `m9`, `m33` with `m33[m][n] = m9[m*3+n]`, the
kernel of `src_naive` and `gold_stencil` of `00_naive/host.cpp` store the same value in
every interior cell. -/
theorem naive_matches_gold {α : Type} [Zero α] [Add α] [Mul α] (rows cols : Nat)
    (input m9 : Nat → α) (m33 : Nat → Nat → α) (output res : Nat → α) (i j : Nat)
    (hrows : 3 ≤ rows) (hcols : 3 ≤ cols)
    (hmask : ∀ m n, m < 3 → n < 3 → m33 m n = m9 (m * 3 + n))
    (hi : 1 ≤ i) (hi2 : i ≤ rows - 2) (hj : 1 ≤ j) (hj2 : j ≤ cols - 2) :
    RunKernel_naive rows cols input m9 output (i * cols + j) =
      gold_stencil_naive rows cols input m33 res (i * cols + j) := by
  have h1 := (cellLoops_spec (naiveSum cols input (fun m n => m9 (m * 3 + n))) rows cols
    (naiveCell cols input m9) (naiveCell_eq cols input m9) output (by omega) (by omega)).1
    i j hi (by omega) hj (by omega)
  have h2 := (cellLoops_spec (naiveSum cols input m33) rows cols
    (goldNaiveCell cols input m33) (goldNaiveCell_eq cols input m33) res (by omega)
    (by omega)).1 i j hi (by omega) hj (by omega)
  have h3 : naiveSum cols input (fun m n => m9 (m * 3 + n)) i j
      = naiveSum cols input m33 i j := by
    unfold naiveSum
    rw [hmask 0 0 (by omega) (by omega), hmask 0 1 (by omega) (by omega),
      hmask 0 2 (by omega) (by omega), hmask 1 0 (by omega) (by omega),
      hmask 1 1 (by omega) (by omega), hmask 1 2 (by omega) (by omega),
      hmask 2 0 (by omega) (by omega), hmask 2 1 (by omega) (by omega),
      hmask 2 2 (by omega) (by omega)]
  unfold RunKernel_naive gold_stencil_naive
  rw [h1, h2, h3]

/-- C20, the replicated vector add equals the sequential sum: for every length `n` and
vectors `a`, `b`, after `VectorAdd` has run for the replicas `0, 1, 2, 3` of four, each
on the slice `[k*n/4, (k+1)*n/4)`, `sum_parallel[i] = a[i] + b[i]` for every `i < n`. -/
theorem vector_add_replicas {α : Type} [Add α] (n : Nat) (a b sum_parallel : Nat → α)
    (i : Nat) (hi : i < n) :
    vectorAddReplicas n a b sum_parallel i = a i + b i := by
  unfold vectorAddReplicas
  simp only [VectorAdd_spec]
  split_ifs <;> first | rfl | omega

/-- Length 6, not a multiple of four: element 4 lies in the slice `[4, 6)` of replica 3. -/
theorem vector_add_replicas_witness :
    4 < 6 ∧
    vectorAddReplicas 6 (fun n => (n : Int)) (fun n => 2 * (n : Int)) (fun _ => -1) 4
      = (fun n => (n : Int)) 4 + (fun n => 2 * (n : Int)) 4 :=
  ⟨by decide, vector_add_replicas 6 (fun n => (n : Int)) (fun n => 2 * (n : Int))
    (fun _ => -1) 4 (by decide)⟩

/-! ## Results on the single-loop kernel -/

/-- The single-loop three-register kernel matches the gold stencil, in the model on natural
numbers: for `kCols` a power of two with `kCols ≥ 4`, `rows ≥ 3`, `1 ≤ N ≤ rows-2` and
`k < N`, the kernel being given the input slice `in[(begin_k-1)*kCols .. (end_k+1)*kCols)`
and its output slice being written back at `out[begin_k*kCols ..]`, for every interior cell
`(i, j)` with `begin_k ≤ i < end_k` the value in `out[i*kCols+j]` is the value
`gold_stencil` computes for `(i, j)`, whatever the reads beyond the end of the input slice
return. -/
theorem single_loop_matches_gold {α : Type} [Add α] [Mul α] (rows kCols N k p : Nat)
    (in_ m out beyond uninit res : Nat → α) (i j : Nat)
    (hpow : kCols = 2 ^ p) (h4 : 4 ≤ kCols) (hrows : 3 ≤ rows)
    (hN : 1 ≤ N) (hNle : N ≤ rows - 2) (hk : k < N)
    (hbi : begin_k rows N k ≤ i) (hie : i < end_k rows N k)
    (hj : 1 ≤ j) (hj2 : j ≤ kCols - 2) :
    RunKernel_1loop rows kCols k N in_ m out beyond uninit (i * kCols + j) =
      gold_stencil rows kCols in_ m res (i * kCols + j) := by
  subst hpow
  have hb1 : 1 ≤ begin_k rows N k := Nat.le_add_left 1 _
  have he := end_k_le_last rows N k hN hk
  generalize hb : begin_k rows N k = b at hbi hb1
  generalize hee : end_k rows N k = e at hie he
  have hgold := (gold_stencil_spec rows (2 ^ p) in_ m res (by omega) (by omega)).1
    i j (by omega) (by omega) hj (by omega)
  rw [hgold]
  obtain ⟨r, hr, hr1, hrn⟩ : ∃ r, i = r + (b - 1) ∧ 1 ≤ r ∧ r ≤ e - b :=
    ⟨i - b + 1, by omega, by omega, by omega⟩
  obtain ⟨n, hn⟩ : ∃ n, e = b + n := ⟨e - b, by omega⟩
  have hpb := pred_mul_add b (2 ^ p) hb1
  have hpr := pred_mul_add r (2 ^ p) hr1
  have hiK : i * 2 ^ p = r * 2 ^ p + (b - 1) * 2 ^ p := by rw [hr, Nat.add_mul]
  have heK : e * 2 ^ p = b * 2 ^ p + n * 2 ^ p := by rw [hn, Nat.add_mul]
  have he1K : (e + 1) * 2 ^ p = e * 2 ^ p + 2 ^ p := by rw [Nat.add_mul, Nat.one_mul]
  have hn1K : (e - b + 1) * 2 ^ p = n * 2 ^ p + 2 ^ p := by
    have e4 : e - b = n := by omega
    rw [e4, Nat.add_mul, Nat.one_mul]
  have hrnK : r * 2 ^ p ≤ n * 2 ^ p := Nat.mul_le_mul_right _ (by omega)
  unfold RunKernel_1loop
  rw [hb, hee, if_pos (by omega)]
  unfold loop1Kernel
  have hidx : i * 2 ^ p + j - b * 2 ^ p = (r - 1) * 2 ^ p + j := by omega
  rw [hidx, loop1_inv p _ m uninit _ ((e - b + 1) * 2 ^ p) (by omega) r j hr1 hj (by omega)
    (by omega)]
  exact goldCell_slice (2 ^ p) b e in_ beyond m r i j hb1 hr1 hr hie hj (by omega)

/-! ## Results on the guard of the single loop, the sub-buffers and the padding -/

/-- C21, border-column write guard: for `kCols` a power of two and every loop index `i`,
the guard `((i+1) & (kCols-1)) && ((i+2) & (kCols-1))` is true if and only if the column
`(i+1) mod kCols` of the cell being written is neither `0` nor `kCols-1`. -/
theorem guard_iff_interior_column (kCols p i : Nat) (hpow : kCols = 2 ^ p) :
    loop1Guard kCols i = true ↔
      ((i + 1) % kCols ≠ 0 ∧ (i + 1) % kCols ≠ kCols - 1) := by
  subst hpow
  exact loop1Guard_pow_two p i

/-- Width 8 and index 13: the column is 6, an interior column, and the guard holds. -/
theorem guard_iff_interior_column_witness :
    8 = 2 ^ 3 ∧
    (loop1Guard 8 13 = true ↔ ((13 + 1) % 8 ≠ 0 ∧ (13 + 1) % 8 ≠ 8 - 1)) :=
  ⟨by decide, guard_iff_interior_column 8 3 13 (by decide)⟩

/-- C27, the bit-mask guard is a column test only for power-of-two widths: the width 6 is
at least 3 and not a power of two, the index `i = 1` has the interior target column
`(i+1) mod 6 = 2`, and the guard is false there; in the kernel on a buffer of three rows
of width 6 the index `i = 7` has the same column and the store to `output[2]`, the cell
in front of it, is skipped. -/
theorem guard_fails_off_power_of_two :
    ∃ kCols i, 3 ≤ kCols ∧ (∀ p, kCols ≠ 2 ^ p) ∧
      (i + 1) % kCols ≠ 0 ∧ (i + 1) % kCols ≠ kCols - 1 ∧
      loop1Guard kCols i = false ∧
      loop1Guard kCols (i + kCols) = false ∧
      (i + kCols) - kCols + 1 ∉
        outputWrites (loop1Kernel kCols 1 (fun n => (n : Int)) hostMask (fun _ => 7)
          (fun _ => -1)).log :=
  ⟨6, 1, by decide, six_not_pow_two, by decide, by decide, by decide, by decide, by decide⟩

/-- The replica sub-buffers lie inside the host vectors, in the model on natural numbers: for
`rows ≥ 3`, `cols ≥ 1`, `1 ≤ N ≤ rows-2` and `k < N`, the input slice
`[(begin_k-1)*cols, (end_k+1)*cols)` and the output slice `[begin_k*cols, end_k*cols)`
satisfy `0 ≤ (begin_k-1)*cols`, `(end_k+1)*cols ≤ rows*cols` and
`cols ≤ begin_k*cols ≤ end_k*cols ≤ (rows-1)*cols`. -/
theorem sub_buffers_inside (rows cols N k : Nat)
    (hrows : 3 ≤ rows) (hcols : 1 ≤ cols) (hN : 1 ≤ N) (hNle : N ≤ rows - 2) (hk : k < N) :
    (0 : Int) ≤ ((begin_k rows N k : Int) - 1) * (cols : Int) ∧
    (end_k rows N k + 1) * cols ≤ rows * cols ∧
    cols ≤ begin_k rows N k * cols ∧
    begin_k rows N k * cols ≤ end_k rows N k * cols ∧
    end_k rows N k * cols ≤ (rows - 1) * cols := by
  have hb : 1 ≤ begin_k rows N k := Nat.le_add_left 1 _
  have hbe := begin_le_end rows N k
  have he := end_k_le_last rows N k hN hk
  refine ⟨?_, ?_, ?_, ?_, ?_⟩
  · apply mul_nonneg
    · omega
    · omega
  · exact Nat.mul_le_mul_right cols (by omega)
  · have h := Nat.mul_le_mul_right cols hb
    omega
  · exact Nat.mul_le_mul_right cols hbe
  · exact Nat.mul_le_mul_right cols (by omega)

/-- Each input element is streamed exactly once, in the model on natural numbers: for `cols ≥ 3`
and a replica range `[b, e)` with `1 ≤ b ≤ e`, the sequence of the input indices read by the
kernel, the `2*cols+3` priming reads followed by the shift reads in execution order, is the
consecutive run `(b-1)*cols, (b-1)*cols+1, ..., (e+1)*cols+2`, each index appearing once;
the largest index read by the last replica of `RunKernel` is `rows*cols+2`. -/
theorem input_streamed_once {α : Type} [Add α] [Mul α] (rows cols N k b e : Nat)
    (input mask uninit output : Nat → α) (hcols : 3 ≤ cols) (hb : 1 ≤ b) (hbe : b ≤ e) :
    inputReads (kernelBody cols b e input mask uninit output).log =
      List.range' ((b - 1) * cols) ((e - b + 2) * cols + 3) ∧
    (∀ idx, idx ∈ inputReads (kernelBody cols b e input mask uninit output).log ↔
      ((b - 1) * cols ≤ idx ∧ idx ≤ (e + 1) * cols + 2)) ∧
    (inputReads (kernelBody cols b e input mask uninit output).log).Nodup ∧
    (2 ≤ rows → 1 ≤ N → k + 1 = N →
      rows * cols + 2 ∈ inputReads (RunKernel rows cols k N input mask uninit output).log ∧
      ∀ idx, idx ∈ inputReads (RunKernel rows cols k N input mask uninit output).log →
        idx ≤ rows * cols + 2) := by
  have hmem : ∀ b2 e2 : Nat, 1 ≤ b2 → b2 ≤ e2 →
      ∀ idx, idx ∈ inputReads (kernelBody cols b2 e2 input mask uninit output).log ↔
        ((b2 - 1) * cols ≤ idx ∧ idx ≤ (e2 + 1) * cols + 2) := by
    intro b2 e2 hb2 hbe2 idx
    have hlen : (b2 - 1) * cols + ((e2 - b2 + 2) * cols + 3) = (e2 + 1) * cols + 3 := by
      have e1 : e2 + 1 = (b2 - 1) + (e2 - b2 + 2) := by omega
      rw [e1, Nat.add_mul (b2 - 1) _ cols]
      omega
    rw [inputReads_kernelBody cols b2 e2 input mask uninit output (by omega) hb2 hbe2,
      List.mem_range'_1, hlen]
    omega
  refine ⟨inputReads_kernelBody cols b e input mask uninit output (by omega) hb hbe,
    hmem b e hb hbe, ?_, ?_⟩
  · rw [inputReads_kernelBody cols b e input mask uninit output (by omega) hb hbe]
    exact List.nodup_range' _ _
  · intro hrows hN hlast
    have hb1 : 1 ≤ begin_k rows N k := Nat.le_add_left 1 _
    have hbe1 := begin_le_end rows N k
    have hend : end_k rows N k = rows - 1 := by
      rw [end_k_eq_begin_succ, hlast, begin_k_last rows N hN]
      omega
    have e2 : (end_k rows N k + 1) * cols = rows * cols := by
      rw [hend]
      congr 1
      omega
    have hb2 : (begin_k rows N k - 1) * cols ≤ (end_k rows N k + 1) * cols :=
      Nat.mul_le_mul_right cols (by omega)
    have hm : ∀ idx, idx ∈ inputReads (RunKernel rows cols k N input mask uninit output).log ↔
        ((begin_k rows N k - 1) * cols ≤ idx ∧ idx ≤ (end_k rows N k + 1) * cols + 2) :=
      hmem _ _ hb1 hbe1
    constructor
    · rw [hm, e2]
      rw [e2] at hb2
      omega
    · intro idx hidx
      rw [hm, e2] at hidx
      exact hidx.2

/-! ## Results on the reads of the single-loop kernel and on the result check -/

/-- C22, reads of the single-loop kernel beyond its input slice: on a grid of 3 rows and
4 columns with one replica the input buffer of replica 0 has `(end-begin+2)*kCols = 12`
elements, indices `0..11`, and the kernel reads `input[12]` and `input[13]`. -/
theorem single_loop_reads_past_slice :
    (end_k 3 1 0 - begin_k 3 1 0 + 2) * 4 = 12 ∧
    Access.inputRead 12 ∈
      (loop1Kernel 4 (end_k 3 1 0 - begin_k 3 1 0)
        (loop1InputSlice 4 (begin_k 3 1 0) (end_k 3 1 0) (fun n => (n : Int)) (fun _ => 100))
        hostMask (fun _ => 7) (fun _ => -1)).log ∧
    Access.inputRead 13 ∈
      (loop1Kernel 4 (end_k 3 1 0 - begin_k 3 1 0)
        (loop1InputSlice 4 (begin_k 3 1 0) (end_k 3 1 0) (fun n => (n : Int)) (fun _ => 100))
        hostMask (fun _ => 7) (fun _ => -1)).log := by decide

/-- C25, the result check of `00_naive` on a wrong result: on the 3 x 3 grid with
`gold_output` zero everywhere and `output` equal to 1 in the interior cell `(1, 1)` and zero
elsewhere, the eight border cells are counted, the bound is 1, the check reports
`PASSED: results are correct`, and the interior cell differs by `1 ≥ kTol`. -/
theorem result_check_accepts_wrong :
    checkBound 3 3 = 1 ∧
    countCorrect 9 (fun _ => 0) (fun n => if n = 1 * 3 + 1 then 1 else 0) = 8 ∧
    resultCheck 3 3 (fun _ => 0) (fun n => if n = 1 * 3 + 1 then 1 else 0) = true ∧
    ¬ (|(fun _ => (0 : ℚ)) (1 * 3 + 1) - (fun n => if n = 1 * 3 + 1 then (1 : ℚ) else 0) (1 * 3 + 1)|
        < kTol) := by
  have hb : checkBound 3 3 = 1 := by decide
  have hc : countCorrect 9 (fun _ => 0) (fun n => if n = 1 * 3 + 1 then 1 else 0) = 8 := by
    norm_num [countCorrect, forLoop, forCount, kTol]
  refine ⟨hb, hc, ?_, ?_⟩
  · have e9 : 3 * 3 % sizeModulus = 9 := by decide
    unfold resultCheck
    rw [hb, e9, hc]
    decide
  · norm_num [kTol]

/-! ## Results on the baseline kernel and on the 2-D CPU kernel -/

/-- Naive and unrolled kernels compute the same operation, in the model on natural numbers: for
`rows ≥ 3`, `cols ≥ 3`, any input and mask over a commutative ring, the kernel of
`src_naive` and the kernel of `src_baseline` write the same set of output indices, the
interior cells, and leave equal values in every interior cell, indeed the same output array. -/
theorem naive_baseline_same {α : Type} [CommRing α] (rows cols : Nat)
    (input mask output : Nat → α) (hrows : 3 ≤ rows) (hcols : 3 ≤ cols) :
    (∀ idx, idx ∈ (RunKernel_naiveW rows cols input mask ⟨output, []⟩).writes ↔
      idx ∈ (RunKernel_baseline rows cols input mask ⟨output, []⟩).writes) ∧
    (∀ idx, idx ∈ (RunKernel_baseline rows cols input mask ⟨output, []⟩).writes ↔
      ∃ i j, 1 ≤ i ∧ i < rows - 1 ∧ 1 ≤ j ∧ j < cols - 1 ∧ idx = i * cols + j) ∧
    (∀ i j, 1 ≤ i → i + 1 < rows → 1 ≤ j → j + 1 < cols →
      (RunKernel_naiveW rows cols input mask ⟨output, []⟩).output (i * cols + j) =
        (RunKernel_baseline rows cols input mask ⟨output, []⟩).output (i * cols + j)) ∧
    (RunKernel_naiveW rows cols input mask ⟨output, []⟩).output =
      (RunKernel_baseline rows cols input mask ⟨output, []⟩).output := by
  have hn := cellLoopsW_spec
    (fun i j => naiveSum cols input (fun m n => mask (m * 3 + n)) i j) rows cols
    (fun i j s => naiveCellW cols input mask i j s)
    (fun i j s => by rw [naiveCellW_output, naiveCell_eq])
    (fun i j s idx => by
      rw [naiveCellW_writes, List.mem_append, List.mem_replicate]
      simp)
    ⟨output, []⟩ (by omega) (by omega)
  have hb := cellLoopsW_spec
    (fun i j => baselineTmp cols input mask i j) rows cols
    (fun i j s => writeOut s (i * cols + j) (baselineTmp cols input mask i j))
    (fun i j s => rfl)
    (fun i j s idx => by simp [writeOut])
    ⟨output, []⟩ (by omega) (by omega)
  have hnw : ∀ idx, idx ∈ (RunKernel_naiveW rows cols input mask ⟨output, []⟩).writes ↔
      ∃ i j, 1 ≤ i ∧ i < rows - 1 ∧ 1 ≤ j ∧ j < cols - 1 ∧ idx = i * cols + j := by
    intro idx
    have h := hn.2 idx
    simpa using h
  have hbw : ∀ idx, idx ∈ (RunKernel_baseline rows cols input mask ⟨output, []⟩).writes ↔
      ∃ i j, 1 ≤ i ∧ i < rows - 1 ∧ 1 ≤ j ∧ j < cols - 1 ∧ idx = i * cols + j := by
    intro idx
    have h := hb.2 idx
    simpa using h
  have hcell : ∀ i j, 1 ≤ i → i + 1 < rows → 1 ≤ j → j + 1 < cols →
      (RunKernel_naiveW rows cols input mask ⟨output, []⟩).output (i * cols + j) =
        (RunKernel_baseline rows cols input mask ⟨output, []⟩).output (i * cols + j) := by
    intro i j hi hi2 hj hj2
    have h1 := hn.1.1 i j hi (by omega) hj hj2
    have h2 := hb.1.1 i j hi (by omega) hj hj2
    exact h1.trans ((naiveSum_eq_baselineTmp cols input mask i j hi hj).trans h2.symm)
  refine ⟨fun idx => (hnw idx).trans (hbw idx).symm, hbw, hcell, ?_⟩
  funext t
  by_cases ht : ∃ i j, 1 ≤ i ∧ i < rows - 1 ∧ 1 ≤ j ∧ j + 1 < cols ∧ t = i * cols + j
  · obtain ⟨i, j, hi, hi2, hj, hj2, rfl⟩ := ht
    exact hcell i j hi (by omega) hj hj2
  · have hno : ∀ i j, 1 ≤ i → i < rows - 1 → 1 ≤ j → j + 1 < cols → t ≠ i * cols + j :=
      fun i j hi hi2 hj hj2 e => ht ⟨i, j, hi, hi2, hj, hj2, e⟩
    exact (hn.1.2 t hno).trans (hb.1.2 t hno).symm

/-- The 2-D CPU kernel covers exactly the interior, in the model on natural numbers: for
`rows ≥ 3`, `cols ≥ 3` and the work-items of the range `(rows-2) x (cols-2)` run in any
order, every interior cell `(i, j)` is written exactly once, its value is the nine-term sum
`gold_stencil` stores at `i*cols+j`, no other cell is written, and every other cell keeps
its value. -/
theorem cpu_kernel_covers_interior {α : Type} [Add α] [Mul α] (rows cols : Nat)
    (input mask output res : Nat → α) (order : List (Nat × Nat))
    (hrows : 3 ≤ rows) (hcols : 3 ≤ cols)
    (horder : List.Perm order (stencil_range rows cols)) :
    (∀ i j, 1 ≤ i → i ≤ rows - 2 → 1 ≤ j → j ≤ cols - 2 →
      List.count (i * cols + j) (run_cpu_kernel cols input mask order ⟨output, []⟩).writes = 1 ∧
      (run_cpu_kernel cols input mask order ⟨output, []⟩).output (i * cols + j) =
        gold_stencil rows cols input mask res (i * cols + j)) ∧
    (∀ idx, idx ∈ (run_cpu_kernel cols input mask order ⟨output, []⟩).writes →
      ∃ i j, 1 ≤ i ∧ i ≤ rows - 2 ∧ 1 ≤ j ∧ j ≤ cols - 2 ∧ idx = i * cols + j) ∧
    (∀ idx, (∀ i j, 1 ≤ i → i ≤ rows - 2 → 1 ≤ j → j ≤ cols - 2 → idx ≠ i * cols + j) →
      (run_cpu_kernel cols input mask order ⟨output, []⟩).output idx = output idx) := by
  have hmem : ∀ p, p ∈ order ↔ (p.1 < rows - 2 ∧ p.2 < cols - 2) := fun p =>
    (List.Perm.mem_iff horder).trans (mem_stencil_range rows cols p)
  have hinj : ∀ p q, p ∈ order → q ∈ order → cellOf cols q = cellOf cols p → q = p :=
    fun p q hp hq => cellOf_inj rows cols p q ((List.Perm.mem_iff horder).mp hp)
      ((List.Perm.mem_iff horder).mp hq)
  have hnodup : (order.map (cellOf cols)).Nodup :=
    List.Nodup.map_on (fun p hp q hq e => hinj q p hq hp e)
      ((List.Perm.nodup_iff horder).mpr (stencil_range_nodup rows cols))
  have hw : (run_cpu_kernel cols input mask order ⟨output, []⟩).writes =
      order.map (cellOf cols) := by
    rw [run_cpu_kernel_writes]
    rfl
  refine ⟨?_, ?_, ?_⟩
  · intro i j hi hi2 hj hj2
    have hp : ((i - 1, j - 1) : Nat × Nat) ∈ order := by
      rw [hmem]
      constructor
      · show i - 1 < rows - 2
        omega
      · show j - 1 < cols - 2
        omega
    have hcell : cellOf cols (i - 1, j - 1) = i * cols + j := by
      show (i - 1 + 1) * cols + (j - 1 + 1) = i * cols + j
      rw [Nat.sub_add_cancel hi, Nat.sub_add_cancel hj]
    constructor
    · rw [hw]
      exact List.count_eq_one_of_mem hnodup (hcell ▸ List.mem_map_of_mem (cellOf cols) hp)
    · have h := run_cpu_kernel_cell cols input mask order ⟨output, []⟩ (i - 1, j - 1) hp
        (fun q hq e => hinj _ q hp hq e)
      rw [hcell] at h
      have hg := (gold_stencil_spec rows cols input mask res (by omega) (by omega)).1 i j hi
        (by omega) hj (by omega)
      rw [h, hg]
      show goldCell cols input mask (i - 1 + 1) (j - 1 + 1) = _
      rw [Nat.sub_add_cancel hi, Nat.sub_add_cancel hj]
  · intro idx hidx
    rw [hw, List.mem_map] at hidx
    obtain ⟨p, hp, rfl⟩ := hidx
    have h := (hmem p).mp hp
    exact ⟨p.1 + 1, p.2 + 1, by omega, by omega, by omega, by omega, rfl⟩
  · intro idx hidx
    refine run_cpu_kernel_other cols input mask order ⟨output, []⟩ idx ?_
    intro p hp e
    have h := (hmem p).mp hp
    exact hidx (p.1 + 1) (p.2 + 1) (by omega) (by omega) (by omega) (by omega) e.symm

/-! ## Machine integers and loops with an `int` counter -/

theorem intOfSize_of_lt (n : Nat) (h : n < 2147483648) : intOfSize n = (n : Int) := by
  unfold intOfSize
  have e : n % 4294967296 = n := Nat.mod_eq_of_lt (by omega)
  rw [e, if_pos h]

theorem sizeOfInt_natCast (n : Nat) (h : n < 18446744073709551616) :
    sizeOfInt (n : Int) = n := by
  unfold sizeOfInt
  omega

theorem intWrap_natCast (n : Nat) (h : n < 2147483648) : intWrap (n : Int) = (n : Int) := by
  unfold intWrap
  rw [sizeOfInt_natCast n (by omega), intOfSize_of_lt n h]

theorem intOfSize_range (n : Nat) :
    -2147483648 ≤ intOfSize n ∧ intOfSize n < 2147483648 := by
  unfold intOfSize
  split <;> omega

theorem intWrap_range (z : Int) : -2147483648 ≤ intWrap z ∧ intWrap z < 2147483648 :=
  intOfSize_range _

theorem intWrap_of_range (z : Int) (h1 : -2147483648 ≤ z) (h2 : z < 2147483648) :
    intWrap z = z := by
  unfold intWrap intOfSize sizeOfInt
  split <;> omega

/-- An `int` converted to `size_t` is below `2^31` or at least `2^64 - 2^31`. -/
theorem sizeOfInt_gap (z : Int) (h1 : -2147483648 ≤ z) (h2 : z < 2147483648) :
    sizeOfInt z < 2147483648 ∨ 18446744071562067968 ≤ sizeOfInt z := by
  unfold sizeOfInt
  omega

theorem forIntAux_of_not {σ : Type} (cond : Int → Bool) (body : Int → σ → σ) (fuel : Nat)
    (i : Int) (s : σ) (h : cond i = false) : forIntAux cond body fuel i s = s := by
  cases fuel with
  | zero => rfl
  | succ n => simp [forIntAux, h]

theorem forIntAux_step {σ : Type} (cond : Int → Bool) (body : Int → σ → σ) (fuel : Nat)
    (i : Int) (s : σ) (h : cond i = true) :
    forIntAux cond body (fuel + 1) i s = forIntAux cond body fuel (intWrap (i + 1)) (body i s) := by
  simp [forIntAux, h]

/-- A loop whose condition fails at once does nothing. -/
theorem forIntWhile_of_not {σ : Type} (cond : Int → Bool) (lo : Int) (body : Int → σ → σ)
    (s : σ) (h : cond lo = false) : forIntWhile cond lo body s = s :=
  forIntAux_of_not cond body _ lo s h

/-- A property that every iteration preserves holds after the loop. -/
theorem forIntAux_inv {σ : Type} (P : σ → Prop) (cond : Int → Bool) (body : Int → σ → σ)
    (h : ∀ i s, cond i = true → -2147483648 ≤ i → i < 2147483648 → P s → P (body i s)) :
    ∀ (fuel : Nat) (i : Int) (s : σ), -2147483648 ≤ i → i < 2147483648 → P s →
      P (forIntAux cond body fuel i s) := by
  intro fuel
  induction fuel with
  | zero => intro i s _ _ hs; exact hs
  | succ n ih =>
    intro i s h1 h2 hs
    by_cases hc : cond i = true
    · rw [forIntAux_step cond body n i s hc]
      exact ih _ _ (intWrap_range _).1 (intWrap_range _).2 (h i s hc h1 h2 hs)
    · rw [forIntAux_of_not cond body _ i s (by simpa using hc)]
      exact hs

theorem forIntWhile_inv {σ : Type} (P : σ → Prop) (cond : Int → Bool) (lo : Int)
    (body : Int → σ → σ) (s : σ) (h1 : -2147483648 ≤ lo) (h2 : lo < 2147483648)
    (h : ∀ i s, cond i = true → -2147483648 ≤ i → i < 2147483648 → P s → P (body i s))
    (hs : P s) : P (forIntWhile cond lo body s) :=
  forIntAux_inv P cond body h _ lo s h1 h2 hs

/-- A loop whose counter stays below `2^31` is the loop over the natural numbers. -/
theorem forIntAux_eq_forLoop {σ : Type} (cond : Int → Bool) (body : Int → σ → σ) (hi : Nat)
    (hhi : hi ≤ 2147483648) (hin : ∀ i : Nat, i < hi → cond (i : Int) = true)
    (hout : cond (intWrap (hi : Int)) = false) :
    ∀ (n lo fuel : Nat) (s : σ), lo + n = hi → n < fuel →
      forIntAux cond body fuel (intWrap (lo : Int)) s =
        forLoop lo hi (fun i => body (i : Int)) s := by
  intro n
  induction n with
  | zero =>
    intro lo fuel s hlo _
    have e : lo = hi := by omega
    subst e
    rw [forIntAux_of_not cond body _ _ s hout, forLoop_of_le _ _ _ _ (Nat.le_refl _)]
  | succ m ih =>
    intro lo fuel s hlo hf
    obtain ⟨f, rfl⟩ : ∃ f, fuel = f + 1 := ⟨fuel - 1, by omega⟩
    have hw : intWrap (lo : Int) = (lo : Int) := intWrap_natCast lo (by omega)
    rw [hw, forIntAux_step cond body f _ s (hin lo (by omega)), forLoop_step _ _ _ _ (by omega)]
    have e : ((lo : Int) + 1) = ((lo + 1 : Nat) : Int) := by push_cast; rfl
    rw [e]
    exact ih (lo + 1) f _ (by omega) (by omega)

/-- The loop `for (int i = lo; i < hi; i++)` between two natural numbers below `2^31`. -/
theorem forIntLt_eq_forLoop {σ : Type} (lo hi : Nat) (body : Int → σ → σ) (s : σ)
    (hhi : hi < 2147483648) (hlo : lo < 2147483648) :
    forIntLt (lo : Int) (hi : Int) body s = forLoop lo hi (fun i => body (i : Int)) s := by
  by_cases hle : lo ≤ hi
  · have h := forIntAux_eq_forLoop (fun i => decide (i < (hi : Int))) body hi (by omega)
      (fun i hi2 => by simp; omega)
      (by rw [intWrap_natCast hi hhi]; simp)
      (hi - lo) lo 4294967296 s (by omega) (by omega)
    rw [intWrap_natCast lo hlo] at h
    exact h
  · rw [forLoop_of_le _ _ _ _ (by omega)]
    exact forIntWhile_of_not _ _ _ _ (by simp; omega)

/-- The loop `for (int i = lo; i < bound; i++)` with a `size_t` bound of `2^31` at most. -/
theorem forIntSize_eq_forLoop {σ : Type} (lo bound : Nat) (body : Int → σ → σ) (s : σ)
    (hb : bound ≤ 2147483648) (hlo : lo < 2147483648) :
    forIntSize (lo : Int) bound body s = forLoop lo bound (fun i => body (i : Int)) s := by
  by_cases hle : lo ≤ bound
  · have h := forIntAux_eq_forLoop (fun i => decide (sizeOfInt i < bound)) body bound hb
      (fun i hi2 => by
        beta_reduce
        rw [sizeOfInt_natCast i (by omega)]
        simpa using hi2)
      (by
        beta_reduce
        by_cases h31 : bound < 2147483648
        · rw [intWrap_natCast bound h31, sizeOfInt_natCast bound (by omega)]
          simp
        · have e : bound = 2147483648 := by omega
          subst e
          decide)
      (bound - lo) lo 4294967296 s (by omega) (by omega)
    rw [intWrap_natCast lo hlo] at h
    exact h
  · rw [forLoop_of_le _ _ _ _ (by omega)]
    refine forIntWhile_of_not _ _ _ _ ?_
    rw [sizeOfInt_natCast lo (by omega)]
    simp
    omega

/-- With a `size_t` bound between `2^31` and `2^64 - 2^31` the counter runs up to
`2^31 - 1`; its next value, `-2^31`, converts to `2^64 - 2^31` and ends the loop. -/
theorem forIntSize_eq_forLoop_max {σ : Type} (lo bound : Nat) (body : Int → σ → σ) (s : σ)
    (hb1 : 2147483648 ≤ bound) (hb2 : bound ≤ 18446744071562067968) (hlo : lo < 2147483648) :
    forIntSize (lo : Int) bound body s =
      forLoop lo 2147483648 (fun i => body (i : Int)) s := by
  have h := forIntAux_eq_forLoop (fun i => decide (sizeOfInt i < bound)) body 2147483648
    (Nat.le_refl _)
    (fun i hi2 => by
      beta_reduce
      rw [sizeOfInt_natCast i (by omega)]
      simp
      omega)
    (by
      beta_reduce
      have e : sizeOfInt (intWrap ((2147483648 : Nat) : Int)) = 18446744071562067968 := by
        decide
      rw [e]
      simp
      omega)
    (2147483648 - lo) lo 4294967296 s (by omega) (by omega)
  rw [intWrap_natCast lo hlo] at h
  exact h

/-! ## The typed kernel agrees with the kernel on natural numbers below `2^31` -/

theorem forLoop_congr {σ : Type} (lo hi : Nat) (f g : Nat → σ → σ) (s : σ)
    (h : ∀ i, lo ≤ i → i < hi → ∀ t, f i t = g i t) :
    forLoop lo hi f s = forLoop lo hi g s :=
  forLoop_sim (fun a b => a = b) lo hi f g s s rfl
    (fun i s2 t2 h1 h2 h3 => by rw [h3]; exact h i h1 h2 t2)

theorem intWrap_add_natCast (a b : Nat) (h : a + b < 2147483648) :
    intWrap ((a : Int) + (b : Int)) = ((a + b : Nat) : Int) := by
  rw [← Nat.cast_add]
  exact intWrap_natCast _ h

theorem crow_base_natCast (kCols i : Nat) (h : i * kCols < 2147483648) :
    crow_base kCols (i : Int) = ((i * kCols : Nat) : Int) := by
  have hc : kCols = 0 ∨ i ≤ i * kCols := by
    rcases Nat.eq_zero_or_pos kCols with h0 | h0
    · exact Or.inl h0
    · exact Or.inr (Nat.le_mul_of_pos_right i h0)
  unfold crow_base sizeModulus
  rcases hc with h0 | h0
  · subst h0
    simp [intOfSize]
  · rw [sizeOfInt_natCast i (by omega), Nat.mod_eq_of_lt (by omega), intOfSize_of_lt _ h]

theorem nrow_base_natCast (kCols i : Nat) (h : i * kCols + kCols < 2147483648) :
    nrow_base kCols (i : Int) = ((i * kCols + kCols : Nat) : Int) := by
  unfold nrow_base sizeModulus
  rw [crow_base_natCast kCols i (by omega), sizeOfInt_natCast _ (by omega),
    Nat.mod_eq_of_lt (by omega), intOfSize_of_lt _ h]

theorem prow_base_natCast (kCols i : Nat) (h : i * kCols < 2147483648) (hi : 1 ≤ i) :
    prow_base kCols (i : Int) = ((i * kCols - kCols : Nat) : Int) := by
  have hp := pred_mul_add i kCols hi
  unfold prow_base sizeSub sizeModulus
  rw [crow_base_natCast kCols i h, sizeOfInt_natCast _ (by omega)]
  have e : (i * kCols + 18446744073709551616 - kCols) % 18446744073709551616
      = i * kCols - kCols := by omega
  rw [e, intOfSize_of_lt _ (by omega)]

/-- The subscript `crow_base+j` when no value reaches `2^31`. -/
theorem outIdx_natCast (kCols i j : Nat) (h : i * kCols + j < 2147483648) :
    sizeOfInt (intWrap (crow_base kCols (i : Int) + (j : Int))) = i * kCols + j := by
  rw [crow_base_natCast kCols i (by omega), intWrap_add_natCast _ _ h,
    sizeOfInt_natCast _ (by omega)]

/-- The subscript `nrow_base+2+j` when no value reaches `2^31`. -/
theorem shiftIdx_natCast (kCols i j : Nat) (h : i * kCols + kCols + 2 + j < 2147483648) :
    sizeOfInt (intWrap (intWrap (nrow_base kCols (i : Int) + 2) + (j : Int)))
      = i * kCols + kCols + 2 + j := by
  have e2 : (2 : Int) = ((2 : Nat) : Int) := rfl
  rw [nrow_base_natCast kCols i (by omega), e2, intWrap_add_natCast _ _ (by omega),
    intWrap_add_natCast _ _ h, sizeOfInt_natCast _ (by omega)]

/-- The subscripts `nrow_base+kCols+1` and `nrow_base+kCols+2` when `nrow_base` is below
`2^31`. -/
theorem resyncIdx_natCast (kCols i c : Nat) (h : i * kCols + kCols < 2147483648)
    (hc : c ≤ 2) :
    ((sizeOfInt (nrow_base kCols (i : Int)) + kCols) % sizeModulus + c) % sizeModulus
      = i * kCols + kCols + kCols + c := by
  have hk : kCols < 2147483648 := by omega
  unfold sizeModulus
  rw [nrow_base_natCast kCols i h, sizeOfInt_natCast _ (by omega)]
  omega

/-- The subscript `(begin-1)*kCols+i` when no value reaches `2^31`. -/
theorem primeIdx_natCast (kCols b i : Nat) (hb : 1 ≤ b) (hb2 : b < 2147483648)
    (h : (b - 1) * kCols + i < 2147483648) :
    (sizeOfInt (intWrap ((b : Int) - 1)) * kCols % sizeModulus + sizeOfInt (i : Int))
      % sizeModulus = (b - 1) * kCols + i := by
  have e : (b : Int) - 1 = ((b - 1 : Nat) : Int) := by omega
  unfold sizeModulus
  rw [e, intWrap_natCast _ (by omega), sizeOfInt_natCast _ (by omega),
    sizeOfInt_natCast i (by omega)]
  omega

theorem colStepT_natCast {α : Type} [Add α] [Mul α] (kCols : Nat) (input : Nat → α)
    (i j : Nat) (s : KernelState α) (h : i * kCols + kCols + 2 + j < 2147483648) :
    colStepT kCols input (i : Int) (j : Int) s = colStep kCols input i j s := by
  unfold colStepT colStep
  rw [outIdx_natCast kCols i j (by omega), shiftIdx_natCast kCols i j h]

theorem rowResyncT_natCast {α : Type} (kCols : Nat) (input : Nat → α) (i : Nat)
    (s : KernelState α) (h : i * kCols + kCols < 2147483648) :
    rowResyncT kCols input (i : Int) s = rowResync kCols input i s := by
  unfold rowResyncT rowResync
  rw [resyncIdx_natCast kCols i 1 h (by omega), resyncIdx_natCast kCols i 2 h (by omega)]

theorem rowStepT_natCast {α : Type} [Add α] [Mul α] (kCols : Nat) (input : Nat → α)
    (i : Nat) (s : KernelState α) (hc : 1 ≤ kCols)
    (h : i * kCols + kCols + kCols < 2147483648) :
    rowStepT kCols input (i : Int) s = rowStep kCols input i s := by
  have hs : sizeSub kCols 1 = kCols - 1 := by
    unfold sizeSub sizeModulus
    omega
  unfold rowStepT rowStep
  have hl : forIntSize 1 (kCols - 1) (colStepT kCols input (i : Int)) s =
      forLoop 1 (kCols - 1) (fun j => colStepT kCols input (i : Int) (j : Int)) s :=
    forIntSize_eq_forLoop 1 (kCols - 1) _ s (by omega) (by omega)
  have hcongr := forLoop_congr 1 (kCols - 1)
    (fun j => colStepT kCols input (i : Int) (j : Int)) (colStep kCols input i) s
    (fun j _ hj t => colStepT_natCast kCols input i j t (by omega))
  rw [hs, hl, hcongr, rowResyncT_natCast kCols input i _ (by omega)]

theorem kernelPrologueT_natCast {α : Type} (kCols b : Nat)
    (input mask uninit output : Nat → α) (hb : 1 ≤ b) (hb2 : b < 2147483648)
    (h : (b - 1) * kCols + 2 * kCols + 3 ≤ 2147483648) :
    kernelPrologueT kCols (b : Int) input mask uninit output =
      kernelPrologue kCols b input mask uninit output := by
  unfold kernelPrologueT kernelPrologue primeSrT primeSr
  have em : (2 * kCols + 3) % sizeModulus = 2 * kCols + 3 := by
    unfold sizeModulus
    omega
  have hl : forIntSize 0 (2 * kCols + 3) (primeSrStepT kCols input (b : Int))
      (loadMask mask (initState uninit output)) =
      forLoop 0 (2 * kCols + 3) (fun i => primeSrStepT kCols input (b : Int) (i : Int))
        (loadMask mask (initState uninit output)) :=
    forIntSize_eq_forLoop 0 (2 * kCols + 3) _ _ (by omega) (by omega)
  rw [em, hl]
  refine forLoop_congr 0 (2 * kCols + 3) _ _ _ (fun i _ hi t => ?_)
  show primeSrStepT kCols input (b : Int) (i : Int) t = primeSrStep kCols input b i t
  unfold primeSrStepT primeSrStep
  rw [primeIdx_natCast kCols b i hb hb2 (by omega), sizeOfInt_natCast i (by omega)]

/-- The kernel body with the types of the source is the kernel body on natural numbers
when every index it forms is below `2^31`. -/
theorem kernelBodyT_natCast {α : Type} [Add α] [Mul α] (kCols b e : Nat)
    (input mask uninit output : Nat → α) (hc : 1 ≤ kCols) (hb : 1 ≤ b) (hbe : b ≤ e)
    (h : (e + 1) * kCols + 3 ≤ 2147483648) :
    kernelBodyT kCols (b : Int) (e : Int) input mask uninit output =
      kernelBody kCols b e input mask uninit output := by
  have he : (e + 1) * kCols = e * kCols + kCols := by rw [Nat.add_mul, Nat.one_mul]
  have hek : e ≤ e * kCols := Nat.le_mul_of_pos_right e (by omega)
  have hbk : (b - 1) * kCols + kCols ≤ e * kCols := by
    rw [pred_mul_add b kCols hb]
    exact Nat.mul_le_mul_right kCols hbe
  unfold kernelBodyT kernelBody
  rw [kernelPrologueT_natCast kCols b input mask uninit output hb (by omega) (by omega),
    forIntLt_eq_forLoop b e _ _ (by omega) (by omega)]
  refine forLoop_congr b e _ _ _ (fun i _ hi t => ?_)
  have hik : (i + 1) * kCols ≤ e * kCols := Nat.mul_le_mul_right kCols hi
  rw [Nat.add_mul, Nat.one_mul] at hik
  exact rowStepT_natCast kCols input i t hc (by omega)

/-! ## The typed replicas and the typed reference agree with those on natural numbers -/

theorem endSizeT_eq_begin_succ (kRows N k : Nat) :
    endSizeT kRows N k = beginSizeT kRows N (k + 1) := rfl

/-- The constant `begin` is `begin_k` when `kRows` and `NumReplicas` are below `2^31`. -/
theorem beginSizeT_natCast (rows N k : Nat) (hrows : 2 ≤ rows) (hr : rows ≤ 2147483648)
    (hN : 1 ≤ N) (hN2 : N < 2147483648) (hk : k ≤ N) :
    beginSizeT rows N k = ((begin_k rows N k : Nat) : Int) := by
  have hs : sizeSub rows 2 = rows - 2 := by
    unfold sizeSub sizeModulus
    omega
  have hprod : k * (rows - 2) ≤ 2147483648 * 2147483648 :=
    Nat.mul_le_mul (by omega) (by omega)
  have hdiv : k * (rows - 2) / N ≤ rows - 2 :=
    Nat.div_le_of_le_mul (Nat.mul_le_mul_right _ hk)
  have e1 : k * (rows - 2) % 18446744073709551616 = k * (rows - 2) :=
    Nat.mod_eq_of_lt (by omega)
  have e2 : (k * (rows - 2) / N + 1) % 18446744073709551616 = k * (rows - 2) / N + 1 :=
    Nat.mod_eq_of_lt (by omega)
  unfold beginSizeT begin_k
  rw [hs]
  unfold sizeModulus
  rw [e1, e2, intOfSize_of_lt _ (by omega)]

theorem endSizeT_natCast (rows N k : Nat) (hrows : 2 ≤ rows) (hr : rows ≤ 2147483648)
    (hN : 1 ≤ N) (hN2 : N < 2147483648) (hk : k < N) :
    endSizeT rows N k = ((end_k rows N k : Nat) : Int) := by
  rw [endSizeT_eq_begin_succ, end_k_eq_begin_succ]
  exact beginSizeT_natCast rows N (k + 1) hrows hr hN hN2 hk

/-- The kernel with the types of the source is the kernel on natural numbers when the
`rows*cols+3` elements of the input are numbered by `int` values. -/
theorem RunKernelT_natCast {α : Type} [Add α] [Mul α] (rows cols k N : Nat)
    (input mask uninit output : Nat → α) (hrows : 2 ≤ rows) (hcols : 1 ≤ cols)
    (hN : 1 ≤ N) (hN2 : N < 2147483648) (hk : k < N)
    (hfit : rows * cols + 3 ≤ 2147483648) :
    RunKernelT rows cols k N input mask uninit output =
      RunKernel rows cols k N input mask uninit output := by
  have hrc : rows ≤ rows * cols := Nat.le_mul_of_pos_right rows (by omega)
  have he := end_k_le_last rows N k hN hk
  have he2 : (end_k rows N k + 1) * cols ≤ rows * cols :=
    Nat.mul_le_mul_right cols (by omega)
  unfold RunKernelT RunKernel
  rw [beginSizeT_natCast rows N k hrows (by omega) hN hN2 (by omega),
    endSizeT_natCast rows N k hrows (by omega) hN hN2 hk]
  exact kernelBodyT_natCast cols _ _ input mask uninit output hcols (Nat.le_add_left 1 _)
    (begin_le_end rows N k) (by omega)

theorem foldl_congr_mem {β σ : Type} (f g : σ → β → σ) (l : List β)
    (h : ∀ k, k ∈ l → ∀ s, f s k = g s k) (s : σ) : l.foldl f s = l.foldl g s := by
  induction l generalizing s with
  | nil => rfl
  | cons k rest ih =>
    rw [List.foldl_cons, List.foldl_cons, h k (List.mem_cons_self k rest) s]
    exact ih (fun l hl => h l (List.mem_cons_of_mem k hl)) _

theorem runReplicasInT_natCast {α : Type} [Add α] [Mul α] (rows cols N : Nat)
    (input mask uninit : Nat → α) (hrows : 2 ≤ rows) (hcols : 1 ≤ cols)
    (hN : 1 ≤ N) (hN2 : N < 2147483648) (hfit : rows * cols + 3 ≤ 2147483648)
    (order : List Nat) (horder : ∀ k, k ∈ order → k < N) (output : Nat → α) :
    runReplicasInT rows cols N input mask uninit order output =
      runReplicasIn rows cols N input mask uninit order output :=
  foldl_congr_mem _ _ order (fun k hk out =>
    congrArg KernelState.output
      (RunKernelT_natCast rows cols k N input mask uninit out hrows hcols hN hN2
        (horder k hk) hfit)) output

theorem runReplicasT_natCast {α : Type} [Add α] [Mul α] (rows cols N : Nat)
    (input mask uninit output : Nat → α) (hrows : 2 ≤ rows) (hcols : 1 ≤ cols)
    (hN : 1 ≤ N) (hN2 : N < 2147483648) (hfit : rows * cols + 3 ≤ 2147483648) :
    runReplicasT rows cols N input mask uninit output =
      runReplicas rows cols N input mask uninit output :=
  forLoop_congr 0 N _ _ output (fun k _ hk out =>
    congrArg KernelState.output
      (RunKernelT_natCast rows cols k N input mask uninit out hrows hcols hN hN2 hk hfit))

theorem stateAtCellT_natCast {α : Type} [Add α] [Mul α] (kCols b : Nat)
    (input mask uninit output : Nat → α) (i j : Nat) (hc : 1 ≤ kCols) (hb : 1 ≤ b)
    (hbi : b ≤ i) (hj : j + 1 ≤ kCols) (h : (i + 2) * kCols + 3 ≤ 2147483648) :
    stateAtCellT kCols (b : Int) input mask uninit output (i : Int) (j : Int) =
      stateAtCell kCols b input mask uninit output i j := by
  have hi2 : (i + 2) * kCols = i * kCols + kCols + kCols := by
    rw [Nat.add_mul]
    omega
  have hik : i ≤ i * kCols := Nat.le_mul_of_pos_right i (by omega)
  have hbk : (b - 1) * kCols + kCols ≤ i * kCols := by
    rw [pred_mul_add b kCols hb]
    exact Nat.mul_le_mul_right kCols hbi
  unfold stateAtCellT stateAtCell
  have hl1 : forIntLt 1 (j : Int) (colStepT kCols input (i : Int))
      (forIntLt (b : Int) (i : Int) (rowStepT kCols input)
        (kernelPrologueT kCols (b : Int) input mask uninit output)) =
      forLoop 1 j (fun n => colStepT kCols input (i : Int) (n : Int))
        (forIntLt (b : Int) (i : Int) (rowStepT kCols input)
          (kernelPrologueT kCols (b : Int) input mask uninit output)) :=
    forIntLt_eq_forLoop 1 j _ _ (by omega) (by omega)
  rw [hl1, forIntLt_eq_forLoop b i _ _ (by omega) (by omega),
    kernelPrologueT_natCast kCols b input mask uninit output hb (by omega) (by omega),
    forLoop_congr b i (fun n => rowStepT kCols input (n : Int)) (rowStep kCols input) _
      (fun n _ hn t => by
        have hnk : (n + 1) * kCols ≤ i * kCols := Nat.mul_le_mul_right kCols hn
        rw [Nat.add_mul, Nat.one_mul] at hnk
        exact rowStepT_natCast kCols input n t hc (by omega))]
  exact forLoop_congr 1 j _ _ _
    (fun n _ hn t => colStepT_natCast kCols input i n t (by omega))

theorem goldCellT_natCast {α : Type} [Add α] [Mul α] (kCols : Nat) (input mask : Nat → α)
    (i j : Nat) (hi : 1 ≤ i) (hj : 1 ≤ j) (h : i * kCols + kCols + j + 1 < 2147483648) :
    goldCellT kCols input mask (i : Int) (j : Int) = goldCell kCols input mask i j := by
  have hp := pred_mul_add i kCols hi
  have e1 : ∀ a : Nat, 1 ≤ a → a < 2147483648 →
      sizeOfInt (intWrap (((a : Nat) : Int) - 1)) = a - 1 := by
    intro a h1 h2
    have e : ((a : Nat) : Int) - 1 = ((a - 1 : Nat) : Int) := by omega
    rw [e, intWrap_natCast _ (by omega), sizeOfInt_natCast _ (by omega)]
  have e2 : ∀ a : Nat, a + 1 < 2147483648 →
      sizeOfInt (intWrap (((a : Nat) : Int) + 1)) = a + 1 := by
    intro a h2
    have e : ((a : Nat) : Int) + 1 = ((a + 1 : Nat) : Int) := by omega
    rw [e, intWrap_natCast _ (by omega), sizeOfInt_natCast _ (by omega)]
  have e3 : ∀ a : Nat, a < 2147483648 → sizeOfInt ((a : Nat) : Int) = a :=
    fun a h2 => sizeOfInt_natCast a (by omega)
  unfold goldCellT goldCell
  rw [prow_base_natCast kCols i (by omega) hi, crow_base_natCast kCols i (by omega),
    nrow_base_natCast kCols i (by omega),
    intWrap_add_natCast (i * kCols - kCols) j (by omega),
    intWrap_add_natCast (i * kCols) j (by omega),
    intWrap_add_natCast (i * kCols + kCols) j (by omega),
    e1 _ (by omega) (by omega), e1 _ (by omega) (by omega), e1 _ (by omega) (by omega),
    e2 _ (by omega), e2 _ (by omega), e2 _ (by omega),
    e3 _ (by omega), e3 _ (by omega), e3 _ (by omega)]

/-- The function `gold_stencil` with the types of the source is `gold_stencil` on natural
numbers when the cells of the grid are numbered by `int` values. -/
theorem gold_stencilT_natCast {α : Type} [Add α] [Mul α] (rows cols : Nat)
    (input mask res : Nat → α) (hrows : 1 ≤ rows) (hcols : 1 ≤ cols)
    (hfit : rows * cols + 3 ≤ 2147483648) :
    gold_stencilT rows cols input mask res = gold_stencil rows cols input mask res := by
  have hrc : rows ≤ rows * cols := Nat.le_mul_of_pos_right rows (by omega)
  have hcr : cols ≤ rows * cols := Nat.le_mul_of_pos_left cols (by omega)
  have hs1 : sizeSub rows 1 = rows - 1 := by
    unfold sizeSub sizeModulus
    omega
  have hs2 : sizeSub cols 1 = cols - 1 := by
    unfold sizeSub sizeModulus
    omega
  unfold gold_stencilT gold_stencil
  rw [hs1, hs2]
  have hl := forIntSize_eq_forLoop 1 (rows - 1) (fun (i : Int) (res : Nat → α) =>
    forIntSize 1 (cols - 1) (fun j res =>
      store res (sizeOfInt (intWrap (crow_base cols i + j))) (goldCellT cols input mask i j))
      res) res (by omega) (by omega)
  refine hl.trans (forLoop_congr 1 (rows - 1) _ _ res (fun i hi1 hi t => ?_))
  have hik : (i + 2) * cols ≤ rows * cols := Nat.mul_le_mul_right cols (by omega)
  rw [Nat.add_mul] at hik
  have hl2 := forIntSize_eq_forLoop 1 (cols - 1) (fun (j : Int) (res : Nat → α) =>
      store res (sizeOfInt (intWrap (crow_base cols (i : Int) + j)))
        (goldCellT cols input mask (i : Int) j)) t (by omega) (by omega)
  refine hl2.trans (forLoop_congr 1 (cols - 1) _ _ t (fun j hj1 hj u => ?_))
  show store u (sizeOfInt (intWrap (crow_base cols (i : Int) + (j : Int))))
      (goldCellT cols input mask (i : Int) (j : Int)) =
    store u (i * cols + j) (goldCell cols input mask i j)
  rw [outIdx_natCast cols i j (by omega),
    goldCellT_natCast cols input mask i j hi1 hj1 (by omega)]

/-! ## Results on the row-range partition and on the sub-buffers, with the types of the source -/

theorem bufferOffset_natCast (n kCols : Nat) (h : n * kCols < 18446744073709551616)
    (hn : n < 18446744073709551616) : bufferOffset (n : Int) kCols = n * kCols := by
  unfold bufferOffset sizeModulus
  rw [sizeOfInt_natCast n hn, Nat.mod_eq_of_lt h]

/-- C3 as amended, partition coverage: for `rows ≤ 2^31` and `1 ≤ N ≤ rows-2` the ranges
`[begin, end)` of the replicas `k = 0..N-1`, `begin` and `end` being the `int` constants
of `RunKernel`, are pairwise disjoint and their union is exactly the set of the rows `r`
with `1 ≤ r < rows-1`. -/
theorem partition_coverage_int (rows N : Nat) (hN : 1 ≤ N) (hle : N ≤ rows - 2)
    (hfit : rows ≤ 2147483648) :
    (∀ r : Int, (∃ k, k < N ∧ beginSizeT rows N k ≤ r ∧ r < endSizeT rows N k) ↔
        (1 ≤ r ∧ r < (rows : Int) - 1)) ∧
    (∀ k l, k < N → l < N → k ≠ l → ∀ r : Int,
        ¬ ((beginSizeT rows N k ≤ r ∧ r < endSizeT rows N k) ∧
           (beginSizeT rows N l ≤ r ∧ r < endSizeT rows N l))) := by
  have hb : ∀ k, k < N → beginSizeT rows N k = ((begin_k rows N k : Nat) : Int) :=
    fun k hk => beginSizeT_natCast rows N k (by omega) hfit hN (by omega) (by omega)
  have he : ∀ k, k < N → endSizeT rows N k = ((end_k rows N k : Nat) : Int) :=
    fun k hk => endSizeT_natCast rows N k (by omega) hfit hN (by omega) hk
  have hlast : begin_k rows N N = rows - 1 := by
    rw [begin_k_last rows N hN]
    omega
  have hcov : ∀ r : Nat, (∃ k, k < N ∧ begin_k rows N k ≤ r ∧ r < end_k rows N k) ↔
      (1 ≤ r ∧ r < rows - 1) := by
    intro r
    constructor
    · rintro ⟨k, hk, h1, h2⟩
      have h3 : begin_k rows N 0 ≤ begin_k rows N k := begin_k_mono rows N (Nat.zero_le k)
      have h4 : begin_k rows N (k + 1) ≤ begin_k rows N N := begin_k_mono rows N hk
      rw [begin_k_zero] at h3
      rw [end_k_eq_begin_succ] at h2
      omega
    · rintro ⟨h1, h2⟩
      have h0 : begin_k rows N 0 ≤ r := by rw [begin_k_zero]; exact h1
      have hn : r < begin_k rows N N := by rw [hlast]; exact h2
      exact exists_step_of_mono (begin_k rows N) N r h0 hn
  refine ⟨fun r => ⟨?_, ?_⟩, ?_⟩
  · rintro ⟨k, hk, h1, h2⟩
    rw [hb k hk] at h1
    rw [he k hk] at h2
    have h := (hcov r.toNat).mp ⟨k, hk, by omega, by omega⟩
    omega
  · rintro ⟨h1, h2⟩
    obtain ⟨k, hk, h3, h4⟩ := (hcov r.toNat).mpr ⟨by omega, by omega⟩
    refine ⟨k, hk, ?_, ?_⟩
    · rw [hb k hk]
      omega
    · rw [he k hk]
      omega
  · rintro k l hk hl hkl r ⟨⟨h1, h2⟩, h3, h4⟩
    rw [hb k hk] at h1
    rw [he k hk] at h2
    rw [hb l hl] at h3
    rw [he l hl] at h4
    exact ranges_disjoint rows N k l r.toNat hkl
      ⟨⟨by omega, by omega⟩, by omega, by omega⟩

/-- Coverage and disjointness for six rows and three replicas. -/
theorem partition_coverage_int_witness :
    (1 ≤ 3 ∧ 3 ≤ 6 - 2 ∧ 6 ≤ 2147483648) ∧
    (∀ r : Int, (∃ k, k < 3 ∧ beginSizeT 6 3 k ≤ r ∧ r < endSizeT 6 3 k) ↔
      (1 ≤ r ∧ r < ((6 : Nat) : Int) - 1)) :=
  ⟨by decide, (partition_coverage_int 6 3 (by decide) (by decide) (by decide)).1⟩

/-- C3 fails as stated: with `rows = 2^31 + 2` and one replica the constant `end`,
`(2^31 + 1)` converted to `int`, is `-2147483647`; the only range `[1, -2147483647)` is
empty, and the interior row 1 belongs to no range. -/
theorem partition_coverage_counterexample :
    (1 ≤ 1 ∧ 1 ≤ 2147483650 - 2) ∧
    beginSizeT 2147483650 1 0 = 1 ∧ endSizeT 2147483650 1 0 = -2147483647 ∧
    ((1 : Int) ≤ 1 ∧ (1 : Int) < ((2147483650 : Nat) : Int) - 1) ∧
    ¬ (∃ k, k < 1 ∧ beginSizeT 2147483650 1 k ≤ 1 ∧ 1 < endSizeT 2147483650 1 k) := by
  decide

/-- C9 as amended, partition balance: for `2 ≤ rows ≤ 2^31` and `1 ≤ N < 2^31` the sizes
`end - begin` of the ranges of any two replicas `k, l < N`, `begin` and `end` being the
`int` constants of `RunKernel`, differ by at most one row. -/
theorem partition_balance_int (rows N k l : Nat) (hrows : 2 ≤ rows) (hN : 1 ≤ N)
    (hk : k < N) (hl : l < N) (hfit : rows ≤ 2147483648) (hN2 : N < 2147483648) :
    |(endSizeT rows N k - beginSizeT rows N k) -
      (endSizeT rows N l - beginSizeT rows N l)| ≤ 1 := by
  have h1 := range_size_bounds rows N k hN
  have h2 := range_size_bounds rows N l hN
  rw [beginSizeT_natCast rows N k hrows hfit hN hN2 (by omega),
    endSizeT_natCast rows N k hrows hfit hN hN2 hk,
    beginSizeT_natCast rows N l hrows hfit hN hN2 (by omega),
    endSizeT_natCast rows N l hrows hfit hN hN2 hl, abs_le]
  constructor <;> omega

/-- Balance for ten rows and three replicas: the sizes are 2, 3, 3. -/
theorem partition_balance_int_witness :
    (2 ≤ 10 ∧ 1 ≤ 3 ∧ 0 < 3 ∧ 2 < 3 ∧ 10 ≤ 2147483648 ∧ 3 < 2147483648) ∧
    |(endSizeT 10 3 0 - beginSizeT 10 3 0) - (endSizeT 10 3 2 - beginSizeT 10 3 2)| ≤ 1 :=
  ⟨by decide, partition_balance_int 10 3 0 2 (by decide) (by decide) (by decide) (by decide)
    (by decide) (by decide)⟩

/-- C9 fails as stated: with `rows = 2^31 + 2` and two replicas the ranges are
`[1, 2^30+1)` and `[2^30+1, -2147483647)`, of sizes `2^30` and `-3221225472`. -/
theorem partition_balance_counterexample :
    (2 ≤ 2147483650 ∧ 1 ≤ 2 ∧ 0 < 2 ∧ 1 < 2) ∧
    endSizeT 2147483650 2 0 - beginSizeT 2147483650 2 0 = 1073741824 ∧
    endSizeT 2147483650 2 1 - beginSizeT 2147483650 2 1 = -3221225472 ∧
    ¬ (|(endSizeT 2147483650 2 0 - beginSizeT 2147483650 2 0) -
        (endSizeT 2147483650 2 1 - beginSizeT 2147483650 2 1)| ≤ 1) := by
  have e0 : endSizeT 2147483650 2 0 - beginSizeT 2147483650 2 0 = 1073741824 := by decide
  have e1 : endSizeT 2147483650 2 1 - beginSizeT 2147483650 2 1 = -3221225472 := by decide
  refine ⟨by decide, e0, e1, ?_⟩
  rw [e0, e1]
  norm_num

/-- C10 as amended, non-empty ranges: for `2 ≤ rows ≤ 2^31` and `1 ≤ N < 2^31`, every
replica `k < N` has a non-empty range (`begin < end` for the `int` constants of
`RunKernel`) exactly when `N ≤ rows-2`; when `N > rows-2` some replica has `begin = end`. -/
theorem nonempty_ranges_iff_int (rows N : Nat) (hrows : 2 ≤ rows) (hN : 1 ≤ N)
    (hfit : rows ≤ 2147483648) (hN2 : N < 2147483648) :
    ((∀ k, k < N → beginSizeT rows N k < endSizeT rows N k) ↔ N ≤ rows - 2) ∧
    (rows - 2 < N → ∃ k, k < N ∧ beginSizeT rows N k = endSizeT rows N k) := by
  have hb : ∀ k, k < N → beginSizeT rows N k = ((begin_k rows N k : Nat) : Int) :=
    fun k hk => beginSizeT_natCast rows N k hrows hfit hN hN2 (by omega)
  have he : ∀ k, k < N → endSizeT rows N k = ((end_k rows N k : Nat) : Int) :=
    fun k hk => endSizeT_natCast rows N k hrows hfit hN hN2 hk
  have h := nonempty_ranges_iff rows N hrows hN
  refine ⟨⟨fun hall => h.1.mp (fun k hk => ?_), fun hle k hk => ?_⟩, fun hlt => ?_⟩
  · have h2 := hall k hk
    rw [hb k hk, he k hk] at h2
    omega
  · have h2 := h.1.mpr hle k hk
    rw [hb k hk, he k hk]
    omega
  · obtain ⟨k, hk, h2⟩ := h.2 hlt
    exact ⟨k, hk, by rw [hb k hk, he k hk, h2]⟩

/-- Three replicas on four rows: two interior rows cannot give three non-empty ranges. -/
theorem nonempty_ranges_iff_int_witness :
    (2 ≤ 4 ∧ 1 ≤ 3 ∧ 4 ≤ 2147483648 ∧ 3 < 2147483648) ∧
    (((∀ k, k < 3 → beginSizeT 4 3 k < endSizeT 4 3 k) ↔ 3 ≤ 4 - 2) ∧
     (4 - 2 < 3 → ∃ k, k < 3 ∧ beginSizeT 4 3 k = endSizeT 4 3 k)) :=
  ⟨by decide, nonempty_ranges_iff_int 4 3 (by decide) (by decide) (by decide) (by decide)⟩

/-- C10 fails as stated: with `rows = 2^31 + 2` and `N = 1 ≤ rows-2` the range of the only
replica, `[1, -2147483647)`, is empty. -/
theorem nonempty_ranges_counterexample :
    (2 ≤ 2147483650 ∧ 1 ≤ 1) ∧ 1 ≤ 2147483650 - 2 ∧
    ¬ (∀ k, k < 1 → beginSizeT 2147483650 1 k < endSizeT 2147483650 1 k) := by
  decide

theorem intWrap_natCast_pred (n : Nat) (h1 : 1 ≤ n) (h2 : n < 2147483648) :
    intWrap ((n : Int) - 1) = ((n - 1 : Nat) : Int) := by
  have e : (n : Int) - 1 = ((n - 1 : Nat) : Int) := by omega
  rw [e]
  exact intWrap_natCast _ (by omega)

theorem intWrap_natCast_succ (n : Nat) (h2 : n + 1 < 2147483648) :
    intWrap ((n : Int) + 1) = ((n + 1 : Nat) : Int) := by
  have e : (n : Int) + 1 = ((n + 1 : Nat) : Int) := by omega
  rw [e]
  exact intWrap_natCast _ h2

/-- C28 as amended, the replica sub-buffers lie inside the host vectors: for
`3 ≤ rows < 2^31`, `cols ≥ 1` with `rows*cols < 2^64`, `1 ≤ N ≤ rows-2` and `k < N`, the
offsets `(begin-1)*kCols`, `(end+1)*kCols`, `begin*kCols` and `end*kCols` of the host code
satisfy `0 ≤ (begin-1)*cols`, `(end+1)*cols ≤ rows*cols` and
`cols ≤ begin*cols ≤ end*cols ≤ (rows-1)*cols`. -/
theorem sub_buffers_inside_int (rows cols N k : Nat)
    (hrows : 3 ≤ rows) (hcols : 1 ≤ cols) (hN : 1 ≤ N) (hNle : N ≤ rows - 2) (hk : k < N)
    (hfit : rows < 2147483648) (hsize : rows * cols < 18446744073709551616) :
    (0 : Int) ≤ intWrap (beginSizeT rows N k - 1) * (cols : Int) ∧
    bufferOffset (intWrap (beginSizeT rows N k - 1)) cols ≤
      bufferOffset (intWrap (endSizeT rows N k + 1)) cols ∧
    bufferOffset (intWrap (endSizeT rows N k + 1)) cols ≤ rows * cols ∧
    cols ≤ bufferOffset (beginSizeT rows N k) cols ∧
    bufferOffset (beginSizeT rows N k) cols ≤ bufferOffset (endSizeT rows N k) cols ∧
    bufferOffset (endSizeT rows N k) cols ≤ (rows - 1) * cols := by
  have hb : 1 ≤ begin_k rows N k := Nat.le_add_left 1 _
  have hbe := begin_le_end rows N k
  have hel := end_k_le_last rows N k hN hk
  have m1 : (begin_k rows N k - 1) * cols ≤ (end_k rows N k + 1) * cols :=
    Nat.mul_le_mul_right cols (by omega)
  have m2 : (end_k rows N k + 1) * cols ≤ rows * cols :=
    Nat.mul_le_mul_right cols (by omega)
  have m3 : 1 * cols ≤ begin_k rows N k * cols := Nat.mul_le_mul_right cols hb
  have m4 : begin_k rows N k * cols ≤ end_k rows N k * cols := Nat.mul_le_mul_right cols hbe
  have m5 : end_k rows N k * cols ≤ (rows - 1) * cols :=
    Nat.mul_le_mul_right cols (by omega)
  have m6 : (rows - 1) * cols ≤ rows * cols := Nat.mul_le_mul_right cols (by omega)
  have m7 : cols ≤ begin_k rows N k * cols := by omega
  have n1 : (begin_k rows N k - 1) * cols < 18446744073709551616 := by omega
  have n2 : (end_k rows N k + 1) * cols < 18446744073709551616 := by omega
  have n3 : begin_k rows N k * cols < 18446744073709551616 := by omega
  have n4 : end_k rows N k * cols < 18446744073709551616 := by omega
  have n5 : end_k rows N k + 1 < 2147483648 := by omega
  have n6 : begin_k rows N k < 2147483648 := by omega
  have n7 : (0 : Int) ≤ ((begin_k rows N k - 1 : Nat) : Int) * (cols : Int) :=
    mul_nonneg (Int.ofNat_nonneg _) (Int.ofNat_nonneg _)
  rw [beginSizeT_natCast rows N k (Nat.le_of_lt (Nat.lt_of_lt_of_le (by decide) hrows))
      (Nat.le_of_lt hfit) hN (Nat.lt_of_le_of_lt hNle (Nat.lt_of_le_of_lt (Nat.sub_le _ _) hfit))
      (Nat.le_of_lt hk),
    endSizeT_natCast rows N k (Nat.le_of_lt (Nat.lt_of_lt_of_le (by decide) hrows))
      (Nat.le_of_lt hfit) hN (Nat.lt_of_le_of_lt hNle (Nat.lt_of_le_of_lt (Nat.sub_le _ _) hfit))
      hk,
    intWrap_natCast_pred _ hb n6, intWrap_natCast_succ _ n5,
    bufferOffset_natCast (begin_k rows N k - 1) cols n1 (Nat.lt_of_le_of_lt (Nat.sub_le _ _)
      (Nat.lt_trans n6 (by decide))),
    bufferOffset_natCast (end_k rows N k + 1) cols n2 (Nat.lt_trans n5 (by decide)),
    bufferOffset_natCast (begin_k rows N k) cols n3 (Nat.lt_trans n6 (by decide)),
    bufferOffset_natCast (end_k rows N k) cols n4
      (Nat.lt_trans (Nat.lt_of_succ_lt n5) (by decide))]
  exact ⟨n7, m1, m2, m7, m4, m5⟩

/-- The shipped sizes of `08_1loop`: 32768 rows and columns, 32 replicas, replica 31. -/
theorem sub_buffers_inside_int_witness :
    (3 ≤ 32768 ∧ 1 ≤ 32768 ∧ 1 ≤ 32 ∧ 32 ≤ 32768 - 2 ∧ 31 < 32 ∧ 32768 < 2147483648 ∧
      32768 * 32768 < 18446744073709551616) ∧
    bufferOffset (intWrap (endSizeT 32768 32 31 + 1)) 32768 ≤ 32768 * 32768 :=
  ⟨by decide, (sub_buffers_inside_int 32768 32768 32 31 (by decide) (by decide) (by decide)
    (by decide) (by decide) (by decide) (by decide)).2.2.1⟩

/-- C28 fails as stated: with `rows = 2^31 + 2`, one column and one replica the constant
`end` is `-2147483647`, and the offsets `(end+1)*kCols` and `end*kCols`, computed in
`size_t`, are `2^64 - 2147483646` and `2^64 - 2147483647`, beyond `rows*cols`. -/
theorem sub_buffers_inside_counterexample :
    (3 ≤ 2147483650 ∧ 1 ≤ 1 ∧ 1 ≤ 1 ∧ 1 ≤ 2147483650 - 2 ∧ 0 < 1) ∧
    bufferOffset (intWrap (endSizeT 2147483650 1 0 + 1)) 1 = 18446744071562067970 ∧
    ¬ (bufferOffset (intWrap (endSizeT 2147483650 1 0 + 1)) 1 ≤ 2147483650 * 1) ∧
    ¬ (bufferOffset (endSizeT 2147483650 1 0) 1 ≤ (2147483650 - 1) * 1) := by
  decide

/-! ## Results on the replicated kernel, with the types of the source -/

theorem fit_rows (rows cols : Nat) (hc : 1 ≤ cols) (hfit : rows * cols + 3 ≤ 2147483648) :
    rows < 2147483648 := by
  have h := Nat.le_mul_of_pos_right rows hc
  omega

theorem fit_replicas (rows cols N : Nat) (hc : 1 ≤ cols) (hNle : N ≤ rows - 2)
    (hfit : rows * cols + 3 ≤ 2147483648) : N < 2147483648 := by
  have h := fit_rows rows cols hc hfit
  omega

/-- C1 as amended, reference equivalence: for `rows ≥ 3`, `cols ≥ 3`, `1 ≤ N ≤ rows-2` and
`rows*cols + 3 ≤ 2^31` (the elements of the input are numbered by `int` values), after the
replicas `0..N-1` have run, the output at every interior cell `(i, j)` is the value
`gold_stencil` stores there, and this value is the nine-term sum
`mask[0]*input[(i-1)*cols+j-1] + ... + mask[8]*input[(i+1)*cols+j+1]` added from left to
right: the two values are the same expression over the input and the mask. -/
theorem reference_equivalence_int {α : Type} [Add α] [Mul α] (rows cols N : Nat)
    (input mask uninit output res : Nat → α) (i j : Nat)
    (hrows : 3 ≤ rows) (hcols : 3 ≤ cols) (hN : 1 ≤ N) (hNle : N ≤ rows - 2)
    (hi : 1 ≤ i) (hi2 : i ≤ rows - 2) (hj : 1 ≤ j) (hj2 : j ≤ cols - 2)
    (hfit : rows * cols + 3 ≤ 2147483648) :
    runReplicasT rows cols N input mask uninit output (i * cols + j) =
      gold_stencilT rows cols input mask res (i * cols + j) ∧
    gold_stencilT rows cols input mask res (i * cols + j) =
      mask 0 * input ((i - 1) * cols + j - 1) +
      mask 1 * input ((i - 1) * cols + j) +
      mask 2 * input ((i - 1) * cols + j + 1) +
      mask 3 * input (i * cols + j - 1) +
      mask 4 * input (i * cols + j) +
      mask 5 * input (i * cols + j + 1) +
      mask 6 * input ((i + 1) * cols + j - 1) +
      mask 7 * input ((i + 1) * cols + j) +
      mask 8 * input ((i + 1) * cols + j + 1) := by
  rw [runReplicasT_natCast rows cols N input mask uninit output (by omega) (by omega) hN
      (fit_replicas rows cols N (by omega) hNle hfit) hfit,
    gold_stencilT_natCast rows cols input mask res (by omega) (by omega) hfit]
  exact reference_equivalence rows cols N input mask uninit output res i j hrows hcols hN hNle
    hi hi2 hj hj2

/-- Reference equivalence on the smallest grid, one replica, integer data. -/
theorem reference_equivalence_int_witness :
    (3 ≤ 3 ∧ 3 ≤ 3 ∧ 1 ≤ 1 ∧ 1 ≤ 3 - 2 ∧ 1 ≤ 1 ∧ 1 ≤ 3 - 2 ∧ 1 ≤ 1 ∧ 1 ≤ 3 - 2 ∧
      3 * 3 + 3 ≤ 2147483648) ∧
    runReplicasT 3 3 1 (fun n => (n : Int)) (fun n => (n : Int) + 1) (fun _ => 7)
        (fun _ => -1) (1 * 3 + 1) =
      gold_stencilT 3 3 (fun n => (n : Int)) (fun n => (n : Int) + 1) (fun _ => 0) (1 * 3 + 1) :=
  ⟨by decide, (reference_equivalence_int 3 3 1 (fun n => (n : Int)) (fun n => (n : Int) + 1)
    (fun _ => 7) (fun _ => -1) (fun _ => 0) 1 1 (by decide) (by decide) (by decide)
    (by decide) (by decide) (by decide) (by decide) (by decide) (by decide)).1⟩

/-- C2 as amended, border invariant: for `rows ≥ 3`, `cols ≥ 3`, `1 ≤ N ≤ rows-2`,
`rows*cols + 3 ≤ 2^31` and every initial content of `output`, no replica performs a store
to a cell of row `0` or `rows-1` or of column `0` or `cols-1`, whatever its output array
holds; hence after all `N` replicas have run such a cell holds the value it held before.
That an element which is not stored keeps its value is the convention of the embedding for
the `write_only, no_init` accessor; the first part does not depend on it. -/
theorem border_invariant_int {α : Type} [Add α] [Mul α] (rows cols N : Nat)
    (input mask uninit output : Nat → α) (i j : Nat)
    (hrows : 3 ≤ rows) (hcols : 3 ≤ cols) (hN : 1 ≤ N) (hNle : N ≤ rows - 2)
    (hi : i < rows) (hj : j < cols)
    (hborder : i = 0 ∨ i = rows - 1 ∨ j = 0 ∨ j = cols - 1)
    (hfit : rows * cols + 3 ≤ 2147483648) :
    (∀ k, k < N → ∀ (u o : Nat → α),
      Access.outputWrite (i * cols + j) ∉ (RunKernelT rows cols k N input mask u o).log) ∧
    runReplicasT rows cols N input mask uninit output (i * cols + j) = output (i * cols + j) := by
  have hN2 := fit_replicas rows cols N (by omega) hNle hfit
  constructor
  · intro k hk u o h
    rw [RunKernelT_natCast rows cols k N input mask u o (by omega) (by omega) hN hN2 hk
      hfit] at h
    obtain ⟨i2, j2, h1, h2, h3, h4, h5⟩ :=
      (disjoint_write_ownership rows cols N input mask hrows hcols hN hNle).1 k hk u o _ h
    obtain ⟨e1, e2⟩ := cell_inj hj (by omega) h5
    have hb : 1 ≤ begin_k rows N k := Nat.le_add_left 1 _
    have he := end_k_le_last rows N k hN hk
    omega
  · rw [runReplicasT_natCast rows cols N input mask uninit output (by omega) (by omega) hN
        hN2 hfit]
    exact border_invariant rows cols N input mask uninit output i j hrows hcols hN hNle hi hj
      hborder

/-- The last column of an interior row of a 4 x 5 grid: neither of the two replicas stores
there, and the cell is left as it was. -/
theorem border_invariant_int_witness :
    (3 ≤ 4 ∧ 3 ≤ 5 ∧ 1 ≤ 2 ∧ 2 ≤ 4 - 2 ∧ 2 < 4 ∧ 4 < 5 ∧
      (2 = 0 ∨ 2 = 4 - 1 ∨ 4 = 0 ∨ 4 = 5 - 1) ∧ 4 * 5 + 3 ≤ 2147483648) ∧
    (∀ k, k < 2 → ∀ (u o : Nat → Int),
      Access.outputWrite (2 * 5 + 4) ∉
        (RunKernelT 4 5 k 2 (fun n => (n : Int)) (fun _ => 1) u o).log) ∧
    runReplicasT 4 5 2 (fun n => (n : Int)) (fun _ => 1) (fun _ => 7) (fun _ => -1) (2 * 5 + 4)
      = (fun _ => (-1 : Int)) (2 * 5 + 4) :=
  ⟨by decide, border_invariant_int 4 5 2 _ _ (fun _ => 7) (fun _ => -1) 2 4 (by decide)
    (by decide) (by decide) (by decide) (by decide) (by decide) (by decide) (by decide)⟩

/-- C4 as amended, replica-count invariance: for `rows ≥ 3`, `cols ≥ 3`,
`rows*cols + 3 ≤ 2^31` and two replica counts `1 ≤ N1, N2 ≤ rows-2`, running all `N1`
replicas and running all `N2` replicas on the same input, mask and initial output give
arrays equal at every interior cell. -/
theorem replica_count_invariance_int {α : Type} [Add α] [Mul α] (rows cols N1 N2 : Nat)
    (input mask uninit1 uninit2 output : Nat → α) (i j : Nat)
    (hrows : 3 ≤ rows) (hcols : 3 ≤ cols)
    (hN1 : 1 ≤ N1) (hN1le : N1 ≤ rows - 2) (hN2 : 1 ≤ N2) (hN2le : N2 ≤ rows - 2)
    (hi : 1 ≤ i) (hi2 : i ≤ rows - 2) (hj : 1 ≤ j) (hj2 : j ≤ cols - 2)
    (hfit : rows * cols + 3 ≤ 2147483648) :
    runReplicasT rows cols N1 input mask uninit1 output (i * cols + j) =
      runReplicasT rows cols N2 input mask uninit2 output (i * cols + j) := by
  rw [runReplicasT_natCast rows cols N1 input mask uninit1 output (by omega) (by omega) hN1
      (fit_replicas rows cols N1 (by omega) hN1le hfit) hfit,
    runReplicasT_natCast rows cols N2 input mask uninit2 output (by omega) (by omega) hN2
      (fit_replicas rows cols N2 (by omega) hN2le hfit) hfit]
  exact replica_count_invariance rows cols N1 N2 input mask uninit1 uninit2 output i j hrows
    hcols hN1 hN1le hN2 hN2le hi hi2 hj hj2

/-- One replica against thirty-two on a 1024 x 256 grid, at the cell `(700, 99)`. -/
theorem replica_count_invariance_int_witness :
    (3 ≤ 1024 ∧ 3 ≤ 256 ∧ 1 ≤ 1 ∧ 1 ≤ 1024 - 2 ∧ 1 ≤ 32 ∧ 32 ≤ 1024 - 2 ∧
      1 ≤ 700 ∧ 700 ≤ 1024 - 2 ∧ 1 ≤ 99 ∧ 99 ≤ 256 - 2 ∧ 1024 * 256 + 3 ≤ 2147483648) ∧
    runReplicasT 1024 256 1 (fun n => (n : Int)) (fun n => (n : Int) + 1) (fun _ => 7)
        (fun _ => -1) (700 * 256 + 99) =
      runReplicasT 1024 256 32 (fun n => (n : Int)) (fun n => (n : Int) + 1) (fun _ => 8)
        (fun _ => -1) (700 * 256 + 99) :=
  ⟨by decide, replica_count_invariance_int 1024 256 1 32 _ _ _ _ _ 700 99 (by decide)
    (by decide) (by decide) (by decide) (by decide) (by decide) (by decide) (by decide)
    (by decide) (by decide) (by decide)⟩

/-- C13 as amended, all-ones scenario: for `rows ≥ 3`, `cols ≥ 3`, `1 ≤ N ≤ rows-2` and
`rows*cols + 3 ≤ 2^31`, with every input element equal to 1 and the mask
`{2,4,2,4,1,4,2,4,2}`, the replicas leave 25 in every interior output cell (the arithmetic
being that of any semiring). -/
theorem all_ones_scenario_int {α : Type} [Semiring α] (rows cols N : Nat)
    (uninit output : Nat → α) (i j : Nat)
    (hrows : 3 ≤ rows) (hcols : 3 ≤ cols) (hN : 1 ≤ N) (hNle : N ≤ rows - 2)
    (hi : 1 ≤ i) (hi2 : i ≤ rows - 2) (hj : 1 ≤ j) (hj2 : j ≤ cols - 2)
    (hfit : rows * cols + 3 ≤ 2147483648) :
    runReplicasT rows cols N (fun _ => (1 : α)) hostMask uninit output (i * cols + j) = 25 := by
  rw [runReplicasT_natCast rows cols N (fun _ => (1 : α)) hostMask uninit output (by omega)
      (by omega) hN (fit_replicas rows cols N (by omega) hNle hfit) hfit]
  exact all_ones_scenario rows cols N uninit output i j hrows hcols hN hNle hi hi2 hj hj2

/-- The 5 x 5 grid of ones with one replica, at the centre cell. -/
theorem all_ones_scenario_int_witness :
    (3 ≤ 5 ∧ 3 ≤ 5 ∧ 1 ≤ 1 ∧ 1 ≤ 5 - 2 ∧ 1 ≤ 2 ∧ 2 ≤ 5 - 2 ∧ 1 ≤ 2 ∧ 2 ≤ 5 - 2 ∧
      5 * 5 + 3 ≤ 2147483648) ∧
    runReplicasT 5 5 1 (fun _ => (1 : Int)) hostMask (fun _ => 7) (fun _ => -1) (2 * 5 + 2)
      = 25 :=
  ⟨by decide, all_ones_scenario_int 5 5 1 (fun _ => 7) (fun _ => -1) 2 2 (by decide)
    (by decide) (by decide) (by decide) (by decide) (by decide) (by decide) (by decide)
    (by decide)⟩

/-- C15 as amended, replica order independence: for `rows ≥ 3`, `cols ≥ 3`,
`1 ≤ N ≤ rows-2`, `rows*cols + 3 ≤ 2^31` and every permutation `p` of `0..N-1`, running the
`N` replicas one after another in the order `p` yields the same final output array as
running them in the order `0, 1, ..., N-1`. -/
theorem replica_order_independence_int {α : Type} [Add α] [Mul α] (rows cols N : Nat)
    (input mask uninit output : Nat → α) (p : List Nat)
    (hrows : 3 ≤ rows) (hcols : 3 ≤ cols) (hN : 1 ≤ N) (hNle : N ≤ rows - 2)
    (hp : p.Perm (List.range N)) (hfit : rows * cols + 3 ≤ 2147483648) :
    runReplicasInT rows cols N input mask uninit p output =
      runReplicasT rows cols N input mask uninit output := by
  rw [runReplicasT_natCast rows cols N input mask uninit output (by omega) (by omega) hN
      (fit_replicas rows cols N (by omega) hNle hfit) hfit,
    runReplicasInT_natCast rows cols N input mask uninit (by omega) (by omega) hN
      (fit_replicas rows cols N (by omega) hNle hfit) hfit p
      (fun k hk => List.mem_range.mp (hp.mem_iff.mp hk)) output]
  exact replica_order_independence rows cols N input mask uninit output p hrows hcols hN hNle hp

/-- Three replicas on a 5 x 4 grid in the order 2, 0, 1. -/
theorem replica_order_independence_int_witness :
    (3 ≤ 5 ∧ 3 ≤ 4 ∧ 1 ≤ 3 ∧ 3 ≤ 5 - 2 ∧ [2, 0, 1].Perm (List.range 3) ∧
      5 * 4 + 3 ≤ 2147483648) ∧
    runReplicasInT 5 4 3 (fun n => (n : Int)) (fun n => (n : Int) + 1) (fun _ => 7) [2, 0, 1]
        (fun _ => -1) =
      runReplicasT 5 4 3 (fun n => (n : Int)) (fun n => (n : Int) + 1) (fun _ => 7)
        (fun _ => -1) :=
  ⟨⟨by decide, by decide, by decide, by decide, by decide, by decide⟩,
    replica_order_independence_int 5 4 3 (fun n => (n : Int)) (fun n => (n : Int) + 1)
      (fun _ => 7) (fun _ => -1) [2, 0, 1] (by decide) (by decide) (by decide) (by decide)
      (by decide) (by decide)⟩

/-- The state in front of a cell with the types of the source is the state on natural
numbers when the indices formed so far are below `2^31`. -/
theorem stateAtCellT_natCast_cols {α : Type} [Add α] [Mul α] (kCols b : Nat)
    (input mask uninit output : Nat → α) (i j : Nat) (hc : 1 ≤ kCols) (hb : 1 ≤ b)
    (hbi : b ≤ i) (hj : j + 1 ≤ kCols) (h : (i + 1) * kCols + 3 ≤ 2147483648)
    (hcol : 2 ≤ j → (i + 2) * kCols + 3 ≤ 2147483648) :
    stateAtCellT kCols (b : Int) input mask uninit output (i : Int) (j : Int) =
      stateAtCell kCols b input mask uninit output i j := by
  have hi1 : (i + 1) * kCols = i * kCols + kCols := by rw [Nat.add_mul, Nat.one_mul]
  have hi2 : (i + 2) * kCols = i * kCols + kCols + kCols := by
    rw [Nat.add_mul]
    omega
  have hik : i ≤ i * kCols := Nat.le_mul_of_pos_right i (by omega)
  have hbk : (b - 1) * kCols + kCols ≤ i * kCols := by
    rw [pred_mul_add b kCols hb]
    exact Nat.mul_le_mul_right kCols hbi
  unfold stateAtCellT stateAtCell
  have hl1 : forIntLt 1 (j : Int) (colStepT kCols input (i : Int))
      (forIntLt (b : Int) (i : Int) (rowStepT kCols input)
        (kernelPrologueT kCols (b : Int) input mask uninit output)) =
      forLoop 1 j (fun n => colStepT kCols input (i : Int) (n : Int))
        (forIntLt (b : Int) (i : Int) (rowStepT kCols input)
          (kernelPrologueT kCols (b : Int) input mask uninit output)) :=
    forIntLt_eq_forLoop 1 j _ _ (by omega) (by omega)
  rw [hl1, forIntLt_eq_forLoop b i _ _ (by omega) (by omega),
    kernelPrologueT_natCast kCols b input mask uninit output hb (by omega) (by omega),
    forLoop_congr b i (fun n => rowStepT kCols input (n : Int)) (rowStep kCols input) _
      (fun n _ hn t => by
        have hnk : (n + 1) * kCols ≤ i * kCols := Nat.mul_le_mul_right kCols hn
        rw [Nat.add_mul, Nat.one_mul] at hnk
        exact rowStepT_natCast kCols input n t hc (by omega))]
  exact forLoop_congr 1 j _ _ _
    (fun n hn1 hn t => colStepT_natCast kCols input i n t (by
      have h2 := hcol (by omega)
      omega))

/-- The window invariant of the kernel on natural numbers, for any range `[b, e)`. -/
theorem window_invariant_range {α : Type} [Add α] [Mul α] (cols b e : Nat)
    (input mask uninit output : Nat → α) (i j : Nat)
    (hb : 1 ≤ b) (hbi : b ≤ i) (hie : i < e) (hj : 1 ≤ j) (hj2 : j ≤ cols - 2) :
    kernelBody cols b e input mask uninit output =
      forLoop (i + 1) e (rowStep cols input)
        (rowResync cols input i
          (forLoop (j + 1) (cols - 1) (colStep cols input i)
            (colStep cols input i j (stateAtCell cols b input mask uninit output i j)))) ∧
    (∀ t, t < 2 * cols + 3 →
      (stateAtCell cols b input mask uninit output i j).sr t
        = input ((i - 1) * cols + (j - 1) + t)) ∧
    (∀ m n, m < 3 → n < 3 →
      (stateAtCell cols b input mask uninit output i j).sr (m * cols + n)
        = input ((i - 1 + m) * cols + (j - 1 + n))) ∧
    (stateAtCell cols b input mask uninit output (i + 1) 1).sr =
      shiftSingleVal (2 * cols + 3)
        (shiftSingleVal (2 * cols + 3)
          (stateAtCell cols b input mask uninit output i (cols - 1)).sr
          (input ((i + 2) * cols + 1)))
        (input ((i + 2) * cols + 2)) ∧
    (∀ t, t < 2 * cols + 3 →
      (stateAtCell cols b input mask uninit output (i + 1) 1).sr t
        = input (i * cols + t)) := by
  have hW := stateAtCell_spec cols b input mask uninit output i j hb hbi hj (by omega)
  refine ⟨kernelBody_resume cols _ _ input mask uninit output i j hbi hie hj (by omega),
    hW, ?_, ?_, ?_⟩
  · intro m n hm hn
    have hmc : m * cols ≤ 2 * cols := Nat.mul_le_mul_right cols (by omega)
    rw [hW (m * cols + n) (by omega)]
    congr 1
    rw [Nat.add_mul]
    omega
  · rw [stateAtCell_next_row cols _ input mask uninit output i hbi]
    have e : (i + 2) * cols = i * cols + cols + cols := by
      rw [Nat.add_mul]
      omega
    rw [e]
    rfl
  · have h := stateAtCell_spec cols b input mask uninit output (i + 1) 1 hb
      (by omega) (Nat.le_refl 1) (by omega)
    intro t ht
    rw [h t ht]
    congr 1

/-- C6 as amended, window invariant with row resynchronisation: for a replica range
`[b, e)` with `1 ≤ b` and `(e+1)*cols + 3 ≤ 2^31`, a row `b ≤ i < e` and a column
`1 ≤ j ≤ cols-2`, the kernel evaluates the sum of the cell `(i, j)` in the state
`stateAtCellT`; there `sr[t] = input[(i-1)*cols + (j-1) + t]` for every slot
`t < 2*cols+3`, so that the taps `m*cols + n` (`m, n < 3`) are the neighbours
`(i-1+m, j-1+n)`; and the two extra shifts at the end of row `i`, of `input[(i+2)*cols+1]`
and `input[(i+2)*cols+2]`, lead from the end of the column loop to the state in front of
`(i+1, 1)`, where `sr[t] = input[i*cols + t]`. -/
theorem window_invariant_int {α : Type} [Add α] [Mul α] (cols b e : Nat)
    (input mask uninit output : Nat → α) (i j : Nat)
    (hb : 1 ≤ b) (hbi : b ≤ i) (hie : i < e) (hj : 1 ≤ j) (hj2 : j ≤ cols - 2)
    (hcols : 3 ≤ cols) (hfit : (e + 1) * cols + 3 ≤ 2147483648) :
    kernelBodyT cols (b : Int) (e : Int) input mask uninit output =
      forIntLt ((i + 1 : Nat) : Int) (e : Int) (rowStepT cols input)
        (rowResyncT cols input (i : Int)
          (forIntSize ((j + 1 : Nat) : Int) (sizeSub cols 1) (colStepT cols input (i : Int))
            (colStepT cols input (i : Int) (j : Int)
              (stateAtCellT cols (b : Int) input mask uninit output (i : Int) (j : Int))))) ∧
    (∀ t, t < 2 * cols + 3 →
      (stateAtCellT cols (b : Int) input mask uninit output (i : Int) (j : Int)).sr t
        = input ((i - 1) * cols + (j - 1) + t)) ∧
    (∀ m n, m < 3 → n < 3 →
      (stateAtCellT cols (b : Int) input mask uninit output (i : Int) (j : Int)).sr
        (m * cols + n) = input ((i - 1 + m) * cols + (j - 1 + n))) ∧
    (stateAtCellT cols (b : Int) input mask uninit output ((i + 1 : Nat) : Int)
        ((1 : Nat) : Int)).sr =
      shiftSingleVal (2 * cols + 3)
        (shiftSingleVal (2 * cols + 3)
          (stateAtCellT cols (b : Int) input mask uninit output (i : Int)
            ((cols - 1 : Nat) : Int)).sr
          (input ((i + 2) * cols + 1)))
        (input ((i + 2) * cols + 2)) ∧
    (∀ t, t < 2 * cols + 3 →
      (stateAtCellT cols (b : Int) input mask uninit output ((i + 1 : Nat) : Int)
        ((1 : Nat) : Int)).sr t = input (i * cols + t)) := by
  have hmul : (i + 2) * cols ≤ (e + 1) * cols := Nat.mul_le_mul_right cols (by omega)
  have hmul1 : (i + 1) * cols ≤ (i + 2) * cols := Nat.mul_le_mul_right cols (by omega)
  have hmul2 : (i + 1 + 1) * cols = (i + 2) * cols := rfl
  have hi2 : (i + 2) * cols = i * cols + cols + cols := by
    rw [Nat.add_mul]
    omega
  have hek : (e + 1) * cols = e * cols + cols := by rw [Nat.add_mul, Nat.one_mul]
  have hee : e ≤ e * cols := Nat.le_mul_of_pos_right e (by omega)
  have hsz : sizeSub cols 1 = cols - 1 := by
    unfold sizeSub sizeModulus
    omega
  have hold := window_invariant_range cols b e input mask uninit output i j hb hbi hie hj hj2
  rw [stateAtCellT_natCast_cols cols b input mask uninit output i j (by omega) hb hbi
      (by omega) (by omega) (fun _ => by omega),
    stateAtCellT_natCast_cols cols b input mask uninit output (i + 1) 1 (by omega) hb
      (by omega) (by omega) (by omega) (fun h => absurd h (by decide)),
    stateAtCellT_natCast_cols cols b input mask uninit output i (cols - 1) (by omega)
      hb hbi (by omega) (by omega) (fun _ => by omega),
    kernelBodyT_natCast cols b e input mask uninit output (by omega) hb (by omega) hfit,
    hsz, colStepT_natCast cols input i j _ (by omega),
    forIntSize_eq_forLoop (j + 1) (cols - 1) _ _ (by omega) (by omega),
    forLoop_congr (j + 1) (cols - 1) (fun n => colStepT cols input (i : Int) (n : Int))
      (colStep cols input i) _ (fun n _ hn t => colStepT_natCast cols input i n t (by omega)),
    rowResyncT_natCast cols input i _ (by omega),
    forIntLt_eq_forLoop (i + 1) e _ _ (by omega) (by omega),
    forLoop_congr (i + 1) e (fun n => rowStepT cols input (n : Int)) (rowStep cols input) _
      (fun n _ hn t => by
        have hnk : (n + 1) * cols ≤ e * cols := Nat.mul_le_mul_right cols hn
        rw [Nat.add_mul, Nat.one_mul] at hnk
        exact rowStepT_natCast cols input n t (by omega) (by omega))]
  exact hold

/-- The last cell of the only row of the range `[2, 3)` on a grid of width 4. -/
theorem window_invariant_int_witness :
    (1 ≤ 2 ∧ 2 ≤ 2 ∧ 2 < 3 ∧ 1 ≤ 2 ∧ 2 ≤ 4 - 2 ∧ 3 ≤ 4 ∧ (3 + 1) * 4 + 3 ≤ 2147483648) ∧
    (∀ t, t < 2 * 4 + 3 →
      (stateAtCellT 4 ((2 : Nat) : Int) (fun n => (n : Int)) (fun _ => 1) (fun _ => 7)
        (fun _ => -1) ((2 : Nat) : Int) ((2 : Nat) : Int)).sr t =
          (fun n => (n : Int)) ((2 - 1) * 4 + (2 - 1) + t)) :=
  ⟨by decide, (window_invariant_int 4 2 3 _ _ _ _ 2 2 (by decide) (by decide) (by decide)
    (by decide) (by decide) (by decide) (by decide)).2.1⟩

/-! ## Results on the accesses of the replicated kernel, with the types of the source -/

/-- C7 as amended, disjoint write ownership: for `rows ≥ 3`, `cols ≥ 3`, `1 ≤ N ≤ rows-2`
and `rows*cols + 3 ≤ 2^31`, every output index written by replica `k` is `i*cols + j` for
a row `begin ≤ i < end` of its range and a column `1 ≤ j ≤ cols-2`, and no index is written
by two different replicas. -/
theorem disjoint_write_ownership_int {α : Type} [Add α] [Mul α] (rows cols N : Nat)
    (input mask : Nat → α)
    (hrows : 3 ≤ rows) (hcols : 3 ≤ cols) (hN : 1 ≤ N) (hNle : N ≤ rows - 2)
    (hfit : rows * cols + 3 ≤ 2147483648) :
    (∀ k, k < N → ∀ (uninit output : Nat → α) (idx : Nat),
      Access.outputWrite idx ∈ (RunKernelT rows cols k N input mask uninit output).log →
      ∃ i j : Nat, beginSizeT rows N k ≤ (i : Int) ∧ (i : Int) < endSizeT rows N k ∧
        1 ≤ j ∧ j ≤ cols - 2 ∧ idx = i * cols + j) ∧
    (∀ k l, k < N → l < N → k ≠ l →
      ∀ (uninit1 output1 uninit2 output2 : Nat → α) (idx : Nat),
      ¬ (Access.outputWrite idx ∈ (RunKernelT rows cols k N input mask uninit1 output1).log ∧
         Access.outputWrite idx ∈ (RunKernelT rows cols l N input mask uninit2 output2).log)) := by
  have hr := fit_rows rows cols (by omega) hfit
  have hN2 := fit_replicas rows cols N (by omega) hNle hfit
  have hold := disjoint_write_ownership rows cols N input mask hrows hcols hN hNle
  constructor
  · intro k hk uninit output idx h
    rw [RunKernelT_natCast rows cols k N input mask uninit output (by omega) (by omega) hN hN2
      hk hfit] at h
    obtain ⟨i, j, h1, h2, h3, h4, h5⟩ := hold.1 k hk uninit output idx h
    refine ⟨i, j, ?_, ?_, h3, h4, h5⟩
    · rw [beginSizeT_natCast rows N k (by omega) (by omega) hN hN2 (by omega)]
      exact Int.ofNat_le.mpr h1
    · rw [endSizeT_natCast rows N k (by omega) (by omega) hN hN2 hk]
      exact Int.ofNat_lt.mpr h2
  · intro k l hk hl hkl uninit1 output1 uninit2 output2 idx
    rw [RunKernelT_natCast rows cols k N input mask uninit1 output1 (by omega) (by omega) hN
        hN2 hk hfit,
      RunKernelT_natCast rows cols l N input mask uninit2 output2 (by omega) (by omega) hN
        hN2 hl hfit]
    exact hold.2 k l hk hl hkl uninit1 output1 uninit2 output2 idx

/-- Three replicas on a 5 x 4 grid. -/
theorem disjoint_write_ownership_int_witness :
    (3 ≤ 5 ∧ 3 ≤ 4 ∧ 1 ≤ 3 ∧ 3 ≤ 5 - 2 ∧ 5 * 4 + 3 ≤ 2147483648) ∧
    ∀ k l, k < 3 → l < 3 → k ≠ l →
      ∀ (uninit1 output1 uninit2 output2 : Nat → Int) (idx : Nat),
      ¬ (Access.outputWrite idx ∈
          (RunKernelT 5 4 k 3 (fun n => (n : Int)) (fun _ => 1) uninit1 output1).log ∧
         Access.outputWrite idx ∈
          (RunKernelT 5 4 l 3 (fun n => (n : Int)) (fun _ => 1) uninit2 output2).log) :=
  ⟨by decide, (disjoint_write_ownership_int 5 4 3 _ _ (by decide) (by decide) (by decide)
    (by decide) (by decide)).2⟩

/-- C8 as amended, index safety: for `rows ≥ 3`, `cols ≥ 3`, `1 ≤ N ≤ rows-2`, `k < N` and
`rows*cols + 3 ≤ 2^31`, if the input has at least `rows*cols+3` elements, the output at
least `rows*cols` and the mask exactly 9, every access of replica `k` is in bounds: input
reads below `rows*cols+3`, output writes below `rows*cols`, mask indices below 9 and
shift-register indices below `2*cols+3`. -/
theorem index_safety_int {α : Type} [Add α] [Mul α] (rows cols N k : Nat)
    (inputLen outputLen maskLen : Nat) (input mask uninit output : Nat → α)
    (hrows : 3 ≤ rows) (hcols : 3 ≤ cols) (hN : 1 ≤ N) (hNle : N ≤ rows - 2) (hk : k < N)
    (hin : rows * cols + 3 ≤ inputLen) (hout : rows * cols ≤ outputLen)
    (hmask : maskLen = 9) (hfit : rows * cols + 3 ≤ 2147483648) :
    ∀ a, a ∈ (RunKernelT rows cols k N input mask uninit output).log →
      AccessWithin (rows * cols + 3) 9 (2 * cols + 3) (rows * cols) a ∧
      AccessWithin inputLen maskLen (2 * cols + 3) outputLen a := by
  rw [RunKernelT_natCast rows cols k N input mask uninit output (by omega) (by omega) hN
    (fit_replicas rows cols N (by omega) hNle hfit) hk hfit]
  exact index_safety rows cols N k inputLen outputLen maskLen input mask uninit output hrows
    hcols hN hNle hk hin hout hmask

/-- The second of two replicas on a 4 x 3 grid with buffers of the minimal sizes. -/
theorem index_safety_int_witness :
    (3 ≤ 4 ∧ 3 ≤ 3 ∧ 1 ≤ 2 ∧ 2 ≤ 4 - 2 ∧ 1 < 2 ∧ 4 * 3 + 3 ≤ 15 ∧ 4 * 3 ≤ 12 ∧ 9 = 9 ∧
      4 * 3 + 3 ≤ 2147483648) ∧
    ∀ a, a ∈ (RunKernelT 4 3 1 2 (fun n => (n : Int)) (fun _ => 1) (fun _ => 7)
        (fun _ => -1)).log →
      AccessWithin (4 * 3 + 3) 9 (2 * 3 + 3) (4 * 3) a ∧
      AccessWithin 15 9 (2 * 3 + 3) 12 a :=
  ⟨by decide, index_safety_int 4 3 2 1 15 12 9 (fun n => (n : Int)) (fun _ => 1) (fun _ => 7)
    (fun _ => -1) (by decide) (by decide) (by decide) (by decide) (by decide) (by decide)
    (by decide) (by decide) (by decide)⟩

/-- C16 as amended, row-major write order: for a replica range `[b, e)` with `1 ≤ b ≤ e`,
`cols ≥ 3` and `(e+1)*cols + 3 ≤ 2^31`, the sequence of the output indices written by the
kernel, in execution order, is `i*cols + j` for `i = b..e-1` (outer) and `j = 1..cols-2`
(inner); it is strictly increasing and contains every interior cell of the range exactly
once. -/
theorem row_major_write_order_int {α : Type} [Add α] [Mul α] (cols b e : Nat)
    (input mask uninit output : Nat → α) (hcols : 3 ≤ cols) (hb : 1 ≤ b) (hbe : b ≤ e)
    (hfit : (e + 1) * cols + 3 ≤ 2147483648) :
    outputWrites (kernelBodyT cols (b : Int) (e : Int) input mask uninit output).log =
      (List.range' b (e - b)).flatMap
        (fun i => (List.range' 1 (cols - 2)).map (fun j => i * cols + j)) ∧
    (outputWrites (kernelBodyT cols (b : Int) (e : Int) input mask uninit output).log).Pairwise
      (fun x y => x < y) ∧
    (∀ i j, b ≤ i → i < e → 1 ≤ j → j ≤ cols - 2 →
      (outputWrites (kernelBodyT cols (b : Int) (e : Int) input mask uninit output).log).count
        (i * cols + j) = 1) := by
  rw [kernelBodyT_natCast cols b e input mask uninit output (by omega) hb hbe hfit]
  have h : outputWrites (kernelBody cols b e input mask uninit output).log =
      rowMajorCells cols b e :=
    outputWrites_kernelBody cols b e input mask uninit output (by omega) hbe
  have hp := rowMajorCells_pairwise cols b e
  refine ⟨h, ?_, ?_⟩
  · rw [h]
    exact hp
  · intro i j h1 h2 h3 h4
    rw [h]
    apply List.count_eq_one_of_mem (hp.imp (fun hab => Nat.ne_of_lt hab))
    rw [mem_rowMajorCells]
    exact ⟨i, j, h1, h2, h3, by omega, rfl⟩

/-- The rows 3 and 4 of a grid of width 4. -/
theorem row_major_write_order_int_witness :
    (3 ≤ 4 ∧ 1 ≤ 3 ∧ 3 ≤ 5 ∧ (5 + 1) * 4 + 3 ≤ 2147483648) ∧
    outputWrites (kernelBodyT 4 ((3 : Nat) : Int) ((5 : Nat) : Int) (fun n => (n : Int))
      (fun _ => 1) (fun _ => 7) (fun _ => -1)).log =
      (List.range' 3 (5 - 3)).flatMap
        (fun i => (List.range' 1 (4 - 2)).map (fun j => i * 4 + j)) :=
  ⟨by decide, (row_major_write_order_int 4 3 5 (fun n => (n : Int)) (fun _ => 1) (fun _ => 7)
    (fun _ => -1) (by decide) (by decide) (by decide) (by decide)).1⟩

/-- C23 as amended, each input element is streamed exactly once: for `cols ≥ 3` and a
replica range `[b, e)` with `1 ≤ b ≤ e` and `(e+1)*cols + 3 ≤ 2^31`, the sequence of the
input indices read by the kernel, the `2*cols+3` priming reads followed by the shift reads
in execution order, is the consecutive run `(b-1)*cols, (b-1)*cols+1, ..., (e+1)*cols+2`,
each index appearing once; when `rows*cols + 3 ≤ 2^31` the largest index read by the last
replica of `RunKernel` is `rows*cols+2`. -/
theorem input_streamed_once_int {α : Type} [Add α] [Mul α] (rows cols N k b e : Nat)
    (input mask uninit output : Nat → α) (hcols : 3 ≤ cols) (hb : 1 ≤ b) (hbe : b ≤ e)
    (hfit : (e + 1) * cols + 3 ≤ 2147483648) :
    inputReads (kernelBodyT cols (b : Int) (e : Int) input mask uninit output).log =
      List.range' ((b - 1) * cols) ((e - b + 2) * cols + 3) ∧
    (∀ idx, idx ∈ inputReads (kernelBodyT cols (b : Int) (e : Int) input mask uninit
        output).log ↔ ((b - 1) * cols ≤ idx ∧ idx ≤ (e + 1) * cols + 2)) ∧
    (inputReads (kernelBodyT cols (b : Int) (e : Int) input mask uninit output).log).Nodup ∧
    (2 ≤ rows → 1 ≤ N → k + 1 = N → N < 2147483648 → rows * cols + 3 ≤ 2147483648 →
      rows * cols + 2 ∈ inputReads (RunKernelT rows cols k N input mask uninit output).log ∧
      ∀ idx, idx ∈ inputReads (RunKernelT rows cols k N input mask uninit output).log →
        idx ≤ rows * cols + 2) := by
  have hold := input_streamed_once rows cols N k b e input mask uninit output hcols hb hbe
  rw [kernelBodyT_natCast cols b e input mask uninit output (by omega) hb hbe hfit]
  refine ⟨hold.1, hold.2.1, hold.2.2.1, ?_⟩
  intro hrows hN hlast hN2 hfit2
  rw [RunKernelT_natCast rows cols k N input mask uninit output hrows (by omega) hN hN2
    (by omega) hfit2]
  exact hold.2.2.2 hrows hN hlast

/-- The rows `[2, 3)` of a grid of width 3: the kernel reads `input[3 .. 14]`. -/
theorem input_streamed_once_int_witness :
    (3 ≤ 3 ∧ 1 ≤ 2 ∧ 2 ≤ 3 ∧ (3 + 1) * 3 + 3 ≤ 2147483648) ∧
    inputReads (kernelBodyT 3 ((2 : Nat) : Int) ((3 : Nat) : Int) (fun n => (n : Int))
      (fun _ => 1) (fun _ => 7) (fun _ => -1)).log =
        List.range' ((2 - 1) * 3) ((3 - 2 + 2) * 3 + 3) :=
  ⟨by decide,
    (input_streamed_once_int 4 3 2 1 2 3 (fun n => (n : Int)) (fun _ => 1) (fun _ => 7)
      (fun _ => -1) (by decide) (by decide) (by decide) (by decide)).1⟩

/-! ## Grids on which the replicated kernel leaves the interior: evaluation -/

/-- C1 fails as stated: with `rows = 2^31 + 2`, three columns and one replica the constant
`end` is `-2147483647`, the row loop `for(int i=begin; i<end; i++)` is not entered, and the
interior cell `(1, 1)` keeps its initial value `-1`, while the nine-term sum for the grid of
ones with the mask of the host is 25: the cell cannot hold both the value of `gold_stencil`
and the nine-term sum. -/
theorem reference_equivalence_counterexample :
    (3 ≤ 2147483650 ∧ 3 ≤ 3 ∧ 1 ≤ 1 ∧ 1 ≤ 2147483650 - 2 ∧ 1 ≤ 1 ∧ 1 ≤ 2147483650 - 2 ∧
      1 ≤ 1 ∧ 1 ≤ 3 - 2) ∧
    endSizeT 2147483650 1 0 = -2147483647 ∧
    runReplicasT 2147483650 3 1 (fun _ => (1 : Int)) hostMask (fun _ => 7) (fun _ => -1)
      (1 * 3 + 1) = -1 ∧
    goldCell 3 (fun _ => (1 : Int)) hostMask 1 1 = 25 ∧
    ¬ (runReplicasT 2147483650 3 1 (fun _ => (1 : Int)) hostMask (fun _ => 7) (fun _ => -1)
        (1 * 3 + 1) =
        gold_stencilT 2147483650 3 (fun _ => (1 : Int)) hostMask (fun _ => 0) (1 * 3 + 1) ∧
      gold_stencilT 2147483650 3 (fun _ => (1 : Int)) hostMask (fun _ => 0) (1 * 3 + 1) =
        goldCell 3 (fun _ => (1 : Int)) hostMask 1 1) := by
  have hk : runReplicasT 2147483650 3 1 (fun _ => (1 : Int)) hostMask (fun _ => 7)
      (fun _ => -1) (1 * 3 + 1) = -1 := by decide
  have hg : goldCell 3 (fun _ => (1 : Int)) hostMask 1 1 = 25 := by decide
  refine ⟨by decide, by decide, hk, hg, ?_⟩
  rintro ⟨h1, h2⟩
  have h3 : (-1 : Int) = 25 := hk.symm.trans (h1.trans (h2.trans hg))
  exact absurd h3 (by decide)

/-- C13 fails as stated: with `rows = 2^31 + 2`, three columns and one replica the row loop
is not entered (`end = -2147483647`), no output cell is written, and the interior cell
`(1, 1)` does not hold 25. -/
theorem all_ones_scenario_counterexample :
    (3 ≤ 2147483650 ∧ 3 ≤ 3 ∧ 1 ≤ 1 ∧ 1 ≤ 2147483650 - 2 ∧ 1 ≤ 1 ∧ 1 ≤ 2147483650 - 2 ∧
      1 ≤ 1 ∧ 1 ≤ 3 - 2) ∧
    outputWrites (RunKernelT 2147483650 3 0 1 (fun _ => (1 : Int)) hostMask (fun _ => 7)
      (fun _ => -1)).log = [] ∧
    ¬ (runReplicasT 2147483650 3 1 (fun _ => (1 : Int)) hostMask (fun _ => 7) (fun _ => -1)
        (1 * 3 + 1) = 25) := by
  decide

/-- C7 fails as stated: with `rows = 715827885`, three columns and `N = rows-2` replicas,
the last replica works on the row `i = 715827883`; `i*kCols = 2^31 + 1` converted to `int`
gives `crow_base = -2147483647`, and `output[crow_base+1]` is the element of index
`2^64 - 2147483646`, which is no cell of the row. -/
theorem disjoint_write_ownership_counterexample :
    (3 ≤ 715827885 ∧ 3 ≤ 3 ∧ 1 ≤ 715827883 ∧ 715827883 ≤ 715827885 - 2 ∧
      715827882 < 715827883) ∧
    beginSizeT 715827885 715827883 715827882 = 715827883 ∧
    endSizeT 715827885 715827883 715827882 = 715827884 ∧
    crow_base 3 715827883 = -2147483647 ∧
    Access.outputWrite 18446744071562067970 ∈
      (RunKernelT 715827885 3 715827882 715827883 (fun n => (n : Int)) hostMask (fun _ => 7)
        (fun _ => -1)).log ∧
    ¬ (∃ i j : Nat, beginSizeT 715827885 715827883 715827882 ≤ (i : Int) ∧
        (i : Int) < endSizeT 715827885 715827883 715827882 ∧ 1 ≤ j ∧ j ≤ 3 - 2 ∧
        18446744071562067970 = i * 3 + j) := by
  have hb : beginSizeT 715827885 715827883 715827882 = 715827883 := by decide
  have he : endSizeT 715827885 715827883 715827882 = 715827884 := by decide
  refine ⟨by decide, hb, he, by decide, by decide, ?_⟩
  rw [hb, he]
  rintro ⟨i, j, h1, h2, h3, h4, h5⟩
  omega

/-- C8 fails as stated: the last of the `rows-2` replicas on a grid of 715827885 rows and
3 columns writes `output[2^64 - 2147483646]` and reads `input[2^64 - 2147483641]`, although
the output has `rows*cols = 2147483655` elements and the input three more. -/
theorem index_safety_counterexample :
    (3 ≤ 715827885 ∧ 3 ≤ 3 ∧ 1 ≤ 715827883 ∧ 715827883 ≤ 715827885 - 2 ∧
      715827882 < 715827883) ∧
    inputReads (RunKernelT 715827885 3 715827882 715827883 (fun n => (n : Int)) hostMask
        (fun _ => 7) (fun _ => -1)).log =
      [2147483646, 2147483647, 2147483648, 2147483649, 2147483650, 2147483651, 2147483652,
        2147483653, 2147483654, 18446744071562067975, 18446744071562067976,
        18446744071562067977] ∧
    outputWrites (RunKernelT 715827885 3 715827882 715827883 (fun n => (n : Int)) hostMask
        (fun _ => 7) (fun _ => -1)).log = [18446744071562067970] ∧
    ¬ (∀ a, a ∈ (RunKernelT 715827885 3 715827882 715827883 (fun n => (n : Int)) hostMask
          (fun _ => 7) (fun _ => -1)).log →
        AccessWithin (715827885 * 3 + 3) 9 (2 * 3 + 3) (715827885 * 3) a) := by
  refine ⟨by decide, by decide, by decide, ?_⟩
  intro h
  have hw : Access.outputWrite 18446744071562067970 ∈
      (RunKernelT 715827885 3 715827882 715827883 (fun n => (n : Int)) hostMask (fun _ => 7)
        (fun _ => -1)).log := by decide
  have h2 : 18446744071562067970 < 715827885 * 3 := h _ hw
  exact absurd h2 (by decide)

/-- C16 fails as stated: on the range `[715827883, 715827884)` of a grid of width 3 the
kernel writes `output[2^64 - 2147483646]` once, not the cell `715827883*3 + 1`. -/
theorem row_major_write_order_counterexample :
    (3 ≤ 3 ∧ 715827883 ≤ 715827884) ∧
    outputWrites (kernelBodyT 3 715827883 715827884 (fun n => (n : Int)) hostMask (fun _ => 7)
      (fun _ => -1)).log = [18446744071562067970] ∧
    (List.range' 715827883 (715827884 - 715827883)).flatMap
        (fun i => (List.range' 1 (3 - 2)).map (fun j => i * 3 + j)) = [2147483650] ∧
    ¬ (outputWrites (kernelBodyT 3 715827883 715827884 (fun n => (n : Int)) hostMask
        (fun _ => 7) (fun _ => -1)).log =
      (List.range' 715827883 (715827884 - 715827883)).flatMap
        (fun i => (List.range' 1 (3 - 2)).map (fun j => i * 3 + j))) := by
  decide

/-- C23 fails as stated: on the range `[715827882, 715827883)` of a grid of width 3 the
nine priming reads are `input[2147483643 .. 2147483651]`, but `nrow_base`, the conversion
of `2^31 + 1` to `int`, is `-2147483647`, and the three shift reads are
`input[2^64 - 2147483644 .. 2^64 - 2147483642]` instead of `input[2147483652 .. 2147483654]`. -/
theorem input_streamed_once_counterexample :
    (3 ≤ 3 ∧ 715827882 ≤ 715827883) ∧
    nrow_base 3 715827882 = -2147483647 ∧
    inputReads (kernelBodyT 3 715827882 715827883 (fun n => (n : Int)) hostMask (fun _ => 7)
        (fun _ => -1)).log =
      [2147483643, 2147483644, 2147483645, 2147483646, 2147483647, 2147483648, 2147483649,
        2147483650, 2147483651, 18446744071562067972, 18446744071562067973,
        18446744071562067974] ∧
    ¬ (inputReads (kernelBodyT 3 715827882 715827883 (fun n => (n : Int)) hostMask
        (fun _ => 7) (fun _ => -1)).log =
      List.range' ((715827882 - 1) * 3) ((715827883 - 715827882 + 2) * 3 + 3)) := by
  decide

/-- C6 fails as stated: on the range `[715827882, 715827884)` of a grid of width 3, in
front of the cell `(715827883, 1)` the newest slot `sr[8]` holds
`input[2^64 - 2147483642]`, the element read by the second extra shift of row 715827882
with `nrow_base = -2147483647`, and not `input[715827882*3 + 8]`. -/
theorem window_invariant_counterexample :
    (715827882 ≤ 715827883 ∧ 715827883 < 715827884 ∧ 1 ≤ 1 ∧ 1 ≤ 3 - 2) ∧
    (stateAtCellT 3 715827882 (fun n => (n : Int)) hostMask (fun _ => 7) (fun _ => -1)
      715827883 1).sr 8 = 18446744071562067974 ∧
    ¬ (∀ t, t < 2 * 3 + 3 →
      (stateAtCellT 3 715827882 (fun n => (n : Int)) hostMask (fun _ => 7) (fun _ => -1)
        715827883 1).sr t = (fun n => (n : Int)) ((715827883 - 1) * 3 + (1 - 1) + t)) := by
  have h8 : (stateAtCellT 3 715827882 (fun n => (n : Int)) hostMask (fun _ => 7) (fun _ => -1)
      715827883 1).sr 8 = 18446744071562067974 := by decide
  refine ⟨by decide, h8, ?_⟩
  intro h
  have h2 := h 8 (by decide)
  rw [h8] at h2
  exact absurd h2 (by decide)

/-! ## Grids on which the order of the replicas and the padding matter -/

/-- The last replica started by the host works on the output all the others left. -/
theorem runReplicasT_last {α : Type} [Add α] [Mul α] (rows cols N n : Nat)
    (input mask uninit output : Nat → α) (hN : N = n + 1) :
    ∃ prev, runReplicasT rows cols N input mask uninit output =
      (RunKernelT rows cols n N input mask uninit prev).output := by
  subst hN
  exact ⟨_, forLoop_succ_right 0 n _ output (Nat.zero_le n)⟩

theorem foldl_snoc {β γ : Type} (f : β → γ → β) (b : β) (l : List γ) (k : γ) :
    (l ++ [k]).foldl f b = f (l.foldl f b) k := by
  rw [List.foldl_append, List.foldl_cons, List.foldl_nil]

/-- The last replica of an order works on the output all the others left. -/
theorem runReplicasInT_last {α : Type} [Add α] [Mul α] (rows cols N : Nat)
    (input mask uninit : Nat → α) (p : List Nat) (k : Nat) (output : Nat → α) :
    ∃ prev, runReplicasInT rows cols N input mask uninit (p ++ [k]) output =
      (RunKernelT rows cols k N input mask uninit prev).output :=
  ⟨_, foldl_snoc _ output p k⟩

theorem range_rotate_perm (n : Nat) : (List.range' 1 n ++ [0]).Perm (List.range (n + 1)) := by
  have e : List.range (n + 1) = [0] ++ List.range' 1 n := by
    rw [List.range_eq_range', List.range'_succ]
    rfl
  rw [e]
  exact List.perm_append_comm

/-- C15 fails as stated: on a grid of `2^30 + 3` rows and 4 columns with `rows-2` replicas,
replica `2^30` works on the row `i = 2^30 + 1`, whose `crow_base`, the conversion of
`2^32 + 4` to `int`, is 4: it stores `output[5]` and `output[6]`, the cells of row 1 that
replica 0 stores too. With an input that is 0 below index `2^32` and 1 from there on, the
order `0, 1, ..., 2^30` leaves 25 in `output[5]` and the order `1, ..., 2^30, 0` leaves 0. -/
theorem replica_order_independence_counterexample :
    (3 ≤ 1073741827 ∧ 3 ≤ 4 ∧ 1 ≤ 1073741825 ∧ 1073741825 ≤ 1073741827 - 2) ∧
    (List.range' 1 1073741824 ++ [0]).Perm (List.range 1073741825) ∧
    crow_base 4 1073741825 = 4 ∧
    runReplicasT 1073741827 4 1073741825 (fun n => if n < 4294967296 then (0 : Int) else 1)
      hostMask (fun _ => 7) (fun _ => -1) 5 = 25 ∧
    runReplicasInT 1073741827 4 1073741825 (fun n => if n < 4294967296 then (0 : Int) else 1)
      hostMask (fun _ => 7) (List.range' 1 1073741824 ++ [0]) (fun _ => -1) 5 = 0 ∧
    ¬ (runReplicasInT 1073741827 4 1073741825
        (fun n => if n < 4294967296 then (0 : Int) else 1) hostMask (fun _ => 7)
        (List.range' 1 1073741824 ++ [0]) (fun _ => -1) =
      runReplicasT 1073741827 4 1073741825 (fun n => if n < 4294967296 then (0 : Int) else 1)
        hostMask (fun _ => 7) (fun _ => -1)) := by
  obtain ⟨prev1, h1⟩ := runReplicasT_last 1073741827 4 1073741825 1073741824
    (fun n => if n < 4294967296 then (0 : Int) else 1) hostMask (fun _ => 7) (fun _ => -1) rfl
  obtain ⟨prev2, h2⟩ := runReplicasInT_last 1073741827 4 1073741825
    (fun n => if n < 4294967296 then (0 : Int) else 1) hostMask (fun _ => 7)
    (List.range' 1 1073741824) 0 (fun _ => -1)
  have e1 : (RunKernelT 1073741827 4 1073741824 1073741825
      (fun n => if n < 4294967296 then (0 : Int) else 1) hostMask (fun _ => 7) prev1).output 5
      = 25 := rfl
  have e2 : (RunKernelT 1073741827 4 0 1073741825
      (fun n => if n < 4294967296 then (0 : Int) else 1) hostMask (fun _ => 7) prev2).output 5
      = 0 := rfl
  have r1 : runReplicasT 1073741827 4 1073741825
      (fun n => if n < 4294967296 then (0 : Int) else 1) hostMask (fun _ => 7) (fun _ => -1) 5
      = 25 := (congrFun h1 5).trans e1
  have r2 : runReplicasInT 1073741827 4 1073741825
      (fun n => if n < 4294967296 then (0 : Int) else 1) hostMask (fun _ => 7)
      (List.range' 1 1073741824 ++ [0]) (fun _ => -1) 5 = 0 := (congrFun h2 5).trans e2
  refine ⟨by decide, range_rotate_perm 1073741824, by decide, r1, r2, ?_⟩
  intro h
  have h5 : (0 : Int) = 25 := r2.symm.trans ((congrFun h 5).trans r1)
  exact absurd h5 (by decide)

/-- The nine-term sum on a register of ones with the mask of the host is 25. -/
theorem tapSum_ones (lm sr : Nat → Int) (hsr : ∀ t, t < 9 → sr t = 1)
    (hlm : ∀ t, t < 9 → lm t = hostMask t) : tapSum 3 lm sr = 25 := by
  unfold tapSum
  rw [hsr 0 (by decide), hsr 1 (by decide), hsr 2 (by decide), hsr 3 (by decide),
    hsr (3 + 1) (by decide), hsr (3 + 2) (by decide), hsr (2 * 3) (by decide),
    hsr (2 * 3 + 1) (by decide), hsr (2 * 3 + 2) (by decide),
    hlm 0 (by decide), hlm 1 (by decide), hlm 2 (by decide), hlm 3 (by decide),
    hlm 4 (by decide), hlm 5 (by decide), hlm 6 (by decide), hlm 7 (by decide),
    hlm 8 (by decide)]
  decide

/-- Shifting a one into a register of ones of width 3 leaves a register of ones. -/
theorem shiftFromInput_ones (idx : Nat) (s : KernelState Int)
    (hsr : ∀ t, t < 9 → s.sr t = 1) :
    (∀ t, t < 9 → (shiftFromInput 3 (fun _ => (1 : Int)) idx s).sr t = 1) ∧
    (shiftFromInput 3 (fun _ => (1 : Int)) idx s).local_mask = s.local_mask ∧
    (shiftFromInput 3 (fun _ => (1 : Int)) idx s).output = s.output := by
  refine ⟨fun t ht => ?_, rfl, rfl⟩
  show shiftSingleVal (2 * 3 + 3) s.sr 1 t = 1
  unfold shiftSingleVal
  by_cases h1 : t + 1 < 2 * 3 + 3
  · rw [if_pos h1]
    exact hsr (t + 1) h1
  · have h2 : t + 1 = 2 * 3 + 3 := by omega
    rw [if_neg h1, if_pos h2]

/-- On a grid of ones of width 3 the body of the column loop stores 25 and leaves a
register of ones. -/
theorem colStepT_ones (i j : Int) (s : KernelState Int)
    (hsr : ∀ t, t < 9 → s.sr t = 1) (hlm : ∀ t, t < 9 → s.local_mask t = hostMask t) :
    (∀ t, t < 9 → (colStepT 3 (fun _ => (1 : Int)) i j s).sr t = 1) ∧
    (colStepT 3 (fun _ => (1 : Int)) i j s).local_mask = s.local_mask ∧
    (colStepT 3 (fun _ => (1 : Int)) i j s).output =
      store s.output (sizeOfInt (intWrap (crow_base 3 i + j))) 25 := by
  have hsum := tapSum_ones s.local_mask s.sr hsr hlm
  obtain ⟨c1, c2, c3⟩ := shiftFromInput_ones
    (sizeOfInt (intWrap (intWrap (nrow_base 3 i + 2) + j)))
    { s with
      output := store s.output (sizeOfInt (intWrap (crow_base 3 i + j)))
        (tapSum 3 s.local_mask s.sr)
      log := s.log ++ tapLog 3 ++ [Access.outputWrite (sizeOfInt (intWrap (crow_base 3 i + j)))] }
    hsr
  refine ⟨c1, c2, ?_⟩
  have c4 : (colStepT 3 (fun _ => (1 : Int)) i j s).output =
      store s.output (sizeOfInt (intWrap (crow_base 3 i + j))) (tapSum 3 s.local_mask s.sr) := c3
  rw [c4, hsum]

/-- On a grid of ones of width 3 a row stores 25 at the element `output[crow_base+1]` and
leaves a register of ones. -/
theorem rowStepT_ones (i : Int) (s : KernelState Int)
    (hsr : ∀ t, t < 9 → s.sr t = 1) (hlm : ∀ t, t < 9 → s.local_mask t = hostMask t) :
    (∀ t, t < 9 → (rowStepT 3 (fun _ => (1 : Int)) i s).sr t = 1) ∧
    (∀ t, t < 9 → (rowStepT 3 (fun _ => (1 : Int)) i s).local_mask t = hostMask t) ∧
    (rowStepT 3 (fun _ => (1 : Int)) i s).output =
      store s.output (sizeOfInt (intWrap (crow_base 3 i + 1))) 25 := by
  have hl : forIntSize 1 (sizeSub 3 1) (colStepT 3 (fun _ => (1 : Int)) i) s =
      colStepT 3 (fun _ => (1 : Int)) i 1 s := by
    have h1 : forIntSize 1 (sizeSub 3 1) (colStepT 3 (fun _ => (1 : Int)) i) s =
        forLoop 1 2 (fun j => colStepT 3 (fun _ => (1 : Int)) i (j : Int)) s :=
      forIntSize_eq_forLoop 1 2 _ s (by decide) (by decide)
    rw [h1, forLoop_step 1 2 _ _ (by decide), forLoop_of_le _ _ _ _ (by decide)]
    rfl
  obtain ⟨c1, c2, c3⟩ := colStepT_ones i 1 s hsr hlm
  obtain ⟨d1, d2, d3⟩ := shiftFromInput_ones
    (((sizeOfInt (nrow_base 3 i) + 3) % sizeModulus + 1) % sizeModulus)
    (colStepT 3 (fun _ => (1 : Int)) i 1 s) c1
  obtain ⟨e1, e2, e3⟩ := shiftFromInput_ones
    (((sizeOfInt (nrow_base 3 i) + 3) % sizeModulus + 2) % sizeModulus)
    (shiftFromInput 3 (fun _ => (1 : Int))
      (((sizeOfInt (nrow_base 3 i) + 3) % sizeModulus + 1) % sizeModulus)
      (colStepT 3 (fun _ => (1 : Int)) i 1 s)) d1
  unfold rowStepT rowResyncT
  rw [hl]
  refine ⟨e1, fun t ht => ?_, ?_⟩
  · rw [e2, d2, c2]
    exact hlm t ht
  · rw [e3, d3, c3]

/-- On a grid of ones of width 3 every row keeps an element that holds 25. -/
theorem rowStepT_ones_keep (c : Nat) (i : Int) (s : KernelState Int)
    (h : (∀ t, t < 9 → s.sr t = 1) ∧ (∀ t, t < 9 → s.local_mask t = hostMask t) ∧
      s.output c = 25) :
    (∀ t, t < 9 → (rowStepT 3 (fun _ => (1 : Int)) i s).sr t = 1) ∧
    (∀ t, t < 9 → (rowStepT 3 (fun _ => (1 : Int)) i s).local_mask t = hostMask t) ∧
    (rowStepT 3 (fun _ => (1 : Int)) i s).output c = 25 := by
  obtain ⟨h1, h2, h3⟩ := rowStepT_ones i s h.1 h.2.1
  refine ⟨h1, h2, ?_⟩
  rw [h3]
  unfold store
  by_cases hc : c = sizeOfInt (intWrap (crow_base 3 i + 1))
  · rw [if_pos hc]
  · rw [if_neg hc]
    exact h.2.2

/-- The prologue of the first replica on a grid of ones of width 3. -/
theorem kernelPrologueT_ones (uninit output : Nat → Int) :
    (∀ t, t < 9 → (kernelPrologueT 3 1 (fun _ => (1 : Int)) hostMask uninit output).sr t = 1) ∧
    (∀ t, t < 9 → (kernelPrologueT 3 1 (fun _ => (1 : Int)) hostMask uninit output).local_mask t
      = hostMask t) ∧
    (kernelPrologueT 3 1 (fun _ => (1 : Int)) hostMask uninit output).output = output := by
  have h : kernelPrologueT 3 1 (fun _ => (1 : Int)) hostMask uninit output =
      kernelPrologue 3 1 (fun _ => (1 : Int)) hostMask uninit output :=
    kernelPrologueT_natCast 3 1 _ _ _ _ (by decide) (by decide) (by decide)
  obtain ⟨h1, h2, h3⟩ := kernelPrologue_spec 3 1 (fun _ => (1 : Int)) hostMask uninit output
  rw [h]
  exact ⟨fun t ht => h1 t ht, h2, h3⟩

/-- On a grid of ones of width 3 the kernel on the rows `[1, e)`, `1 < e < 2^31`, leaves 25
in `output[4]`: the first row stores it, and every later store, wherever it goes, stores 25. -/
theorem kernelBodyT_ones_first (e c : Nat) (he1 : 1 < e) (he : e < 2147483648) (hc : c = 4)
    (uninit output : Nat → Int) :
    (kernelBodyT 3 1 (e : Int) (fun _ => (1 : Int)) hostMask uninit output).output c = 25 := by
  subst hc
  obtain ⟨p1, p2, p3⟩ := kernelPrologueT_ones uninit output
  have hl : forIntLt 1 (e : Int) (rowStepT 3 (fun _ => (1 : Int)))
      (kernelPrologueT 3 1 (fun _ => (1 : Int)) hostMask uninit output) =
      forLoop 1 e (fun i => rowStepT 3 (fun _ => (1 : Int)) (i : Int))
        (kernelPrologueT 3 1 (fun _ => (1 : Int)) hostMask uninit output) :=
    forIntLt_eq_forLoop 1 e _ _ he (by decide)
  obtain ⟨q1, q2, q3⟩ := rowStepT_ones ((1 : Nat) : Int)
    (kernelPrologueT 3 1 (fun _ => (1 : Int)) hostMask uninit output) p1 p2
  have q4 : (rowStepT 3 (fun _ => (1 : Int)) ((1 : Nat) : Int)
      (kernelPrologueT 3 1 (fun _ => (1 : Int)) hostMask uninit output)).output 4 = 25 := by
    rw [q3]
    have hidx : sizeOfInt (intWrap (crow_base 3 ((1 : Nat) : Int) + 1)) = 4 := by decide
    rw [hidx]
    unfold store
    rw [if_pos rfl]
  have hinv := forLoop_inv
    (fun _ (t : KernelState Int) => (∀ u, u < 9 → t.sr u = 1) ∧
      (∀ u, u < 9 → t.local_mask u = hostMask u) ∧ t.output 4 = 25)
    (1 + 1) e (fun i => rowStepT 3 (fun _ => (1 : Int)) (i : Int))
    (rowStepT 3 (fun _ => (1 : Int)) ((1 : Nat) : Int)
      (kernelPrologueT 3 1 (fun _ => (1 : Int)) hostMask uninit output))
    he1 ⟨q1, q2, q4⟩ (fun i t _ _ ht => rowStepT_ones_keep 4 (i : Int) t ht)
  unfold kernelBodyT
  rw [hl, forLoop_step 1 e _ _ he1]
  exact hinv.2.2

/-- On a grid of ones of width 3 the kernel on the rows `[1, e]`, `e + 1 < 2^31`, leaves 25
in the element `output[crow_base+1]` of its last row `e`. -/
theorem kernelBodyT_ones_last (e c : Nat) (he1 : 1 ≤ e) (he : e + 1 < 2147483648)
    (hc : c = sizeOfInt (intWrap (crow_base 3 (e : Int) + 1))) (uninit output : Nat → Int) :
    (kernelBodyT 3 1 ((e + 1 : Nat) : Int) (fun _ => (1 : Int)) hostMask uninit output).output
      c = 25 := by
  subst hc
  obtain ⟨p1, p2, p3⟩ := kernelPrologueT_ones uninit output
  have hl : forIntLt 1 ((e + 1 : Nat) : Int) (rowStepT 3 (fun _ => (1 : Int)))
      (kernelPrologueT 3 1 (fun _ => (1 : Int)) hostMask uninit output) =
      forLoop 1 (e + 1) (fun i => rowStepT 3 (fun _ => (1 : Int)) (i : Int))
        (kernelPrologueT 3 1 (fun _ => (1 : Int)) hostMask uninit output) :=
    forIntLt_eq_forLoop 1 (e + 1) _ _ he (by decide)
  have hinv := forLoop_inv
    (fun _ (t : KernelState Int) => (∀ u, u < 9 → t.sr u = 1) ∧
      (∀ u, u < 9 → t.local_mask u = hostMask u))
    1 e (fun i => rowStepT 3 (fun _ => (1 : Int)) (i : Int))
    (kernelPrologueT 3 1 (fun _ => (1 : Int)) hostMask uninit output)
    he1 ⟨p1, p2⟩ (fun i t _ _ ht => by
      obtain ⟨r1, r2, _⟩ := rowStepT_ones (i : Int) t ht.1 ht.2
      exact ⟨r1, r2⟩)
  obtain ⟨q1, q2, q3⟩ := rowStepT_ones (e : Int) _ hinv.1 hinv.2
  unfold kernelBodyT
  rw [hl, forLoop_succ_right 1 e _ _ he1, q3]
  unfold store
  rw [if_pos rfl]

/-- One replica: the host runs `RunKernel<0,1>` on the output it is given. -/
theorem runReplicasT_one {α : Type} [Add α] [Mul α] (rows cols : Nat)
    (input mask uninit output : Nat → α) :
    runReplicasT rows cols 1 input mask uninit output =
      (RunKernelT rows cols 0 1 input mask uninit output).output := by
  unfold runReplicasT
  rw [forLoop_step 0 1 _ _ (by decide), forLoop_of_le _ _ _ _ (by decide)]

/-- Two replicas: `RunKernel<1,2>` works on the output `RunKernel<0,2>` left. -/
theorem runReplicasT_two {α : Type} [Add α] [Mul α] (rows cols : Nat)
    (input mask uninit output : Nat → α) :
    runReplicasT rows cols 2 input mask uninit output =
      (RunKernelT rows cols 1 2 input mask uninit
        (RunKernelT rows cols 0 2 input mask uninit output).output).output := by
  unfold runReplicasT
  rw [forLoop_step 0 2 _ _ (by decide), forLoop_step (0 + 1) 2 _ _ (by decide),
    forLoop_of_le _ _ _ _ (by decide)]

/-- The kernel is its body on the rows `[begin, end)`. -/
theorem RunKernelT_eq {α : Type} [Add α] [Mul α] (rows cols k N : Nat)
    (input mask uninit output : Nat → α) :
    RunKernelT rows cols k N input mask uninit output =
      kernelBodyT cols (beginSizeT rows N k) (endSizeT rows N k) input mask uninit output :=
  rfl

theorem output_congr {α : Type} (s t : KernelState α) (h : s = t) (c : Nat) :
    s.output c = t.output c := by
  rw [h]

/-- C2 fails as stated: on a grid of 1431655768 rows and 3 columns with one replica, the
last row is `i = 1431655766`, where `i*kCols = 2^32 + 2` converted to `int` gives
`crow_base = 2`; the store `output[crow_base+1]` goes to `output[3]`, the cell `(1, 0)` of
the first column. With an input of ones and an output of `-1` the cell holds 25 at the end. -/
theorem border_invariant_counterexample :
    (3 ≤ 1431655768 ∧ 3 ≤ 3 ∧ 1 ≤ 1 ∧ 1 ≤ 1431655768 - 2 ∧ 1 < 1431655768 ∧ 0 < 3 ∧
      (1 = 0 ∨ 1 = 1431655768 - 1 ∨ 0 = 0 ∨ 0 = 3 - 1)) ∧
    crow_base 3 1431655766 = 2 ∧
    runReplicasT 1431655768 3 1 (fun _ => (1 : Int)) hostMask (fun _ => 7) (fun _ => -1)
      (1 * 3 + 0) = 25 ∧
    ¬ (runReplicasT 1431655768 3 1 (fun _ => (1 : Int)) hostMask (fun _ => 7) (fun _ => -1)
      (1 * 3 + 0) = (fun _ => (-1 : Int)) (1 * 3 + 0)) := by
  have hb : beginSizeT 1431655768 1 0 = 1 := by decide
  have he : endSizeT 1431655768 1 0 = ((1431655766 + 1 : Nat) : Int) := by decide
  have heq : RunKernelT 1431655768 3 0 1 (fun _ => (1 : Int)) hostMask (fun _ => 7)
      (fun _ => -1) =
      kernelBodyT 3 1 ((1431655766 + 1 : Nat) : Int) (fun _ => (1 : Int)) hostMask (fun _ => 7)
        (fun _ => -1) := by
    rw [RunKernelT_eq, hb, he]
  have h : (RunKernelT 1431655768 3 0 1 (fun _ => (1 : Int)) hostMask (fun _ => 7)
      (fun _ => -1)).output (1 * 3 + 0) = 25 :=
    (output_congr _ _ heq (1 * 3 + 0)).trans
      (kernelBodyT_ones_last 1431655766 (1 * 3 + 0) (by decide) (by decide) (by decide)
        (fun _ => 7) (fun _ => -1))
  have r : runReplicasT 1431655768 3 1 (fun _ => (1 : Int)) hostMask (fun _ => 7)
      (fun _ => -1) (1 * 3 + 0) = 25 :=
    (congrFun (runReplicasT_one 1431655768 3 _ _ _ _) (1 * 3 + 0)).trans h
  refine ⟨by decide, by decide, r, ?_⟩
  intro h2
  have h3 : (25 : Int) = -1 := r.symm.trans h2
  exact absurd h3 (by decide)

/-- C4 fails as stated: on a grid of `2^31 + 2` rows and 3 columns, the only replica of
`N = 1` has `end = -2147483647` and stores nothing, so the cell `(1, 1)` keeps its initial
value; with `N = 2` replica 0 has the range `[1, 2^30 + 1)` and stores the sum 25 of the
cell `(1, 1)`, and replica 1 has `end = -2147483647` and stores nothing. -/
theorem replica_count_invariance_counterexample :
    (3 ≤ 2147483650 ∧ 3 ≤ 3 ∧ 1 ≤ 1 ∧ 1 ≤ 2147483650 - 2 ∧ 1 ≤ 2 ∧ 2 ≤ 2147483650 - 2 ∧
      1 ≤ 1 ∧ 1 ≤ 2147483650 - 2 ∧ 1 ≤ 1 ∧ 1 ≤ 3 - 2) ∧
    (endSizeT 2147483650 1 0 = -2147483647 ∧ beginSizeT 2147483650 2 0 = 1 ∧
      endSizeT 2147483650 2 0 = 1073741825 ∧ endSizeT 2147483650 2 1 = -2147483647) ∧
    runReplicasT 2147483650 3 1 (fun _ => (1 : Int)) hostMask (fun _ => 7) (fun _ => -1)
      (1 * 3 + 1) = -1 ∧
    runReplicasT 2147483650 3 2 (fun _ => (1 : Int)) hostMask (fun _ => 8) (fun _ => -1)
      (1 * 3 + 1) = 25 ∧
    ¬ (runReplicasT 2147483650 3 1 (fun _ => (1 : Int)) hostMask (fun _ => 7) (fun _ => -1)
        (1 * 3 + 1) =
      runReplicasT 2147483650 3 2 (fun _ => (1 : Int)) hostMask (fun _ => 8) (fun _ => -1)
        (1 * 3 + 1)) := by
  have hb : beginSizeT 2147483650 2 0 = 1 := by decide
  have he : endSizeT 2147483650 2 0 = ((1073741825 : Nat) : Int) := by decide
  have heq : RunKernelT 2147483650 3 0 2 (fun _ => (1 : Int)) hostMask (fun _ => 8)
      (fun _ => -1) =
      kernelBodyT 3 1 ((1073741825 : Nat) : Int) (fun _ => (1 : Int)) hostMask (fun _ => 8)
        (fun _ => -1) := by
    rw [RunKernelT_eq, hb, he]
  have h : (RunKernelT 2147483650 3 0 2 (fun _ => (1 : Int)) hostMask (fun _ => 8)
      (fun _ => -1)).output (1 * 3 + 1) = 25 :=
    (output_congr _ _ heq (1 * 3 + 1)).trans
      (kernelBodyT_ones_first 1073741825 (1 * 3 + 1) (by decide) (by decide) (by decide)
        (fun _ => 8) (fun _ => -1))
  have e1 : ∀ prev : Nat → Int, (RunKernelT 2147483650 3 1 2 (fun _ => (1 : Int)) hostMask
      (fun _ => 8) prev).output (1 * 3 + 1) = prev (1 * 3 + 1) := fun prev => rfl
  have r2 : runReplicasT 2147483650 3 2 (fun _ => (1 : Int)) hostMask (fun _ => 8)
      (fun _ => -1) (1 * 3 + 1) = 25 :=
    (congrFun (runReplicasT_two 2147483650 3 _ _ _ _) (1 * 3 + 1)).trans ((e1 _).trans h)
  have r1 : runReplicasT 2147483650 3 1 (fun _ => (1 : Int)) hostMask (fun _ => 7)
      (fun _ => -1) (1 * 3 + 1) = -1 := by decide
  refine ⟨by decide, by decide, r1, r2, ?_⟩
  intro h2
  have h3 : (-1 : Int) = 25 := r1.symm.trans (h2.trans r2)
  exact absurd h3 (by decide)

/-! ## Fuel of the loops, and degenerate grids -/

theorem intWrap_emod (z : Int) : intWrap z % 4294967296 = z % 4294967296 := by
  unfold intWrap intOfSize sizeOfInt
  split <;> omega

theorem intWrap_congr (x y : Int) (h : x % 4294967296 = y % 4294967296) :
    intWrap x = intWrap y := by
  have hx := intWrap_emod x
  have hy := intWrap_emod y
  have rx := intWrap_range x
  have ry := intWrap_range y
  omega

theorem intWrap_succ_add (i : Int) (d : Nat) :
    intWrap (intWrap (i + 1) + (d : Int)) = intWrap (i + ((d + 1 : Nat) : Int)) := by
  apply intWrap_congr
  have h := intWrap_emod (i + 1)
  push_cast
  omega

/-- A loop whose condition fails at the counter value reached after `d` increments has
ended by then: any two amounts of fuel above `d` give the same state. -/
theorem forIntAux_fuel {σ : Type} (cond : Int → Bool) (body : Int → σ → σ) :
    ∀ (d : Nat) (i : Int) (s : σ) (f1 f2 : Nat), -2147483648 ≤ i → i < 2147483648 →
      cond (intWrap (i + (d : Int))) = false → d < f1 → d < f2 →
      forIntAux cond body f1 i s = forIntAux cond body f2 i s := by
  intro d
  induction d with
  | zero =>
    intro i s f1 f2 h1 h2 hc _ _
    have e : intWrap (i + ((0 : Nat) : Int)) = i := by
      rw [Nat.cast_zero, Int.add_zero]
      exact intWrap_of_range i h1 h2
    rw [e] at hc
    rw [forIntAux_of_not cond body f1 i s hc, forIntAux_of_not cond body f2 i s hc]
  | succ n ih =>
    intro i s f1 f2 h1 h2 hc hf1 hf2
    by_cases hci : cond i = true
    · obtain ⟨g1, rfl⟩ : ∃ g1, f1 = g1 + 1 := ⟨f1 - 1, by omega⟩
      obtain ⟨g2, rfl⟩ : ∃ g2, f2 = g2 + 1 := ⟨f2 - 1, by omega⟩
      rw [forIntAux_step cond body g1 i s hci, forIntAux_step cond body g2 i s hci]
      have r := intWrap_range (i + 1)
      refine ih (intWrap (i + 1)) (body i s) g1 g2 r.1 r.2 ?_ (by omega) (by omega)
      rw [intWrap_succ_add]
      exact hc
    · have hci2 : cond i = false := by simpa using hci
      rw [forIntAux_of_not cond body f1 i s hci2, forIntAux_of_not cond body f2 i s hci2]

/-- Every `int` is reached from every other by fewer than `2^32` increments. -/
theorem intWrap_reach (i t : Int) (h1 : -2147483648 ≤ t) (h2 : t < 2147483648) :
    ∃ d : Nat, d < 4294967296 ∧ intWrap (i + (d : Int)) = t := by
  refine ⟨((t - i) % 4294967296).toNat, by omega, ?_⟩
  have e : intWrap t = t := intWrap_of_range t h1 h2
  rw [← e]
  apply intWrap_congr
  omega

/-- The loop `for (int i = lo; i < hi; i++)` with an `int` bound `hi` has ended after
fewer than `2^32` iterations: more fuel gives the same state. -/
theorem forIntLt_fuel {σ : Type} (lo hi : Int) (body : Int → σ → σ) (s : σ) (fuel : Nat)
    (h1 : -2147483648 ≤ lo) (h2 : lo < 2147483648) (hhi : hi < 2147483648)
    (hf : 4294967296 ≤ fuel) :
    forIntAux (fun i => decide (i < hi)) body fuel lo s = forIntLt lo hi body s := by
  obtain ⟨d, hd, he⟩ := intWrap_reach lo 2147483647 (by decide) (by decide)
  exact forIntAux_fuel (fun i => decide (i < hi)) body d lo s fuel 4294967296 h1 h2
    (by rw [he]; simp; omega) (by omega) hd

/-- The loop `for (int i = lo; i < bound; i++)` with a `size_t` bound has ended after fewer
than `2^32` iterations: more fuel gives the same state. -/
theorem forIntSize_fuel {σ : Type} (lo : Int) (bound : Nat) (body : Int → σ → σ) (s : σ)
    (fuel : Nat) (h1 : -2147483648 ≤ lo) (h2 : lo < 2147483648)
    (hb : bound < 18446744073709551616) (hf : 4294967296 ≤ fuel) :
    forIntAux (fun i => decide (sizeOfInt i < bound)) body fuel lo s =
      forIntSize lo bound body s := by
  obtain ⟨d, hd, he⟩ := intWrap_reach lo (-1) (by decide) (by decide)
  have e1 : sizeOfInt (-1) = 18446744073709551615 := by decide
  exact forIntAux_fuel (fun i => decide (sizeOfInt i < bound)) body d lo s fuel 4294967296 h1 h2
    (by rw [he]; simp; omega) (by omega) hd

theorem srpPrimeT_natCast {α : Type} (kCols : Nat) (input sr : Nat → α)
    (h : 2 * kCols + 3 ≤ 2147483648) :
    srpPrimeT kCols input sr = prime (2 * kCols + 3) input 0 sr := by
  have em : (2 * kCols + 3) % sizeModulus = 2 * kCols + 3 := by
    unfold sizeModulus
    omega
  unfold srpPrimeT prime
  have hl : forIntSize 0 (2 * kCols + 3)
      (fun (i : Int) (sr : Nat → α) => store sr (sizeOfInt i) (input (sizeOfInt i))) sr =
      forLoop 0 (2 * kCols + 3)
        (fun (i : Nat) (sr : Nat → α) =>
          store sr (sizeOfInt (i : Int)) (input (sizeOfInt (i : Int)))) sr :=
    forIntSize_eq_forLoop 0 (2 * kCols + 3) _ _ (by omega) (by omega)
  rw [em, hl]
  refine forLoop_congr 0 (2 * kCols + 3) _ _ _ (fun i _ hi t => ?_)
  show store t (sizeOfInt (i : Int)) (input (sizeOfInt (i : Int))) = store t i (input (0 + i))
  rw [sizeOfInt_natCast i (by omega), Nat.zero_add]

theorem srpColStepT_natCast {α : Type} [Add α] [Mul α] (kCols : Nat) (input : Nat → α)
    (i j : Nat) (s : SrpState α) (h : i * kCols + kCols + 2 + j < 2147483648) :
    srpColStepT kCols input (i : Int) (j : Int) s = srpColStep kCols input i j s := by
  unfold srpColStepT srpColStep
  rw [outIdx_natCast kCols i j (by omega), shiftIdx_natCast kCols i j h]

theorem srpRowStepT_natCast {α : Type} [Add α] [Mul α] (kCols : Nat) (input : Nat → α)
    (i : Nat) (s : SrpState α) (hc : 1 ≤ kCols)
    (h : i * kCols + kCols + kCols < 2147483648) :
    srpRowStepT kCols input (i : Int) s = srpRowStep kCols input i s := by
  have hs : sizeSub kCols 1 = kCols - 1 := by
    unfold sizeSub sizeModulus
    omega
  have hl : forIntSize 1 (kCols - 1) (srpColStepT kCols input (i : Int)) s =
      forLoop 1 (kCols - 1) (fun j => srpColStepT kCols input (i : Int) (j : Int)) s :=
    forIntSize_eq_forLoop 1 (kCols - 1) _ s (by omega) (by omega)
  have hcongr := forLoop_congr 1 (kCols - 1)
    (fun j => srpColStepT kCols input (i : Int) (j : Int)) (srpColStep kCols input i) s
    (fun j _ hj t => srpColStepT_natCast kCols input i j t (by omega))
  unfold srpRowStepT srpResyncT srpRowStep
  rw [hs, hl, hcongr, resyncIdx_natCast kCols i 1 (by omega) (by omega),
    resyncIdx_natCast kCols i 2 (by omega) (by omega)]

/-- The explicit-array kernel with the types of the source is the kernel on natural
numbers when every index it forms is below `2^31`. -/
theorem RunKernel_srp_templT_natCast {α : Type} [Add α] [Mul α] (rows cols : Nat)
    (input mask uninit output : Nat → α) (hrows : 2 ≤ rows) (hcols : 1 ≤ cols)
    (hfit : rows * cols + 3 ≤ 2147483648) :
    RunKernel_srp_templT rows cols input mask uninit output =
      RunKernel_srp_templ rows cols input mask uninit output := by
  have hrc : rows ≤ rows * cols := Nat.le_mul_of_pos_right rows (by omega)
  have hcr : cols ≤ rows * cols := Nat.le_mul_of_pos_left cols (by omega)
  have hs1 : sizeSub rows 1 = rows - 1 := by
    unfold sizeSub sizeModulus
    omega
  have h2c : 2 * cols ≤ rows * cols := Nat.mul_le_mul_right cols hrows
  unfold RunKernel_srp_templT srpInitT RunKernel_srp_templ
  rw [hs1, srpPrimeT_natCast cols input _ (by omega)]
  refine (forIntSize_eq_forLoop 1 (rows - 1) (srpRowStepT cols input) _ (by omega)
    (by omega)).trans (forLoop_congr 1 (rows - 1) _ _ _ (fun i _ hi t => ?_))
  have hik : (i + 2) * cols ≤ rows * cols := Nat.mul_le_mul_right cols (by omega)
  rw [Nat.add_mul] at hik
  exact srpRowStepT_natCast cols input i t hcols (by omega)

/-- C18 as amended, the single-replica explicit-array kernel matches the gold stencil: for
`rows ≥ 3`, `cols ≥ 3` and `rows*cols + 3 ≤ 2^31`, every mask and input, the kernel of
`src_srp_templ` stores in `output[i*cols+j]`, for every interior cell `(i, j)`, the value
`gold_stencil` stores there. -/
theorem srp_templ_matches_gold_int {α : Type} [Add α] [Mul α] (rows cols : Nat)
    (input mask uninit output res : Nat → α) (i j : Nat)
    (hrows : 3 ≤ rows) (hcols : 3 ≤ cols)
    (hi : 1 ≤ i) (hi2 : i ≤ rows - 2) (hj : 1 ≤ j) (hj2 : j ≤ cols - 2)
    (hfit : rows * cols + 3 ≤ 2147483648) :
    (RunKernel_srp_templT rows cols input mask uninit output).output (i * cols + j) =
      gold_stencilT rows cols input mask res (i * cols + j) := by
  rw [RunKernel_srp_templT_natCast rows cols input mask uninit output (by omega) (by omega)
      hfit,
    gold_stencilT_natCast rows cols input mask res (by omega) (by omega) hfit]
  exact srp_templ_matches_gold rows cols input mask uninit output res i j hrows hcols hi hi2
    hj hj2

/-- A 4 x 4 grid, cell `(2, 1)`. -/
theorem srp_templ_matches_gold_int_witness :
    (3 ≤ 4 ∧ 3 ≤ 4 ∧ 1 ≤ 2 ∧ 2 ≤ 4 - 2 ∧ 1 ≤ 1 ∧ 1 ≤ 4 - 2 ∧ 4 * 4 + 3 ≤ 2147483648) ∧
    (RunKernel_srp_templT 4 4 (fun n => (n : Int)) (fun n => (n : Int) + 1) (fun _ => 7)
        (fun _ => -1)).output (2 * 4 + 1) =
      gold_stencilT 4 4 (fun n => (n : Int)) (fun n => (n : Int) + 1) (fun _ => 0)
        (2 * 4 + 1) :=
  ⟨by decide, srp_templ_matches_gold_int 4 4 (fun n => (n : Int)) (fun n => (n : Int) + 1)
    (fun _ => 7) (fun _ => -1) (fun _ => 0) 2 1 (by decide) (by decide) (by decide)
    (by decide) (by decide) (by decide) (by decide)⟩

/-- A store whose subscript is an `int` leaves the elements from `2^31` to
`2^64 - 2^31 - 1` as they are. -/
theorem store_gap {α : Type} (out : Nat → α) (z : Int) (v : α) (c : Nat)
    (hc1 : 2147483648 ≤ c) (hc2 : c < 18446744071562067968) :
    store out (sizeOfInt (intWrap z)) v c = out c := by
  have r := intWrap_range z
  have g := sizeOfInt_gap (intWrap z) r.1 r.2
  unfold store
  rw [if_neg (by omega)]

theorem srpResyncT_output {α : Type} (kCols : Nat) (input : Nat → α) (i : Int)
    (s : SrpState α) : (srpResyncT kCols input i s).output = s.output := rfl

theorem srpColStepT_output {α : Type} [Add α] [Mul α] (kCols : Nat) (input : Nat → α)
    (i j : Int) (s : SrpState α) :
    (srpColStepT kCols input i j s).output =
      store s.output (sizeOfInt (intWrap (crow_base kCols i + j)))
        (tapSum kCols s.local_mask s.sr) := rfl

theorem srpInitT_output {α : Type} (kCols : Nat) (input mask uninit output : Nat → α) :
    (srpInitT kCols input mask uninit output).output = output := rfl

/-- A loop over the rows of the explicit-array kernel stores no element from `2^31` to
`2^64 - 2^31 - 1`, whatever its bounds. -/
theorem srpRows_gap {α : Type} [Add α] [Mul α] (b1 b2 cols : Nat) (input : Nat → α)
    (s : SrpState α) (c : Nat) (hc1 : 2147483648 ≤ c) (hc2 : c < 18446744071562067968) :
    (forIntSize 1 b1 (fun i t =>
      srpResyncT cols input i (forIntSize 1 b2 (srpColStepT cols input i) t)) s).output c
      = s.output c := by
  refine forIntWhile_inv (fun t : SrpState α => t.output c = s.output c) _ 1 _ _ (by decide)
    (by decide) ?_ rfl
  intro i t _ _ _ ht
  beta_reduce
  rw [srpResyncT_output]
  refine forIntWhile_inv (fun u : SrpState α => u.output c = s.output c) _ 1 _ _ (by decide)
    (by decide) ?_ ht
  intro j u _ _ _ hu
  beta_reduce
  rw [srpColStepT_output, store_gap _ _ _ c hc1 hc2]
  exact hu

/-- The explicit-array kernel stores no element from `2^31` to `2^64 - 2^31 - 1`. -/
theorem RunKernel_srp_templT_gap {α : Type} [Add α] [Mul α] (rows cols : Nat)
    (input mask uninit output : Nat → α) (c : Nat)
    (hc1 : 2147483648 ≤ c) (hc2 : c < 18446744071562067968) :
    (RunKernel_srp_templT rows cols input mask uninit output).output c = output c := by
  have e : RunKernel_srp_templT rows cols input mask uninit output =
      forIntSize 1 (sizeSub rows 1) (fun i t =>
        srpResyncT cols input i (forIntSize 1 (sizeSub cols 1) (srpColStepT cols input i) t))
        (srpInitT cols input mask uninit output) := rfl
  rw [e, srpRows_gap (sizeSub rows 1) (sizeSub cols 1) cols input
    (srpInitT cols input mask uninit output) c hc1 hc2, srpInitT_output]

/-- The function `gold_stencil` stores no element from `2^31` to `2^64 - 2^31 - 1`. -/
theorem gold_stencilT_gap {α : Type} [Add α] [Mul α] (rows cols : Nat)
    (input mask res : Nat → α) (c : Nat)
    (hc1 : 2147483648 ≤ c) (hc2 : c < 18446744071562067968) :
    gold_stencilT rows cols input mask res c = res c := by
  unfold gold_stencilT forIntSize
  refine forIntWhile_inv (fun t : Nat → α => t c = res c) _ 1 _ _ (by decide)
    (by decide) ?_ rfl
  intro i t _ _ _ ht
  beta_reduce
  refine forIntWhile_inv (fun u : Nat → α => u c = res c) _ 1 _ _ (by decide)
    (by decide) ?_ ht
  intro j u _ _ _ hu
  beta_reduce
  rw [store_gap _ _ _ c hc1 hc2]
  exact hu

/-- C18 fails as stated: on a grid of 715827885 rows and 3 columns the interior cell
`(715827883, 1)` has the index `2^31 + 2`, which no `int` subscript denotes: neither the
kernel nor `gold_stencil` stores there, and the two arrays keep the different values they
had. -/
theorem srp_templ_matches_gold_counterexample :
    (3 ≤ 715827885 ∧ 3 ≤ 3 ∧ 1 ≤ 715827883 ∧ 715827883 ≤ 715827885 - 2 ∧ 1 ≤ 1 ∧ 1 ≤ 3 - 2) ∧
    (RunKernel_srp_templT 715827885 3 (fun n => (n : Int)) hostMask (fun _ => 7)
      (fun _ => -1)).output (715827883 * 3 + 1) = -1 ∧
    gold_stencilT 715827885 3 (fun n => (n : Int)) hostMask (fun _ => 0)
      (715827883 * 3 + 1) = 0 ∧
    ¬ ((RunKernel_srp_templT 715827885 3 (fun n => (n : Int)) hostMask (fun _ => 7)
        (fun _ => -1)).output (715827883 * 3 + 1) =
      gold_stencilT 715827885 3 (fun n => (n : Int)) hostMask (fun _ => 0)
        (715827883 * 3 + 1)) := by
  have h1 := RunKernel_srp_templT_gap 715827885 3 (fun n => (n : Int)) hostMask (fun _ => 7)
    (fun _ => -1) (715827883 * 3 + 1) (by decide) (by decide)
  have h2 := gold_stencilT_gap 715827885 3 (fun n => (n : Int)) hostMask (fun _ => 0)
    (715827883 * 3 + 1) (by decide) (by decide)
  refine ⟨by decide, h1, h2, ?_⟩
  intro h
  have h3 : (-1 : Int) = 0 := h1.symm.trans (h.trans h2)
  exact absurd h3 (by decide)

/-! ## Results on the naive kernel, with the types of the source -/

theorem mul_lt_size (a b : Nat) (ha : a ≤ 2147483648) (hb : b ≤ 2147483648) :
    a * b ≤ 4611686018427387904 := by
  have h := Nat.mul_le_mul ha hb
  omega

theorem naiveIdx_natCast (kCols i j : Nat) (hi : i < 2147483648) (hj : j < 2147483648)
    (hk : kCols ≤ 2147483648) : naiveIdx kCols (i : Int) (j : Int) = i * kCols + j := by
  have h := mul_lt_size i kCols (by omega) hk
  unfold naiveIdx sizeModulus
  rw [sizeOfInt_natCast i (by omega), sizeOfInt_natCast j (by omega)]
  omega

theorem naiveRow_natCast (i m : Nat) (hi : 1 ≤ i) (hm : i + m < 2147483648) :
    intWrap (intWrap ((i : Int) + (m : Int)) - 1) = ((i + m - 1 : Nat) : Int) := by
  rw [intWrap_add_natCast i m hm]
  have e : ((i + m : Nat) : Int) - 1 = ((i + m - 1 : Nat) : Int) := by omega
  rw [e]
  exact intWrap_natCast _ (by omega)

theorem naiveTap_natCast (kCols i j m n : Nat) (hi : 1 ≤ i) (hi2 : i + 2 < 2147483648)
    (hj : 1 ≤ j) (hj2 : j < 2147483648) (hk : kCols ≤ 2147483648) (hm : m < 3) (hn : n < 3) :
    naiveTap kCols (i : Int) (j : Int) m n = (i + m - 1) * kCols + j + n - 1 := by
  have h := mul_lt_size (i + m - 1) kCols (by omega) hk
  unfold naiveTap
  rw [naiveRow_natCast i m hi (by omega),
    naiveIdx_natCast kCols (i + m - 1) j (by omega) hj2 hk]
  unfold sizeSub sizeModulus
  omega

theorem naiveCellT_natCast {α : Type} [Zero α] [Add α] [Mul α] (kCols : Nat)
    (input mask : Nat → α) (i j : Nat) (output : Nat → α)
    (hi : 1 ≤ i) (hi2 : i + 2 < 2147483648) (hj : 1 ≤ j) (hj2 : j < 2147483648)
    (hk : kCols ≤ 2147483648) :
    naiveCellT kCols input mask (i : Int) (j : Int) output =
      naiveCell kCols input mask i j output := by
  unfold naiveCellT naiveCell
  rw [naiveIdx_natCast kCols i j (by omega) hj2 hk]
  refine forLoop_congr 0 3 _ _ _ (fun m _ hm t => ?_)
  refine forLoop_congr 0 3 _ _ _ (fun n _ hn u => ?_)
  beta_reduce
  rw [naiveTap_natCast kCols i j m n hi hi2 hj hj2 hk hm hn]

theorem goldNaiveCellT_natCast {α : Type} [Zero α] [Add α] [Mul α] (kCols : Nat)
    (input : Nat → α) (mask : Nat → Nat → α) (i j : Nat) (res : Nat → α)
    (hi : 1 ≤ i) (hi2 : i + 2 < 2147483648) (hj : 1 ≤ j) (hj2 : j < 2147483648)
    (hk : kCols ≤ 2147483648) :
    goldNaiveCellT kCols input mask (i : Int) (j : Int) res =
      goldNaiveCell kCols input mask i j res := by
  unfold goldNaiveCellT goldNaiveCell
  rw [naiveIdx_natCast kCols i j (by omega) hj2 hk]
  refine forLoop_congr 0 3 _ _ _ (fun m _ hm t => ?_)
  refine forLoop_congr 0 3 _ _ _ (fun n _ hn u => ?_)
  beta_reduce
  rw [naiveTap_natCast kCols i j m n hi hi2 hj hj2 hk hm hn]

/-- Two nested loops over the cells with the types of the source are the loops over the
natural numbers when `kRows` and `kCols` are below `2^31`. -/
theorem cellLoopsT_natCast {σ : Type} (rows cols : Nat) (f : Int → Int → σ → σ)
    (g : Nat → Nat → σ → σ) (s : σ)
    (hrows : 1 ≤ rows) (hr : rows < 2147483648) (hcols : 1 ≤ cols) (hc : cols < 2147483648)
    (hfg : ∀ i j, 1 ≤ i → i + 1 < rows → 1 ≤ j → j + 1 < cols → ∀ t,
      f (i : Int) (j : Int) t = g i j t) :
    forIntSize 1 (sizeSub rows 1) (fun i out =>
      forIntSize 1 (sizeSub cols 1) (fun j out => f i j out) out) s =
    forLoop 1 (rows - 1) (fun i out => forLoop 1 (cols - 1) (fun j out => g i j out) out) s := by
  have hs1 : sizeSub rows 1 = rows - 1 := by
    unfold sizeSub sizeModulus
    omega
  have hs2 : sizeSub cols 1 = cols - 1 := by
    unfold sizeSub sizeModulus
    omega
  rw [hs1, hs2]
  have hl := forIntSize_eq_forLoop 1 (rows - 1) (fun (i : Int) (out : σ) =>
    forIntSize 1 (cols - 1) (fun j out => f i j out) out) s (by omega) (by omega)
  refine hl.trans (forLoop_congr 1 (rows - 1) _ _ s (fun i hi1 hi t => ?_))
  have hl2 := forIntSize_eq_forLoop 1 (cols - 1) (fun (j : Int) (out : σ) =>
    f (i : Int) j out) t (by omega) (by omega)
  refine hl2.trans (forLoop_congr 1 (cols - 1) _ _ t (fun j hj1 hj u => ?_))
  exact hfg i j hi1 (by omega) hj1 (by omega) u

theorem RunKernel_naiveT_natCast {α : Type} [Zero α] [Add α] [Mul α] (rows cols : Nat)
    (input mask output : Nat → α)
    (hrows : 1 ≤ rows) (hr : rows < 2147483648) (hcols : 1 ≤ cols) (hc : cols < 2147483648) :
    RunKernel_naiveT rows cols input mask output =
      RunKernel_naive rows cols input mask output :=
  cellLoopsT_natCast rows cols (naiveCellT cols input mask) (naiveCell cols input mask)
    output hrows hr hcols hc
    (fun i j hi hi2 hj hj2 t =>
      naiveCellT_natCast cols input mask i j t hi (by omega) hj (by omega) (by omega))

theorem gold_stencil_naiveT_natCast {α : Type} [Zero α] [Add α] [Mul α] (rows cols : Nat)
    (input : Nat → α) (mask : Nat → Nat → α) (res : Nat → α)
    (hrows : 1 ≤ rows) (hr : rows < 2147483648) (hcols : 1 ≤ cols) (hc : cols < 2147483648) :
    gold_stencil_naiveT rows cols input mask res =
      gold_stencil_naive rows cols input mask res :=
  cellLoopsT_natCast rows cols (goldNaiveCellT cols input mask) (goldNaiveCell cols input mask)
    res hrows hr hcols hc
    (fun i j hi hi2 hj hj2 t =>
      goldNaiveCellT_natCast cols input mask i j t hi (by omega) hj (by omega) (by omega))

/-- C19 as amended, the naive kernel matches the 2-D-mask gold stencil: for `rows ≥ 3`,
`cols ≥ 3`, both below `2^31`, every input, and masks `m9`, `m33` with
`m33[m][n] = m9[m*3+n]`, the kernel of `src_naive` and `gold_stencil` of
`00_naive/host.cpp` store the same value in every interior cell. -/
theorem naive_matches_gold_int {α : Type} [Zero α] [Add α] [Mul α] (rows cols : Nat)
    (input m9 : Nat → α) (m33 : Nat → Nat → α) (output res : Nat → α) (i j : Nat)
    (hrows : 3 ≤ rows) (hcols : 3 ≤ cols)
    (hmask : ∀ m n, m < 3 → n < 3 → m33 m n = m9 (m * 3 + n))
    (hi : 1 ≤ i) (hi2 : i ≤ rows - 2) (hj : 1 ≤ j) (hj2 : j ≤ cols - 2)
    (hr : rows < 2147483648) (hc : cols < 2147483648) :
    RunKernel_naiveT rows cols input m9 output (i * cols + j) =
      gold_stencil_naiveT rows cols input m33 res (i * cols + j) := by
  rw [RunKernel_naiveT_natCast rows cols input m9 output (by omega) hr (by omega) hc,
    gold_stencil_naiveT_natCast rows cols input m33 res (by omega) hr (by omega) hc]
  exact naive_matches_gold rows cols input m9 m33 output res i j hrows hcols hmask hi hi2
    hj hj2

/-- A 4 x 5 grid with the mask of the host in both layouts, cell `(2, 3)`. -/
theorem naive_matches_gold_int_witness :
    (3 ≤ 4 ∧ 3 ≤ 5 ∧
      (∀ m n, m < 3 → n < 3 →
        (fun m n => (hostMask (m * 3 + n) : Int)) m n = hostMask (m * 3 + n)) ∧
      1 ≤ 2 ∧ 2 ≤ 4 - 2 ∧ 1 ≤ 3 ∧ 3 ≤ 5 - 2 ∧ 4 < 2147483648 ∧ 5 < 2147483648) ∧
    RunKernel_naiveT 4 5 (fun n => (n : Int)) hostMask (fun _ => -1) (2 * 5 + 3) =
      gold_stencil_naiveT 4 5 (fun n => (n : Int)) (fun m n => (hostMask (m * 3 + n) : Int))
        (fun _ => 0) (2 * 5 + 3) :=
  ⟨⟨by decide, by decide, fun _ _ _ _ => rfl, by decide, by decide, by decide, by decide,
      by decide, by decide⟩,
    naive_matches_gold_int 4 5 (fun n => (n : Int)) hostMask
      (fun m n => (hostMask (m * 3 + n) : Int)) (fun _ => -1) (fun _ => 0) 2 3 (by decide)
      (by decide) (fun _ _ _ _ => rfl) (by decide) (by decide) (by decide) (by decide)
      (by decide) (by decide)⟩

theorem naiveCellT_other {α : Type} [Zero α] [Add α] [Mul α] (kCols : Nat)
    (input mask : Nat → α) (i j : Int) (output : Nat → α) (c : Nat)
    (h : c ≠ naiveIdx kCols i j) : naiveCellT kCols input mask i j output c = output c := by
  simp [naiveCellT, forLoop, forCount, store, h]

theorem goldNaiveCellT_other {α : Type} [Zero α] [Add α] [Mul α] (kCols : Nat)
    (input : Nat → α) (mask : Nat → Nat → α) (i j : Int) (res : Nat → α) (c : Nat)
    (h : c ≠ naiveIdx kCols i j) : goldNaiveCellT kCols input mask i j res c = res c := by
  simp [goldNaiveCellT, forLoop, forCount, store, h]

/-- Two nested loops over the cells leave an element as it is when no cell they reach
changes it. -/
theorem cellLoopsT_keep {α : Type} (b1 b2 : Nat) (f : Int → Int → (Nat → α) → Nat → α)
    (s : Nat → α) (c : Nat)
    (hf : ∀ i j t, -2147483648 ≤ i → i < 2147483648 → -2147483648 ≤ j → j < 2147483648 →
      sizeOfInt i < b1 → sizeOfInt j < b2 → f i j t c = t c) :
    forIntSize 1 b1 (fun i out => forIntSize 1 b2 (fun j out => f i j out) out) s c = s c := by
  refine forIntWhile_inv (fun t : Nat → α => t c = s c) _ 1 _ _ (by decide) (by decide) ?_ rfl
  intro i t hci hi1 hi2 ht
  beta_reduce
  refine forIntWhile_inv (fun u : Nat → α => u c = s c) _ 1 _ _ (by decide) (by decide) ?_ ht
  intro j u hcj hj1 hj2 hu
  beta_reduce
  rw [hf i j u hi1 hi2 hj1 hj2 (by simpa using hci) (by simpa using hcj)]
  exact hu

/-- With three columns and a row bound of `2^31 + 1` the `int` counters reach no cell
whose subscript is `3 * 2^31 + 1`. -/
theorem naiveIdx_below (i j : Int) (b1 b2 : Nat) (hb1 : b1 = 2147483649) (hb2 : b2 = 2)
    (hi1 : -2147483648 ≤ i) (hi2 : i < 2147483648)
    (hi : sizeOfInt i < b1) (hj : sizeOfInt j < b2) :
    2147483648 * 3 + 1 ≠ naiveIdx 3 i j := by
  have g := sizeOfInt_gap i hi1 hi2
  have e1 : sizeOfInt i * 3 % 18446744073709551616 = sizeOfInt i * 3 :=
    Nat.mod_eq_of_lt (by omega)
  have e2 : (sizeOfInt i * 3 + sizeOfInt j) % 18446744073709551616 =
      sizeOfInt i * 3 + sizeOfInt j := Nat.mod_eq_of_lt (by omega)
  unfold naiveIdx sizeModulus
  rw [e1, e2]
  omega

/-- The naive kernel leaves an element as it is when no cell it reaches has this
subscript. -/
theorem RunKernel_naiveT_keep {α : Type} [Zero α] [Add α] [Mul α] (rows cols : Nat)
    (input mask output : Nat → α) (c : Nat)
    (hf : ∀ i j, -2147483648 ≤ i → i < 2147483648 → sizeOfInt i < sizeSub rows 1 →
      sizeOfInt j < sizeSub cols 1 → c ≠ naiveIdx cols i j) :
    RunKernel_naiveT rows cols input mask output c = output c := by
  have e : RunKernel_naiveT rows cols input mask output =
      forIntSize 1 (sizeSub rows 1) (fun i out =>
        forIntSize 1 (sizeSub cols 1) (fun j out => naiveCellT cols input mask i j out) out)
        output := rfl
  rw [e]
  exact cellLoopsT_keep (sizeSub rows 1) (sizeSub cols 1) (naiveCellT cols input mask) output c
    (fun i j t hi1 hi2 _ _ hi hj =>
      naiveCellT_other cols input mask i j t c (hf i j hi1 hi2 hi hj))

/-- The function `gold_stencil` of `00_naive` leaves an element as it is when no cell it
reaches has this subscript. -/
theorem gold_stencil_naiveT_keep {α : Type} [Zero α] [Add α] [Mul α] (rows cols : Nat)
    (input : Nat → α) (mask : Nat → Nat → α) (res : Nat → α) (c : Nat)
    (hf : ∀ i j, -2147483648 ≤ i → i < 2147483648 → sizeOfInt i < sizeSub rows 1 →
      sizeOfInt j < sizeSub cols 1 → c ≠ naiveIdx cols i j) :
    gold_stencil_naiveT rows cols input mask res c = res c := by
  have e : gold_stencil_naiveT rows cols input mask res =
      forIntSize 1 (sizeSub rows 1) (fun i out =>
        forIntSize 1 (sizeSub cols 1) (fun j out => goldNaiveCellT cols input mask i j out)
          out) res := rfl
  rw [e]
  exact cellLoopsT_keep (sizeSub rows 1) (sizeSub cols 1) (goldNaiveCellT cols input mask) res c
    (fun i j t hi1 hi2 _ _ hi hj =>
      goldNaiveCellT_other cols input mask i j t c (hf i j hi1 hi2 hi hj))

/-- C19 fails as stated: on a grid of `2^31 + 2` rows and 3 columns the `int` counter `i`
of `for(int i=1; i<kRows-1; i++)` takes the values 1 to `2^31 - 1` and cannot reach the
interior row `2^31`: neither the kernel nor `gold_stencil` stores the cell `(2^31, 1)`, and
the two arrays keep the different values they had. -/
theorem naive_matches_gold_counterexample :
    (3 ≤ 2147483650 ∧ 3 ≤ 3 ∧
      (∀ m n, m < 3 → n < 3 →
        (fun m n => (hostMask (m * 3 + n) : Int)) m n = hostMask (m * 3 + n)) ∧
      1 ≤ 2147483648 ∧ 2147483648 ≤ 2147483650 - 2 ∧ 1 ≤ 1 ∧ 1 ≤ 3 - 2) ∧
    RunKernel_naiveT 2147483650 3 (fun n => (n : Int)) hostMask (fun _ => -1)
      (2147483648 * 3 + 1) = -1 ∧
    gold_stencil_naiveT 2147483650 3 (fun n => (n : Int))
      (fun m n => (hostMask (m * 3 + n) : Int)) (fun _ => 0) (2147483648 * 3 + 1) = 0 ∧
    ¬ (RunKernel_naiveT 2147483650 3 (fun n => (n : Int)) hostMask (fun _ => -1)
        (2147483648 * 3 + 1) =
      gold_stencil_naiveT 2147483650 3 (fun n => (n : Int))
        (fun m n => (hostMask (m * 3 + n) : Int)) (fun _ => 0) (2147483648 * 3 + 1)) := by
  have hf : ∀ i j : Int, -2147483648 ≤ i → i < 2147483648 →
      sizeOfInt i < sizeSub 2147483650 1 → sizeOfInt j < sizeSub 3 1 →
      2147483648 * 3 + 1 ≠ naiveIdx 3 i j :=
    fun i j hi1 hi2 hi hj =>
      naiveIdx_below i j _ _ (by decide) (by decide) hi1 hi2 hi hj
  have h1 := RunKernel_naiveT_keep 2147483650 3 (fun n => (n : Int)) hostMask (fun _ => -1)
    (2147483648 * 3 + 1) hf
  have h2 := gold_stencil_naiveT_keep 2147483650 3 (fun n => (n : Int))
    (fun m n => (hostMask (m * 3 + n) : Int)) (fun _ => 0) (2147483648 * 3 + 1) hf
  refine ⟨⟨by decide, by decide, fun _ _ _ _ => rfl, by decide, by decide, by decide,
    by decide⟩, h1, h2, ?_⟩
  intro h
  have h3 : (-1 : Int) = 0 := h1.symm.trans (h.trans h2)
  exact absurd h3 (by decide)

/-! ## Results on the naive and the baseline kernel, with the types of the source -/

theorem naiveCellWT_natCast {α : Type} [Zero α] [Add α] [Mul α] (kCols : Nat)
    (input mask : Nat → α) (i j : Nat) (s : OutState α)
    (hi : 1 ≤ i) (hi2 : i + 2 < 2147483648) (hj : 1 ≤ j) (hj2 : j < 2147483648)
    (hk : kCols ≤ 2147483648) :
    naiveCellWT kCols input mask (i : Int) (j : Int) s = naiveCellW kCols input mask i j s := by
  unfold naiveCellWT naiveCellW
  rw [naiveIdx_natCast kCols i j (by omega) hj2 hk]
  refine forLoop_congr 0 3 _ _ _ (fun m _ hm t => ?_)
  refine forLoop_congr 0 3 _ _ _ (fun n _ hn u => ?_)
  beta_reduce
  rw [naiveTap_natCast kCols i j m n hi hi2 hj hj2 hk hm hn]

theorem RunKernel_naiveWT_natCast {α : Type} [Zero α] [Add α] [Mul α] (rows cols : Nat)
    (input mask : Nat → α) (s : OutState α)
    (hrows : 1 ≤ rows) (hr : rows < 2147483648) (hcols : 1 ≤ cols) (hc : cols < 2147483648) :
    RunKernel_naiveWT rows cols input mask s = RunKernel_naiveW rows cols input mask s :=
  cellLoopsT_natCast rows cols (naiveCellWT cols input mask) (naiveCellW cols input mask)
    s hrows hr hcols hc
    (fun i j hi hi2 hj hj2 t =>
      naiveCellWT_natCast cols input mask i j t hi (by omega) hj (by omega) (by omega))

theorem baselineTmpT_natCast {α : Type} [Add α] [Mul α] (kCols : Nat) (input mask : Nat → α)
    (i j : Nat) (hi : 1 ≤ i) (hj : 1 ≤ j) (h : i * kCols + kCols + j + 1 < 2147483648) :
    baselineTmpT kCols input mask (i : Int) (j : Int) = baselineTmp kCols input mask i j :=
  goldCellT_natCast kCols input mask i j hi hj h

theorem RunKernel_baselineT_natCast {α : Type} [Add α] [Mul α] (rows cols : Nat)
    (input mask : Nat → α) (s : OutState α) (hrows : 2 ≤ rows) (hcols : 2 ≤ cols)
    (hfit : rows * cols ≤ 2147483648) :
    RunKernel_baselineT rows cols input mask s = RunKernel_baseline rows cols input mask s := by
  have hrc : rows * 2 ≤ rows * cols := Nat.mul_le_mul_left rows hcols
  have hcr2 : 2 * cols ≤ rows * cols := Nat.mul_le_mul_right cols hrows
  refine cellLoopsT_natCast rows cols
    (fun i j s => writeOut s (sizeOfInt (intWrap (crow_base cols i + j)))
      (baselineTmpT cols input mask i j))
    (fun i j s => writeOut s (i * cols + j) (baselineTmp cols input mask i j))
    s (by omega) (by omega) (by omega) (by omega) (fun i j hi hi2 hj hj2 t => ?_)
  have hik : (i + 2) * cols ≤ rows * cols := Nat.mul_le_mul_right cols (by omega)
  rw [Nat.add_mul] at hik
  beta_reduce
  rw [outIdx_natCast cols i j (by omega),
    baselineTmpT_natCast cols input mask i j hi hj (by omega)]

/-- C24 as amended, naive and unrolled kernels compute the same operation: for `rows ≥ 3`,
`cols ≥ 3` and `rows*cols ≤ 2^31`, any input and mask over a commutative ring, the kernel of
`src_naive` and the kernel of `src_baseline` write the same set of output indices, the
interior cells, and leave equal values in every interior cell, indeed the same output
array. -/
theorem naive_baseline_same_int {α : Type} [CommRing α] (rows cols : Nat)
    (input mask output : Nat → α) (hrows : 3 ≤ rows) (hcols : 3 ≤ cols)
    (hfit : rows * cols ≤ 2147483648) :
    (∀ idx, idx ∈ (RunKernel_naiveWT rows cols input mask ⟨output, []⟩).writes ↔
      idx ∈ (RunKernel_baselineT rows cols input mask ⟨output, []⟩).writes) ∧
    (∀ idx, idx ∈ (RunKernel_baselineT rows cols input mask ⟨output, []⟩).writes ↔
      ∃ i j, 1 ≤ i ∧ i < rows - 1 ∧ 1 ≤ j ∧ j < cols - 1 ∧ idx = i * cols + j) ∧
    (∀ i j, 1 ≤ i → i + 1 < rows → 1 ≤ j → j + 1 < cols →
      (RunKernel_naiveWT rows cols input mask ⟨output, []⟩).output (i * cols + j) =
        (RunKernel_baselineT rows cols input mask ⟨output, []⟩).output (i * cols + j)) ∧
    (RunKernel_naiveWT rows cols input mask ⟨output, []⟩).output =
      (RunKernel_baselineT rows cols input mask ⟨output, []⟩).output := by
  have hrc : rows * 3 ≤ rows * cols := Nat.mul_le_mul_left rows hcols
  have hcr : 3 * cols ≤ rows * cols := Nat.mul_le_mul_right cols hrows
  rw [RunKernel_naiveWT_natCast rows cols input mask ⟨output, []⟩ (by omega) (by omega)
      (by omega) (by omega),
    RunKernel_baselineT_natCast rows cols input mask ⟨output, []⟩ (by omega) (by omega) hfit]
  exact naive_baseline_same rows cols input mask output hrows hcols

/-- On a 4 x 3 grid over the integers both kernels write the cells 4 and 7 only. -/
theorem naive_baseline_same_int_witness :
    (3 ≤ 4 ∧ 3 ≤ 3 ∧ 4 * 3 ≤ 2147483648) ∧
    (∀ idx, idx ∈ (RunKernel_naiveWT 4 3 (fun n => (n : Int)) hostMask
        ⟨fun _ => -1, []⟩).writes ↔
      idx ∈ (RunKernel_baselineT 4 3 (fun n => (n : Int)) hostMask ⟨fun _ => -1, []⟩).writes) :=
  ⟨by decide, (naive_baseline_same_int 4 3 (fun n => (n : Int)) hostMask (fun _ => -1)
    (by decide) (by decide) (by decide)).1⟩

/-- A store whose subscript is an `int` is no write to an element from `2^31` to
`2^64 - 2^31 - 1`. -/
theorem writeOut_gap {α : Type} (s : OutState α) (z : Int) (v : α) (c : Nat)
    (hc1 : 2147483648 ≤ c) (hc2 : c < 18446744071562067968) (hs : c ∉ s.writes) :
    c ∉ (writeOut s (sizeOfInt (intWrap z)) v).writes := by
  have r := intWrap_range z
  have g := sizeOfInt_gap (intWrap z) r.1 r.2
  unfold writeOut
  intro h
  rcases List.mem_append.1 h with h1 | h1
  · exact hs h1
  · have h2 := List.mem_singleton.1 h1
    omega

/-- The loops of the baseline kernel write no element from `2^31` to `2^64 - 2^31 - 1`,
whatever their bounds. -/
theorem baselineRows_gap {α : Type} [Add α] [Mul α] (b1 b2 cols : Nat) (input mask : Nat → α)
    (s : OutState α) (c : Nat) (hc1 : 2147483648 ≤ c) (hc2 : c < 18446744071562067968)
    (hs : c ∉ s.writes) :
    c ∉ (forIntSize 1 b1 (fun i s =>
      forIntSize 1 b2 (fun j s =>
        writeOut s (sizeOfInt (intWrap (crow_base cols i + j)))
          (baselineTmpT cols input mask i j)) s) s).writes := by
  refine forIntWhile_inv (fun t : OutState α => c ∉ t.writes) _ 1 _ _ (by decide)
    (by decide) ?_ hs
  intro i t _ _ _ ht
  beta_reduce
  refine forIntWhile_inv (fun u : OutState α => c ∉ u.writes) _ 1 _ _ (by decide)
    (by decide) ?_ ht
  intro j u _ _ _ hu
  beta_reduce
  exact writeOut_gap u _ _ c hc1 hc2 hu

/-- The baseline kernel writes no element from `2^31` to `2^64 - 2^31 - 1`. -/
theorem RunKernel_baselineT_gap {α : Type} [Add α] [Mul α] (rows cols : Nat)
    (input mask : Nat → α) (s : OutState α) (c : Nat)
    (hc1 : 2147483648 ≤ c) (hc2 : c < 18446744071562067968) (hs : c ∉ s.writes) :
    c ∉ (RunKernel_baselineT rows cols input mask s).writes := by
  have e : RunKernel_baselineT rows cols input mask s =
      forIntSize 1 (sizeSub rows 1) (fun i s =>
        forIntSize 1 (sizeSub cols 1) (fun j s =>
          writeOut s (sizeOfInt (intWrap (crow_base cols i + j)))
            (baselineTmpT cols input mask i j)) s) s := rfl
  rw [e]
  exact baselineRows_gap (sizeSub rows 1) (sizeSub cols 1) cols input mask s c hc1 hc2 hs

/-- C24 fails as stated: on a grid of 715827885 rows and 3 columns the naive kernel, which
forms the subscript `i*kCols+j` in `size_t`, writes the cell `(715827883, 1)` at index
`2^31 + 2`; the baseline kernel forms `crow_base+j` in `int`, and no `int` denotes this
index: the two kernels do not write the same set of indices. -/
theorem naive_baseline_same_counterexample :
    (3 ≤ 715827885 ∧ 3 ≤ 3) ∧
    715827883 * 3 + 1 ∈ (RunKernel_naiveWT 715827885 3 (fun n => (n : Int)) hostMask
      ⟨fun _ => -1, []⟩).writes ∧
    715827883 * 3 + 1 ∉ (RunKernel_baselineT 715827885 3 (fun n => (n : Int)) hostMask
      ⟨fun _ => -1, []⟩).writes ∧
    ¬ (∀ idx, idx ∈ (RunKernel_naiveWT 715827885 3 (fun n => (n : Int)) hostMask
        ⟨fun _ => -1, []⟩).writes ↔
      idx ∈ (RunKernel_baselineT 715827885 3 (fun n => (n : Int)) hostMask
        ⟨fun _ => -1, []⟩).writes) := by
  have hold := naive_baseline_same 715827885 3 (fun n => (n : Int)) hostMask (fun _ => -1)
    (by decide) (by decide)
  have h0 : 715827883 * 3 + 1 ∈ (RunKernel_naiveW 715827885 3 (fun n => (n : Int)) hostMask
      ⟨fun _ => -1, []⟩).writes :=
    (hold.1 _).2 ((hold.2.1 _).2 ⟨715827883, 1, by decide, by decide, by decide, by decide,
      rfl⟩)
  have h1 : 715827883 * 3 + 1 ∈ (RunKernel_naiveWT 715827885 3 (fun n => (n : Int)) hostMask
      ⟨fun _ => -1, []⟩).writes := by
    rw [RunKernel_naiveWT_natCast 715827885 3 (fun n => (n : Int)) hostMask ⟨fun _ => -1, []⟩
      (by decide) (by decide) (by decide) (by decide)]
    exact h0
  have h2 := RunKernel_baselineT_gap 715827885 3 (fun n => (n : Int)) hostMask
    ⟨fun _ => -1, []⟩ (715827883 * 3 + 1) (by decide) (by decide) (List.not_mem_nil _)
  refine ⟨by decide, h1, h2, ?_⟩
  intro h
  exact h2 ((h _).1 h1)

/-! ## Results on the 2-D CPU kernel, with the types of the source -/

theorem at2Idx_natCast (kCols r c : Nat) (hr : r < 2147483648) (hc : c < 2147483648)
    (hk : kCols ≤ 2147483648) : at2Idx kCols (r : Int) (c : Int) = r * kCols + c :=
  naiveIdx_natCast kCols r c hr hc hk

theorem cpuCoord_natCast (idx : Nat) (h : idx + 1 < 2147483648) :
    cpuCoord idx = ((idx + 1 : Nat) : Int) := by
  unfold cpuCoord sizeModulus
  rw [Nat.mod_eq_of_lt (by omega), intOfSize_of_lt _ h]

theorem cpuWorkItemT_natCast {α : Type} [Add α] [Mul α] (kCols : Nat) (input mask : Nat → α)
    (idx : Nat × Nat) (s : OutState α) (h1 : idx.1 + 2 < 2147483648)
    (h2 : idx.2 + 2 < 2147483648) (hk : kCols ≤ 2147483648) :
    cpuWorkItemT kCols input mask idx s = cpuWorkItem kCols input mask idx s := by
  have ep1 : intWrap (((idx.1 + 1 : Nat) : Int) - 1) = ((idx.1 + 1 - 1 : Nat) : Int) :=
    intWrap_natCast_pred _ (by omega) (by omega)
  have ep2 : intWrap (((idx.2 + 1 : Nat) : Int) - 1) = ((idx.2 + 1 - 1 : Nat) : Int) :=
    intWrap_natCast_pred _ (by omega) (by omega)
  have es1 : intWrap (((idx.1 + 1 : Nat) : Int) + 1) = ((idx.1 + 1 + 1 : Nat) : Int) :=
    intWrap_natCast_succ _ (by omega)
  have es2 : intWrap (((idx.2 + 1 : Nat) : Int) + 1) = ((idx.2 + 1 + 1 : Nat) : Int) :=
    intWrap_natCast_succ _ (by omega)
  unfold cpuWorkItemT cpuWorkItem at2T at2
  rw [cpuCoord_natCast idx.1 (by omega), cpuCoord_natCast idx.2 (by omega), ep1, ep2, es1, es2,
    at2Idx_natCast kCols (idx.1 + 1) (idx.2 + 1) (by omega) (by omega) hk,
    at2Idx_natCast kCols (idx.1 + 1 - 1) (idx.2 + 1 - 1) (by omega) (by omega) hk,
    at2Idx_natCast kCols (idx.1 + 1 - 1) (idx.2 + 1) (by omega) (by omega) hk,
    at2Idx_natCast kCols (idx.1 + 1 - 1) (idx.2 + 1 + 1) (by omega) (by omega) hk,
    at2Idx_natCast kCols (idx.1 + 1) (idx.2 + 1 - 1) (by omega) (by omega) hk,
    at2Idx_natCast kCols (idx.1 + 1) (idx.2 + 1 + 1) (by omega) (by omega) hk,
    at2Idx_natCast kCols (idx.1 + 1 + 1) (idx.2 + 1 - 1) (by omega) (by omega) hk,
    at2Idx_natCast kCols (idx.1 + 1 + 1) (idx.2 + 1) (by omega) (by omega) hk,
    at2Idx_natCast kCols (idx.1 + 1 + 1) (idx.2 + 1 + 1) (by omega) (by omega) hk]

theorem stencil_rangeT_natCast (rows cols : Nat) (hrows : 2 ≤ rows) (hcols : 2 ≤ cols)
    (hr : rows < sizeModulus) (hc : cols < sizeModulus) :
    stencil_rangeT rows cols = stencil_range rows cols := by
  unfold stencil_rangeT stencil_range
  rw [sizeSub_of_le rows 2 hrows hr, sizeSub_of_le cols 2 hcols hc]

/-- The 2-D CPU kernel with the types of the source is the kernel on natural numbers when
`kRows` and `kCols` are at most `2^31` and the work-items are those of the range. -/
theorem run_cpu_kernelT_natCast {α : Type} [Add α] [Mul α] (rows cols : Nat)
    (input mask : Nat → α) (order : List (Nat × Nat)) (s : OutState α)
    (hr : rows ≤ 2147483648) (hc : cols ≤ 2147483648)
    (horder : ∀ p, p ∈ order → p ∈ stencil_range rows cols) :
    run_cpu_kernelT cols input mask order s = run_cpu_kernel cols input mask order s := by
  unfold run_cpu_kernelT run_cpu_kernel
  refine foldl_congr_mem _ _ order (fun p hp t => ?_) s
  have hm := (mem_stencil_range rows cols p).1 (horder p hp)
  exact cpuWorkItemT_natCast cols input mask p t (by omega) (by omega) hc

/-- C29 as amended, the 2-D CPU kernel covers exactly the interior: for `rows ≥ 3`,
`cols ≥ 3`, both at most `2^31`, and the work-items of the range `(rows-2) x (cols-2)` run
in any order, every interior cell `(i, j)` is written exactly once, its value is the
nine-term sum `mask[0]*input[i-1][j-1] + ... + mask[8]*input[i+1][j+1]` for the row-major
index `i*cols+j`, which is the value `gold_stencil` stores there when
`rows*cols + 3 ≤ 2^31`; no other cell is written, and every other cell keeps its value. -/
theorem cpu_kernel_covers_interior_int {α : Type} [Add α] [Mul α] (rows cols : Nat)
    (input mask output res : Nat → α) (order : List (Nat × Nat))
    (hrows : 3 ≤ rows) (hcols : 3 ≤ cols)
    (horder : List.Perm order (stencil_rangeT rows cols))
    (hr : rows ≤ 2147483648) (hc : cols ≤ 2147483648) :
    (∀ i j, 1 ≤ i → i ≤ rows - 2 → 1 ≤ j → j ≤ cols - 2 →
      List.count (i * cols + j) (run_cpu_kernelT cols input mask order ⟨output, []⟩).writes = 1 ∧
      (run_cpu_kernelT cols input mask order ⟨output, []⟩).output (i * cols + j) =
        goldCell cols input mask i j ∧
      (rows * cols + 3 ≤ 2147483648 →
        (run_cpu_kernelT cols input mask order ⟨output, []⟩).output (i * cols + j) =
          gold_stencilT rows cols input mask res (i * cols + j))) ∧
    (∀ idx, idx ∈ (run_cpu_kernelT cols input mask order ⟨output, []⟩).writes →
      ∃ i j, 1 ≤ i ∧ i ≤ rows - 2 ∧ 1 ≤ j ∧ j ≤ cols - 2 ∧ idx = i * cols + j) ∧
    (∀ idx, (∀ i j, 1 ≤ i → i ≤ rows - 2 → 1 ≤ j → j ≤ cols - 2 → idx ≠ i * cols + j) →
      (run_cpu_kernelT cols input mask order ⟨output, []⟩).output idx = output idx) := by
  rw [stencil_rangeT_natCast rows cols (by omega) (by omega) (by unfold sizeModulus; omega)
    (by unfold sizeModulus; omega)] at horder
  rw [run_cpu_kernelT_natCast rows cols input mask order ⟨output, []⟩ hr hc
      (fun p hp => (List.Perm.mem_iff horder).1 hp)]
  have h := cpu_kernel_covers_interior rows cols input mask output res order hrows hcols horder
  refine ⟨fun i j hi hi2 hj hj2 => ?_, h.2.1, h.2.2⟩
  have hg := (gold_stencil_spec rows cols input mask res (by omega) (by omega)).1 i j hi
    (by omega) hj (by omega)
  have hcell := h.1 i j hi hi2 hj hj2
  refine ⟨hcell.1, hcell.2.trans hg, fun hfit => ?_⟩
  rw [gold_stencilT_natCast rows cols input mask res (by omega) (by omega) hfit]
  exact hcell.2

/-- The four work-items of a 4 x 4 grid, run from the last to the first: the cell `(2, 1)`
receives the nine-term sum over the input `0, 1, 2, ...`. -/
theorem cpu_kernel_covers_interior_int_witness :
    (3 ≤ 4 ∧ 3 ≤ 4 ∧ List.Perm [(1, 1), (1, 0), (0, 1), (0, 0)] (stencil_rangeT 4 4) ∧
      4 ≤ 2147483648 ∧ 4 ≤ 2147483648) ∧
    (run_cpu_kernelT 4 (fun n => (n : Int)) hostMask
        [(1, 1), (1, 0), (0, 1), (0, 0)] ⟨fun _ => -1, []⟩).output (2 * 4 + 1) =
      goldCell 4 (fun n => (n : Int)) hostMask 2 1 ∧
    (∀ idx, idx ∈ (run_cpu_kernelT 4 (fun n => (n : Int)) hostMask
        [(1, 1), (1, 0), (0, 1), (0, 0)] ⟨fun _ => -1, []⟩).writes →
      ∃ i j, 1 ≤ i ∧ i ≤ 4 - 2 ∧ 1 ≤ j ∧ j ≤ 4 - 2 ∧ idx = i * 4 + j) :=
  ⟨⟨by decide, by decide, by decide, by decide, by decide⟩,
    ((cpu_kernel_covers_interior_int 4 4 (fun n => (n : Int)) hostMask (fun _ => -1)
      (fun _ => 0) [(1, 1), (1, 0), (0, 1), (0, 0)] (by decide) (by decide) (by decide)
      (by decide) (by decide)).1 2 1 (by decide) (by decide) (by decide) (by decide)).2.1,
    (cpu_kernel_covers_interior_int 4 4 (fun n => (n : Int)) hostMask (fun _ => -1)
      (fun _ => 0) [(1, 1), (1, 0), (0, 1), (0, 0)] (by decide) (by decide) (by decide)
      (by decide) (by decide)).2.1⟩

theorem cpuWorkItemT_writes {α : Type} [Add α] [Mul α] (kCols : Nat) (input mask : Nat → α)
    (idx : Nat × Nat) (s : OutState α) :
    (cpuWorkItemT kCols input mask idx s).writes =
      s.writes ++ [at2Idx kCols (cpuCoord idx.1) (cpuCoord idx.2)] := rfl

/-- A write made before the work-items of a list are run is still recorded afterwards. -/
theorem run_cpu_kernelT_writes_mono {α : Type} [Add α] [Mul α] (kCols : Nat)
    (input mask : Nat → α) (order : List (Nat × Nat)) (s : OutState α) (w : Nat)
    (h : w ∈ s.writes) : w ∈ (run_cpu_kernelT kCols input mask order s).writes := by
  induction order generalizing s with
  | nil => exact h
  | cons p rest ih =>
    unfold run_cpu_kernelT
    rw [List.foldl_cons]
    refine ih _ ?_
    rw [cpuWorkItemT_writes]
    exact List.mem_append_left _ h

/-- Every work-item of the list writes the element its `int` coordinates denote. -/
theorem run_cpu_kernelT_writes_mem {α : Type} [Add α] [Mul α] (kCols : Nat)
    (input mask : Nat → α) (order : List (Nat × Nat)) (s : OutState α) (p : Nat × Nat)
    (h : p ∈ order) :
    at2Idx kCols (cpuCoord p.1) (cpuCoord p.2) ∈
      (run_cpu_kernelT kCols input mask order s).writes := by
  induction order generalizing s with
  | nil => exact absurd h (List.not_mem_nil p)
  | cons q rest ih =>
    rcases List.mem_cons.1 h with h1 | h1
    · subst h1
      unfold run_cpu_kernelT
      rw [List.foldl_cons]
      refine run_cpu_kernelT_writes_mono kCols input mask rest _ _ ?_
      rw [cpuWorkItemT_writes]
      exact List.mem_append_right _ (List.mem_singleton.2 rfl)
    · unfold run_cpu_kernelT
      rw [List.foldl_cons]
      exact ih _ h1

theorem mem_stencil_rangeT (rows cols a b : Nat) (ha : a < sizeSub rows 2)
    (hb : b < sizeSub cols 2) : (a, b) ∈ stencil_rangeT rows cols := by
  unfold stencil_rangeT
  exact List.mem_product.2 ⟨List.mem_range.2 ha, List.mem_range.2 hb⟩

/-- C29 fails as stated: on a grid of `2^31 + 2` rows and 3 columns the work-item
`(2^31 - 1, 0)` of the range gets `i = -2^31`, the conversion of `2^31` to `int`, and
writes `output[i][1]` at the linear index `2^64 - 3 * 2^31 + 1`, which is no interior
cell. -/
theorem cpu_kernel_covers_interior_counterexample :
    (3 ≤ 2147483650 ∧ 3 ≤ 3) ∧
    List.Perm (stencil_rangeT 2147483650 3) (stencil_rangeT 2147483650 3) ∧
    cpuCoord 2147483647 = -2147483648 ∧
    18446744067267100673 ∈ (run_cpu_kernelT 3 (fun n => (n : Int)) hostMask
      (stencil_rangeT 2147483650 3) ⟨fun _ => -1, []⟩).writes ∧
    ¬ (∀ idx, idx ∈ (run_cpu_kernelT 3 (fun n => (n : Int)) hostMask
        (stencil_rangeT 2147483650 3) ⟨fun _ => -1, []⟩).writes →
      ∃ i j, 1 ≤ i ∧ i ≤ 2147483650 - 2 ∧ 1 ≤ j ∧ j ≤ 3 - 2 ∧ idx = i * 3 + j) := by
  have hm : ((2147483647, 0) : Nat × Nat) ∈ stencil_rangeT 2147483650 3 :=
    mem_stencil_rangeT 2147483650 3 2147483647 0 (by decide) (by decide)
  have hw := run_cpu_kernelT_writes_mem 3 (fun n => (n : Int)) hostMask
    (stencil_rangeT 2147483650 3) ⟨fun _ => -1, []⟩ (2147483647, 0) hm
  have hidx : at2Idx 3 (cpuCoord ((2147483647, 0) : Nat × Nat).1)
      (cpuCoord ((2147483647, 0) : Nat × Nat).2) = 18446744067267100673 := by decide
  rw [hidx] at hw
  refine ⟨by decide, List.Perm.refl _, by decide, hw, ?_⟩
  intro h
  obtain ⟨i, j, h1, h2, h3, h4, h5⟩ := h _ hw
  omega

/-! ## Results on the single-loop kernel, with the types of the source -/

theorem loop1Prow_natCast (kCols i : Nat) (hi : kCols ≤ i) (h : i < 2147483648) :
    loop1Prow kCols (i : Int) = ((i - kCols : Nat) : Int) := by
  unfold loop1Prow sizeSub sizeModulus
  rw [sizeOfInt_natCast i (by omega)]
  have e : (i + 18446744073709551616 - kCols) % 18446744073709551616 = i - kCols := by omega
  rw [e, intOfSize_of_lt _ (by omega)]

theorem loop1Nrow_natCast (kCols i : Nat) (h : i + kCols < 2147483648) :
    loop1Nrow kCols (i : Int) = ((i + kCols : Nat) : Int) := by
  unfold loop1Nrow sizeModulus
  rw [sizeOfInt_natCast i (by omega), Nat.mod_eq_of_lt (by omega), intOfSize_of_lt _ h]

theorem intIdx_natCast (a c : Nat) (h : a + c < 2147483648) :
    sizeOfInt (intWrap ((a : Int) + (c : Int))) = a + c := by
  rw [intWrap_add_natCast a c h, sizeOfInt_natCast _ (by omega)]

theorem loop1GuardT_natCast (kCols i : Nat) (hk : 1 ≤ kCols) (hk2 : kCols < 2147483648)
    (h : i + 2 < 2147483648) :
    loop1GuardT kCols (i : Int) = loop1Guard kCols i := by
  have hs : sizeSub kCols 1 = kCols - 1 := by
    unfold sizeSub sizeModulus
    omega
  have e1 : sizeOfInt (intWrap ((i : Int) + 1)) = i + 1 := intIdx_natCast i 1 (by omega)
  have e2 : sizeOfInt (intWrap ((i : Int) + 2)) = i + 2 := intIdx_natCast i 2 h
  unfold loop1GuardT loop1Guard
  rw [hs, e1, e2]

theorem loop1StepT_natCast {α : Type} [Add α] [Mul α] (kCols : Nat) (input : Nat → α)
    (i : Nat) (s : Loop1State α) (hk : 1 ≤ kCols) (hi : kCols ≤ i)
    (h : i + kCols + 2 < 2147483648) :
    loop1StepT kCols input (i : Int) s = loop1Step kCols input i s := by
  have e0 : sizeOfInt (intWrap (loop1Prow kCols (i : Int) + 2)) = i - kCols + 2 := by
    rw [loop1Prow_natCast kCols i hi (by omega)]
    exact intIdx_natCast (i - kCols) 2 (by omega)
  have e1 : sizeOfInt (intWrap ((i : Int) + 2)) = i + 2 := intIdx_natCast i 2 (by omega)
  have e2 : sizeOfInt (intWrap (loop1Nrow kCols (i : Int) + 2)) = i + kCols + 2 := by
    rw [loop1Nrow_natCast kCols i (by omega)]
    exact intIdx_natCast (i + kCols) 2 (by omega)
  have e3 : sizeOfInt (intWrap (loop1Prow kCols (i : Int) + 1)) = i - kCols + 1 := by
    rw [loop1Prow_natCast kCols i hi (by omega)]
    exact intIdx_natCast (i - kCols) 1 (by omega)
  unfold loop1StepT loop1Step
  rw [loop1GuardT_natCast kCols i hk (by omega) (by omega), e0, e1, e2, e3]

theorem loop1PrologueT_natCast {α : Type} (kCols : Nat) (input mask uninit output : Nat → α)
    (h : 2 * kCols + 2 < 2147483648) :
    loop1PrologueT kCols input mask uninit output =
      loop1Prologue kCols input mask uninit output := by
  unfold loop1PrologueT loop1Prologue
  refine forLoop_congr 0 2 _ _ _ (fun k _ hk t => ?_)
  have e1 : (k + kCols) % sizeModulus = k + kCols := by
    unfold sizeModulus
    omega
  have e2 : (k + 2 * kCols % sizeModulus) % sizeModulus = k + 2 * kCols := by
    unfold sizeModulus
    omega
  rw [e1, e2]

/-- The loop bound `(end-begin+1)*kCols` when `begin ≤ end` are below `2^31`. -/
theorem loop1Bound_natCast (kCols b e : Nat) (hbe : b ≤ e) (he : e + 1 < 2147483648)
    (hk : kCols ≤ 2147483648) :
    sizeOfInt (intWrap (intWrap ((e : Int) - (b : Int)) + 1)) * kCols % sizeModulus
      = (e - b + 1) * kCols := by
  have h := mul_lt_size (e - b + 1) kCols (by omega) hk
  have e1 : (e : Int) - (b : Int) = ((e - b : Nat) : Int) := by omega
  rw [e1, intWrap_natCast _ (by omega), intWrap_natCast_succ _ (by omega),
    sizeOfInt_natCast _ (by omega)]
  unfold sizeModulus
  omega

/-- The single-loop kernel with the types of the source is the kernel on natural numbers
when every index it forms is below `2^31`. -/
theorem loop1KernelT_natCast {α : Type} [Add α] [Mul α] (kCols b e : Nat)
    (input mask uninit output : Nat → α) (hk : 1 ≤ kCols) (hbe : b ≤ e)
    (he : e + 1 < 2147483648) (h : (e - b + 2) * kCols + 2 < 2147483648) :
    loop1KernelT kCols (b : Int) (e : Int) input mask uninit output =
      loop1Kernel kCols (e - b) input mask uninit output := by
  have h2 : (e - b + 2) * kCols = (e - b + 1) * kCols + kCols := by
    rw [Nat.add_mul (e - b + 1) 1 kCols, Nat.one_mul]
  have h3 : (e - b + 1) * kCols = (e - b) * kCols + kCols := by
    rw [Nat.add_mul (e - b) 1 kCols, Nat.one_mul]
  have h4 : e - b ≤ (e - b) * kCols := Nat.le_mul_of_pos_right _ (by omega)
  have hb : ∀ B : Nat, B = (e - b + 1) * kCols →
      forIntSize (intOfSize kCols) B (loop1StepT kCols input)
        (loop1PrologueT kCols input mask uninit output) =
      forLoop kCols ((e - b + 1) * kCols) (loop1Step kCols input)
        (loop1Prologue kCols input mask uninit output) := by
    intro B hB
    subst hB
    rw [intOfSize_of_lt kCols (by omega),
      loop1PrologueT_natCast kCols input mask uninit output (by omega)]
    refine (forIntSize_eq_forLoop kCols ((e - b + 1) * kCols) (loop1StepT kCols input) _
      (by omega) (by omega)).trans (forLoop_congr _ _ _ _ _ (fun i hi1 hi2 t => ?_))
    exact loop1StepT_natCast kCols input i t hk hi1 (by omega)
  exact hb _ (loop1Bound_natCast kCols b e hbe he (by omega))

/-- The host function for the values `b`, `e` of the constants `begin`, `end`. -/
theorem RunKernel_1loopT_of {α : Type} [Add α] [Mul α] (rows kCols k N : Nat)
    (in_ m out beyond uninit : Nat → α) (b e : Int)
    (hb : beginSizeT rows N k = b) (he : endSizeT rows N k = e) :
    RunKernel_1loopT rows kCols k N in_ m out beyond uninit =
      fun g =>
        if bufferOffset b kCols ≤ g ∧ g < bufferOffset e kCols then
          (loop1KernelT kCols b e (loop1InputSliceT kCols b e in_ beyond) m uninit
            (fun y => out (bufferOffset b kCols + y))).output (g - bufferOffset b kCols)
        else out g := by
  subst hb he
  rfl

theorem loop1InputSliceT_natCast {α : Type} (kCols b e : Nat) (in_ beyond : Nat → α)
    (hb : 1 ≤ b) (hb2 : b < 2147483648) (he : e + 1 < 2147483648)
    (hk : kCols ≤ 2147483648) :
    loop1InputSliceT kCols (b : Int) (e : Int) in_ beyond =
      loop1InputSlice kCols b e in_ beyond := by
  have h1 := mul_lt_size (e + 1) kCols (by omega) hk
  have h2 := mul_lt_size (b - 1) kCols (by omega) hk
  unfold loop1InputSliceT loop1InputSlice
  rw [intWrap_natCast_succ e he, intWrap_natCast_pred b hb hb2,
    bufferOffset_natCast (e + 1) kCols (by omega) (by omega),
    bufferOffset_natCast (b - 1) kCols (by omega) (by omega)]

/-- The host function of `08_1loop` with the types of the source is the function on
natural numbers when the grid and its padding fit in an `int`. -/
theorem RunKernel_1loopT_natCast {α : Type} [Add α] [Mul α] (rows kCols k N : Nat)
    (in_ m out beyond uninit : Nat → α) (hrows : 3 ≤ rows) (hcols : 1 ≤ kCols)
    (hN : 1 ≤ N) (hNle : N ≤ rows - 2) (hk : k < N)
    (hfit : rows * kCols + 3 ≤ 2147483648) :
    RunKernel_1loopT rows kCols k N in_ m out beyond uninit =
      RunKernel_1loop rows kCols k N in_ m out beyond uninit := by
  have hr := fit_rows rows kCols hcols hfit
  have hN2 := fit_replicas rows kCols N hcols hNle hfit
  have hcr : kCols ≤ rows * kCols := Nat.le_mul_of_pos_left kCols (by omega)
  have hb1 : 1 ≤ begin_k rows N k := Nat.le_add_left 1 _
  have hbe := begin_le_end rows N k
  have he := end_k_le_last rows N k hN hk
  have hbT := beginSizeT_natCast rows N k (by omega) (by omega) hN hN2 (by omega)
  have heT := endSizeT_natCast rows N k (by omega) (by omega) hN hN2 hk
  have hbm := mul_lt_size (begin_k rows N k) kCols (by omega) (by omega)
  have hem := mul_lt_size (end_k rows N k) kCols (by omega) (by omega)
  have hspan : (end_k rows N k - begin_k rows N k + 2) * kCols ≤ rows * kCols :=
    Nat.mul_le_mul_right kCols (by omega)
  rw [RunKernel_1loopT_of rows kCols k N in_ m out beyond uninit _ _ hbT heT]
  unfold RunKernel_1loop
  rw [bufferOffset_natCast (begin_k rows N k) kCols (by omega) (by omega),
    bufferOffset_natCast (end_k rows N k) kCols (by omega) (by omega),
    loop1InputSliceT_natCast kCols (begin_k rows N k) (end_k rows N k) in_ beyond hb1
      (by omega) (by omega) (by omega),
    loop1KernelT_natCast kCols (begin_k rows N k) (end_k rows N k) _ m uninit _ hcols hbe
      (by omega) (by omega)]

/-- C17 as amended, the single-loop three-register kernel matches the gold stencil: for
`kCols` a power of two with `kCols ≥ 4`, `rows ≥ 3`, `rows*kCols + 3 ≤ 2^31`,
`1 ≤ N ≤ rows-2` and `k < N`, the kernel being given the input slice
`in[(begin_k-1)*kCols .. (end_k+1)*kCols)` and its output slice being written back at
`out[begin_k*kCols ..]`, for every interior cell `(i, j)` with `begin_k ≤ i < end_k` the
value in `out[i*kCols+j]` is the value `gold_stencil` computes for `(i, j)`, whatever the
reads beyond the end of the input slice return. -/
theorem single_loop_matches_gold_int {α : Type} [Add α] [Mul α] (rows kCols N k p : Nat)
    (in_ m out beyond uninit res : Nat → α) (i j : Nat)
    (hpow : kCols = 2 ^ p) (h4 : 4 ≤ kCols) (hrows : 3 ≤ rows)
    (hN : 1 ≤ N) (hNle : N ≤ rows - 2) (hk : k < N)
    (hbi : beginSizeT rows N k ≤ (i : Int)) (hie : (i : Int) < endSizeT rows N k)
    (hj : 1 ≤ j) (hj2 : j ≤ kCols - 2) (hfit : rows * kCols + 3 ≤ 2147483648) :
    RunKernel_1loopT rows kCols k N in_ m out beyond uninit (i * kCols + j) =
      gold_stencilT rows kCols in_ m res (i * kCols + j) := by
  have hr := fit_rows rows kCols (by omega) hfit
  have hN2 := fit_replicas rows kCols N (by omega) hNle hfit
  rw [beginSizeT_natCast rows N k (by omega) (by omega) hN hN2 (by omega)] at hbi
  rw [endSizeT_natCast rows N k (by omega) (by omega) hN hN2 hk] at hie
  rw [RunKernel_1loopT_natCast rows kCols k N in_ m out beyond uninit hrows (by omega) hN hNle
      hk hfit,
    gold_stencilT_natCast rows kCols in_ m res (by omega) (by omega) hfit]
  exact single_loop_matches_gold rows kCols N k p in_ m out beyond uninit res i j hpow h4
    hrows hN hNle hk (Int.ofNat_le.mp hbi) (Int.ofNat_lt.mp hie) hj hj2

/-- Width 4, six rows, the second of two replicas, cell `(4, 2)`. -/
theorem single_loop_matches_gold_int_witness :
    (4 = 2 ^ 2 ∧ 4 ≤ 4 ∧ 3 ≤ 6 ∧ 1 ≤ 2 ∧ 2 ≤ 6 - 2 ∧ 1 < 2 ∧
      beginSizeT 6 2 1 ≤ ((4 : Nat) : Int) ∧ ((4 : Nat) : Int) < endSizeT 6 2 1 ∧
      1 ≤ 2 ∧ 2 ≤ 4 - 2 ∧ 6 * 4 + 3 ≤ 2147483648) ∧
    RunKernel_1loopT 6 4 1 2 (fun n => (n : Int)) hostMask (fun _ => -1) (fun _ => 100)
        (fun _ => 7) (4 * 4 + 2) =
      gold_stencilT 6 4 (fun n => (n : Int)) hostMask (fun _ => 0) (4 * 4 + 2) :=
  ⟨by decide, single_loop_matches_gold_int 6 4 2 1 2 (fun n => (n : Int)) hostMask
    (fun _ => -1) (fun _ => 100) (fun _ => 7) (fun _ => 0) 4 2 (by decide) (by decide)
    (by decide) (by decide) (by decide) (by decide) (by decide) (by decide) (by decide)
    (by decide) (by decide)⟩

theorem loop1StepT_output_gap {α : Type} [Add α] [Mul α] (kCols : Nat) (input : Nat → α)
    (i : Int) (s : Loop1State α) (c : Nat)
    (hc1 : 2147483648 ≤ c) (hc2 : c < 18446744071562067968) :
    (loop1StepT kCols input i s).output c = s.output c := by
  unfold loop1StepT
  split
  · dsimp only
    exact store_gap _ _ _ c hc1 hc2
  · rfl

theorem loop1PrologueT_output {α : Type} (kCols : Nat) (input mask uninit output : Nat → α) :
    (loop1PrologueT kCols input mask uninit output).output = output := rfl

/-- The single loop stores no element from `2^31` to `2^64 - 2^31 - 1`, whatever its
bounds. -/
theorem loop1Loop_gap {α : Type} [Add α] [Mul α] (lo : Int) (bound kCols : Nat)
    (input : Nat → α) (s : Loop1State α) (c : Nat)
    (h1 : -2147483648 ≤ lo) (h2 : lo < 2147483648)
    (hc1 : 2147483648 ≤ c) (hc2 : c < 18446744071562067968) :
    (forIntSize lo bound (loop1StepT kCols input) s).output c = s.output c := by
  refine forIntWhile_inv (fun t : Loop1State α => t.output c = s.output c) _ lo _ _ h1 h2
    ?_ rfl
  intro i t _ _ _ ht
  beta_reduce
  rw [loop1StepT_output_gap kCols input i t c hc1 hc2]
  exact ht

/-- The single-loop kernel stores no element from `2^31` to `2^64 - 2^31 - 1`. -/
theorem loop1KernelT_gap {α : Type} [Add α] [Mul α] (kCols : Nat) (b e : Int)
    (input mask uninit output : Nat → α) (c : Nat)
    (hc1 : 2147483648 ≤ c) (hc2 : c < 18446744071562067968) :
    (loop1KernelT kCols b e input mask uninit output).output c = output c := by
  have e1 : loop1KernelT kCols b e input mask uninit output =
      forIntSize (intOfSize kCols)
        (sizeOfInt (intWrap (intWrap (e - b) + 1)) * kCols % sizeModulus)
        (loop1StepT kCols input) (loop1PrologueT kCols input mask uninit output) := rfl
  rw [e1, loop1Loop_gap (intOfSize kCols) _ kCols input _ c (intOfSize_range kCols).1
    (intOfSize_range kCols).2 hc1 hc2, loop1PrologueT_output]

/-- C17 fails as stated: with `kCols = 2^15`, 65539 rows and one replica the bound
`(end-begin+1)*kCols` of the single loop is `2^31 + 65536`, beyond every `int`; the cell
`(65537, 1)` has the index `2^31 + 1` in the output slice, which no `int` subscript
denotes, and its index `65537*kCols + 1` in the grid is not one either: neither the kernel
nor `gold_stencil` stores the cell. -/
theorem single_loop_matches_gold_counterexample :
    (32768 = 2 ^ 15 ∧ 4 ≤ 32768 ∧ 3 ≤ 65539 ∧ 1 ≤ 1 ∧ 1 ≤ 65539 - 2 ∧ 0 < 1 ∧
      beginSizeT 65539 1 0 ≤ ((65537 : Nat) : Int) ∧
      ((65537 : Nat) : Int) < endSizeT 65539 1 0 ∧ 1 ≤ 1 ∧ 1 ≤ 32768 - 2) ∧
    RunKernel_1loopT 65539 32768 0 1 (fun n => (n : Int)) hostMask (fun _ => -1)
      (fun _ => 100) (fun _ => 7) (65537 * 32768 + 1) = -1 ∧
    gold_stencilT 65539 32768 (fun n => (n : Int)) hostMask (fun _ => 0)
      (65537 * 32768 + 1) = 0 ∧
    ¬ (RunKernel_1loopT 65539 32768 0 1 (fun n => (n : Int)) hostMask (fun _ => -1)
        (fun _ => 100) (fun _ => 7) (65537 * 32768 + 1) =
      gold_stencilT 65539 32768 (fun n => (n : Int)) hostMask (fun _ => 0)
        (65537 * 32768 + 1)) := by
  have hin : bufferOffset 1 32768 ≤ 65537 * 32768 + 1 ∧
      65537 * 32768 + 1 < bufferOffset 65538 32768 := by decide
  have h0 := congrFun (RunKernel_1loopT_of 65539 32768 0 1 (fun n => (n : Int)) hostMask
    (fun _ => (-1 : Int)) (fun _ => 100) (fun _ => 7) 1 65538 (by decide) (by decide))
    (65537 * 32768 + 1)
  have hg := loop1KernelT_gap 32768 1 65538
    (loop1InputSliceT 32768 1 65538 (fun n => (n : Int)) (fun _ => 100)) hostMask
    (fun _ => 7) (fun y => (fun _ => (-1 : Int)) (bufferOffset 1 32768 + y))
    (65537 * 32768 + 1 - bufferOffset 1 32768) (by decide) (by decide)
  have h1 : RunKernel_1loopT 65539 32768 0 1 (fun n => (n : Int)) hostMask (fun _ => -1)
      (fun _ => 100) (fun _ => 7) (65537 * 32768 + 1) = -1 :=
    h0.trans ((if_pos hin).trans hg)
  have h2 := gold_stencilT_gap 65539 32768 (fun n => (n : Int)) hostMask (fun _ => 0)
    (65537 * 32768 + 1) (by decide) (by decide)
  refine ⟨by decide, h1, h2, ?_⟩
  intro h
  have h3 : (-1 : Int) = 0 := h1.symm.trans (h.trans h2)
  exact absurd h3 (by decide)

end StencilFpga
